import Mathlib

/-!
# Out-of-order superscalar pipeline simulator: embedding and verification

A shallow embedding of `processor.cpp` / `processor_config.h`.

Modelling conventions:
* `std::deque` / `std::vector` are `List`s; an indexed access that would be out of
  bounds in the source (undefined behaviour) makes the stage return `none`.
* The trace file is the list of outcomes of successive `fscanf` calls: `some r` when all
  five fields were parsed, `none` when fewer were (a short or malformed record); reading
  past the end of the list is `EOF`.
* `printInstructionDetails` appends the printed instruction to `m_output`.
* `int` cycle stamps are `Int` (sentinel `-1`), `uint64_t` counters are `Nat`, the
  configuration sizes are `Nat`; no wrap-around is modelled.
-/

namespace OoO

set_option maxRecDepth 100000

/-- Number of architectural registers (`#define ARF_SIZE 67`). -/
def ARF_SIZE : Nat := 67

/-- The constant `INT_MAX` of `<climits>`. -/
def INT_MAX : Int := 2147483647

/-- Processor configuration (`struct ProcessorParameters`). -/
structure ProcessorParameters where
  robSize : Nat
  iqSize : Nat
  width : Nat
  deriving DecidableEq

/-- One dynamic instruction (`struct Instruction`); defaults are the default constructor. -/
structure Instruction where
  pc : Nat := 0
  opType : Int := 0
  destReg : Int := -1
  destRename : Int := -1
  src1Reg : Int := -1
  src1Rename : Int := -1
  src2Reg : Int := -1
  src2Rename : Int := -1
  valid : Bool := false
  sequenceNum : Nat := 0
  fetchCycle : Int := -1
  decodeCycle : Int := -1
  renameCycle : Int := -1
  regReadCycle : Int := -1
  dispatchCycle : Int := -1
  issueCycle : Int := -1
  executeCycle : Int := -1
  writebackCycle : Int := -1
  retireCycle : Int := -1
  fetchDuration : Int := 0
  decodeDuration : Int := 0
  renameDuration : Int := 0
  regReadDuration : Int := 0
  dispatchDuration : Int := 0
  issueDuration : Int := 0
  executeDuration : Int := 0
  writebackDuration : Int := 0
  retireDuration : Int := 0
  deriving DecidableEq

/-- Rename table entry (`struct RenameTableEntry`). -/
structure RenameTableEntry where
  valid : Bool := false
  robTag : Int := -1
  deriving DecidableEq

/-- Reorder buffer entry (`struct ReorderBufferEntry`). -/
structure ReorderBufferEntry where
  valid : Bool := false
  ready : Bool := false
  instruction : Instruction := {}
  destArchReg : Int := -1
  deriving DecidableEq

/-- Issue queue entry (`struct IssueQueueEntry`). -/
structure IssueQueueEntry where
  valid : Bool := false
  instruction : Instruction := {}
  deriving DecidableEq

/-- Execution list entry (`struct ExecutionEntry`). -/
structure ExecutionEntry where
  instruction : Instruction
  remainingCycles : Int
  deriving DecidableEq

/-- One successfully parsed trace record (`"%lx %d %d %d %d"`). -/
structure TraceRecord where
  pc : Nat
  opType : Int
  destReg : Int
  src1Reg : Int
  src2Reg : Int
  deriving DecidableEq

/-- The private state of `class OutOfOrderProcessor`, the configuration apart.
`m_traceFile` is the unread remainder of the trace, `m_output` the records printed so far. -/
structure OutOfOrderProcessor where
  m_traceFile : List (Option TraceRecord)
  m_decodeBuffer : List Instruction
  m_renameBuffer : List Instruction
  m_registerReadBuffer : List Instruction
  m_dispatchBuffer : List Instruction
  m_writebackBuffer : List Instruction
  m_reorderBuffer : List ReorderBufferEntry
  m_robHead : Nat
  m_robTail : Nat
  m_renameTable : List RenameTableEntry
  m_issueQueue : List IssueQueueEntry
  m_executionList : List ExecutionEntry
  m_instructionCount : Nat
  m_cycleCount : Nat
  m_simulationComplete : Bool
  m_output : List Instruction

/-- Constructor followed by `initializeStructures`. -/
def initializeStructures (cfg : ProcessorParameters) (trace : List (Option TraceRecord)) :
    OutOfOrderProcessor :=
  { m_traceFile := trace
    m_decodeBuffer := []
    m_renameBuffer := []
    m_registerReadBuffer := []
    m_dispatchBuffer := []
    m_writebackBuffer := []
    m_reorderBuffer := List.replicate cfg.robSize {}
    m_robHead := 0
    m_robTail := 0
    m_renameTable := List.replicate ARF_SIZE {}
    m_issueQueue := List.replicate cfg.iqSize {}
    m_executionList := []
    m_instructionCount := 0
    m_cycleCount := 0
    m_simulationComplete := false
    m_output := [] }

/-- Indexed read `v[i]` with an `int` index; `none` when out of bounds. -/
def vecGet {α : Type} (v : List α) (i : Int) : Option α :=
  if i < 0 then none else v[i.toNat]?

/-- `createInstruction`. -/
def createInstruction (pc : Nat) (opType destReg src1Reg src2Reg : Int) (sequenceNum : Nat) :
    Instruction :=
  { pc := pc, opType := opType, destReg := destReg, src1Reg := src1Reg, src2Reg := src2Reg,
    sequenceNum := sequenceNum, destRename := -1, src1Rename := -1, src2Rename := -1,
    valid := false, decodeCycle := -1, renameCycle := -1, regReadCycle := -1,
    dispatchCycle := -1, issueCycle := -1, executeCycle := -1, writebackCycle := -1,
    retireCycle := -1 }

/-- `isReorderBufferFull`: fewer empty slots than the width. -/
def isReorderBufferFull (cfg : ProcessorParameters) (s : OutOfOrderProcessor) : Bool :=
  decide ((s.m_reorderBuffer.filter (fun e => !e.valid)).length < cfg.width)

/-- `isIssueQueueFull`: fewer empty slots than the width. -/
def isIssueQueueFull (cfg : ProcessorParameters) (s : OutOfOrderProcessor) : Bool :=
  decide ((s.m_issueQueue.filter (fun e => !e.valid)).length < cfg.width)

/-- `isReorderBufferEmpty`. -/
def isReorderBufferEmpty (s : OutOfOrderProcessor) : Bool :=
  s.m_reorderBuffer.all (fun e => !e.valid)

/-- `isIssueQueueEmpty`. -/
def isIssueQueueEmpty (s : OutOfOrderProcessor) : Bool :=
  s.m_issueQueue.all (fun e => !e.valid)

/-- `isInstructionReady` on an issue queue entry. -/
def isInstructionReady (e : IssueQueueEntry) : Bool :=
  if e.instruction.src1Rename ≠ -1 ∨ e.instruction.src2Rename ≠ -1 then false else true

/-- `isExecutionNeeded`: some execution entry has `remainingCycles == 0`. -/
def isExecutionNeeded (l : List ExecutionEntry) : Bool :=
  l.any (fun e => decide (e.remainingCycles = 0))

/-! ## Fetch -/

/-- The instruction `fetchStage` makes of the record `r` read at cycle `cyc` when the
instruction counter is `count`. The code stores the 64-bit counter `m_cycleCount` in the
`int` field `fetchCycle`, as it does for every later stamp, and narrows every duration to
`int`; here the stamps and durations are the integers themselves, which is what the code
stores while the counter is at most `INT_MAX`. -/
def fetchInstruction (cyc : Nat) (r : TraceRecord) (count : Nat) : Instruction :=
  let instruction := createInstruction r.pc r.opType r.destReg r.src1Reg r.src2Reg count
  let instruction := { instruction with fetchCycle := (cyc : Int) }
  { instruction with fetchDuration := 1 }

/-- The `for` loop of `fetchStage`, `n` iterations left. -/
def fetchLoop : Nat → OutOfOrderProcessor → OutOfOrderProcessor
  | 0, s => s
  | n + 1, s =>
    match s.m_traceFile with
    | [] => { s with m_simulationComplete := true }
    | none :: rest => { s with m_traceFile := rest, m_simulationComplete := true }
    | some r :: rest =>
      fetchLoop n { s with
        m_traceFile := rest
        m_instructionCount := s.m_instructionCount + 1
        m_decodeBuffer :=
          s.m_decodeBuffer ++ [fetchInstruction s.m_cycleCount r s.m_instructionCount] }

/-- `fetchStage`. -/
def fetchStage (cfg : ProcessorParameters) (s : OutOfOrderProcessor) : OutOfOrderProcessor :=
  if s.m_decodeBuffer.length ≥ cfg.width then s else fetchLoop cfg.width s

/-! ## Decode -/

/-- First loop of `decodeStage`, on one instruction: set `decodeCycle` if unset. -/
def stampDecode (cyc : Int) (inst : Instruction) : Instruction :=
  if inst.decodeCycle = -1 then { inst with decodeCycle := cyc } else inst

/-- What `decodeStage` does to an instruction it moves on. -/
def leaveDecode (cyc : Int) (inst : Instruction) : Instruction :=
  { inst with decodeDuration := cyc - inst.decodeCycle + 1 }

/-- The `while` loop of `decodeStage` on (decode buffer, rename buffer). -/
def decodeLoop (cfg : ProcessorParameters) (cyc : Int) :
    List Instruction → List Instruction → List Instruction × List Instruction
  | [], rn => ([], rn)
  | inst :: de, rn =>
    if rn.length < cfg.width then
      decodeLoop cfg cyc de (rn ++ [leaveDecode cyc inst])
    else (inst :: de, rn)

/-- `decodeStage`. -/
def decodeStage (cfg : ProcessorParameters) (s : OutOfOrderProcessor) : OutOfOrderProcessor :=
  let cyc : Int := s.m_cycleCount
  let s := { s with m_decodeBuffer := s.m_decodeBuffer.map (stampDecode cyc) }
  if s.m_renameBuffer.length = cfg.width then s
  else
    let r := decodeLoop cfg cyc s.m_decodeBuffer s.m_renameBuffer
    { s with m_decodeBuffer := r.1, m_renameBuffer := r.2 }

/-! ## Rename -/

/-- Source renaming: the tag stays as it is unless the register is real and mapped. -/
def renameSource (rmt : List RenameTableEntry) (reg old : Int) : Option Int :=
  if reg ≠ -1 then
    match vecGet rmt reg with
    | none => none
    | some e => some (if e.valid then e.robTag else old)
  else some old

/-- Destination mapping update of `renameStage`. -/
def renameDest (rmt : List RenameTableEntry) (reg : Int) (tail : Nat) :
    Option (List RenameTableEntry) :=
  if reg ≠ -1 then
    match vecGet rmt reg with
    | none => none
    | some _ => some (rmt.set reg.toNat { valid := true, robTag := (tail : Int) })
  else some rmt

/-- First loop of `renameStage`, on one instruction: set `renameCycle` if unset. -/
def stampRename (cyc : Int) (inst : Instruction) : Instruction :=
  if inst.renameCycle = -1 then { inst with renameCycle := cyc } else inst

/-- What `renameStage` does to an instruction it moves on: source tags `t1`, `t2`, the
destination tag `tail`, and the duration. -/
def leaveRename (cyc : Int) (t1 t2 : Int) (tail : Nat) (inst : Instruction) : Instruction :=
  { inst with
    src1Rename := t1, src2Rename := t2, destRename := (tail : Int),
    renameDuration := cyc - inst.renameCycle + 1 }

/-- The `while` loop of `renameStage`; the first argument is the rename buffer. -/
def renameLoop (cfg : ProcessorParameters) (cyc : Int) :
    List Instruction → OutOfOrderProcessor → Option OutOfOrderProcessor
  | [], s => some { s with m_renameBuffer := [] }
  | inst :: rn, s =>
    if s.m_registerReadBuffer.length < cfg.width then
      match s.m_reorderBuffer[s.m_robTail]? with
      | none => none
      | some _ =>
        let rob := s.m_reorderBuffer.set s.m_robTail
          { valid := true, ready := false, instruction := inst, destArchReg := inst.destReg }
        match renameSource s.m_renameTable inst.src1Reg inst.src1Rename with
        | none => none
        | some t1 =>
          match renameSource s.m_renameTable inst.src2Reg inst.src2Rename with
          | none => none
          | some t2 =>
            match renameDest s.m_renameTable inst.destReg s.m_robTail with
            | none => none
            | some rmt =>
              renameLoop cfg cyc rn { s with
                m_reorderBuffer := rob
                m_renameTable := rmt
                m_registerReadBuffer :=
                  s.m_registerReadBuffer ++ [leaveRename cyc t1 t2 s.m_robTail inst]
                m_renameBuffer := rn
                m_robTail := (s.m_robTail + 1) % cfg.robSize }
    else some { s with m_renameBuffer := inst :: rn }

/-- `renameStage`. -/
def renameStage (cfg : ProcessorParameters) (s : OutOfOrderProcessor) :
    Option OutOfOrderProcessor :=
  let cyc : Int := s.m_cycleCount
  let s := { s with m_renameBuffer := s.m_renameBuffer.map (stampRename cyc) }
  if isReorderBufferFull cfg s || decide (s.m_registerReadBuffer.length = cfg.width) then some s
  else renameLoop cfg cyc s.m_renameBuffer s

/-! ## Register read and dispatch -/

/-- The ready-snap: a source tag other than `-1` is cleared when the reorder buffer slot it
names is ready. -/
def snapTag (rob : List ReorderBufferEntry) (t : Int) : Option Int :=
  if t ≠ -1 then
    match vecGet rob t with
    | none => none
    | some e => some (if e.ready then -1 else t)
  else some t

/-- First loop of `registerReadStage`, on one instruction: set `regReadCycle` if unset. -/
def stampRegisterRead (cyc : Int) (inst : Instruction) : Instruction :=
  if inst.regReadCycle = -1 then { inst with regReadCycle := cyc } else inst

/-- What `registerReadStage` does to an instruction it moves on: the snapped source tags
and the duration. -/
def leaveRegisterRead (cyc : Int) (t1 t2 : Int) (inst : Instruction) : Instruction :=
  { inst with src1Rename := t1, src2Rename := t2,
              regReadDuration := cyc - inst.regReadCycle + 1 }

/-- The `while` loop of `registerReadStage`; the first argument is the register read buffer. -/
def registerReadLoop (cfg : ProcessorParameters) (cyc : Int) (rob : List ReorderBufferEntry) :
    List Instruction → List Instruction → Option (List Instruction × List Instruction)
  | [], di => some ([], di)
  | inst :: rr, di =>
    if di.length < cfg.width then
      match snapTag rob inst.src1Rename with
      | none => none
      | some t1 =>
        match snapTag rob inst.src2Rename with
        | none => none
        | some t2 =>
          registerReadLoop cfg cyc rob rr (di ++ [leaveRegisterRead cyc t1 t2 inst])
    else some (inst :: rr, di)

/-- `registerReadStage`. -/
def registerReadStage (cfg : ProcessorParameters) (s : OutOfOrderProcessor) :
    Option OutOfOrderProcessor :=
  let cyc : Int := s.m_cycleCount
  let s := { s with
    m_registerReadBuffer := s.m_registerReadBuffer.map (stampRegisterRead cyc) }
  if s.m_dispatchBuffer.length = cfg.width then some s
  else
    match registerReadLoop cfg cyc s.m_reorderBuffer s.m_registerReadBuffer
        s.m_dispatchBuffer with
    | none => none
    | some r => some { s with m_registerReadBuffer := r.1, m_dispatchBuffer := r.2 }

/-- First loop of `dispatchStage`, on one instruction: set `dispatchCycle` if unset. -/
def stampDispatch (cyc : Int) (inst : Instruction) : Instruction :=
  if inst.dispatchCycle = -1 then { inst with dispatchCycle := cyc } else inst

/-- What `dispatchStage` does to an instruction it places in the issue queue: the snapped
source tags and the duration. -/
def leaveDispatch (cyc : Int) (t1 t2 : Int) (inst : Instruction) : Instruction :=
  { inst with src1Rename := t1, src2Rename := t2,
              dispatchDuration := cyc - inst.dispatchCycle + 1 }

/-- Index of the first issue queue slot that is not valid (the inner `for` of
`dispatchStage`). -/
def findFreeSlot : List IssueQueueEntry → Option Nat
  | [] => none
  | e :: l => if e.valid then (findFreeSlot l).map (· + 1) else some 0

/-- The `while` loop of `dispatchStage`; the first argument is the dispatch buffer. An
instruction for which no free slot is found is popped all the same. -/
def dispatchLoop (cyc : Int) (rob : List ReorderBufferEntry) :
    List Instruction → List IssueQueueEntry → Option (List IssueQueueEntry)
  | [], iq => some iq
  | inst :: di, iq =>
    match findFreeSlot iq with
    | none => dispatchLoop cyc rob di iq
    | some i =>
      match snapTag rob inst.src1Rename with
      | none => none
      | some t1 =>
        match snapTag rob inst.src2Rename with
        | none => none
        | some t2 =>
          dispatchLoop cyc rob di
            (iq.set i { valid := true, instruction := leaveDispatch cyc t1 t2 inst })

/-- `dispatchStage`. -/
def dispatchStage (cfg : ProcessorParameters) (s : OutOfOrderProcessor) :
    Option OutOfOrderProcessor :=
  let cyc : Int := s.m_cycleCount
  let s := { s with m_dispatchBuffer := s.m_dispatchBuffer.map (stampDispatch cyc) }
  if isIssueQueueFull cfg s then some s
  else
    match dispatchLoop cyc s.m_reorderBuffer s.m_dispatchBuffer s.m_issueQueue with
    | none => none
    | some iq => some { s with m_dispatchBuffer := [], m_issueQueue := iq }

/-! ## Issue -/

/-- The inner `for` of `issueStage`: scan from index `j` on, carrying
`(oldestCycle, oldestIdx)`; `none` stands for `oldestIdx == -1`. -/
def findOldest : List IssueQueueEntry → Nat → Int → Option Nat → Option Nat
  | [], _, _, idx => idx
  | e :: l, j, oldestCycle, idx =>
    if !e.valid then findOldest l (j + 1) oldestCycle idx
    else if e.instruction.src1Rename ≠ -1 then findOldest l (j + 1) oldestCycle idx
    else if e.instruction.src2Rename ≠ -1 then findOldest l (j + 1) oldestCycle idx
    else if isInstructionReady e && decide (e.instruction.fetchCycle < oldestCycle) then
      findOldest l (j + 1) e.instruction.fetchCycle (some j)
    else findOldest l (j + 1) oldestCycle idx

/-- Execution latency by operation type. -/
def execLatency (opType : Int) : Int :=
  if opType = 0 then 1 else if opType = 1 then 2 else 5

/-- First loop of `issueStage`, on one entry: set `issueCycle` of a valid entry if unset. -/
def stampIssue (cyc : Int) (e : IssueQueueEntry) : IssueQueueEntry :=
  if e.valid && decide (e.instruction.issueCycle = -1) then
    { e with instruction := { e.instruction with issueCycle := cyc } }
  else e

/-- What `issueStage` does to the instruction it selects. -/
def leaveIssue (cyc : Int) (inst : Instruction) : Instruction :=
  { inst with issueDuration := cyc - inst.issueCycle + 1 }

/-- The outer `for` of `issueStage`, `n` iterations left, on (issue queue, execution list). -/
def issueLoop (cyc : Int) :
    Nat → List IssueQueueEntry → List ExecutionEntry →
      List IssueQueueEntry × List ExecutionEntry
  | 0, iq, ex => (iq, ex)
  | n + 1, iq, ex =>
    match findOldest iq 0 INT_MAX none with
    | none => (iq, ex)
    | some idx =>
      match iq[idx]? with
      | none => (iq, ex)
      | some e =>
        let inst := leaveIssue cyc e.instruction
        issueLoop cyc n (iq.set idx { valid := false, instruction := inst })
          (ex ++ [{ instruction := inst, remainingCycles := execLatency inst.opType }])

/-- `issueStage`. The code forms the cap `m_config.width * 5` in `uint32_t`; here it is the
product itself, the same number while `width * 5 < 2^32`. -/
def issueStage (cfg : ProcessorParameters) (s : OutOfOrderProcessor) : OutOfOrderProcessor :=
  if s.m_executionList.length = cfg.width * 5 then s
  else
    let cyc : Int := s.m_cycleCount
    let r := issueLoop cyc cfg.width (s.m_issueQueue.map (stampIssue cyc)) s.m_executionList
    { s with m_issueQueue := r.1, m_executionList := r.2 }

/-! ## Execute -/

/-- Wakeup of one issue queue entry (valid or not) by the tag `d`. -/
def wakeIssueQueueEntry (d : Int) (e : IssueQueueEntry) : IssueQueueEntry :=
  let i := e.instruction
  let i := if i.src1Rename = d ∧ i.src1Rename ≠ -1 then { i with src1Rename := -1 } else i
  let i := if i.src2Rename = d ∧ i.src2Rename ≠ -1 then { i with src2Rename := -1 } else i
  { e with instruction := i }

/-- Wakeup of one instruction of the dispatch or register read buffer by the tag `d`. -/
def wakeInstruction (d : Int) (i : Instruction) : Instruction :=
  let i := if i.src1Rename = d then { i with src1Rename := -1 } else i
  let i := if i.src2Rename = d then { i with src2Rename := -1 } else i
  i

/-- First loop of `executeStage`, on one entry: set `executeCycle` if unset and decrement
`remainingCycles`. -/
def stampExecute (cyc : Int) (e : ExecutionEntry) : ExecutionEntry :=
  { instruction :=
      if e.instruction.executeCycle = -1 then { e.instruction with executeCycle := cyc }
      else e.instruction
    remainingCycles := e.remainingCycles - 1 }

/-- What `executeStage` does to a completed instruction it moves to the writeback buffer. -/
def leaveExecute (cyc : Int) (inst : Instruction) : Instruction :=
  { inst with executeDuration := cyc - inst.executeCycle + 1, valid := true }

/-- What the completion loop of `executeStage` reads and writes besides the execution list. -/
structure ExecuteContext where
  iq : List IssueQueueEntry
  di : List Instruction
  rr : List Instruction
  wb : List Instruction

/-- The three wakeup loops for a completed instruction with destination tag `d`. -/
def wakeup (d : Int) (c : ExecuteContext) : ExecuteContext :=
  { c with iq := c.iq.map (wakeIssueQueueEntry d)
           di := c.di.map (wakeInstruction d)
           rr := c.rr.map (wakeInstruction d) }

/-- One run of the inner `for (i = 0; i < size; i++)` of `executeStage` over the entries
from index `i` on. The result is (entries from `i` on afterwards, context, whether the
early `return` was taken). After `erase(begin() + i)` the index still advances, so the
entry that moved into position `i` is not examined in this run. The code forms the
capacity `m_config.width * 5` of the writeback buffer in `uint32_t`; here it is the product
itself, the same number while `width * 5 < 2^32`. -/
def executePass (cfg : ProcessorParameters) (cyc : Int) :
    List ExecutionEntry → ExecuteContext → List ExecutionEntry × ExecuteContext × Bool
  | [], c => ([], c, false)
  | [x], c =>
    if x.remainingCycles = 0 then
      let c := wakeup x.instruction.destRename c
      if c.wb.length = cfg.width * 5 then ([x], c, true)
      else ([], { c with wb := c.wb ++ [leaveExecute cyc x.instruction] }, false)
    else ([x], c, false)
  | x :: y :: l, c =>
    if x.remainingCycles = 0 then
      let c := wakeup x.instruction.destRename c
      if c.wb.length = cfg.width * 5 then (x :: y :: l, c, true)
      else
        let r := executePass cfg cyc l { c with wb := c.wb ++ [leaveExecute cyc x.instruction] }
        (y :: r.1, r.2.1, r.2.2)
    else
      let r := executePass cfg cyc (y :: l) c
      (x :: r.1, r.2.1, r.2.2)

/-- The `while (isExecutionNeeded())` loop of `executeStage`. Every run of the inner loop
that starts with a completed entry erases one or returns, so a fuel of the list length
plus one is never used up. -/
def executeLoop (cfg : ProcessorParameters) (cyc : Int) :
    Nat → List ExecutionEntry → ExecuteContext → List ExecutionEntry × ExecuteContext
  | 0, ex, c => (ex, c)
  | fuel + 1, ex, c =>
    if isExecutionNeeded ex then
      let r := executePass cfg cyc ex c
      if r.2.2 then (r.1, r.2.1) else executeLoop cfg cyc fuel r.1 r.2.1
    else (ex, c)

/-- `executeStage`. -/
def executeStage (cfg : ProcessorParameters) (s : OutOfOrderProcessor) : OutOfOrderProcessor :=
  if s.m_executionList.isEmpty then s
  else
    let cyc : Int := s.m_cycleCount
    let ex := s.m_executionList.map (stampExecute cyc)
    let r := executeLoop cfg cyc (ex.length + 1) ex
      { iq := s.m_issueQueue, di := s.m_dispatchBuffer, rr := s.m_registerReadBuffer,
        wb := s.m_writebackBuffer }
    { s with
      m_executionList := r.1
      m_issueQueue := r.2.iq
      m_dispatchBuffer := r.2.di
      m_registerReadBuffer := r.2.rr
      m_writebackBuffer := r.2.wb }

/-! ## Writeback -/

/-- First loop of `writebackStage`, on one instruction: set `writebackCycle` if unset. -/
def stampWriteback (cyc : Int) (inst : Instruction) : Instruction :=
  if inst.writebackCycle = -1 then { inst with writebackCycle := cyc } else inst

/-- What `writebackStage` does to an instruction it copies into its reorder buffer slot. -/
def leaveWriteback (cyc : Int) (inst : Instruction) : Instruction :=
  { inst with writebackDuration := cyc - inst.writebackCycle + 1 }

/-- One run of the inner `for` of `writebackStage` over the reorder buffer slots still to
visit, with the writeback buffer; the run ends early (`break`) once the buffer is empty. -/
def writebackPass (cyc : Int) :
    List ReorderBufferEntry → List Instruction → List ReorderBufferEntry × List Instruction
  | [], wb => ([], wb)
  | e :: rob, [] => (e :: rob, [])
  | e :: rob, front :: wb =>
    if e.valid && decide (e.instruction.sequenceNum = front.sequenceNum) then
      let r := writebackPass cyc rob wb
      ({ e with ready := true, instruction := leaveWriteback cyc front } :: r.1, r.2)
    else
      let r := writebackPass cyc rob (front :: wb)
      (e :: r.1, r.2)

/-- The outer `while (!m_writebackBuffer.empty())` of `writebackStage`. A run of the inner
loop that removes nothing leaves the state as it was, so the source loops forever: that is
`none`. Every other run removes an instruction, so a fuel of the buffer length is enough. -/
def writebackLoop (cyc : Int) :
    Nat → List ReorderBufferEntry → List Instruction → Option (List ReorderBufferEntry)
  | 0, rob, wb => if wb.isEmpty then some rob else none
  | fuel + 1, rob, wb =>
    if wb.isEmpty then some rob
    else
      let r := writebackPass cyc rob wb
      if r.2.length = wb.length then none else writebackLoop cyc fuel r.1 r.2

/-- `writebackStage`. -/
def writebackStage (s : OutOfOrderProcessor) : Option OutOfOrderProcessor :=
  let cyc : Int := s.m_cycleCount
  let wb := s.m_writebackBuffer.map (stampWriteback cyc)
  match writebackLoop cyc wb.length s.m_reorderBuffer wb with
  | none => none
  | some rob => some { s with m_writebackBuffer := [], m_reorderBuffer := rob }

/-! ## Retire -/

/-- Rename table cleanup at retirement. -/
def retireClear (rmt : List RenameTableEntry) (inst : Instruction) :
    Option (List RenameTableEntry) :=
  if inst.destReg ≠ -1 then
    match vecGet rmt inst.destReg with
    | none => none
    | some e =>
      if inst.destRename = e.robTag then
        some (rmt.set inst.destReg.toNat { valid := false, robTag := -1 })
      else some rmt
  else some rmt

/-- First loop of `retireStage`, on one slot: set `retireCycle` of a ready slot if unset. -/
def stampRetire (cyc : Int) (e : ReorderBufferEntry) : ReorderBufferEntry :=
  if e.ready && decide (e.instruction.retireCycle = -1) then
    { e with instruction := { e.instruction with retireCycle := cyc } }
  else e

/-- What `retireStage` does to the instruction it retires. -/
def leaveRetire (cyc : Int) (inst : Instruction) : Instruction :=
  { inst with retireDuration := cyc - inst.retireCycle + 1 }

/-- The `for` loop of `retireStage`, `n` iterations left. -/
def retireLoop (cfg : ProcessorParameters) (cyc : Int) :
    Nat → OutOfOrderProcessor → Option OutOfOrderProcessor
  | 0, s => some s
  | n + 1, s =>
    match s.m_reorderBuffer[s.m_robHead]? with
    | none => none
    | some e =>
      if e.valid && e.ready then
        let inst := leaveRetire cyc e.instruction
        match retireClear s.m_renameTable inst with
        | none => none
        | some rmt =>
          retireLoop cfg cyc n { s with
            m_output := s.m_output ++ [inst]
            m_renameTable := rmt
            m_reorderBuffer := s.m_reorderBuffer.set s.m_robHead
              { e with instruction := inst, valid := false }
            m_robHead := (s.m_robHead + 1) % cfg.robSize }
      else retireLoop cfg cyc n s

/-- `retireStage`. -/
def retireStage (cfg : ProcessorParameters) (s : OutOfOrderProcessor) :
    Option OutOfOrderProcessor :=
  if isReorderBufferEmpty s then some s
  else
    let cyc : Int := s.m_cycleCount
    retireLoop cfg cyc cfg.width { s with m_reorderBuffer := s.m_reorderBuffer.map (stampRetire cyc) }

/-! ## Cycle driver -/

/-- The body of the `do ... while` loop of `simulate`: the nine stages, last stage first. -/
def pipelineStages (cfg : ProcessorParameters) (s : OutOfOrderProcessor) :
    Option OutOfOrderProcessor :=
  match retireStage cfg s with
  | none => none
  | some s =>
    match writebackStage s with
    | none => none
    | some s =>
      let s := executeStage cfg s
      let s := issueStage cfg s
      match dispatchStage cfg s with
      | none => none
      | some s =>
        match registerReadStage cfg s with
        | none => none
        | some s =>
          match renameStage cfg s with
          | none => none
          | some s =>
            let s := decodeStage cfg s
            some (fetchStage cfg s)

/-- The test of `advanceCycle` (after the increment). -/
def hasInstructions (s : OutOfOrderProcessor) : Bool :=
  decide (s.m_decodeBuffer.length ≠ 0) ||
  decide (s.m_renameBuffer.length ≠ 0) ||
  decide (s.m_registerReadBuffer.length ≠ 0) ||
  decide (s.m_dispatchBuffer.length ≠ 0) ||
  !isIssueQueueEmpty s ||
  decide (s.m_executionList.length ≠ 0) ||
  decide (s.m_writebackBuffer.length ≠ 0) ||
  !isReorderBufferEmpty s

/-- `advanceCycle`: the state with the cycle counter incremented, and the continue flag. -/
def advanceCycle (s : OutOfOrderProcessor) : OutOfOrderProcessor × Bool :=
  let s := { s with m_cycleCount := s.m_cycleCount + 1 }
  (s, hasInstructions s)

/-- One tick: the nine stages, then `advanceCycle`. -/
def tick (cfg : ProcessorParameters) (s : OutOfOrderProcessor) :
    Option (OutOfOrderProcessor × Bool) :=
  match pipelineStages cfg s with
  | none => none
  | some s => some (advanceCycle s)

/-- How a run of `simulate` bounded to a number of ticks ends. -/
inductive SimResult where
  | halted (s : OutOfOrderProcessor)
  | running (s : OutOfOrderProcessor)
  | undefinedBehaviour

/-- `simulate` bounded to `fuel` ticks: `halted s` when `advanceCycle` returned `false`
within them, `running s` when all `fuel` ticks ran and the loop goes on,
`undefinedBehaviour` when a stage was undefined. -/
def simulate (cfg : ProcessorParameters) : Nat → OutOfOrderProcessor → SimResult
  | 0, s => SimResult.running s
  | fuel + 1, s =>
    match tick cfg s with
    | none => SimResult.undefinedBehaviour
    | some (s, true) => simulate cfg fuel s
    | some (s, false) => SimResult.halted s

/-! ## Reachable states -/

/-- The states of a run of `simulate` at the end of a tick, with the value `advanceCycle`
returned there (`true` for the initial state, on which the loop body runs first). -/
inductive Reach (cfg : ProcessorParameters) (trace : List (Option TraceRecord)) :
    OutOfOrderProcessor → Bool → Prop where
  | init : Reach cfg trace (initializeStructures cfg trace) true
  | step {s s' : OutOfOrderProcessor} {b : Bool} :
      Reach cfg trace s true → tick cfg s = some (s', b) → Reach cfg trace s' b

/-- The state in which a run of `simulate` bounded to `fuel` ticks ends, halted or not; the
initial state when a stage of the run was undefined. -/
def stateAfter (cfg : ProcessorParameters) (trace : List (Option TraceRecord)) (fuel : Nat) :
    OutOfOrderProcessor :=
  match simulate cfg fuel (initializeStructures cfg trace) with
  | SimResult.halted s => s
  | SimResult.running s => s
  | SimResult.undefinedBehaviour => initializeStructures cfg trace

/-- Number of occupied reorder buffer slots. -/
def countValid (rob : List ReorderBufferEntry) : Nat :=
  rob.countP (fun e => e.valid)

/-- Sequence-number layout of a state: the printed records carry 0, 1, 2, ... in order,
the occupied reorder buffer slots carry the next numbers, each in the slot its number
designates modulo `robSize`, and the rename and decode buffers carry the numbers after
those, up to the instruction counter. -/
structure SeqLayout (cfg : ProcessorParameters) (s : OutOfOrderProcessor) : Prop where
  rob_len : s.m_reorderBuffer.length = cfg.robSize
  head_eq : s.m_robHead = s.m_output.length % cfg.robSize
  tail_eq : s.m_robTail = (s.m_output.length + countValid s.m_reorderBuffer) % cfg.robSize
  total : s.m_output.length + countValid s.m_reorderBuffer + s.m_renameBuffer.length
      + s.m_decodeBuffer.length = s.m_instructionCount
  out_seq : s.m_output.map (fun x => x.sequenceNum) = List.range s.m_output.length
  rob_seq : ∀ i e, s.m_reorderBuffer[i]? = some e → e.valid = true →
      s.m_output.length ≤ e.instruction.sequenceNum ∧
      e.instruction.sequenceNum < s.m_output.length + countValid s.m_reorderBuffer ∧
      e.instruction.sequenceNum % cfg.robSize = i
  front_seq : (s.m_renameBuffer ++ s.m_decodeBuffer).map (fun x => x.sequenceNum) =
      List.range' (s.m_output.length + countValid s.m_reorderBuffer)
        (s.m_renameBuffer.length + s.m_decodeBuffer.length)

/-! ## Predicates on every place of the pipeline -/

/-- One predicate for each place an instruction can be in: the five stage buffers, the
issue queue, the execution list, the reorder buffer and the printed output. -/
structure StagePredicates where
  de : Instruction → Prop
  rn : Instruction → Prop
  rr : Instruction → Prop
  di : Instruction → Prop
  iq : IssueQueueEntry → Prop
  ex : ExecutionEntry → Prop
  wb : Instruction → Prop
  rob : ReorderBufferEntry → Prop
  out : Instruction → Prop

/-- Every element of every place of the state satisfies the predicate of its place. -/
structure Sat (P : StagePredicates) (s : OutOfOrderProcessor) : Prop where
  de : ∀ x ∈ s.m_decodeBuffer, P.de x
  rn : ∀ x ∈ s.m_renameBuffer, P.rn x
  rr : ∀ x ∈ s.m_registerReadBuffer, P.rr x
  di : ∀ x ∈ s.m_dispatchBuffer, P.di x
  iq : ∀ e ∈ s.m_issueQueue, P.iq e
  ex : ∀ e ∈ s.m_executionList, P.ex e
  wb : ∀ x ∈ s.m_writebackBuffer, P.wb x
  rob : ∀ e ∈ s.m_reorderBuffer, P.rob e
  out : ∀ x ∈ s.m_output, P.out x

/-! ## Printed output and scenarios -/



/-- What `printInstructionDetails` prints for one instruction: sequence number, `fu`,
`src`, `dst` and the nine `{cycle, duration}` pairs. -/
structure TimingRecord where
  seq : Nat
  fu : Int
  src1 : Int
  src2 : Int
  dst : Int
  FE : Int × Int
  DE : Int × Int
  RN : Int × Int
  RR : Int × Int
  DI : Int × Int
  IS : Int × Int
  EX : Int × Int
  WB : Int × Int
  RT : Int × Int
  deriving DecidableEq

/-- `printInstructionDetails`. -/
def printInstructionDetails (i : Instruction) : TimingRecord :=
  { seq := i.sequenceNum, fu := i.opType, src1 := i.src1Reg, src2 := i.src2Reg,
    dst := i.destReg,
    FE := (i.fetchCycle, i.fetchDuration), DE := (i.decodeCycle, i.decodeDuration),
    RN := (i.renameCycle, i.renameDuration), RR := (i.regReadCycle, i.regReadDuration),
    DI := (i.dispatchCycle, i.dispatchDuration), IS := (i.issueCycle, i.issueDuration),
    EX := (i.executeCycle, i.executeDuration), WB := (i.writebackCycle, i.writebackDuration),
    RT := (i.retireCycle, i.retireDuration) }

/-- What a finished run shows: the printed records, the dynamic instruction count and the
cycle count; `none` when the run did not finish. -/
def report : SimResult → Option (List TimingRecord × Nat × Nat)
  | SimResult.halted s =>
    some (s.m_output.map printInstructionDetails, s.m_instructionCount, s.m_cycleCount)
  | _ => none

/-- A trace of well-formed records followed by end of file. -/
def wellFormedTrace (records : List TraceRecord) : List (Option TraceRecord) :=
  records.map some

/-- Configuration of scenarios S1 and S2: `rob=8 iq=4 width=1`. -/
def cfgS1 : ProcessorParameters := { robSize := 8, iqSize := 4, width := 1 }

/-- Trace of scenario S1: `"0 0 1 2 3"`. -/
def traceS1 : List (Option TraceRecord) :=
  wellFormedTrace [{ pc := 0, opType := 0, destReg := 1, src1Reg := 2, src2Reg := 3 }]

/-- Trace of scenario S2: `"0 0 1 -1 -1"`, `"0 0 2 1 -1"`, `"0 0 3 2 -1"`. -/
def traceS2 : List (Option TraceRecord) :=
  wellFormedTrace
    [{ pc := 0, opType := 0, destReg := 1, src1Reg := -1, src2Reg := -1 },
     { pc := 0, opType := 0, destReg := 2, src1Reg := 1, src2Reg := -1 },
     { pc := 0, opType := 0, destReg := 3, src1Reg := 2, src2Reg := -1 }]

/-- Whether every record and its successor in the list stand in the relation `r`. -/
def successive (r : TimingRecord → TimingRecord → Bool) : List TimingRecord → Bool
  | p :: q :: l => r p q && successive r (q :: l)
  | _ => true

/-- The expectation of scenario S2 as the specification words it: three records, and each
successor's `IS` cycle at least one greater than its predecessor's `WB` cycle. -/
def S2Expected (out : List TimingRecord) : Prop :=
  out.map (fun r => r.seq) = [0, 1, 2] ∧
    successive (fun p q => decide (p.WB.1 + 1 ≤ q.IS.1)) out = true

/-- What scenario S2 shows on the code: three records, each successor's `IS` cycle one
less than its predecessor's `WB` cycle and its `EX` cycle equal to it. -/
def S2Observed (out : List TimingRecord) : Prop :=
  out.map (fun r => r.seq) = [0, 1, 2] ∧
    successive (fun p q => decide (q.IS.1 + 1 = p.WB.1) && decide (q.EX.1 = p.WB.1)) out = true

instance (out : List TimingRecord) : Decidable (S2Expected out) :=
  inferInstanceAs (Decidable (_ ∧ _))

instance (out : List TimingRecord) : Decidable (S2Observed out) :=
  inferInstanceAs (Decidable (_ ∧ _))

/-- The three records the S2 run prints. -/
def outputS2 : List TimingRecord :=
  [{ seq := 0, fu := 0, src1 := -1, src2 := -1, dst := 1,
     FE := (0, 1), DE := (1, 1), RN := (2, 1), RR := (3, 1), DI := (4, 1),
     IS := (5, 1), EX := (6, 1), WB := (7, 1), RT := (8, 1) },
   { seq := 1, fu := 0, src1 := 1, src2 := -1, dst := 2,
     FE := (1, 1), DE := (2, 1), RN := (3, 1), RR := (4, 1), DI := (5, 1),
     IS := (6, 1), EX := (7, 1), WB := (8, 1), RT := (9, 1) },
   { seq := 2, fu := 0, src1 := 2, src2 := -1, dst := 3,
     FE := (2, 1), DE := (3, 1), RN := (4, 1), RR := (5, 1), DI := (6, 1),
     IS := (7, 1), EX := (8, 1), WB := (9, 1), RT := (10, 1) }]

/-- A configuration whose reorder buffer is smaller than the width. -/
def cfgNarrowRob : ProcessorParameters := { robSize := 1, iqSize := 1, width := 2 }

/-- The state the run of the S1 trace on `cfgNarrowRob` is in from tick 3 on, at cycle `n`:
the instruction waits in the rename buffer. -/
def stuckNarrowRob (n : Nat) : OutOfOrderProcessor :=
  { stateAfter cfgNarrowRob traceS1 3 with m_cycleCount := n }

/-- A configuration with `robSize >= width` and `iqSize >= width`. -/
def cfgStale : ProcessorParameters := { robSize := 7, iqSize := 2, width := 2 }

/-- A trace with two malformed records (`none`) between well-formed ones, for example the
file `0 0 -1 -1 -1 / 0 a 0 1 -1 -1 / ...`, where the token `a` fails `%d` and is then read
as the next `%lx`. Fetch goes on reading after each of them. -/
def traceStale : List (Option TraceRecord) :=
  [some { pc := 0, opType := 0, destReg := -1, src1Reg := -1, src2Reg := -1 },
   none,
   some { pc := 0, opType := 0, destReg := 1, src1Reg := -1, src2Reg := -1 },
   some { pc := 0, opType := 0, destReg := -1, src1Reg := -1, src2Reg := -1 },
   some { pc := 0, opType := 2, destReg := 2, src1Reg := -1, src2Reg := -1 },
   some { pc := 0, opType := 0, destReg := -1, src1Reg := 2, src2Reg := -1 },
   some { pc := 0, opType := 0, destReg := -1, src1Reg := -1, src2Reg := -1 },
   none,
   some { pc := 0, opType := 0, destReg := -1, src1Reg := -1, src2Reg := -1 },
   some { pc := 0, opType := 0, destReg := 3, src1Reg := 1, src2Reg := -1 },
   some { pc := 0, opType := 0, destReg := 4, src1Reg := 3, src2Reg := -1 }]

/-- The state the run of `traceStale` on `cfgStale` is in from tick 18 on, at cycle `n`:
the issue queue holds instruction 7 (slot 0) waiting on slot 1 and instruction 8 (slot 1)
waiting on slot 0. -/
def stuckStale (n : Nat) : OutOfOrderProcessor :=
  { m_traceFile := []
    m_decodeBuffer := []
    m_renameBuffer := []
    m_registerReadBuffer := []
    m_dispatchBuffer := []
    m_writebackBuffer := []
    m_reorderBuffer :=
      [⟨true, false, ⟨0, 0, 3, -1, 1, -1, -1, -1, false, 7, 4, 5, 6, -1, -1, -1, -1, -1, -1,
          1, 1, 0, 0, 0, 0, 0, 0, 0⟩, 3⟩,
       ⟨true, false, ⟨0, 0, 4, -1, 3, -1, -1, -1, false, 8, 5, 6, 9, -1, -1, -1, -1, -1, -1,
          1, 3, 0, 0, 0, 0, 0, 0, 0⟩, 4⟩,
       ⟨false, true, ⟨0, 0, -1, 2, -1, -1, -1, -1, true, 2, 1, 2, 3, 4, 5, 6, 7, 8, 9,
          1, 1, 1, 1, 1, 1, 1, 1, 1⟩, -1⟩,
       ⟨false, true, ⟨0, 2, 2, 3, -1, -1, -1, -1, true, 3, 2, 3, 4, 5, 6, 7, 8, 13, 14,
          1, 1, 1, 1, 1, 1, 5, 1, 1⟩, 2⟩,
       ⟨false, true, ⟨0, 0, -1, 4, 2, -1, -1, -1, true, 4, 2, 3, 4, 5, 6, 7, 13, 14, 15,
          1, 1, 1, 1, 1, 6, 1, 1, 1⟩, -1⟩,
       ⟨false, true, ⟨0, 0, -1, 5, -1, -1, -1, -1, true, 5, 3, 4, 5, 6, 7, 13, 14, 15, 16,
          1, 1, 1, 1, 6, 1, 1, 1, 1⟩, -1⟩,
       ⟨false, true, ⟨0, 0, -1, 6, -1, -1, -1, -1, true, 6, 4, 5, 6, 9, 10, 13, 14, 15, 16,
          1, 1, 3, 1, 3, 1, 1, 1, 1⟩, -1⟩]
    m_robHead := 0
    m_robTail := 2
    m_renameTable :=
      List.replicate 3 {} ++ [⟨true, 0⟩, ⟨true, 1⟩] ++ List.replicate 62 {}
    m_issueQueue :=
      [⟨true, ⟨0, 0, 3, 0, 1, 1, -1, -1, false, 7, 4, 5, 6, 9, 13, 14, -1, -1, -1,
          1, 1, 3, 4, 1, 0, 0, 0, 0⟩⟩,
       ⟨true, ⟨0, 0, 4, 1, 3, 0, -1, -1, false, 8, 5, 6, 9, 10, 13, 14, -1, -1, -1,
          1, 3, 1, 3, 1, 0, 0, 0, 0⟩⟩]
    m_executionList := []
    m_instructionCount := 9
    m_cycleCount := n
    m_simulationComplete := true
    m_output :=
      [⟨0, 0, -1, 0, -1, -1, -1, -1, true, 0, 0, 1, 2, 3, 4, 5, 6, 7, 8,
          1, 1, 1, 1, 1, 1, 1, 1, 1⟩,
       ⟨0, 0, 1, 1, -1, -1, -1, -1, true, 1, 1, 2, 3, 4, 5, 6, 7, 8, 9,
          1, 1, 1, 1, 1, 1, 1, 1, 1⟩,
       ⟨0, 0, -1, 2, -1, -1, -1, -1, true, 2, 1, 2, 3, 4, 5, 6, 7, 8, 9,
          1, 1, 1, 1, 1, 1, 1, 1, 1⟩,
       ⟨0, 2, 2, 3, -1, -1, -1, -1, true, 3, 2, 3, 4, 5, 6, 7, 8, 13, 14,
          1, 1, 1, 1, 1, 1, 5, 1, 1⟩,
       ⟨0, 0, -1, 4, 2, -1, -1, -1, true, 4, 2, 3, 4, 5, 6, 7, 13, 14, 15,
          1, 1, 1, 1, 1, 6, 1, 1, 1⟩,
       ⟨0, 0, -1, 5, -1, -1, -1, -1, true, 5, 3, 4, 5, 6, 7, 13, 14, 15, 16,
          1, 1, 1, 1, 6, 1, 1, 1, 1⟩,
       ⟨0, 0, -1, 6, -1, -1, -1, -1, true, 6, 4, 5, 6, 9, 10, 13, 14, 15, 16,
          1, 1, 3, 1, 3, 1, 1, 1, 1⟩] }

/-- Whether the tag `tag` of a source register `srcReg` of an issue queue instruction
`consumer` names a live producer: the tag is none, or the reorder buffer slot it names is
occupied and not ready by an earlier instruction whose destination is `srcReg` and which is
still in the issue queue or the execution list. -/
def TagLive (s : OutOfOrderProcessor) (consumer : Instruction) (srcReg tag : Int) : Prop :=
  tag = -1 ∨ ∃ p, vecGet s.m_reorderBuffer tag = some p ∧ p.valid = true ∧ p.ready = false ∧
    p.destArchReg = srcReg ∧ p.instruction.sequenceNum < consumer.sequenceNum ∧
    ((∃ e ∈ s.m_issueQueue, e.valid = true ∧
        e.instruction.sequenceNum = p.instruction.sequenceNum) ∨
      (∃ e ∈ s.m_executionList, e.instruction.sequenceNum = p.instruction.sequenceNum))

/-- Wakeup completeness of a state: every source tag of every valid issue queue entry names
a live producer. -/
def WakeupComplete (s : OutOfOrderProcessor) : Prop :=
  ∀ e ∈ s.m_issueQueue, e.valid = true →
    TagLive s e.instruction e.instruction.src1Reg e.instruction.src1Rename ∧
    TagLive s e.instruction e.instruction.src2Reg e.instruction.src2Rename

/-- The state on entry to `executeStage` in the tick that starts in `s`. -/
def beforeExecute (cfg : ProcessorParameters) (s : OutOfOrderProcessor) :
    Option OutOfOrderProcessor :=
  match retireStage cfg s with
  | none => none
  | some s => writebackStage s

/-- Whether, in a tick that enters `executeStage` in state `s`, the issue queue entry `j` is
valid, has a source tag cleared by `executeStage`, and is selected by `issueStage` of the
same tick (it is no longer valid afterwards). -/
def wokenAndIssued (cfg : ProcessorParameters) (s : OutOfOrderProcessor) (j : Nat) : Bool :=
  match s.m_issueQueue[j]?, (executeStage cfg s).m_issueQueue[j]?,
      (issueStage cfg (executeStage cfg s)).m_issueQueue[j]? with
  | some e, some e', some e'' =>
    e.valid &&
      ((decide (e.instruction.src1Rename ≠ -1) && decide (e'.instruction.src1Rename = -1)) ||
        (decide (e.instruction.src2Rename ≠ -1) && decide (e'.instruction.src2Rename = -1))) &&
      !e''.valid
  | _, _, _ => false

/-- An issue queue entry that `issueStage` may select: valid, both source tags none. -/
def IssueReady (e : IssueQueueEntry) : Prop :=
  e.valid = true ∧ e.instruction.src1Rename = -1 ∧ e.instruction.src2Rename = -1

/-- A configuration of width 0. -/
def cfgZeroWidth : ProcessorParameters := { robSize := 8, iqSize := 4, width := 0 }

/-- The state on entry to `executeStage` in tick 6 of the S2 run. -/
def stateS2BeforeExecute : OutOfOrderProcessor :=
  (beforeExecute cfgS1 (stateAfter cfgS1 traceS2 6)).getD (initializeStructures cfgS1 traceS2)

/-! ## Rules for the predicates of a tick

What the predicates of the places before a tick (`P`) and after its first eight stages
(`P'`) have to satisfy for `Sat P` to give `Sat P'`: one rule for each stamp and each move
of an instruction. `Bm`, `Rm` and `Qm` hold of the reorder buffer slots, the execution
entries and the issue queue entries after the first loop of their stage. -/

/-- The rules of one tick at cycle `c`. -/
structure StageRules (cfg : ProcessorParameters) (c : Int) (P : StagePredicates)
    (Bm : ReorderBufferEntry → Prop) (Rm : ExecutionEntry → Prop)
    (Qm : IssueQueueEntry → Prop) (P' : StagePredicates) : Prop where
  out_keep : ∀ x, P.out x → P'.out x
  rob_idle : ∀ e, P.rob e → e.valid = false → Bm e
  rob_stamp : ∀ e, P.rob e → Bm (stampRetire c e)
  retire : ∀ e, Bm e → e.valid = true → e.ready = true →
    P'.out (leaveRetire c e.instruction) ∧
    Bm { e with instruction := leaveRetire c e.instruction, valid := false }
  rob_keep : ∀ e, Bm e → P'.rob e
  writeback : ∀ e x, P'.rob e → P.wb x → e.valid = true →
    e.instruction.sequenceNum = (stampWriteback c x).sequenceNum →
    P'.rob { e with ready := true, instruction := leaveWriteback c (stampWriteback c x) }
  ex_stamp : ∀ e, P.ex e → Rm (stampExecute c e)
  ex_done : ∀ e, Rm e → e.remainingCycles = 0 → P'.wb (leaveExecute c e.instruction)
  wake_iq : ∀ d e, P.iq e → P.iq (wakeIssueQueueEntry d e)
  wake_di : ∀ d x, P.di x → P.di (wakeInstruction d x)
  wake_rr : ∀ d x, P.rr x → P.rr (wakeInstruction d x)
  iq_stamp : ∀ e, P.iq e → Qm (stampIssue c e)
  issue : ∀ e, Qm e → IssueReady e →
    Qm { valid := false, instruction := leaveIssue c e.instruction } ∧
    P'.ex { instruction := leaveIssue c e.instruction,
            remainingCycles := execLatency e.instruction.opType }
  iq_keep : ∀ e, Qm e → P'.iq e
  di_stamp : ∀ x, P.di x → P'.di (stampDispatch c x)
  dispatch : ∀ x t1 t2, P.di x →
    P'.iq { valid := true, instruction := leaveDispatch c t1 t2 (stampDispatch c x) }
  rr_stamp : ∀ x, P.rr x → P'.rr (stampRegisterRead c x)
  registerRead : ∀ x t1 t2, P.rr x →
    P'.di (leaveRegisterRead c t1 t2 (stampRegisterRead c x))
  rn_stamp : ∀ x, P.rn x → P'.rn (stampRename c x)
  rename : ∀ x t1 t2, P.rn x →
    P'.rr (leaveRename c t1 t2 (x.sequenceNum % cfg.robSize) (stampRename c x)) ∧
    P'.rob { valid := true, ready := false, instruction := stampRename c x,
             destArchReg := (stampRename c x).destReg }
  de_stamp : ∀ x, P.de x → P'.de (stampDecode c x)
  decode : ∀ x, P.de x → P'.rn (leaveDecode c (stampDecode c x))

/-! ## Instructions and the records they were made of -/

/-- The fields of the trace record an instruction carries. -/
def traceRecordOf (x : Instruction) : TraceRecord :=
  { pc := x.pc, opType := x.opType, destReg := x.destReg, src1Reg := x.src1Reg,
    src2Reg := x.src2Reg }

/-- The instruction carries the fields of the record its sequence number designates. -/
def Faithful (records : List TraceRecord) (x : Instruction) : Prop :=
  records[x.sequenceNum]? = some (traceRecordOf x)

/-- `Faithful` for every instruction in flight: all of the buffers, the execution list and
the output, and the valid entries of the issue queue and of the reorder buffer. -/
def faithfulPredicates (records : List TraceRecord) : StagePredicates :=
  { de := Faithful records, rn := Faithful records, rr := Faithful records,
    di := Faithful records,
    iq := fun e => e.valid = true → Faithful records e.instruction,
    ex := fun e => Faithful records e.instruction,
    wb := Faithful records,
    rob := fun e => e.valid = true → Faithful records e.instruction,
    out := Faithful records }

/-! ## Occupancy of the execution list -/

/-- Number of execution entries with at least `k` cycles remaining. -/
def countRemaining (k : Int) (l : List ExecutionEntry) : Nat :=
  l.countP (fun e => decide (k ≤ e.remainingCycles))

/-- The execution list at the start of a tick: every entry has at least one cycle
remaining, and for `k ≥ 1` at most `(6 - k) * width` entries have `k` or more remaining
(they were issued in the last `6 - k` ticks, at most `width` in each). -/
def ExecBound (cfg : ProcessorParameters) (s : OutOfOrderProcessor) : Prop :=
  (∀ e ∈ s.m_executionList, 1 ≤ e.remainingCycles) ∧
  ∀ k : Nat, 1 ≤ k → countRemaining (k : Int) s.m_executionList ≤ (6 - k) * cfg.width

/-- The execution list between `executeStage` and `issueStage`: as `ExecBound`, one tick
of issue less. -/
def ExecBoundDrained (cfg : ProcessorParameters) (s : OutOfOrderProcessor) : Prop :=
  (∀ e ∈ s.m_executionList, 1 ≤ e.remainingCycles) ∧
  ∀ k : Nat, 1 ≤ k → countRemaining (k : Int) s.m_executionList ≤ (5 - k) * cfg.width

/-! ## Timing of the instructions in flight

For every place of the pipeline, what the cycles and durations of an instruction in this
place are at the start of tick `T`. An instruction that was moved to a place in tick
`T - 1` has the cycle of this place unset and the stage before ends at `T`; the stage of
the place sets the cycle in its first loop at `T`. -/

/-- The cycle `c` of the stage an instruction waits in at the start of tick `T`, where `e`
is the end of the stage before: unset when the instruction arrived in tick `T - 1`, else
set when it arrived. -/
def Arrived (c e T : Int) : Prop :=
  (c = -1 ∧ e = T) ∨ (c = e ∧ c < T)

/-- Fetch is over. -/
def doneFetch (x : Instruction) : Prop :=
  0 ≤ x.fetchCycle ∧ 1 ≤ x.fetchDuration

/-- Decode is over, and began when Fetch ended. -/
def doneDecode (x : Instruction) : Prop :=
  doneFetch x ∧ x.decodeCycle = x.fetchCycle + x.fetchDuration ∧ 1 ≤ x.decodeDuration

/-- Rename is over, and began when Decode ended. -/
def doneRename (x : Instruction) : Prop :=
  doneDecode x ∧ x.renameCycle = x.decodeCycle + x.decodeDuration ∧ 1 ≤ x.renameDuration

/-- Register read is over, and began when Rename ended. -/
def doneRegisterRead (x : Instruction) : Prop :=
  doneRename x ∧ x.regReadCycle = x.renameCycle + x.renameDuration ∧ 1 ≤ x.regReadDuration

/-- Dispatch is over, and began when register read ended. -/
def doneDispatch (x : Instruction) : Prop :=
  doneRegisterRead x ∧ x.dispatchCycle = x.regReadCycle + x.regReadDuration ∧
    1 ≤ x.dispatchDuration

/-- Issue is over, and began when Dispatch ended. -/
def doneIssue (x : Instruction) : Prop :=
  doneDispatch x ∧ x.issueCycle = x.dispatchCycle + x.dispatchDuration ∧ 1 ≤ x.issueDuration

/-- Execute is over, began when Issue ended and took the latency of the operation type. -/
def doneExecute (x : Instruction) : Prop :=
  doneIssue x ∧ x.executeCycle = x.issueCycle + x.issueDuration ∧
    1 ≤ x.executeDuration ∧ x.executeDuration = execLatency x.opType

/-- Writeback is over, and began when Execute ended. -/
def doneWriteback (x : Instruction) : Prop :=
  doneExecute x ∧ x.writebackCycle = x.executeCycle + x.executeDuration ∧
    1 ≤ x.writebackDuration

/-- Retire is over, and began when Writeback ended. -/
def doneRetire (x : Instruction) : Prop :=
  doneWriteback x ∧ x.retireCycle = x.writebackCycle + x.writebackDuration ∧
    1 ≤ x.retireDuration

/-- The cycles of Writeback and Retire are unset. -/
def notWriteback (x : Instruction) : Prop :=
  x.writebackCycle = -1 ∧ x.retireCycle = -1

/-- The cycles from Execute on are unset. -/
def notExecute (x : Instruction) : Prop :=
  x.executeCycle = -1 ∧ notWriteback x

/-- The cycles from Issue on are unset. -/
def notIssue (x : Instruction) : Prop :=
  x.issueCycle = -1 ∧ notExecute x

/-- The cycles from Dispatch on are unset. -/
def notDispatch (x : Instruction) : Prop :=
  x.dispatchCycle = -1 ∧ notIssue x

/-- The cycles from register read on are unset. -/
def notRegisterRead (x : Instruction) : Prop :=
  x.regReadCycle = -1 ∧ notDispatch x

/-- The cycles from Rename on are unset. -/
def notRename (x : Instruction) : Prop :=
  x.renameCycle = -1 ∧ notRegisterRead x

/-- An instruction of the decode buffer at the start of tick `T`. -/
def inDecode (T : Int) (x : Instruction) : Prop :=
  doneFetch x ∧ Arrived x.decodeCycle (x.fetchCycle + x.fetchDuration) T ∧ notRename x

/-- An instruction of the rename buffer at the start of tick `T`. -/
def inRename (T : Int) (x : Instruction) : Prop :=
  doneDecode x ∧ Arrived x.renameCycle (x.decodeCycle + x.decodeDuration) T ∧
    notRegisterRead x

/-- An instruction of the register read buffer at the start of tick `T`. -/
def inRegisterRead (T : Int) (x : Instruction) : Prop :=
  doneRename x ∧ Arrived x.regReadCycle (x.renameCycle + x.renameDuration) T ∧ notDispatch x

/-- An instruction of the dispatch buffer at the start of tick `T`. -/
def inDispatch (T : Int) (x : Instruction) : Prop :=
  doneRegisterRead x ∧ Arrived x.dispatchCycle (x.regReadCycle + x.regReadDuration) T ∧
    notIssue x

/-- The instruction of a valid issue queue entry at the start of tick `T`. -/
def inIssue (T : Int) (x : Instruction) : Prop :=
  doneDispatch x ∧ Arrived x.issueCycle (x.dispatchCycle + x.dispatchDuration) T ∧
    notExecute x

/-- The instruction of a valid issue queue entry after the first loop of `issueStage` in
tick `T`. -/
def issueStamped (T : Int) (x : Instruction) : Prop :=
  doneDispatch x ∧ x.issueCycle = x.dispatchCycle + x.dispatchDuration ∧ x.issueCycle ≤ T ∧
    notExecute x

/-- An execution entry at the start of tick `T`: issued in tick `T - 1` with the whole
latency remaining, or in execution since `executeCycle` with `remainingCycles` to go. -/
def inExecute (T : Int) (e : ExecutionEntry) : Prop :=
  doneIssue e.instruction ∧ notWriteback e.instruction ∧
    ((e.instruction.executeCycle = -1 ∧
        e.instruction.issueCycle + e.instruction.issueDuration = T ∧
        e.remainingCycles = execLatency e.instruction.opType) ∨
     (e.instruction.executeCycle = e.instruction.issueCycle + e.instruction.issueDuration ∧
        e.instruction.executeCycle < T ∧
        e.instruction.executeCycle + execLatency e.instruction.opType =
          T + e.remainingCycles ∧
        1 ≤ e.remainingCycles))

/-- An execution entry after the first loop of `executeStage` in tick `T`. -/
def executeStamped (T : Int) (e : ExecutionEntry) : Prop :=
  doneIssue e.instruction ∧ notWriteback e.instruction ∧
    e.instruction.executeCycle = e.instruction.issueCycle + e.instruction.issueDuration ∧
    e.instruction.executeCycle ≤ T ∧
    e.instruction.executeCycle + execLatency e.instruction.opType =
      T + 1 + e.remainingCycles ∧
    0 ≤ e.remainingCycles

/-- An instruction of the writeback buffer at the start of tick `T`. -/
def inWriteback (T : Int) (x : Instruction) : Prop :=
  doneExecute x ∧ x.executeCycle + x.executeDuration = T ∧ notWriteback x

/-- The instruction of an occupied and ready reorder buffer slot at the start of tick
`T`. -/
def inRetire (T : Int) (x : Instruction) : Prop :=
  doneWriteback x ∧ Arrived x.retireCycle (x.writebackCycle + x.writebackDuration) T

/-- The instruction of an occupied and ready reorder buffer slot after the first loop of
`retireStage` in tick `T`. -/
def retireStamped (T : Int) (x : Instruction) : Prop :=
  doneWriteback x ∧ x.retireCycle = x.writebackCycle + x.writebackDuration ∧
    x.retireCycle ≤ T

/-- The timing predicates of all places at the start of tick `T`. -/
def timingPredicates (T : Int) : StagePredicates :=
  { de := inDecode T, rn := inRename T, rr := inRegisterRead T, di := inDispatch T,
    iq := fun e => e.valid = true → inIssue T e.instruction,
    ex := inExecute T,
    wb := inWriteback T,
    rob := fun e => e.valid = true → e.ready = true → inRetire T e.instruction,
    out := doneRetire }

/-! ## Properties of a printed record -/

/-- Each of the nine durations is at least 1, and each stage before Retire lasts until the
cycle of the next stage. -/
def DurationIdentity (t : TimingRecord) : Prop :=
  (1 ≤ t.FE.2 ∧ 1 ≤ t.DE.2 ∧ 1 ≤ t.RN.2 ∧ 1 ≤ t.RR.2 ∧ 1 ≤ t.DI.2 ∧ 1 ≤ t.IS.2 ∧
    1 ≤ t.EX.2 ∧ 1 ≤ t.WB.2 ∧ 1 ≤ t.RT.2) ∧
  t.DE.1 = t.FE.1 + t.FE.2 ∧ t.RN.1 = t.DE.1 + t.DE.2 ∧ t.RR.1 = t.RN.1 + t.RN.2 ∧
  t.DI.1 = t.RR.1 + t.RR.2 ∧ t.IS.1 = t.DI.1 + t.DI.2 ∧ t.EX.1 = t.IS.1 + t.IS.2 ∧
  t.WB.1 = t.EX.1 + t.EX.2 ∧ t.RT.1 = t.WB.1 + t.WB.2

/-- The stage cycles of the record do not decrease from Fetch to Retire. -/
def MonotoneStamps (t : TimingRecord) : Prop :=
  t.FE.1 ≤ t.DE.1 ∧ t.DE.1 ≤ t.RN.1 ∧ t.RN.1 ≤ t.RR.1 ∧ t.RR.1 ≤ t.DI.1 ∧ t.DI.1 ≤ t.IS.1 ∧
  t.IS.1 ≤ t.EX.1 ∧ t.EX.1 ≤ t.WB.1 ∧ t.WB.1 ≤ t.RT.1

/-- The latency contract of a record: for operation type 0, 1, 2 the writeback cycle is
1, 2, 5 after the execute cycle, and the execute duration is the same number. -/
def LatencyContract (t : TimingRecord) : Prop :=
  (t.fu = 0 → t.WB.1 - t.EX.1 = 1 ∧ t.EX.2 = 1) ∧
  (t.fu = 1 → t.WB.1 - t.EX.1 = 2 ∧ t.EX.2 = 2) ∧
  (t.fu = 2 → t.WB.1 - t.EX.1 = 5 ∧ t.EX.2 = 5)

/-! ## The rename map -/

/-- Slot `i` of the reorder buffer is occupied by instruction number `n`, which writes the
architectural register `r`. -/
def Producer (rob : List ReorderBufferEntry) (r : Int) (i n : Nat) : Prop :=
  ∃ e, rob[i]? = some e ∧ e.valid = true ∧ e.destArchReg = r ∧ e.instruction.sequenceNum = n

/-- Slot `i` holds the youngest producer of `r` in the reorder buffer. -/
def Youngest (rob : List ReorderBufferEntry) (r : Int) (i : Nat) : Prop :=
  ∃ n, Producer rob r i n ∧ ∀ j m, Producer rob r j m → m ≤ n

/-- Slot `i` holds the youngest of the producers of `r` with a number below `k`. -/
def YoungestBefore (rob : List ReorderBufferEntry) (r : Int) (k i : Nat) : Prop :=
  ∃ n, Producer rob r i n ∧ n < k ∧ ∀ j m, Producer rob r j m → m < k → m ≤ n

/-- The rename table entry `m` of register `r` is valid exactly when some occupied reorder
buffer slot writes `r`, and then its tag is the slot of the youngest of them. -/
def RenameEntryOK (rob : List ReorderBufferEntry) (r : Nat) (m : RenameTableEntry) : Prop :=
  (m.valid = true ↔ ∃ i n, Producer rob r i n) ∧
  (m.valid = true → 0 ≤ m.robTag ∧ Youngest rob r m.robTag.toNat)

/-- Invariant R1: every entry of the rename table is as `RenameEntryOK` says. -/
def RenameMapOK (s : OutOfOrderProcessor) : Prop :=
  ∀ (r : Nat) (m : RenameTableEntry), s.m_renameTable[r]? = some m →
    RenameEntryOK s.m_reorderBuffer r m

/-- The tag `tag` given to the source register `reg` of instruction number `k`: none for
no register; for a register, the slot of the youngest producer before `k` in the reorder
buffer, and none when there is no producer before `k`. -/
def SourceTagOK (rob : List ReorderBufferEntry) (k : Nat) (reg tag : Int) : Prop :=
  (reg = -1 → tag = -1) ∧
  (reg ≠ -1 →
    (tag = -1 ∧ ¬ ∃ i n, Producer rob reg i n ∧ n < k) ∨
    (0 ≤ tag ∧ YoungestBefore rob reg k tag.toNat))

/-- Both source tags of a renamed instruction are as `SourceTagOK` says. -/
def RenamedOK (rob : List ReorderBufferEntry) (x : Instruction) : Prop :=
  SourceTagOK rob x.sequenceNum x.src1Reg x.src1Rename ∧
  SourceTagOK rob x.sequenceNum x.src2Reg x.src2Rename

/-- The state on entry to `renameStage` in the tick that starts in `s`. -/
def beforeRename (cfg : ProcessorParameters) (s : OutOfOrderProcessor) :
    Option OutOfOrderProcessor :=
  match retireStage cfg s with
  | none => none
  | some s =>
    match writebackStage s with
    | none => none
    | some s =>
      match dispatchStage cfg (issueStage cfg (executeStage cfg s)) with
      | none => none
      | some s => registerReadStage cfg s

/-- The destination tag of a renamed instruction is the slot its number designates. -/
def Tagged (cfg : ProcessorParameters) (x : Instruction) : Prop :=
  x.destRename = ((x.sequenceNum % cfg.robSize : Nat) : Int)

/-- Both source tags are none, as in an instruction that was not renamed yet. -/
def Unrenamed (x : Instruction) : Prop :=
  x.src1Rename = -1 ∧ x.src2Rename = -1

/-- Every occupied and ready slot of the reorder buffer holds an instruction whose
destination register is the one the slot records and whose destination tag is the slot. -/
def SlotsTagged (s : OutOfOrderProcessor) : Prop :=
  ∀ (i : Nat) (e : ReorderBufferEntry), s.m_reorderBuffer[i]? = some e → e.valid = true →
    e.ready = true →
    e.instruction.destReg = e.destArchReg ∧ e.instruction.destRename = (i : Int)

/-- For every place: the instruction is faithful to its record, not renamed before Rename
and tagged with its slot after; an occupied reorder buffer slot records the destination of
its instruction. -/
def taggedPredicates (cfg : ProcessorParameters) (records : List TraceRecord) :
    StagePredicates :=
  { de := fun x => Faithful records x ∧ Unrenamed x,
    rn := fun x => Faithful records x ∧ Unrenamed x,
    rr := fun x => Faithful records x ∧ Tagged cfg x,
    di := fun x => Faithful records x ∧ Tagged cfg x,
    iq := fun e => e.valid = true → Faithful records e.instruction ∧ Tagged cfg e.instruction,
    ex := fun e => Faithful records e.instruction ∧ Tagged cfg e.instruction,
    wb := fun x => Faithful records x ∧ Tagged cfg x,
    rob := fun e => e.valid = true →
      Faithful records e.instruction ∧ e.destArchReg = e.instruction.destReg ∧
      (e.ready = true → Tagged cfg e.instruction),
    out := fun _ => True }

/-! ## Termination on traces of well-formed records

The names of what the termination proof keeps track of: where the instructions between
Rename and Writeback are, what their source tags name, how full the buffers of the front
end are, and a potential that every tick lowers. -/

/-- The configurations on which the driver can make progress: a width of at least 1, and a
reorder buffer and an issue queue of at least `width` entries. -/
def WellConfigured (cfg : ProcessorParameters) : Prop :=
  0 < cfg.width ∧ cfg.width ≤ cfg.robSize ∧ cfg.width ≤ cfg.iqSize

/-- The register numbers of a trace record are none (`-1`) or architectural registers. -/
def RegsInRange (r : TraceRecord) : Prop :=
  (-1 ≤ r.destReg ∧ r.destReg < ARF_SIZE) ∧ (-1 ≤ r.src1Reg ∧ r.src1Reg < ARF_SIZE) ∧
  (-1 ≤ r.src2Reg ∧ r.src2Reg < ARF_SIZE)

/-- What `executeStage` does for one completed entry when the writeback buffer has room:
the three wakeup loops, then the move to the writeback buffer. -/
def completeOne (cyc : Int) (c : ExecuteContext) (y : ExecutionEntry) : ExecuteContext :=
  { wakeup y.instruction.destRename c with
    wb := (wakeup y.instruction.destRename c).wb ++ [leaveExecute cyc y.instruction] }

/-- `completeOne` for a list of completed entries, in order. -/
def completeAll (cyc : Int) (done : List ExecutionEntry) (c : ExecuteContext) :
    ExecuteContext :=
  done.foldl (completeOne cyc) c

/-- Numbers of the instructions in the writeback buffer, the execution list and the valid
issue queue entries. -/
def backSeqs (s : OutOfOrderProcessor) : List Nat :=
  s.m_writebackBuffer.map (fun x => x.sequenceNum) ++
  s.m_executionList.map (fun e => e.instruction.sequenceNum) ++
  (s.m_issueQueue.filter (fun e => e.valid)).map (fun e => e.instruction.sequenceNum)

/-- Numbers of the instructions in the dispatch and register read buffers. -/
def frontSeqs (s : OutOfOrderProcessor) : List Nat :=
  (s.m_dispatchBuffer ++ s.m_registerReadBuffer).map (fun x => x.sequenceNum)

/-- Numbers of the instructions between Rename and Writeback. -/
def flightSeqs (s : OutOfOrderProcessor) : List Nat :=
  backSeqs s ++ frontSeqs s

/-- Slot `i` of the reorder buffer is occupied by instruction number `q`, not yet ready. -/
def Pending (rob : List ReorderBufferEntry) (i q : Nat) : Prop :=
  ∃ e, rob[i]? = some e ∧ e.valid = true ∧ e.ready = false ∧ e.instruction.sequenceNum = q

/-- Slot `i` of the reorder buffer holds instruction number `q`, occupied or ready. -/
def Named (rob : List ReorderBufferEntry) (i q : Nat) : Prop :=
  ∃ e, rob[i]? = some e ∧ e.instruction.sequenceNum = q ∧ (e.ready = true ∨ e.valid = true)

/-- Numbers of the instructions in the writeback buffer. -/
def wbSeqs (s : OutOfOrderProcessor) : List Nat :=
  s.m_writebackBuffer.map (fun x => x.sequenceNum)

/-- The instructions between Rename and Writeback are those of the occupied, not ready
slots of the reorder buffer, each in one place; the dispatch and register read buffers hold
the youngest of them, in order. -/
structure Located (s : OutOfOrderProcessor) : Prop where
  here : ∀ q ∈ flightSeqs s, ∃ i, Pending s.m_reorderBuffer i q
  there : ∀ i q, Pending s.m_reorderBuffer i q → q ∈ flightSeqs s
  nodup : (flightSeqs s).Nodup
  sorted : (frontSeqs s).Pairwise (fun a b => a < b)
  older : ∀ a ∈ backSeqs s, ∀ b ∈ frontSeqs s, a < b

/-- The source tag `t` of instruction number `k` is none or names a slot occupied by an
older instruction that is not ready and not in the writeback buffer. -/
def TagWaits (s : OutOfOrderProcessor) (k : Nat) (t : Int) : Prop :=
  t = -1 ∨ ∃ e, vecGet s.m_reorderBuffer t = some e ∧ e.valid = true ∧ e.ready = false ∧
    e.instruction.sequenceNum < k ∧
    e.instruction.sequenceNum ∉ s.m_writebackBuffer.map (fun x => x.sequenceNum)

/-- The source tag `t` of instruction number `k` is none or names a slot that holds an
older instruction, still occupied or ready. -/
def TagNamed (s : OutOfOrderProcessor) (k : Nat) (t : Int) : Prop :=
  t = -1 ∨ ∃ e, vecGet s.m_reorderBuffer t = some e ∧ e.instruction.sequenceNum < k ∧
    (e.ready = true ∨ e.valid = true)

/-- The source tag `t` is none or names a slot that is ready or whose instruction is not in
the writeback buffer. -/
def TagSettled (s : OutOfOrderProcessor) (t : Int) : Prop :=
  t = -1 ∨ ∃ e, vecGet s.m_reorderBuffer t = some e ∧
    (e.ready = true ∨
      e.instruction.sequenceNum ∉ s.m_writebackBuffer.map (fun x => x.sequenceNum))

/-- No source tag names a retired or re-allocated slot: those of the issue queue and the
dispatch buffer wait on producers before their wakeup, those of the register read buffer
name older instructions. -/
structure Wakeup (s : OutOfOrderProcessor) : Prop where
  iq : ∀ e ∈ s.m_issueQueue, e.valid = true →
    TagWaits s e.instruction.sequenceNum e.instruction.src1Rename ∧
    TagWaits s e.instruction.sequenceNum e.instruction.src2Rename
  di : ∀ x ∈ s.m_dispatchBuffer,
    TagWaits s x.sequenceNum x.src1Rename ∧ TagWaits s x.sequenceNum x.src2Rename
  rr : ∀ x ∈ s.m_registerReadBuffer,
    TagNamed s x.sequenceNum x.src1Rename ∧ TagNamed s x.sequenceNum x.src2Rename

/-- The tags of the register read buffer are settled (between Writeback and Rename). -/
def Settled (s : OutOfOrderProcessor) : Prop :=
  ∀ x ∈ s.m_registerReadBuffer, TagSettled s x.src1Rename ∧ TagSettled s x.src2Rename

/-- Every buffer of the front end is empty, holds a full bundle of `width` instructions,
or holds the last, shorter bundle with nothing behind it. -/
def Aligned (cfg : ProcessorParameters) (s : OutOfOrderProcessor) : Prop :=
  (s.m_decodeBuffer.length = 0 ∨ s.m_decodeBuffer.length = cfg.width ∨
    (s.m_decodeBuffer.length < cfg.width ∧ s.m_traceFile.length = 0)) ∧
  (s.m_renameBuffer.length = 0 ∨ s.m_renameBuffer.length = cfg.width ∨
    (s.m_renameBuffer.length < cfg.width ∧ s.m_decodeBuffer.length = 0 ∧
      s.m_traceFile.length = 0)) ∧
  (s.m_registerReadBuffer.length = 0 ∨ s.m_registerReadBuffer.length = cfg.width ∨
    (s.m_registerReadBuffer.length < cfg.width ∧ s.m_renameBuffer.length = 0 ∧
      s.m_decodeBuffer.length = 0 ∧ s.m_traceFile.length = 0)) ∧
  (s.m_dispatchBuffer.length = 0 ∨ s.m_dispatchBuffer.length = cfg.width ∨
    (s.m_dispatchBuffer.length < cfg.width ∧ s.m_registerReadBuffer.length = 0 ∧
      s.m_renameBuffer.length = 0 ∧ s.m_decodeBuffer.length = 0 ∧
      s.m_traceFile.length = 0))

/-- Every number from the count of printed records up to the youngest allocated one has
its occupied slot in the reorder buffer. -/
def Contiguous (cfg : ProcessorParameters) (s : OutOfOrderProcessor) : Prop :=
  ∀ q, s.m_output.length ≤ q → q < s.m_output.length + countValid s.m_reorderBuffer →
    ∃ e, s.m_reorderBuffer[q % cfg.robSize]? = some e ∧ e.valid = true ∧
      e.instruction.sequenceNum = q

/-- The potential of a state: every instruction counts the steps it still has to take,
from 13 for a record not yet read to 1 for a ready slot of the reorder buffer; an
execution entry counts 2 plus its remaining cycles. -/
def potential (s : OutOfOrderProcessor) : Nat :=
  13 * s.m_traceFile.length + 12 * s.m_decodeBuffer.length + 11 * s.m_renameBuffer.length +
  10 * s.m_registerReadBuffer.length + 9 * s.m_dispatchBuffer.length +
  8 * s.m_issueQueue.countP (fun e => e.valid) +
  (s.m_executionList.map (fun e => (2 + e.remainingCycles).toNat)).sum +
  2 * s.m_writebackBuffer.length +
  s.m_reorderBuffer.countP (fun e => e.valid && e.ready)

/-- All structures are empty: the five buffers and the execution list hold nothing, no
issue queue entry and no reorder buffer slot is occupied. -/
def AllEmpty (s : OutOfOrderProcessor) : Prop :=
  s.m_decodeBuffer = [] ∧ s.m_renameBuffer = [] ∧ s.m_registerReadBuffer = [] ∧
  s.m_dispatchBuffer = [] ∧ s.m_writebackBuffer = [] ∧ s.m_executionList = [] ∧
  (∀ e ∈ s.m_issueQueue, e.valid = false) ∧ (∀ e ∈ s.m_reorderBuffer, e.valid = false)

/-- The wakeups of the dispatch and register read buffers for the tags `ds`, in order. -/
def wakeAll (ds : List Int) (x : Instruction) : Instruction :=
  ds.foldl (fun x d => wakeInstruction d x) x

/-- The wakeups of an issue queue entry for the tags `ds`, in order. -/
def wakeAllEntry (ds : List Int) (e : IssueQueueEntry) : IssueQueueEntry :=
  ds.foldl (fun e d => wakeIssueQueueEntry d e) e

/-- The instruction `x'` is `x` after wakeups for the tags `ds`: each source tag is now
none, or is as before and not among `ds`; nothing else has changed. -/
def Woken (ds : List Int) (x x' : Instruction) : Prop :=
  ∃ t1 t2, x' = { x with src1Rename := t1, src2Rename := t2 } ∧
    (t1 = -1 ∨ (t1 = x.src1Rename ∧ t1 ∉ ds)) ∧ (t2 = -1 ∨ (t2 = x.src2Rename ∧ t2 ∉ ds))

/-- The source tag `t` of instruction number `k` is none or names a slot occupied by an
older instruction that is not ready and whose number is not among `wb`. -/
def Waits (rob : List ReorderBufferEntry) (wb : List Nat) (k : Nat) (t : Int) : Prop :=
  t = -1 ∨ (0 ≤ t ∧ ∃ q, q < k ∧ Pending rob t.toNat q ∧ q ∉ wb)

/-- The source tag `t` of instruction number `k` is none or names a slot that holds an
older instruction, still occupied or ready. -/
def Names (rob : List ReorderBufferEntry) (k : Nat) (t : Int) : Prop :=
  t = -1 ∨ (0 ≤ t ∧ ∃ q, q < k ∧ Named rob t.toNat q)

/-- The source tag `t` is none or names a slot whose instruction, if not ready, is not
among `wb`. -/
def Settles (rob : List ReorderBufferEntry) (wb : List Nat) (t : Int) : Prop :=
  t = -1 ∨ ∀ q, Pending rob t.toNat q → q ∉ wb

/-- No source tag names a retired or re-allocated slot: those of the issue queue and the
dispatch buffer wait on producers that are not in the writeback buffer, those of the
register read buffer name older instructions. -/
structure TagsOK (s : OutOfOrderProcessor) : Prop where
  iq : ∀ e ∈ s.m_issueQueue, e.valid = true →
    Waits s.m_reorderBuffer (wbSeqs s) e.instruction.sequenceNum e.instruction.src1Rename ∧
    Waits s.m_reorderBuffer (wbSeqs s) e.instruction.sequenceNum e.instruction.src2Rename
  di : ∀ x ∈ s.m_dispatchBuffer,
    Waits s.m_reorderBuffer (wbSeqs s) x.sequenceNum x.src1Rename ∧
    Waits s.m_reorderBuffer (wbSeqs s) x.sequenceNum x.src2Rename
  rr : ∀ x ∈ s.m_registerReadBuffer,
    Names s.m_reorderBuffer x.sequenceNum x.src1Rename ∧
    Names s.m_reorderBuffer x.sequenceNum x.src2Rename

/-- The tags of the register read buffer are settled (between Execute and register
read). -/
def TagsSettled (s : OutOfOrderProcessor) : Prop :=
  ∀ x ∈ s.m_registerReadBuffer,
    Settles s.m_reorderBuffer (wbSeqs s) x.src1Rename ∧
    Settles s.m_reorderBuffer (wbSeqs s) x.src2Rename

/-- The head slot of the reorder buffer is not occupied and ready: Retire has nothing to
retire. -/
def HeadIdle (s : OutOfOrderProcessor) : Prop :=
  ∃ e, s.m_reorderBuffer[s.m_robHead]? = some e ∧ (e.valid && e.ready) = false

/-- What the termination proof keeps at every stage boundary: the layout of the sequence
numbers, the alignment of the front end, the places of the instructions in flight, the
meaning of the source tags, and the sizes of the issue queue and the rename table. -/
structure Flight (cfg : ProcessorParameters) (s : OutOfOrderProcessor) : Prop where
  layout : SeqLayout cfg s
  aligned : Aligned cfg s
  located : Located s
  tags : TagsOK s
  iq_len : s.m_issueQueue.length = cfg.iqSize
  rmt_len : s.m_renameTable.length = ARF_SIZE

/-- How `writebackStage` may change a slot of the reorder buffer when the writeback buffer
holds the instructions numbered `W`: the slot stays occupied or free and keeps its number;
it becomes ready only when it is occupied by one of `W`. -/
def WbRel (W : List Nat) (e e' : ReorderBufferEntry) : Prop :=
  e'.valid = e.valid ∧ e'.instruction.sequenceNum = e.instruction.sequenceNum ∧
  (e'.ready = e.ready ∨
    (e'.ready = true ∧ e.valid = true ∧ e.instruction.sequenceNum ∈ W))

/-- Outcomes of the `fscanf` calls of `fetchStage` on a file with a malformed record
between two records, as for the two lines `"0 0 1 -1 -1"` and `"4 c 0 2 -1 -1"`: the
second call stops at `c` with one field parsed, the third reads `c 0 2 -1 -1` and returns
5; the end of the file follows. -/
def traceResume : List (Option TraceRecord) :=
  [some { pc := 0, opType := 0, destReg := 1, src1Reg := -1, src2Reg := -1 },
   none,
   some { pc := 12, opType := 0, destReg := 2, src1Reg := -1, src2Reg := -1 }]

/-- Entry `k` of the issue queue is the one the specification selects: it is valid with
both source tags none, no such entry has a smaller `fetchCycle`, and no such entry with the
same `fetchCycle` has a smaller index. -/
def OldestReady (iq : List IssueQueueEntry) (k : Nat) : Prop :=
  ∃ e, iq[k]? = some e ∧ IssueReady e ∧
    ∀ (j : Nat) (e' : IssueQueueEntry), iq[j]? = some e' → IssueReady e' →
      e.instruction.fetchCycle ≤ e'.instruction.fetchCycle ∧
      (e'.instruction.fetchCycle = e.instruction.fetchCycle → k ≤ j)

/-- The occupied slots of the reorder buffer are the window from `head` to `tail`: at most
`robSize` slots are occupied, head and tail are indices of the buffer, the tail is the head
advanced by the number of occupied slots, and slot `i` is occupied exactly when it is one
of `head, head + 1, ...` (modulo `robSize`), as many as are occupied. -/
def RobWindow (cfg : ProcessorParameters) (s : OutOfOrderProcessor) : Prop :=
  countValid s.m_reorderBuffer ≤ cfg.robSize ∧
  s.m_robHead < cfg.robSize ∧ s.m_robTail < cfg.robSize ∧
  s.m_robTail = (s.m_robHead + countValid s.m_reorderBuffer) % cfg.robSize ∧
  ∀ (i : Nat) (e : ReorderBufferEntry), s.m_reorderBuffer[i]? = some e →
    (e.valid = true ↔
      ∃ k, k < countValid s.m_reorderBuffer ∧ i = (s.m_robHead + k) % cfg.robSize)

/-- The number of consecutive slots that are both valid and ready, starting at slot `h`
and going on modulo the size of the reorder buffer, among the first `n` slots. -/
def readyRun (rob : List ReorderBufferEntry) : Nat → Nat → Nat
  | 0, _ => 0
  | n + 1, h =>
    match rob[h]? with
    | none => 0
    | some e => if e.valid && e.ready then readyRun rob n ((h + 1) % rob.length) + 1 else 0

/-- What the specification says of a Retire that retires `k` instructions in cycle `cyc`,
from the state `st` (after the stamps of the first loop) to `st'`: `k` records are printed
after those printed before, the `j`-th of them for the slot `head + j` modulo `robSize`,
which was valid and ready and is now not valid; the head advances by `k`; no other slot
changes. -/
def RetiredRun (cfg : ProcessorParameters) (cyc : Int) (st st' : OutOfOrderProcessor)
    (k : Nat) : Prop :=
  st'.m_output.length = st.m_output.length + k ∧
  (∀ i : Nat, i < st.m_output.length → st'.m_output[i]? = st.m_output[i]?) ∧
  st'.m_robHead = (st.m_robHead + k) % cfg.robSize ∧
  st'.m_reorderBuffer.length = cfg.robSize ∧
  (∀ j : Nat, j < k → ∃ e, st.m_reorderBuffer[(st.m_robHead + j) % cfg.robSize]? = some e ∧
    e.valid = true ∧ e.ready = true ∧
    st'.m_output[st.m_output.length + j]? = some (leaveRetire cyc e.instruction) ∧
    st'.m_reorderBuffer[(st.m_robHead + j) % cfg.robSize]? =
      some { e with instruction := leaveRetire cyc e.instruction, valid := false }) ∧
  (∀ i : Nat, (∀ j : Nat, j < k → i ≠ (st.m_robHead + j) % cfg.robSize) →
    st'.m_reorderBuffer[i]? = st.m_reorderBuffer[i]?)

/-- The source tag `t` is none or the index of a reorder buffer slot. -/
def TagBound (cfg : ProcessorParameters) (t : Int) : Prop :=
  t = -1 ∨ (0 ≤ t ∧ t < (cfg.robSize : Int))

/-- What keeps every access of a tick in bounds, on any trace: the instructions between
Rename and Writeback have their slots (`Located`), the rename table has its 67 entries, the
register read and dispatch buffers hold at most `width` instructions, the source tags they
carry are none or indices of the reorder buffer, and the issue queue has its `iqSize`
entries. -/
structure Housed (cfg : ProcessorParameters) (s : OutOfOrderProcessor) : Prop where
  located : Located s
  rmt_len : s.m_renameTable.length = ARF_SIZE
  rr_cap : s.m_registerReadBuffer.length ≤ cfg.width
  di_cap : s.m_dispatchBuffer.length ≤ cfg.width
  rr_tags : ∀ x ∈ s.m_registerReadBuffer,
    TagBound cfg x.src1Rename ∧ TagBound cfg x.src2Rename
  di_tags : ∀ x ∈ s.m_dispatchBuffer,
    TagBound cfg x.src1Rename ∧ TagBound cfg x.src2Rename
  iq_len : s.m_issueQueue.length = cfg.iqSize

/-- Whether a run of the `while (isExecutionNeeded())` loop of `executeStage` leaves
through the `return` it takes when it finds `width * 5` instructions in the writeback
buffer: the loop of `executeLoop`, keeping only this. -/
def executeLoopEarly (cfg : ProcessorParameters) (cyc : Int) :
    Nat → List ExecutionEntry → ExecuteContext → Bool
  | 0, _, _ => false
  | fuel + 1, ex, c =>
    if isExecutionNeeded ex then
      let r := executePass cfg cyc ex c
      if r.2.2 then true else executeLoopEarly cfg cyc fuel r.1 r.2.1
    else false

/-- Whether `executeStage` takes its early `return` on a full writeback buffer. -/
def executeReturnsEarly (cfg : ProcessorParameters) (s : OutOfOrderProcessor) : Bool :=
  if s.m_executionList.isEmpty then false
  else
    let cyc : Int := s.m_cycleCount
    let ex := s.m_executionList.map (stampExecute cyc)
    executeLoopEarly cfg cyc (ex.length + 1) ex
      { iq := s.m_issueQueue, di := s.m_dispatchBuffer, rr := s.m_registerReadBuffer,
        wb := s.m_writebackBuffer }

/-- Number of calls of `executeStage` that have decremented an execution entry: its latency
less what remains. -/
def execAge (e : ExecutionEntry) : Int :=
  execLatency e.instruction.opType - e.remainingCycles

/-- Number of execution entries decremented `d` times. -/
def countAge (d : Int) (l : List ExecutionEntry) : Nat :=
  l.countP (fun e => decide (execAge e = d))

/-- The execution list at the start of a tick: no entry has more cycles remaining than its
latency, and at most `width` entries have been decremented `d` times, for every `d` (they
were issued in one tick). -/
def AgeBound (cfg : ProcessorParameters) (s : OutOfOrderProcessor) : Prop :=
  (∀ e ∈ s.m_executionList, 0 ≤ execAge e) ∧
  ∀ d : Int, countAge d s.m_executionList ≤ cfg.width

/-- The execution list between `executeStage` and `issueStage`: as `AgeBound`, and every
entry has been decremented. -/
def AgeBoundDrained (cfg : ProcessorParameters) (s : OutOfOrderProcessor) : Prop :=
  (∀ e ∈ s.m_executionList, 1 ≤ execAge e) ∧
  ∀ d : Int, countAge d s.m_executionList ≤ cfg.width

/-- Trace of five independent instructions of types 2, 0, 0, 1, 0: with a width of 1 they
are issued in five successive ticks, and the first, the fourth and the fifth complete in the
same tick. -/
def traceBurst : List (Option TraceRecord) :=
  wellFormedTrace
    [{ pc := 0, opType := 2, destReg := -1, src1Reg := -1, src2Reg := -1 },
     { pc := 4, opType := 0, destReg := -1, src1Reg := -1, src2Reg := -1 },
     { pc := 8, opType := 0, destReg := -1, src1Reg := -1, src2Reg := -1 },
     { pc := 12, opType := 1, destReg := -1, src1Reg := -1, src2Reg := -1 },
     { pc := 16, opType := 0, destReg := -1, src1Reg := -1, src2Reg := -1 }]

/-- The state on entry to `executeStage` in tick 11 of the run on `traceBurst`. -/
def stateBurstBeforeExecute : OutOfOrderProcessor :=
  (beforeExecute cfgS1 (stateAfter cfgS1 traceBurst 10)).getD
    (initializeStructures cfgS1 traceBurst)

/-- The state on entry to `writebackStage` in tick 12 of the run on `traceBurst`. -/
def stateBurstBeforeWriteback : OutOfOrderProcessor :=
  (retireStage cfgS1 (stateAfter cfgS1 traceBurst 11)).getD
    (initializeStructures cfgS1 traceBurst)

/-- Number of reorder buffer slots that are occupied and ready. -/
def countReadySlots (rob : List ReorderBufferEntry) : Nat :=
  rob.countP (fun e => e.valid && e.ready)

/-! # Theorems -/

/-- C9. Scenario S1: the one-record trace `"0 0 1 2 3"` with `rob=8 iq=4 width=1` prints
exactly one record, sequence number 0, `fu 0`, `src {2,3}`, `dst 1`, with stage pairs
`FE{0,1} DE{1,1} RN{2,1} RR{3,1} DI{4,1} IS{5,1} EX{6,1} WB{7,1} RT{8,1}`; the run halts
with instruction count 1 and cycle count 9. -/
theorem scenario_S1_record :
    report (simulate cfgS1 9 (initializeStructures cfgS1 traceS1)) =
      some ([{ seq := 0, fu := 0, src1 := 2, src2 := 3, dst := 1,
               FE := (0, 1), DE := (1, 1), RN := (2, 1), RR := (3, 1), DI := (4, 1),
               IS := (5, 1), EX := (6, 1), WB := (7, 1), RT := (8, 1) }], 1, 9) := by
  decide

/-- C8, as stated, fails: on the S2 trace with `rob=8 iq=4 width=1` the run halts with
three records, and they do not meet the expectation that each successor's `IS` cycle is at
least one greater than its predecessor's `WB` cycle. -/
theorem scenario_S2_expectation_fails :
    ∃ r, report (simulate cfgS1 11 (initializeStructures cfgS1 traceS2)) = some r ∧
      ¬ S2Expected r.1 :=
  ⟨(outputS2, 3, 11), by decide, by decide⟩

/-- C8, amended. On the S2 trace with `rob=8 iq=4 width=1` all three instructions retire
(the run halts after 11 cycles with instruction count 3), and each successor's `IS` cycle is
one less than its predecessor's `WB` cycle: it is issued in the cycle in which its
predecessor completes Execute, and its `EX` cycle is the predecessor's `WB` cycle. -/
theorem scenario_S2_observed :
    ∃ out, report (simulate cfgS1 11 (initializeStructures cfgS1 traceS2)) = some (out, 3, 11) ∧
      S2Observed out :=
  ⟨outputS2, by decide, by decide⟩

/-! ## Lists and arithmetic -/

theorem countValid_set {rob : List ReorderBufferEntry} {i : Nat} {e0 e : ReorderBufferEntry}
    (h : rob[i]? = some e0) :
    countValid (rob.set i e) + (if e0.valid then 1 else 0) =
      countValid rob + (if e.valid then 1 else 0) := by
  induction rob generalizing i with
  | nil => simp at h
  | cons a l ih =>
    cases i with
    | zero =>
      simp only [List.getElem?_cons_zero, Option.some.injEq] at h
      subst h
      simp only [countValid, List.set_cons_zero, List.countP_cons]
      omega
    | succ k =>
      simp only [List.getElem?_cons_succ] at h
      have := ih h
      simp only [countValid, List.set_cons_succ, List.countP_cons] at this ⊢
      omega

theorem countFree_add_countValid (rob : List ReorderBufferEntry) :
    (rob.filter (fun e => !e.valid)).length + countValid rob = rob.length := by
  induction rob with
  | nil => rfl
  | cons a l ih =>
    simp only [countValid, List.filter_cons, List.countP_cons, List.length_cons] at ih ⊢
    cases h : a.valid <;> simp <;> omega

theorem mod_window_unique {n a q1 q2 : Nat} (h1 : a ≤ q1) (h1' : q1 < a + n) (h2 : a ≤ q2)
    (h2' : q2 < a + n) (h : q1 % n = q2 % n) : q1 = q2 := by
  rcases Nat.le_total q1 q2 with hle | hle
  · have hd : n ∣ q2 - q1 := (Nat.modEq_iff_dvd' hle).1 h
    have : q2 - q1 = 0 := Nat.eq_zero_of_dvd_of_lt hd (by omega)
    omega
  · have hd : n ∣ q1 - q2 := (Nat.modEq_iff_dvd' hle).1 h.symm
    have : q1 - q2 = 0 := Nat.eq_zero_of_dvd_of_lt hd (by omega)
    omega

theorem succ_mod_mod (a n : Nat) : (a % n + 1) % n = (a + 1) % n := by
  rw [Nat.add_mod a 1 n, Nat.add_mod (a % n) 1 n, Nat.mod_mod]

/-! ## Sequence layout -/

/-- What the sequence layout reads of a reorder buffer entry. -/
theorem countValid_eq_of_keys {rob rob' : List ReorderBufferEntry}
    (h : rob'.map (fun e => (e.valid, e.instruction.sequenceNum)) =
      rob.map (fun e => (e.valid, e.instruction.sequenceNum))) :
    countValid rob' = countValid rob := by
  have h1 : ∀ l : List ReorderBufferEntry, countValid l =
      (l.map (fun e => (e.valid, e.instruction.sequenceNum))).countP (fun p => p.1) := by
    intro l
    simp only [countValid, List.countP_map]
    rfl
  rw [h1, h1, h]

theorem getElem?_of_keys {rob rob' : List ReorderBufferEntry}
    (h : rob'.map (fun e => (e.valid, e.instruction.sequenceNum)) =
      rob.map (fun e => (e.valid, e.instruction.sequenceNum)))
    {i : Nat} {e' : ReorderBufferEntry} (he : rob'[i]? = some e') :
    ∃ e, rob[i]? = some e ∧ e.valid = e'.valid ∧
      e.instruction.sequenceNum = e'.instruction.sequenceNum := by
  have h2 := congrArg (fun l => l[i]?) h
  simp only [List.getElem?_map, he, Option.map_some'] at h2
  cases hr : rob[i]? with
  | none => simp [hr] at h2
  | some e =>
    simp only [hr, Option.map_some', Option.some.injEq, Prod.mk.injEq] at h2
    exact ⟨e, rfl, h2.1.symm, h2.2.symm⟩

theorem SeqLayout.of_keys {cfg : ProcessorParameters} {s s' : OutOfOrderProcessor}
    (h : SeqLayout cfg s)
    (hrob : s'.m_reorderBuffer.map (fun e => (e.valid, e.instruction.sequenceNum)) =
      s.m_reorderBuffer.map (fun e => (e.valid, e.instruction.sequenceNum)))
    (hhead : s'.m_robHead = s.m_robHead) (htail : s'.m_robTail = s.m_robTail)
    (hout : s'.m_output = s.m_output)
    (hcnt : s'.m_instructionCount = s.m_instructionCount)
    (hlen : s'.m_renameBuffer.length + s'.m_decodeBuffer.length =
      s.m_renameBuffer.length + s.m_decodeBuffer.length)
    (hfront : (s'.m_renameBuffer ++ s'.m_decodeBuffer).map (fun x => x.sequenceNum) =
      (s.m_renameBuffer ++ s.m_decodeBuffer).map (fun x => x.sequenceNum)) :
    SeqLayout cfg s' := by
  have hcv := countValid_eq_of_keys hrob
  have hl : s'.m_reorderBuffer.length = s.m_reorderBuffer.length := by
    simpa using congrArg List.length hrob
  refine ⟨by rw [hl, h.rob_len], by rw [hhead, hout, h.head_eq], by rw [htail, hout, hcv, h.tail_eq],
    ?_, by rw [hout, h.out_seq], ?_, ?_⟩
  · rw [hout, hcv, hcnt, ← h.total]; omega
  · intro i e' he' hv
    obtain ⟨e, he, hv', hs'⟩ := getElem?_of_keys hrob he'
    rw [hout, hcv, ← hs']
    exact h.rob_seq i e he (hv'.trans hv)
  · rw [hfront, hout, hcv, hlen, h.front_seq]

/-- States that differ only in what the sequence layout does not read. -/
theorem SeqLayout.frame {cfg : ProcessorParameters} {s s' : OutOfOrderProcessor}
    (h : SeqLayout cfg s)
    (hrob : s'.m_reorderBuffer = s.m_reorderBuffer)
    (hhead : s'.m_robHead = s.m_robHead) (htail : s'.m_robTail = s.m_robTail)
    (hout : s'.m_output = s.m_output)
    (hcnt : s'.m_instructionCount = s.m_instructionCount)
    (hrn : s'.m_renameBuffer = s.m_renameBuffer)
    (hde : s'.m_decodeBuffer = s.m_decodeBuffer) :
    SeqLayout cfg s' :=
  h.of_keys (by rw [hrob]) hhead htail hout hcnt (by rw [hrn, hde]) (by rw [hrn, hde])

theorem SeqLayout.init (cfg : ProcessorParameters) (trace : List (Option TraceRecord)) :
    SeqLayout cfg (initializeStructures cfg trace) := by
  have hc : countValid (List.replicate cfg.robSize ({} : ReorderBufferEntry)) = 0 := by
    simp [countValid, List.countP_replicate]
  refine ⟨by simp [initializeStructures], by simp [initializeStructures], ?_, ?_, by
    simp [initializeStructures], ?_, ?_⟩
  · simp [initializeStructures, hc]
  · simp [initializeStructures, hc]
  · intro i e he hv
    simp only [initializeStructures, List.getElem?_replicate] at he
    split at he
    · simp only [Option.some.injEq] at he
      subst he
      simp at hv
    · simp at he
  · simp [initializeStructures]

/-! ### Fetch -/

theorem SeqLayout.fetchLoop {cfg : ProcessorParameters} (n : Nat) :
    ∀ s : OutOfOrderProcessor, SeqLayout cfg s → SeqLayout cfg (fetchLoop n s) := by
  induction n with
  | zero => intro s h; exact h
  | succ n ih =>
    intro s h
    unfold OoO.fetchLoop
    split
    · exact h.frame rfl rfl rfl rfl rfl rfl rfl
    · exact h.frame rfl rfl rfl rfl rfl rfl rfl
    · apply ih
      refine ⟨h.rob_len, h.head_eq, h.tail_eq, ?_, h.out_seq, h.rob_seq, ?_⟩
      · have := h.total
        simp only [List.length_append, List.length_singleton]
        omega
      · have ht := h.total
        have hf := h.front_seq
        simp only [List.map_append, List.length_append, List.length_singleton, List.map_cons,
          List.map_nil, createInstruction, fetchInstruction] at hf ⊢
        rw [← Nat.add_assoc, List.range'_concat, ← List.append_assoc, hf]
        simp only [Nat.one_mul, List.append_cancel_left_eq, List.cons.injEq, and_true]
        omega

theorem SeqLayout.fetchStage {cfg : ProcessorParameters} {s : OutOfOrderProcessor}
    (h : SeqLayout cfg s) : SeqLayout cfg (fetchStage cfg s) := by
  unfold OoO.fetchStage
  split
  · exact h
  · exact SeqLayout.fetchLoop _ _ h

/-! ### Decode -/

theorem decodeLoop_seq (cfg : ProcessorParameters) (cyc : Int) :
    ∀ de rn : List Instruction,
      ((decodeLoop cfg cyc de rn).2 ++ (decodeLoop cfg cyc de rn).1).map
        (fun x => x.sequenceNum) = (rn ++ de).map (fun x => x.sequenceNum) := by
  intro de
  induction de with
  | nil => intro rn; simp [decodeLoop]
  | cons x de ih =>
    intro rn
    unfold decodeLoop
    split
    · rw [ih]
      simp [leaveDecode]
    · rfl

theorem map_stamp_seq (f : Instruction → Instruction)
    (hf : ∀ x, (f x).sequenceNum = x.sequenceNum) (l : List Instruction) :
    (l.map f).map (fun x => x.sequenceNum) = l.map (fun x => x.sequenceNum) := by
  rw [List.map_map]
  apply List.map_congr_left
  intro x _
  exact hf x

theorem SeqLayout.decodeStage {cfg : ProcessorParameters} {s : OutOfOrderProcessor}
    (h : SeqLayout cfg s) : SeqLayout cfg (decodeStage cfg s) := by
  have hst : (s.m_decodeBuffer.map (stampDecode (s.m_cycleCount : Int))).map
      (fun x => x.sequenceNum) = s.m_decodeBuffer.map (fun x => x.sequenceNum) :=
    map_stamp_seq _ (by intro x; unfold stampDecode; split <;> rfl) _
  unfold OoO.decodeStage
  simp only
  split
  · refine h.of_keys rfl rfl rfl rfl rfl (by simp) ?_
    simp only [List.map_append, hst]
  · have hl := decodeLoop_seq cfg (s.m_cycleCount : Int)
      (s.m_decodeBuffer.map (stampDecode (s.m_cycleCount : Int))) s.m_renameBuffer
    have hf : ((decodeLoop cfg (s.m_cycleCount : Int)
        (s.m_decodeBuffer.map (stampDecode (s.m_cycleCount : Int))) s.m_renameBuffer).2 ++
        (decodeLoop cfg (s.m_cycleCount : Int)
        (s.m_decodeBuffer.map (stampDecode (s.m_cycleCount : Int))) s.m_renameBuffer).1).map
        (fun x => x.sequenceNum) =
        (s.m_renameBuffer ++ s.m_decodeBuffer).map (fun x => x.sequenceNum) := by
      rw [hl]
      simp only [List.map_append, hst]
    refine h.of_keys rfl rfl rfl rfl rfl ?_ hf
    have := congrArg List.length hf
    simpa using this

/-! ### Rename -/

theorem range'_cons_eq {a : Nat} {l : List Nat} {b n : Nat} (h : a :: l = List.range' b (n + 1)) :
    a = b ∧ l = List.range' (b + 1) n := by
  rw [List.range'_succ] at h
  simp only [List.cons.injEq] at h
  exact h

theorem SeqLayout.allocate {cfg : ProcessorParameters} {s : OutOfOrderProcessor}
    (h : SeqLayout cfg s) {inst : Instruction} {rn : List Instruction}
    (hrn : s.m_renameBuffer = inst :: rn) {et : ReorderBufferEntry}
    (het : s.m_reorderBuffer[s.m_robTail]? = some et)
    (hfree : 1 ≤ (s.m_reorderBuffer.filter (fun e => !e.valid)).length)
    (ne : ReorderBufferEntry) (hnv : ne.valid = true)
    (hns : ne.instruction.sequenceNum = inst.sequenceNum)
    (rmt : List RenameTableEntry) (rr : List Instruction) :
    SeqLayout cfg { s with
      m_reorderBuffer := s.m_reorderBuffer.set s.m_robTail ne
      m_renameTable := rmt
      m_registerReadBuffer := rr
      m_renameBuffer := rn
      m_robTail := (s.m_robTail + 1) % cfg.robSize } ∧
    ((s.m_reorderBuffer.set s.m_robTail ne).filter (fun e => !e.valid)).length + 1 =
      (s.m_reorderBuffer.filter (fun e => !e.valid)).length ∧
    et.valid = false := by
  have hfc := countFree_add_countValid s.m_reorderBuffer
  have hlen := h.rob_len
  have hcv : countValid s.m_reorderBuffer < cfg.robSize := by omega
  have hf := h.front_seq
  rw [hrn] at hf
  simp only [List.cons_append, List.map_cons, List.length_cons] at hf
  rw [show rn.length + 1 + s.m_decodeBuffer.length = (rn.length + s.m_decodeBuffer.length) + 1 by
    omega] at hf
  obtain ⟨hseq, hrest⟩ := range'_cons_eq hf
  have hetv : et.valid = false := by
    cases hv : et.valid with
    | false => rfl
    | true =>
      exfalso
      obtain ⟨h1, h2, h3⟩ := h.rob_seq _ et het hv
      have h4 : et.instruction.sequenceNum % cfg.robSize =
          (s.m_output.length + countValid s.m_reorderBuffer) % cfg.robSize := by
        rw [h3, h.tail_eq]
      have := mod_window_unique (a := s.m_output.length) h1 (by omega) (by omega) (by omega) h4
      omega
  have hset := countValid_set (e := ne) het
  rw [hetv, hnv] at hset
  simp only [Bool.false_eq_true, if_false, if_true, Nat.add_zero] at hset
  have hfc' := countFree_add_countValid (s.m_reorderBuffer.set s.m_robTail ne)
  rw [List.length_set] at hfc'
  refine ⟨⟨by simp [hlen], h.head_eq, ?_, ?_, h.out_seq, ?_, ?_⟩, by omega, hetv⟩
  · dsimp only
    rw [hset, h.tail_eq, succ_mod_mod]
    rfl
  · have := h.total
    rw [hrn] at this
    simp only [List.length_cons] at this
    dsimp only
    omega
  · intro i e he hv
    dsimp only at he ⊢
    simp only [List.getElem?_set] at he
    split at he
    · rename_i hi
      split at he
      · simp only [Option.some.injEq] at he
        subst he
        rw [hns, hseq, hset]
        refine ⟨by omega, by omega, ?_⟩
        rw [← hi, h.tail_eq]
      · simp at he
    · obtain ⟨h1, h2, h3⟩ := h.rob_seq i e he hv
      exact ⟨h1, by omega, h3⟩
  · dsimp only
    rw [hset, hrest]
    rfl

theorem SeqLayout.renameLoop {cfg : ProcessorParameters} (cyc : Int) :
    ∀ (rn : List Instruction) (s s' : OutOfOrderProcessor), s.m_renameBuffer = rn →
      SeqLayout cfg s →
      cfg.width ≤ (s.m_reorderBuffer.filter (fun e => !e.valid)).length +
        s.m_registerReadBuffer.length →
      renameLoop cfg cyc rn s = some s' → SeqLayout cfg s' := by
  intro rn
  induction rn with
  | nil =>
    intro s s' hrn h _ hs
    simp only [OoO.renameLoop, Option.some.injEq] at hs
    subst hs
    exact h.frame rfl rfl rfl rfl rfl hrn.symm rfl
  | cons inst rn ih =>
    intro s s' hrn h hw hs
    unfold OoO.renameLoop at hs
    split at hs
    · rename_i hlt
      split at hs
      · simp at hs
      · rename_i et het
        split at hs
        · simp at hs
        · split at hs
          · simp at hs
          · split at hs
            · simp at hs
            · have ha := fun rmt rr => h.allocate hrn het (by omega)
                { valid := true, ready := false, instruction := inst,
                  destArchReg := inst.destReg } rfl rfl rmt rr
              refine ih _ s' rfl (ha _ _).1 ?_ hs
              have := (ha [] []).2.1
              simp only [List.length_append, List.length_singleton]
              omega
    · simp only [Option.some.injEq] at hs
      subst hs
      exact h.frame rfl rfl rfl rfl rfl hrn.symm rfl

theorem SeqLayout.renameStage {cfg : ProcessorParameters} {s s' : OutOfOrderProcessor}
    (h : SeqLayout cfg s) (hs : renameStage cfg s = some s') : SeqLayout cfg s' := by
  have hst : (s.m_renameBuffer.map (stampRename (s.m_cycleCount : Int))).map
      (fun x => x.sequenceNum) = s.m_renameBuffer.map (fun x => x.sequenceNum) :=
    map_stamp_seq _ (by intro x; unfold stampRename; split <;> rfl) _
  have h1 : SeqLayout cfg { s with
      m_renameBuffer := s.m_renameBuffer.map (stampRename (s.m_cycleCount : Int)) } := by
    refine h.of_keys rfl rfl rfl rfl rfl (by simp) ?_
    simp only [List.map_append, hst]
  unfold OoO.renameStage at hs
  simp only at hs
  split at hs
  · simp only [Option.some.injEq] at hs
    subst hs
    exact h1
  · rename_i hc
    simp only [Bool.or_eq_true, decide_eq_true_eq, not_or, isReorderBufferFull,
      Nat.not_lt] at hc
    exact SeqLayout.renameLoop _ _ _ _ rfl h1 (by
      show cfg.width ≤ (s.m_reorderBuffer.filter (fun e => !e.valid)).length + _
      omega) hs

/-! ### Retire -/

theorem SeqLayout.head_seq {cfg : ProcessorParameters} {s : OutOfOrderProcessor}
    (h : SeqLayout cfg s) {e : ReorderBufferEntry}
    (he : s.m_reorderBuffer[s.m_robHead]? = some e) (hv : e.valid = true) :
    e.instruction.sequenceNum = s.m_output.length := by
  obtain ⟨h1, h2, h3⟩ := h.rob_seq _ e he hv
  have hle : countValid s.m_reorderBuffer ≤ cfg.robSize := by
    rw [← h.rob_len]
    exact List.countP_le_length _
  rw [h.head_eq] at h3
  exact mod_window_unique (a := s.m_output.length) h1 (by omega) (by omega) (by omega) h3

theorem SeqLayout.retireOne {cfg : ProcessorParameters} {s : OutOfOrderProcessor}
    (h : SeqLayout cfg s) {e : ReorderBufferEntry}
    (he : s.m_reorderBuffer[s.m_robHead]? = some e) (hv : e.valid = true)
    (inst : Instruction) (hi : inst.sequenceNum = e.instruction.sequenceNum)
    (ne : ReorderBufferEntry) (hnv : ne.valid = false) (rmt : List RenameTableEntry) :
    SeqLayout cfg { s with
      m_output := s.m_output ++ [inst]
      m_renameTable := rmt
      m_reorderBuffer := s.m_reorderBuffer.set s.m_robHead ne
      m_robHead := (s.m_robHead + 1) % cfg.robSize } := by
  have hq := h.head_seq he hv
  obtain ⟨h1, h2, h3⟩ := h.rob_seq _ e he hv
  have hset := countValid_set (e := ne) he
  rw [hv, hnv] at hset
  simp only [Bool.false_eq_true, if_false, if_true, Nat.add_zero] at hset
  refine ⟨by simp [h.rob_len], ?_, ?_, ?_, ?_, ?_, ?_⟩
  · dsimp only
    rw [List.length_append, List.length_singleton, h.head_eq, succ_mod_mod]
  · dsimp only
    rw [List.length_append, List.length_singleton, h.tail_eq]
    congr 1
    omega
  · have := h.total
    dsimp only
    rw [List.length_append, List.length_singleton]
    omega
  · dsimp only
    rw [List.map_append, h.out_seq, List.length_append, List.length_singleton,
      List.range_succ]
    simp [hi, hq]
  · intro i e' he' hv'
    dsimp only at he' ⊢
    rw [List.length_append, List.length_singleton]
    simp only [List.getElem?_set] at he'
    split at he'
    · split at he'
      · simp only [Option.some.injEq] at he'
        subst he'
        rw [hnv] at hv'
        simp at hv'
      · simp at he'
    · rename_i hne
      obtain ⟨g1, g2, g3⟩ := h.rob_seq i e' he' hv'
      refine ⟨?_, by omega, g3⟩
      have : e'.instruction.sequenceNum ≠ s.m_output.length := by
        intro hc
        apply hne
        rw [h.head_eq, ← hc, g3]
      omega
  · dsimp only
    rw [List.length_append, List.length_singleton]
    have := h.front_seq
    rw [show s.m_output.length + 1 + countValid (s.m_reorderBuffer.set s.m_robHead ne) =
      s.m_output.length + countValid s.m_reorderBuffer by omega]
    exact this

theorem SeqLayout.retireLoop {cfg : ProcessorParameters} (cyc : Int) :
    ∀ (n : Nat) (s s' : OutOfOrderProcessor), SeqLayout cfg s →
      retireLoop cfg cyc n s = some s' → SeqLayout cfg s' := by
  intro n
  induction n with
  | zero =>
    intro s s' h hs
    simp only [OoO.retireLoop, Option.some.injEq] at hs
    subst hs
    exact h
  | succ n ih =>
    intro s s' h hs
    unfold OoO.retireLoop at hs
    split at hs
    · simp at hs
    · rename_i e he
      split at hs
      · rename_i hvr
        simp only [Bool.and_eq_true] at hvr
        simp only at hs
        split at hs
        · simp at hs
        · refine ih _ s' ?_ hs
          exact h.retireOne he hvr.1 (leaveRetire cyc e.instruction) rfl
            { e with instruction := leaveRetire cyc e.instruction, valid := false } rfl _
      · exact ih _ s' h hs

theorem SeqLayout.retireStage {cfg : ProcessorParameters} {s s' : OutOfOrderProcessor}
    (h : SeqLayout cfg s) (hs : retireStage cfg s = some s') : SeqLayout cfg s' := by
  unfold OoO.retireStage at hs
  split at hs
  · simp only [Option.some.injEq] at hs
    subst hs
    exact h
  · refine SeqLayout.retireLoop _ _ _ s' ?_ hs
    refine h.of_keys ?_ rfl rfl rfl rfl rfl rfl
    dsimp only
    rw [List.map_map]
    apply List.map_congr_left
    intro e _
    simp only [Function.comp, stampRetire]
    split <;> rfl

/-! ### Writeback -/

theorem writebackPass_keys (cyc : Int) :
    ∀ (rob : List ReorderBufferEntry) (wb : List Instruction),
      (writebackPass cyc rob wb).1.map (fun e => (e.valid, e.instruction.sequenceNum)) =
        rob.map (fun e => (e.valid, e.instruction.sequenceNum)) := by
  intro rob
  induction rob with
  | nil => intro wb; simp [writebackPass]
  | cons e rob ih =>
    intro wb
    cases wb with
    | nil => simp [writebackPass]
    | cons front wb =>
      unfold writebackPass
      split
      · rename_i hc
        simp only [Bool.and_eq_true, decide_eq_true_eq] at hc
        simp only [List.map_cons, ih, List.cons.injEq, Prod.mk.injEq, and_true]
        simp [hc.1, hc.2, leaveWriteback]
      · simp only [List.map_cons, ih]

theorem writebackLoop_keys (cyc : Int) :
    ∀ (fuel : Nat) (rob rob' : List ReorderBufferEntry) (wb : List Instruction),
      writebackLoop cyc fuel rob wb = some rob' →
      rob'.map (fun e => (e.valid, e.instruction.sequenceNum)) =
        rob.map (fun e => (e.valid, e.instruction.sequenceNum)) := by
  intro fuel
  induction fuel with
  | zero =>
    intro rob rob' wb h
    unfold writebackLoop at h
    split at h
    · simp only [Option.some.injEq] at h
      rw [h]
    · simp at h
  | succ fuel ih =>
    intro rob rob' wb h
    unfold writebackLoop at h
    split at h
    · simp only [Option.some.injEq] at h
      rw [h]
    · simp only at h
      split at h
      · simp at h
      · rw [ih _ _ _ h, writebackPass_keys]

theorem SeqLayout.writebackStage {cfg : ProcessorParameters} {s s' : OutOfOrderProcessor}
    (h : SeqLayout cfg s) (hs : writebackStage s = some s') : SeqLayout cfg s' := by
  unfold OoO.writebackStage at hs
  simp only at hs
  split at hs
  · simp at hs
  · rename_i rob hrob
    simp only [Option.some.injEq] at hs
    subst hs
    exact h.of_keys (writebackLoop_keys _ _ _ _ _ hrob) rfl rfl rfl rfl rfl rfl

/-! ### The stages that leave the layout alone -/

theorem executeStage_frame (cfg : ProcessorParameters) (s : OutOfOrderProcessor) :
    ∃ ex iq di rr wb, executeStage cfg s = { s with
      m_executionList := ex, m_issueQueue := iq, m_dispatchBuffer := di,
      m_registerReadBuffer := rr, m_writebackBuffer := wb } := by
  unfold executeStage
  split
  · exact ⟨_, _, _, _, _, rfl⟩
  · exact ⟨_, _, _, _, _, rfl⟩

theorem issueStage_frame (cfg : ProcessorParameters) (s : OutOfOrderProcessor) :
    ∃ iq ex, issueStage cfg s = { s with m_issueQueue := iq, m_executionList := ex } := by
  unfold issueStage
  split
  · exact ⟨_, _, rfl⟩
  · exact ⟨_, _, rfl⟩

theorem dispatchStage_frame {cfg : ProcessorParameters} {s s' : OutOfOrderProcessor}
    (hs : dispatchStage cfg s = some s') :
    ∃ di iq, s' = { s with m_dispatchBuffer := di, m_issueQueue := iq } := by
  unfold dispatchStage at hs
  simp only at hs
  split at hs
  · simp only [Option.some.injEq] at hs
    exact ⟨_, _, hs.symm⟩
  · split at hs
    · simp at hs
    · simp only [Option.some.injEq] at hs
      exact ⟨_, _, hs.symm⟩

theorem registerReadStage_frame {cfg : ProcessorParameters} {s s' : OutOfOrderProcessor}
    (hs : registerReadStage cfg s = some s') :
    ∃ rr di, s' = { s with m_registerReadBuffer := rr, m_dispatchBuffer := di } := by
  unfold registerReadStage at hs
  simp only at hs
  split at hs
  · simp only [Option.some.injEq] at hs
    exact ⟨_, _, hs.symm⟩
  · split at hs
    · simp at hs
    · simp only [Option.some.injEq] at hs
      exact ⟨_, _, hs.symm⟩

theorem SeqLayout.executeStage {cfg : ProcessorParameters} {s : OutOfOrderProcessor}
    (h : SeqLayout cfg s) : SeqLayout cfg (executeStage cfg s) := by
  obtain ⟨ex, iq, di, rr, wb, he⟩ := executeStage_frame cfg s
  rw [he]
  exact h.frame rfl rfl rfl rfl rfl rfl rfl

theorem SeqLayout.issueStage {cfg : ProcessorParameters} {s : OutOfOrderProcessor}
    (h : SeqLayout cfg s) : SeqLayout cfg (issueStage cfg s) := by
  obtain ⟨iq, ex, he⟩ := issueStage_frame cfg s
  rw [he]
  exact h.frame rfl rfl rfl rfl rfl rfl rfl

theorem SeqLayout.dispatchStage {cfg : ProcessorParameters} {s s' : OutOfOrderProcessor}
    (h : SeqLayout cfg s) (hs : dispatchStage cfg s = some s') : SeqLayout cfg s' := by
  obtain ⟨di, iq, he⟩ := dispatchStage_frame hs
  rw [he]
  exact h.frame rfl rfl rfl rfl rfl rfl rfl

theorem SeqLayout.registerReadStage {cfg : ProcessorParameters} {s s' : OutOfOrderProcessor}
    (h : SeqLayout cfg s) (hs : registerReadStage cfg s = some s') : SeqLayout cfg s' := by
  obtain ⟨rr, di, he⟩ := registerReadStage_frame hs
  rw [he]
  exact h.frame rfl rfl rfl rfl rfl rfl rfl

/-! ### A whole tick -/

/-- The nine stages of a tick, named one by one. -/
theorem pipelineStages_eq_some {cfg : ProcessorParameters} {s s' : OutOfOrderProcessor}
    (h : pipelineStages cfg s = some s') :
    ∃ s1 s2 s5 s6 s7, retireStage cfg s = some s1 ∧ writebackStage s1 = some s2 ∧
      dispatchStage cfg (issueStage cfg (executeStage cfg s2)) = some s5 ∧
      registerReadStage cfg s5 = some s6 ∧ renameStage cfg s6 = some s7 ∧
      s' = fetchStage cfg (decodeStage cfg s7) := by
  unfold pipelineStages at h
  split at h
  · simp at h
  · rename_i s1 h1
    split at h
    · simp at h
    · rename_i s2 h2
      simp only at h
      split at h
      · simp at h
      · rename_i s5 h5
        split at h
        · simp at h
        · rename_i s6 h6
          split at h
          · simp at h
          · rename_i s7 h7
            simp only [Option.some.injEq] at h
            exact ⟨s1, s2, s5, s6, s7, h1, h2, h5, h6, h7, h.symm⟩

theorem SeqLayout.pipelineStages {cfg : ProcessorParameters} {s s' : OutOfOrderProcessor}
    (h : SeqLayout cfg s) (hs : pipelineStages cfg s = some s') : SeqLayout cfg s' := by
  obtain ⟨s1, s2, s5, s6, s7, h1, h2, h5, h6, h7, rfl⟩ := pipelineStages_eq_some hs
  exact ((((((h.retireStage h1).writebackStage h2).executeStage.issueStage.dispatchStage
    h5).registerReadStage h6).renameStage h7).decodeStage).fetchStage

theorem tick_eq_some {cfg : ProcessorParameters} {s s' : OutOfOrderProcessor} {b : Bool}
    (h : tick cfg s = some (s', b)) :
    ∃ s9, pipelineStages cfg s = some s9 ∧
      s' = { s9 with m_cycleCount := s9.m_cycleCount + 1 } ∧ b = hasInstructions s' := by
  unfold tick at h
  split at h
  · simp at h
  · rename_i s9 h9
    simp only [advanceCycle, Option.some.injEq, Prod.mk.injEq] at h
    exact ⟨s9, h9, h.1.symm, by rw [← h.1]; exact h.2.symm⟩

theorem SeqLayout.tick {cfg : ProcessorParameters} {s s' : OutOfOrderProcessor} {b : Bool}
    (h : SeqLayout cfg s) (hs : tick cfg s = some (s', b)) : SeqLayout cfg s' := by
  obtain ⟨s9, h9, rfl, _⟩ := tick_eq_some hs
  exact (h.pipelineStages h9).frame rfl rfl rfl rfl rfl rfl rfl

theorem SeqLayout.of_reach {cfg : ProcessorParameters} {trace : List (Option TraceRecord)}
    {s : OutOfOrderProcessor} {b : Bool} (h : Reach cfg trace s b) : SeqLayout cfg s := by
  induction h with
  | init => exact SeqLayout.init cfg trace
  | step _ ht ih => exact ih.tick ht

/-- What a bounded run of `simulate` ends in is a state of the run. -/
theorem reach_of_simulate {cfg : ProcessorParameters} {trace : List (Option TraceRecord)} :
    ∀ (fuel : Nat) (s : OutOfOrderProcessor), Reach cfg trace s true →
      (∀ s', simulate cfg fuel s = SimResult.halted s' → Reach cfg trace s' false) ∧
      (∀ s', simulate cfg fuel s = SimResult.running s' → Reach cfg trace s' true) := by
  intro fuel
  induction fuel with
  | zero =>
    intro s hr
    constructor
    · intro s' h; simp [simulate] at h
    · intro s' h
      simp only [simulate, SimResult.running.injEq] at h
      exact h ▸ hr
  | succ fuel ih =>
    intro s hr
    unfold simulate
    split
    · constructor <;> intro s' h <;> simp at h
    · rename_i s1 ht
      exact ih s1 (Reach.step hr ht)
    · rename_i s1 ht
      constructor
      · intro s' h
        simp only [SimResult.halted.injEq] at h
        exact h ▸ Reach.step hr ht
      · intro s' h; simp at h

/-- The state a bounded run ends in is a state of the run. -/
theorem reach_stateAfter (cfg : ProcessorParameters) (trace : List (Option TraceRecord))
    (fuel : Nat) : ∃ b, Reach cfg trace (stateAfter cfg trace fuel) b := by
  have h := @reach_of_simulate cfg trace fuel _ Reach.init
  unfold stateAfter
  split
  · rename_i s hs
    exact ⟨false, h.1 s hs⟩
  · rename_i s hs
    exact ⟨true, h.2 s hs⟩
  · exact ⟨true, Reach.init⟩

/-- C1. Retirement order: in every state of a run of `simulate`, whatever the configuration
and the trace, the records printed so far carry strictly increasing sequence numbers. -/
theorem retirement_order {cfg : ProcessorParameters} {trace : List (Option TraceRecord)}
    {s : OutOfOrderProcessor} {b : Bool} (h : Reach cfg trace s b) :
    List.Pairwise (fun i j => i.seq < j.seq) (s.m_output.map printInstructionDetails) := by
  have hs := (SeqLayout.of_reach h).out_seq
  rw [List.pairwise_map]
  have : List.Pairwise (fun a b => a < b) (s.m_output.map (fun x => x.sequenceNum)) := by
    rw [hs]
    exact List.pairwise_lt_range _
  rw [List.pairwise_map] at this
  exact this

theorem retirement_order_witness :
    (stateAfter cfgS1 traceS2 11).m_output.length = 3 ∧
      List.Pairwise (fun i j => i.seq < j.seq)
        ((stateAfter cfgS1 traceS2 11).m_output.map printInstructionDetails) :=
  ⟨by decide, (reach_stateAfter cfgS1 traceS2 11).elim (fun _ h => retirement_order h)⟩

theorem simulate_succ (cfg : ProcessorParameters) (fuel : Nat) (s : OutOfOrderProcessor) :
    simulate cfg (fuel + 1) s =
      match tick cfg s with
      | none => SimResult.undefinedBehaviour
      | some (s, true) => simulate cfg fuel s
      | some (s, false) => SimResult.halted s := rfl

theorem simulate_add {cfg : ProcessorParameters} :
    ∀ (k : Nat) (s s' : OutOfOrderProcessor) (fuel : Nat),
      simulate cfg k s = SimResult.running s' →
      simulate cfg (k + fuel) s = simulate cfg fuel s' := by
  intro k
  induction k with
  | zero =>
    intro s s' fuel h
    simp only [simulate, SimResult.running.injEq] at h
    subst h
    simp
  | succ k ih =>
    intro s s' fuel h
    rw [show k + 1 + fuel = (k + fuel) + 1 by omega, simulate_succ]
    rw [simulate_succ] at h
    split at h
    · simp at h
    · exact ih _ _ _ h
    · simp at h

theorem simulate_running_of_le {cfg : ProcessorParameters} :
    ∀ (k : Nat) (s s' : OutOfOrderProcessor), simulate cfg k s = SimResult.running s' →
      ∀ j, j ≤ k → ∃ s'', simulate cfg j s = SimResult.running s'' := by
  intro k
  induction k with
  | zero =>
    intro s s' h j hj
    have : j = 0 := by omega
    subst this
    exact ⟨s', h⟩
  | succ k ih =>
    intro s s' h j hj
    cases j with
    | zero => exact ⟨s, rfl⟩
    | succ j =>
      rw [simulate_succ] at h ⊢
      split at h
      · simp at h
      · exact ih _ _ h j (by omega)
      · simp at h

theorem simulate_stuck {cfg : ProcessorParameters} (stuck : Nat → OutOfOrderProcessor)
    (h : ∀ n, tick cfg (stuck n) = some (stuck (n + 1), true)) :
    ∀ fuel n, simulate cfg fuel (stuck n) = SimResult.running (stuck (n + fuel)) := by
  intro fuel
  induction fuel with
  | zero => intro n; rfl
  | succ fuel ih =>
    intro n
    rw [simulate_succ, h n]
    simp only
    rw [ih (n + 1)]
    congr 2
    omega

theorem never_halts_of_stuck {cfg : ProcessorParameters} {s0 : OutOfOrderProcessor}
    (stuck : Nat → OutOfOrderProcessor) (k n0 : Nat)
    (hstart : simulate cfg k s0 = SimResult.running (stuck n0))
    (h : ∀ n, tick cfg (stuck n) = some (stuck (n + 1), true)) :
    ∀ fuel, ∃ s, simulate cfg fuel s0 = SimResult.running s := by
  intro fuel
  rcases Nat.lt_or_ge fuel k with hlt | hge
  · exact simulate_running_of_le k _ _ hstart fuel (by omega)
  · obtain ⟨d, rfl⟩ := Nat.exists_eq_add_of_le hge
    rw [simulate_add k _ _ d hstart, simulate_stuck stuck h]
    exact ⟨_, rfl⟩

theorem stuckNarrowRob_runs_forever (fuel : Nat) :
    ∃ s, simulate cfgNarrowRob fuel (initializeStructures cfgNarrowRob traceS1) =
      SimResult.running s := by
  have h1 : simulate cfgNarrowRob 3 (initializeStructures cfgNarrowRob traceS1) =
      SimResult.running (stuckNarrowRob 3) := rfl
  have h2 : ∀ n, tick cfgNarrowRob (stuckNarrowRob n) = some (stuckNarrowRob (n + 1), true) :=
    fun _ => rfl
  exact never_halts_of_stuck stuckNarrowRob 3 3 h1 h2 fuel

theorem stuckStale_start :
    simulate cfgStale 18 (initializeStructures cfgStale traceStale) =
      SimResult.running (stuckStale 18) := rfl

theorem stuckStale_runs_forever (fuel : Nat) :
    ∃ s, simulate cfgStale fuel (initializeStructures cfgStale traceStale) =
      SimResult.running s := by
  have h2 : ∀ n, tick cfgStale (stuckStale n) = some (stuckStale (n + 1), true) :=
    fun _ => rfl
  exact never_halts_of_stuck stuckStale 18 18 stuckStale_start h2 fuel

/-- C10, as stated, fails: with `robSize = 1`, `iqSize = 1`, `width = 2` (all positive) and
the one-record trace `"0 0 1 2 3"` the cycle driver never halts, whatever the number of
ticks: Rename finds fewer than `width` free reorder buffer slots in every tick. -/
theorem narrow_rob_never_halts :
    ¬ ∃ fuel s, simulate cfgNarrowRob fuel (initializeStructures cfgNarrowRob traceS1) =
      SimResult.halted s := by
  rintro ⟨fuel, s, h⟩
  obtain ⟨s', h'⟩ := stuckNarrowRob_runs_forever fuel
  rw [h'] at h
  simp at h

/-- C6 on the code: on `traceStale` (a malformed record is followed by well-formed ones,
which Fetch goes on to read) with `robSize = 7`, `iqSize = 2`, `width = 2`, the run reaches
at the end of tick 18 a state whose issue queue entry for instruction 7 waits on reorder
buffer slot 1, a slot re-allocated to the later instruction 8 after its producer
(instruction 1) retired; wakeup completeness fails there, and the run never halts. -/
theorem stale_tag_lost_wakeup :
    Reach cfgStale traceStale (stuckStale 18) true ∧ ¬ WakeupComplete (stuckStale 18) ∧
      ¬ ∃ fuel s, simulate cfgStale fuel (initializeStructures cfgStale traceStale) =
        SimResult.halted s := by
  refine ⟨(reach_of_simulate 18 _ Reach.init).2 _ stuckStale_start, ?_, ?_⟩
  · intro h
    have h0 := (h _ (List.mem_cons_self _ _) rfl).1
    rcases h0 with h1 | ⟨p, hp, _, _, hd, _⟩
    · exact absurd h1 (by decide)
    · have hp' : vecGet (stuckStale 18).m_reorderBuffer 1 =
          some ⟨true, false, ⟨0, 0, 4, -1, 3, -1, -1, -1, false, 8, 5, 6, 9, -1, -1, -1, -1,
            -1, -1, 1, 3, 0, 0, 0, 0, 0, 0, 0⟩, 4⟩ := rfl
      have hp2 : vecGet (stuckStale 18).m_reorderBuffer 1 = some p := hp
      rw [hp'] at hp2
      simp only [Option.some.injEq] at hp2
      subst hp2
      exact absurd hd (by decide)
  · rintro ⟨fuel, s, h⟩
    obtain ⟨s', h'⟩ := stuckStale_runs_forever fuel
    rw [h'] at h
    simp at h

/-- With `width = 0` the driver stops after the first tick with the one-record trace
unread: nothing is printed and the instruction counter is 0. -/
theorem zero_width_halts_with_nothing :
    report (simulate cfgZeroWidth 1 (initializeStructures cfgZeroWidth traceS1)) =
      some ([], 0, 1) := by
  decide

/-- C7, as stated, fails: in tick 6 of the S2 run (`rob=8 iq=4 width=1`), Execute clears the
source tag of the valid issue queue entry 0 (instruction 1, whose producer completes), and
Issue of the same tick selects that entry. -/
theorem wakeup_used_in_same_tick :
    (beforeExecute cfgS1 (stateAfter cfgS1 traceS2 6)).map
      (fun s => wokenAndIssued cfgS1 s 0) = some true := by
  decide

/-! ## Issue selection -/

theorem findOldest_cons (e : IssueQueueEntry) (l : List IssueQueueEntry) (j : Nat) (oc : Int)
    (idx : Option Nat) :
    findOldest (e :: l) j oc idx =
      if !e.valid then findOldest l (j + 1) oc idx
      else if e.instruction.src1Rename ≠ -1 then findOldest l (j + 1) oc idx
      else if e.instruction.src2Rename ≠ -1 then findOldest l (j + 1) oc idx
      else if isInstructionReady e && decide (e.instruction.fetchCycle < oc) then
        findOldest l (j + 1) e.instruction.fetchCycle (some j)
      else findOldest l (j + 1) oc idx := rfl

theorem findOldest_none_ready :
    ∀ (l : List IssueQueueEntry) (j : Nat) (oc : Int) (idx : Option Nat),
      (∀ e ∈ l, ¬ IssueReady e) → findOldest l j oc idx = idx := by
  intro l
  induction l with
  | nil => intro j oc idx _; rfl
  | cons a l ih =>
    intro j oc idx h
    have ha := h a (List.mem_cons_self _ _)
    have hl : ∀ e ∈ l, ¬ IssueReady e := fun e he => h e (List.mem_cons_of_mem _ he)
    unfold findOldest
    split
    · exact ih _ _ _ hl
    · rename_i hv
      split
      · exact ih _ _ _ hl
      · rename_i h1
        split
        · exact ih _ _ _ hl
        · rename_i h2
          exfalso
          apply ha
          simp only [Bool.not_eq_true', Bool.not_eq_false] at hv
          simp only [ne_eq, Decidable.not_not] at h1 h2
          exact ⟨hv, h1, h2⟩

theorem findOldest_unique :
    ∀ (l : List IssueQueueEntry) (k : Nat) (e : IssueQueueEntry) (j : Nat) (oc : Int)
      (idx : Option Nat), l[k]? = some e → IssueReady e → e.instruction.fetchCycle < oc →
      (∀ k' e', l[k']? = some e' → IssueReady e' → k' = k) →
      findOldest l j oc idx = some (j + k) := by
  intro l
  induction l with
  | nil => intro k e j oc idx he; simp at he
  | cons a l ih =>
    intro k e j oc idx he hr hf hu
    cases k with
    | zero =>
      simp only [List.getElem?_cons_zero, Option.some.injEq] at he
      subst he
      have hl : ∀ e ∈ l, ¬ IssueReady e := by
        intro e he hre
        obtain ⟨n, hn⟩ := List.mem_iff_getElem?.1 he
        have := hu (n + 1) e (by simpa using hn) hre
        omega
      unfold findOldest
      obtain ⟨hv, h1, h2⟩ := hr
      simp only [hv, Bool.not_true, Bool.false_eq_true, if_false, h1, h2, ne_eq,
        not_true_eq_false, isInstructionReady, or_self, Bool.true_and, decide_eq_true_eq, hf,
        if_true]
      rw [findOldest_none_ready _ _ _ _ hl]
      rfl
    | succ k =>
      simp only [List.getElem?_cons_succ] at he
      have ha : ¬ IssueReady a := by
        intro hra
        have := hu 0 a (by simp) hra
        omega
      have hu' : ∀ k' e', l[k']? = some e' → IssueReady e' → k' = k := by
        intro k' e' he' hre'
        have := hu (k' + 1) e' (by simpa using he') hre'
        omega
      have key := ih k e (j + 1) oc idx he hr hf hu'
      rw [show j + (k + 1) = j + 1 + k by omega, ← key, findOldest_cons]
      split
      · rfl
      · rename_i hv
        split
        · rfl
        · rename_i h1
          split
          · rfl
          · rename_i h2
            exfalso
            apply ha
            simp only [Bool.not_eq_true', Bool.not_eq_false] at hv
            simp only [ne_eq, Decidable.not_not] at h1 h2
            exact ⟨hv, h1, h2⟩

theorem issueLoop_none_ready (cyc : Int) :
    ∀ (n : Nat) (iq : List IssueQueueEntry) (ex : List ExecutionEntry),
      (∀ e ∈ iq, ¬ IssueReady e) → issueLoop cyc n iq ex = (iq, ex) := by
  intro n iq ex h
  cases n with
  | zero => rfl
  | succ n =>
    unfold issueLoop
    rw [findOldest_none_ready _ _ _ _ h]

theorem issueLoop_succ (cyc : Int) (n : Nat) (iq : List IssueQueueEntry)
    (ex : List ExecutionEntry) :
    issueLoop cyc (n + 1) iq ex =
      match findOldest iq 0 INT_MAX none with
      | none => (iq, ex)
      | some idx =>
        match iq[idx]? with
        | none => (iq, ex)
        | some e =>
          issueLoop cyc n (iq.set idx { valid := false, instruction := leaveIssue cyc e.instruction })
            (ex ++ [{ instruction := leaveIssue cyc e.instruction,
                      remainingCycles := execLatency (leaveIssue cyc e.instruction).opType }]) :=
  rfl

theorem stampIssue_ready (cyc : Int) (e : IssueQueueEntry) :
    IssueReady (stampIssue cyc e) ↔ IssueReady e := by
  unfold stampIssue IssueReady
  split <;> rfl

theorem stampIssue_fetchCycle (cyc : Int) (e : IssueQueueEntry) :
    (stampIssue cyc e).instruction.fetchCycle = e.instruction.fetchCycle := by
  unfold stampIssue
  split <;> rfl

/-- `issueStage` on a state whose only ready issue queue entry is entry `j`: that entry is
selected. -/
theorem issueStage_selects_unique_ready {cfg : ProcessorParameters} {s : OutOfOrderProcessor}
    {j : Nat} {e : IssueQueueEntry} (hw : 0 < cfg.width)
    (hcap : s.m_executionList.length ≠ cfg.width * 5)
    (he : s.m_issueQueue[j]? = some e) (hr : IssueReady e)
    (hf : e.instruction.fetchCycle < INT_MAX)
    (hu : ∀ k e', s.m_issueQueue[k]? = some e' → IssueReady e' → k = j) :
    (issueStage cfg s).m_issueQueue =
        (s.m_issueQueue.map (stampIssue (s.m_cycleCount : Int))).set j
          { valid := false,
            instruction := leaveIssue (s.m_cycleCount : Int)
              (stampIssue (s.m_cycleCount : Int) e).instruction } ∧
      (issueStage cfg s).m_executionList = s.m_executionList ++
        [{ instruction := leaveIssue (s.m_cycleCount : Int)
              (stampIssue (s.m_cycleCount : Int) e).instruction,
           remainingCycles := execLatency e.instruction.opType }] := by
  obtain ⟨n, hn⟩ : ∃ n, cfg.width = n + 1 := ⟨cfg.width - 1, by omega⟩
  have he' : (s.m_issueQueue.map (stampIssue (s.m_cycleCount : Int)))[j]? =
      some (stampIssue (s.m_cycleCount : Int) e) := by
    simp [he]
  have hu' : ∀ k e', (s.m_issueQueue.map (stampIssue (s.m_cycleCount : Int)))[k]? = some e' →
      IssueReady e' → k = j := by
    intro k e' hk hre
    simp only [List.getElem?_map, Option.map_eq_some'] at hk
    obtain ⟨e0, hk0, rfl⟩ := hk
    exact hu k e0 hk0 ((stampIssue_ready _ _).1 hre)
  have hfind := findOldest_unique _ j _ 0 INT_MAX none he' ((stampIssue_ready _ _).2 hr)
    (by rw [stampIssue_fetchCycle]; exact hf) hu'
  have hrest : ∀ x ∈ (s.m_issueQueue.map (stampIssue (s.m_cycleCount : Int))).set j
      { valid := false,
        instruction := leaveIssue (s.m_cycleCount : Int)
          (stampIssue (s.m_cycleCount : Int) e).instruction }, ¬ IssueReady x := by
    intro x hx hrx
    obtain ⟨k, hk⟩ := List.mem_iff_getElem?.1 hx
    rw [List.getElem?_set] at hk
    split at hk
    · split at hk
      · simp only [Option.some.injEq] at hk
        subst hk
        exact absurd hrx.1 (by simp)
      · simp at hk
    · rename_i hne
      exact hne (hu' k x hk hrx).symm
  have hop : (stampIssue (s.m_cycleCount : Int) e).instruction.opType = e.instruction.opType := by
    unfold stampIssue
    split <;> rfl
  unfold issueStage
  rw [if_neg hcap, hn]
  simp only [issueLoop_succ, hfind, Nat.zero_add, he', issueLoop_none_ready _ _ _ _ hrest]
  simp [leaveIssue, hop]

/-- C7, amended. A wakeup in Execute is visible to Issue of the same tick. Let the issue
queue entry `j` be valid and wait on a source tag when `executeStage` is entered in a tick,
and let it have both source tags none after `executeStage` (Execute has cleared them on
completion of its producers). If it was fetched before cycle `INT_MAX` and is the only entry
with both tags none, `issueStage` of the same tick selects it (`width ≥ 1`, `width * 5`
below `2^32`, execution list not at its cap `width * 5`): the entry is freed and its
instruction is appended to the execution list with its latency. The earliest tick in which
a woken entry can be issued is the tick of the wakeup itself. -/
theorem wakeup_visible_same_tick (cfg : ProcessorParameters) (s : OutOfOrderProcessor)
    (j : Nat) (e0 e : IssueQueueEntry) (hw : 0 < cfg.width)
    (_h32 : cfg.width * 5 < 4294967296)
    (_h0 : s.m_issueQueue[j]? = some e0) (_hv0 : e0.valid = true)
    (_hwait : e0.instruction.src1Rename ≠ -1 ∨ e0.instruction.src2Rename ≠ -1)
    (hcap : (executeStage cfg s).m_executionList.length ≠ cfg.width * 5)
    (he : (executeStage cfg s).m_issueQueue[j]? = some e) (hr : IssueReady e)
    (hf : e.instruction.fetchCycle < INT_MAX)
    (hu : ∀ k e', (executeStage cfg s).m_issueQueue[k]? = some e' → IssueReady e' → k = j) :
    ∃ e', (issueStage cfg (executeStage cfg s)).m_issueQueue[j]? = some e' ∧
      e'.valid = false ∧
      e'.instruction.sequenceNum = e.instruction.sequenceNum ∧
      (issueStage cfg (executeStage cfg s)).m_executionList =
        (executeStage cfg s).m_executionList ++
          [{ instruction := e'.instruction,
             remainingCycles := execLatency e.instruction.opType }] := by
  obtain ⟨h1, h2⟩ := issueStage_selects_unique_ready hw hcap he hr hf hu
  refine ⟨{ valid := false,
            instruction := leaveIssue ((executeStage cfg s).m_cycleCount : Int)
              (stampIssue ((executeStage cfg s).m_cycleCount : Int) e).instruction },
    ?_, rfl, ?_, h2⟩
  · rw [h1, List.getElem?_set_self]
    have := (List.getElem?_eq_some.1 he).1
    simpa using this
  · simp only [leaveIssue, stampIssue]
    split <;> rfl

theorem wakeup_visible_same_tick_witness :
    (0 < cfgS1.width ∧ cfgS1.width * 5 < 4294967296 ∧
      (executeStage cfgS1 stateS2BeforeExecute).m_executionList.length ≠ cfgS1.width * 5) ∧
      (∃ e0, stateS2BeforeExecute.m_issueQueue[0]? = some e0 ∧ e0.valid = true ∧
        e0.instruction.src1Rename = 0 ∧ e0.instruction.sequenceNum = 1) ∧
      (∃ e, (executeStage cfgS1 stateS2BeforeExecute).m_issueQueue[0]? = some e ∧
        IssueReady e ∧ e.instruction.sequenceNum = 1) ∧
      ∃ e', (issueStage cfgS1 (executeStage cfgS1 stateS2BeforeExecute)).m_issueQueue[0]? =
          some e' ∧ e'.valid = false ∧ e'.instruction.sequenceNum = 1 := by
  have h0 : stateS2BeforeExecute.m_issueQueue[0]? =
      some ⟨true, ⟨0, 0, 2, 1, 1, 0, -1, -1, false, 1, 1, 2, 3, 4, 5, -1, -1, -1, -1,
        1, 1, 1, 1, 1, 0, 0, 0, 0⟩⟩ := by decide
  have he : (executeStage cfgS1 stateS2BeforeExecute).m_issueQueue[0]? =
      some ⟨true, ⟨0, 0, 2, 1, 1, -1, -1, -1, false, 1, 1, 2, 3, 4, 5, -1, -1, -1, -1,
        1, 1, 1, 1, 1, 0, 0, 0, 0⟩⟩ := by decide
  have hu : ∀ k e', (executeStage cfgS1 stateS2BeforeExecute).m_issueQueue[k]? = some e' →
      IssueReady e' → k = 0 := by
    have hq : (executeStage cfgS1 stateS2BeforeExecute).m_issueQueue =
        [⟨true, ⟨0, 0, 2, 1, 1, -1, -1, -1, false, 1, 1, 2, 3, 4, 5, -1, -1, -1, -1,
          1, 1, 1, 1, 1, 0, 0, 0, 0⟩⟩,
         ⟨false, ⟨0, 0, -1, -1, -1, -1, -1, -1, false, 0, -1, -1, -1, -1, -1, -1, -1, -1, -1,
          0, 0, 0, 0, 0, 0, 0, 0, 0⟩⟩,
         ⟨false, ⟨0, 0, -1, -1, -1, -1, -1, -1, false, 0, -1, -1, -1, -1, -1, -1, -1, -1, -1,
          0, 0, 0, 0, 0, 0, 0, 0, 0⟩⟩,
         ⟨false, ⟨0, 0, -1, -1, -1, -1, -1, -1, false, 0, -1, -1, -1, -1, -1, -1, -1, -1, -1,
          0, 0, 0, 0, 0, 0, 0, 0, 0⟩⟩] := by decide
    intro k e' hk hre
    rw [hq] at hk
    match k, hk with
    | 0, _ => rfl
    | 1, hk => simp at hk; subst hk; exact absurd hre.1 (by simp)
    | 2, hk => simp at hk; subst hk; exact absurd hre.1 (by simp)
    | 3, hk => simp at hk; subst hk; exact absurd hre.1 (by simp)
    | (n + 4), hk => simp at hk
  have hr : IssueReady (⟨true, ⟨0, 0, 2, 1, 1, -1, -1, -1, false, 1, 1, 2, 3, 4, 5, -1, -1,
      -1, -1, 1, 1, 1, 1, 1, 0, 0, 0, 0⟩⟩ : IssueQueueEntry) := ⟨rfl, rfl, rfl⟩
  obtain ⟨e', h1, h2, h3, _⟩ := wakeup_visible_same_tick cfgS1 stateS2BeforeExecute 0 _ _
    (by decide) (by decide) h0 rfl (Or.inl (by decide)) (by decide) he hr (by decide) hu
  exact ⟨by decide, ⟨_, h0, rfl, rfl, rfl⟩, ⟨_, he, hr, rfl⟩, e', h1, h2, h3⟩

/-! ## The loops, place by place -/

theorem forall_mem_set {α : Type} {P : α → Prop} {l : List α} (h : ∀ x ∈ l, P x) (i : Nat)
    {a : α} (ha : P a) : ∀ x ∈ l.set i a, P x := by
  intro x hx
  rcases List.mem_or_eq_of_mem_set hx with h1 | h1
  · exact h x h1
  · exact h1 ▸ ha

theorem forall_mem_append {α : Type} {P : α → Prop} {l : List α} (h : ∀ x ∈ l, P x)
    {a : α} (ha : P a) : ∀ x ∈ l ++ [a], P x := by
  intro x hx
  rcases List.mem_append.1 hx with h1 | h1
  · exact h x h1
  · rw [List.mem_singleton] at h1
    exact h1 ▸ ha

theorem forall_mem_map {α β : Type} {P : α → Prop} {Q : β → Prop} {f : α → β} {l : List α}
    (h : ∀ x ∈ l, P x) (hf : ∀ x, P x → Q (f x)) : ∀ y ∈ l.map f, Q y := by
  intro y hy
  obtain ⟨x, hx, rfl⟩ := List.mem_map.1 hy
  exact hf x (h x hx)

theorem decodeLoop_forall {P Q : Instruction → Prop} (cfg : ProcessorParameters) (cyc : Int)
    (hm : ∀ x, P x → Q (leaveDecode cyc x)) :
    ∀ de rn : List Instruction, (∀ x ∈ de, P x) → (∀ x ∈ rn, Q x) →
      (∀ x ∈ (decodeLoop cfg cyc de rn).1, P x) ∧ (∀ x ∈ (decodeLoop cfg cyc de rn).2, Q x) := by
  intro de
  induction de with
  | nil => intro rn _ hq; exact ⟨by simp [decodeLoop], hq⟩
  | cons a de ih =>
    intro rn hp hq
    unfold decodeLoop
    split
    · exact ih _ (fun x hx => hp x (List.mem_cons_of_mem _ hx))
        (forall_mem_append hq (hm a (hp a (List.mem_cons_self _ _))))
    · exact ⟨hp, hq⟩

theorem registerReadLoop_forall {P Q : Instruction → Prop} (cfg : ProcessorParameters)
    (cyc : Int) (rob : List ReorderBufferEntry)
    (hm : ∀ x t1 t2, P x → snapTag rob x.src1Rename = some t1 →
      snapTag rob x.src2Rename = some t2 → Q (leaveRegisterRead cyc t1 t2 x)) :
    ∀ (rr di : List Instruction) (r : List Instruction × List Instruction),
      registerReadLoop cfg cyc rob rr di = some r → (∀ x ∈ rr, P x) → (∀ x ∈ di, Q x) →
      (∀ x ∈ r.1, P x) ∧ (∀ x ∈ r.2, Q x) := by
  intro rr
  induction rr with
  | nil =>
    intro di r h _ hq
    simp only [registerReadLoop, Option.some.injEq] at h
    subst h
    exact ⟨by simp, hq⟩
  | cons a rr ih =>
    intro di r h hp hq
    unfold registerReadLoop at h
    split at h
    · split at h
      · simp at h
      · rename_i t1 h1
        split at h
        · simp at h
        · rename_i t2 h2
          exact ih _ r h (fun x hx => hp x (List.mem_cons_of_mem _ hx))
            (forall_mem_append hq (hm a t1 t2 (hp a (List.mem_cons_self _ _)) h1 h2))
    · simp only [Option.some.injEq] at h
      subst h
      exact ⟨hp, hq⟩

theorem dispatchLoop_forall {P : Instruction → Prop} {Q : IssueQueueEntry → Prop} (cyc : Int)
    (rob : List ReorderBufferEntry)
    (hm : ∀ x t1 t2, P x → snapTag rob x.src1Rename = some t1 →
      snapTag rob x.src2Rename = some t2 →
      Q { valid := true, instruction := leaveDispatch cyc t1 t2 x }) :
    ∀ (di : List Instruction) (iq iq' : List IssueQueueEntry),
      dispatchLoop cyc rob di iq = some iq' → (∀ x ∈ di, P x) → (∀ e ∈ iq, Q e) →
      ∀ e ∈ iq', Q e := by
  intro di
  induction di with
  | nil =>
    intro iq iq' h _ hq
    simp only [dispatchLoop, Option.some.injEq] at h
    subst h
    exact hq
  | cons a di ih =>
    intro iq iq' h hp hq
    unfold dispatchLoop at h
    split at h
    · exact ih _ _ h (fun x hx => hp x (List.mem_cons_of_mem _ hx)) hq
    · split at h
      · simp at h
      · rename_i t1 h1
        split at h
        · simp at h
        · rename_i t2 h2
          exact ih _ _ h (fun x hx => hp x (List.mem_cons_of_mem _ hx))
            (forall_mem_set hq _ (hm a t1 t2 (hp a (List.mem_cons_self _ _)) h1 h2))

/-- What `findOldest` returns is the index carried in or the index of a ready entry. -/
theorem findOldest_spec :
    ∀ (l : List IssueQueueEntry) (j : Nat) (oc : Int) (idx : Option Nat) (k : Nat),
      findOldest l j oc idx = some k →
      idx = some k ∨ ∃ e, j ≤ k ∧ l[k - j]? = some e ∧ IssueReady e := by
  intro l
  induction l with
  | nil => intro j oc idx k h; exact Or.inl h
  | cons a l ih =>
    intro j oc idx k h
    have step : ∀ oc' idx', findOldest l (j + 1) oc' idx' = some k →
        idx' = some k ∨ ∃ e, j ≤ k ∧ (a :: l)[k - j]? = some e ∧ IssueReady e := by
      intro oc' idx' h'
      rcases ih _ _ _ _ h' with h1 | ⟨e, h1, h2, h3⟩
      · exact Or.inl h1
      · refine Or.inr ⟨e, by omega, ?_, h3⟩
        rw [show k - j = (k - (j + 1)) + 1 by omega, List.getElem?_cons_succ]
        exact h2
    rw [findOldest_cons] at h
    split at h
    · exact step _ _ h
    · rename_i hv
      split at h
      · exact step _ _ h
      · rename_i h1
        split at h
        · exact step _ _ h
        · rename_i h2
          simp only [Bool.not_eq_true', Bool.not_eq_false] at hv
          simp only [ne_eq, Decidable.not_not] at h1 h2
          split at h
          · rcases step _ _ h with h3 | h3
            · simp only [Option.some.injEq] at h3
              subst h3
              exact Or.inr ⟨a, Nat.le_refl _, by simp, hv, h1, h2⟩
            · exact Or.inr h3
          · exact step _ _ h

theorem issueLoop_forall {Q : IssueQueueEntry → Prop} {R : ExecutionEntry → Prop} (cyc : Int)
    (hm : ∀ e, Q e → IssueReady e →
      Q { valid := false, instruction := leaveIssue cyc e.instruction } ∧
      R { instruction := leaveIssue cyc e.instruction,
          remainingCycles := execLatency e.instruction.opType }) :
    ∀ (n : Nat) (iq : List IssueQueueEntry) (ex : List ExecutionEntry),
      (∀ e ∈ iq, Q e) → (∀ e ∈ ex, R e) →
      (∀ e ∈ (issueLoop cyc n iq ex).1, Q e) ∧ (∀ e ∈ (issueLoop cyc n iq ex).2, R e) := by
  intro n
  induction n with
  | zero => intro iq ex hq hr; exact ⟨hq, hr⟩
  | succ n ih =>
    intro iq ex hq hr
    rw [issueLoop_succ]
    split
    · exact ⟨hq, hr⟩
    · rename_i idx hidx
      split
      · exact ⟨hq, hr⟩
      · rename_i e he
        have hre : IssueReady e := by
          rcases findOldest_spec _ _ _ _ _ hidx with h1 | ⟨e', _, h2, h3⟩
          · simp at h1
          · rw [Nat.sub_zero, he] at h2
            simp only [Option.some.injEq] at h2
            exact h2 ▸ h3
        have hqe : Q e := hq e (List.mem_iff_getElem?.2 ⟨_, he⟩)
        have := hm e hqe hre
        exact ih _ _ (forall_mem_set hq _ this.1) (forall_mem_append hr this.2)

/-! ### Execute -/

theorem executePass_nil (cfg : ProcessorParameters) (cyc : Int) (c : ExecuteContext) :
    executePass cfg cyc [] c = ([], c, false) := rfl

theorem executePass_cons_nonzero (cfg : ProcessorParameters) (cyc : Int) (x : ExecutionEntry)
    (l : List ExecutionEntry) (c : ExecuteContext) (hx : x.remainingCycles ≠ 0) :
    executePass cfg cyc (x :: l) c =
      (x :: (executePass cfg cyc l c).1, (executePass cfg cyc l c).2.1,
        (executePass cfg cyc l c).2.2) := by
  cases l with
  | nil => simp [executePass, hx]
  | cons y l => rw [executePass]; simp [hx]

theorem executePass_cons_full (cfg : ProcessorParameters) (cyc : Int) (x : ExecutionEntry)
    (l : List ExecutionEntry) (c : ExecuteContext) (hx : x.remainingCycles = 0)
    (hf : (wakeup x.instruction.destRename c).wb.length = cfg.width * 5) :
    executePass cfg cyc (x :: l) c = (x :: l, wakeup x.instruction.destRename c, true) := by
  cases l with
  | nil => simp [executePass, hx, hf]
  | cons y l => rw [executePass]; simp [hx, hf]

theorem executePass_single_zero (cfg : ProcessorParameters) (cyc : Int) (x : ExecutionEntry)
    (c : ExecuteContext) (hx : x.remainingCycles = 0)
    (hf : (wakeup x.instruction.destRename c).wb.length ≠ cfg.width * 5) :
    executePass cfg cyc [x] c =
      ([], { wakeup x.instruction.destRename c with
              wb := (wakeup x.instruction.destRename c).wb ++
                [leaveExecute cyc x.instruction] }, false) := by
  simp [executePass, hx, hf]

theorem executePass_cons_zero (cfg : ProcessorParameters) (cyc : Int) (x y : ExecutionEntry)
    (l : List ExecutionEntry) (c : ExecuteContext) (hx : x.remainingCycles = 0)
    (hf : (wakeup x.instruction.destRename c).wb.length ≠ cfg.width * 5) :
    executePass cfg cyc (x :: y :: l) c =
      (y :: (executePass cfg cyc l { wakeup x.instruction.destRename c with
              wb := (wakeup x.instruction.destRename c).wb ++
                [leaveExecute cyc x.instruction] }).1,
        (executePass cfg cyc l { wakeup x.instruction.destRename c with
              wb := (wakeup x.instruction.destRename c).wb ++
                [leaveExecute cyc x.instruction] }).2.1,
        (executePass cfg cyc l { wakeup x.instruction.destRename c with
              wb := (wakeup x.instruction.destRename c).wb ++
                [leaveExecute cyc x.instruction] }).2.2) := by
  rw [executePass]
  simp [hx, hf]

theorem executePass_forall {R : ExecutionEntry → Prop} {C : ExecuteContext → Prop}
    (cfg : ProcessorParameters) (cyc : Int)
    (hwake : ∀ e c, R e → e.remainingCycles = 0 → C c → C (wakeup e.instruction.destRename c))
    (hpush : ∀ e c, R e → e.remainingCycles = 0 → C c →
      C { c with wb := c.wb ++ [leaveExecute cyc e.instruction] }) :
    ∀ (n : Nat) (l : List ExecutionEntry) (c : ExecuteContext), l.length ≤ n →
      (∀ e ∈ l, R e) → C c →
      (∀ e ∈ (executePass cfg cyc l c).1, R e) ∧ C (executePass cfg cyc l c).2.1 := by
  intro n
  induction n with
  | zero =>
    intro l c hl hr hc
    have : l = [] := List.length_eq_zero.1 (by omega)
    subst this
    exact ⟨by simp [executePass], hc⟩
  | succ n ih =>
    intro l c hl hr hc
    match l, hl, hr with
    | [], _, _ => exact ⟨by simp [executePass], hc⟩
    | x :: l, hl, hr =>
      have hx := hr x (List.mem_cons_self _ _)
      have hrl : ∀ e ∈ l, R e := fun e he => hr e (List.mem_cons_of_mem _ he)
      simp only [List.length_cons] at hl
      by_cases hz : x.remainingCycles = 0
      · by_cases hf : (wakeup x.instruction.destRename c).wb.length = cfg.width * 5
        · rw [executePass_cons_full _ _ _ _ _ hz hf]
          exact ⟨hr, hwake x c hx hz hc⟩
        · cases l with
          | nil =>
            rw [executePass_single_zero _ _ _ _ hz hf]
            exact ⟨by simp, hpush x _ hx hz (hwake x c hx hz hc)⟩
          | cons y l =>
            rw [executePass_cons_zero _ _ _ _ _ _ hz hf]
            simp only [List.length_cons] at hl
            have := ih l _ (by omega) (fun e he => hrl e (List.mem_cons_of_mem _ he))
              (hpush x _ hx hz (hwake x c hx hz hc))
            refine ⟨?_, this.2⟩
            intro e he
            rcases List.mem_cons.1 he with h1 | h1
            · exact h1 ▸ hrl y (List.mem_cons_self _ _)
            · exact this.1 e h1
      · rw [executePass_cons_nonzero _ _ _ _ _ hz]
        have := ih l c (by omega) hrl hc
        refine ⟨?_, this.2⟩
        intro e he
        rcases List.mem_cons.1 he with h1 | h1
        · exact h1 ▸ hx
        · exact this.1 e h1

theorem executeLoop_forall {R : ExecutionEntry → Prop} {C : ExecuteContext → Prop}
    (cfg : ProcessorParameters) (cyc : Int)
    (hwake : ∀ e c, R e → e.remainingCycles = 0 → C c → C (wakeup e.instruction.destRename c))
    (hpush : ∀ e c, R e → e.remainingCycles = 0 → C c →
      C { c with wb := c.wb ++ [leaveExecute cyc e.instruction] }) :
    ∀ (fuel : Nat) (l : List ExecutionEntry) (c : ExecuteContext),
      (∀ e ∈ l, R e) → C c →
      (∀ e ∈ (executeLoop cfg cyc fuel l c).1, R e) ∧ C (executeLoop cfg cyc fuel l c).2 := by
  intro fuel
  induction fuel with
  | zero => intro l c hr hc; exact ⟨hr, hc⟩
  | succ fuel ih =>
    intro l c hr hc
    unfold executeLoop
    have hp := executePass_forall cfg cyc hwake hpush l.length l c (Nat.le_refl _) hr hc
    split
    · simp only
      split
      · exact hp
      · exact ih _ _ hp.1 hp.2
    · exact ⟨hr, hc⟩

/-! ### Writeback -/

theorem writebackPass_forall {B : ReorderBufferEntry → Prop} {W : Instruction → Prop}
    (cyc : Int)
    (hm : ∀ e x, B e → W x → e.valid = true → e.instruction.sequenceNum = x.sequenceNum →
      B { e with ready := true, instruction := leaveWriteback cyc x }) :
    ∀ (rob : List ReorderBufferEntry) (wb : List Instruction),
      (∀ e ∈ rob, B e) → (∀ x ∈ wb, W x) →
      (∀ e ∈ (writebackPass cyc rob wb).1, B e) ∧ (∀ x ∈ (writebackPass cyc rob wb).2, W x) := by
  intro rob
  induction rob with
  | nil => intro wb _ hw; exact ⟨by simp [writebackPass], by simpa [writebackPass] using hw⟩
  | cons e rob ih =>
    intro wb hb hw
    cases wb with
    | nil => exact ⟨by simpa [writebackPass] using hb, by simp [writebackPass]⟩
    | cons front wb =>
      have he := hb e (List.mem_cons_self _ _)
      have hf := hw front (List.mem_cons_self _ _)
      have hbl : ∀ e ∈ rob, B e := fun e he => hb e (List.mem_cons_of_mem _ he)
      unfold writebackPass
      split
      · rename_i hc
        simp only [Bool.and_eq_true, decide_eq_true_eq] at hc
        have := ih wb hbl (fun x hx => hw x (List.mem_cons_of_mem _ hx))
        refine ⟨?_, this.2⟩
        intro e' he'
        rcases List.mem_cons.1 he' with h1 | h1
        · exact h1 ▸ hm e front he hf hc.1 hc.2
        · exact this.1 e' h1
      · have := ih (front :: wb) hbl hw
        refine ⟨?_, this.2⟩
        intro e' he'
        rcases List.mem_cons.1 he' with h1 | h1
        · exact h1 ▸ he
        · exact this.1 e' h1

theorem writebackLoop_forall {B : ReorderBufferEntry → Prop} {W : Instruction → Prop}
    (cyc : Int)
    (hm : ∀ e x, B e → W x → e.valid = true → e.instruction.sequenceNum = x.sequenceNum →
      B { e with ready := true, instruction := leaveWriteback cyc x }) :
    ∀ (fuel : Nat) (rob rob' : List ReorderBufferEntry) (wb : List Instruction),
      writebackLoop cyc fuel rob wb = some rob' →
      (∀ e ∈ rob, B e) → (∀ x ∈ wb, W x) → ∀ e ∈ rob', B e := by
  intro fuel
  induction fuel with
  | zero =>
    intro rob rob' wb h hb _
    unfold writebackLoop at h
    split at h
    · simp only [Option.some.injEq] at h
      exact h ▸ hb
    · simp at h
  | succ fuel ih =>
    intro rob rob' wb h hb hw
    unfold writebackLoop at h
    split at h
    · simp only [Option.some.injEq] at h
      exact h ▸ hb
    · simp only at h
      split at h
      · simp at h
      · have hp := writebackPass_forall cyc hm rob wb hb hw
        exact ih _ _ _ h hp.1 hp.2

/-! ### Retire -/

theorem retireLoop_frame (cfg : ProcessorParameters) (cyc : Int) :
    ∀ (n : Nat) (s s' : OutOfOrderProcessor), retireLoop cfg cyc n s = some s' →
      ∃ out rmt rob head, s' = { s with
        m_output := out, m_renameTable := rmt, m_reorderBuffer := rob, m_robHead := head } := by
  intro n
  induction n with
  | zero =>
    intro s s' h
    simp only [retireLoop, Option.some.injEq] at h
    exact ⟨_, _, _, _, h.symm⟩
  | succ n ih =>
    intro s s' h
    unfold retireLoop at h
    split at h
    · simp at h
    · split at h
      · simp only at h
        split at h
        · simp at h
        · obtain ⟨out, rmt, rob, head, h'⟩ := ih _ _ h
          exact ⟨out, rmt, rob, head, h'⟩
      · exact ih _ _ h

theorem retireLoop_forall {B : ReorderBufferEntry → Prop} {O : Instruction → Prop}
    (cfg : ProcessorParameters) (cyc : Int)
    (hm : ∀ e, B e → e.valid = true → e.ready = true →
      O (leaveRetire cyc e.instruction) ∧
      B { e with instruction := leaveRetire cyc e.instruction, valid := false }) :
    ∀ (n : Nat) (s s' : OutOfOrderProcessor), retireLoop cfg cyc n s = some s' →
      (∀ e ∈ s.m_reorderBuffer, B e) → (∀ x ∈ s.m_output, O x) →
      (∀ e ∈ s'.m_reorderBuffer, B e) ∧ (∀ x ∈ s'.m_output, O x) := by
  intro n
  induction n with
  | zero =>
    intro s s' h hb ho
    simp only [retireLoop, Option.some.injEq] at h
    subst h
    exact ⟨hb, ho⟩
  | succ n ih =>
    intro s s' h hb ho
    unfold retireLoop at h
    split at h
    · simp at h
    · rename_i e he
      split at h
      · rename_i hvr
        simp only [Bool.and_eq_true] at hvr
        simp only at h
        split at h
        · simp at h
        · have := hm e (hb e (List.mem_iff_getElem?.2 ⟨_, he⟩)) hvr.1 hvr.2
          exact ih _ _ h (forall_mem_set hb _ this.2) (forall_mem_append ho this.1)
      · exact ih _ _ h hb ho

/-! ### Rename -/

theorem renameLoop_frame (cfg : ProcessorParameters) (cyc : Int) :
    ∀ (rn : List Instruction) (s s' : OutOfOrderProcessor), s.m_renameBuffer = rn →
      renameLoop cfg cyc rn s = some s' →
      ∃ rob rmt rr rn' tail, s' = { s with
        m_reorderBuffer := rob, m_renameTable := rmt, m_registerReadBuffer := rr,
        m_renameBuffer := rn', m_robTail := tail } := by
  intro rn
  induction rn with
  | nil =>
    intro s s' _ h
    simp only [renameLoop, Option.some.injEq] at h
    exact ⟨_, _, _, _, _, h.symm⟩
  | cons inst rn ih =>
    intro s s' _ h
    unfold renameLoop at h
    split at h
    · split at h
      · simp at h
      · split at h
        · simp at h
        · split at h
          · simp at h
          · split at h
            · simp at h
            · obtain ⟨rob, rmt, rr, rn', tail, h'⟩ := ih _ _ rfl h
              exact ⟨rob, rmt, rr, rn', tail, h'⟩
    · simp only [Option.some.injEq] at h
      exact ⟨_, _, _, _, _, h.symm⟩

theorem SeqLayout.rename_front {cfg : ProcessorParameters} {s : OutOfOrderProcessor}
    (h : SeqLayout cfg s) {inst : Instruction} {rn : List Instruction}
    (hrn : s.m_renameBuffer = inst :: rn) :
    s.m_robTail = inst.sequenceNum % cfg.robSize := by
  have hf := h.front_seq
  rw [hrn] at hf
  simp only [List.cons_append, List.map_cons, List.length_cons] at hf
  rw [show rn.length + 1 + s.m_decodeBuffer.length = (rn.length + s.m_decodeBuffer.length) + 1 by
    omega] at hf
  rw [(range'_cons_eq hf).1, h.tail_eq]

theorem renameLoop_forall {P Q : Instruction → Prop} {B : ReorderBufferEntry → Prop}
    (cfg : ProcessorParameters) (cyc : Int)
    (hm : ∀ x t1 t2, P x →
      Q (leaveRename cyc t1 t2 (x.sequenceNum % cfg.robSize) x) ∧
      B { valid := true, ready := false, instruction := x, destArchReg := x.destReg }) :
    ∀ (rn : List Instruction) (s s' : OutOfOrderProcessor), s.m_renameBuffer = rn →
      SeqLayout cfg s →
      cfg.width ≤ (s.m_reorderBuffer.filter (fun e => !e.valid)).length +
        s.m_registerReadBuffer.length →
      renameLoop cfg cyc rn s = some s' →
      (∀ x ∈ rn, P x) → (∀ x ∈ s.m_registerReadBuffer, Q x) →
      (∀ e ∈ s.m_reorderBuffer, B e) →
      (∀ x ∈ s'.m_renameBuffer, P x) ∧ (∀ x ∈ s'.m_registerReadBuffer, Q x) ∧
        (∀ e ∈ s'.m_reorderBuffer, B e) := by
  intro rn
  induction rn with
  | nil =>
    intro s s' _ _ _ h _ hq hb
    simp only [renameLoop, Option.some.injEq] at h
    subst h
    exact ⟨by simp, hq, hb⟩
  | cons inst rn ih =>
    intro s s' hrn hs hw h hp hq hb
    unfold renameLoop at h
    split at h
    · rename_i hlt
      split at h
      · simp at h
      · rename_i et het
        split at h
        · simp at h
        · split at h
          · simp at h
          · split at h
            · simp at h
            · have ha := fun rmt rr => hs.allocate hrn het (by omega)
                { valid := true, ready := false, instruction := inst,
                  destArchReg := inst.destReg } rfl rfl rmt rr
              have hmi := fun t1 t2 => hm inst t1 t2 (hp inst (List.mem_cons_self _ _))
              have htail := hs.rename_front hrn
              refine ih _ s' rfl (ha _ _).1 ?_ h
                (fun x hx => hp x (List.mem_cons_of_mem _ hx)) ?_ ?_
              · have := (ha [] []).2.1
                simp only [List.length_append, List.length_singleton]
                omega
              · dsimp only
                rw [htail]
                exact forall_mem_append hq (hmi _ _).1
              · exact forall_mem_set hb _ (hmi 0 0).2
    · simp only [Option.some.injEq] at h
      subst h
      exact ⟨hp, hq, hb⟩

/-! ### Fetch -/

theorem fetchLoop_frame :
    ∀ (n : Nat) (s : OutOfOrderProcessor), ∃ tr de cnt fin, fetchLoop n s = { s with
      m_traceFile := tr, m_decodeBuffer := de, m_instructionCount := cnt,
      m_simulationComplete := fin } := by
  intro n
  induction n with
  | zero => intro s; exact ⟨_, _, _, _, rfl⟩
  | succ n ih =>
    intro s
    unfold fetchLoop
    split
    · exact ⟨_, _, _, _, rfl⟩
    · exact ⟨_, _, _, _, rfl⟩
    · obtain ⟨tr, de, cnt, fin, h⟩ := ih { s with
        m_traceFile := _, m_instructionCount := s.m_instructionCount + 1,
        m_decodeBuffer := s.m_decodeBuffer ++ [fetchInstruction s.m_cycleCount _
          s.m_instructionCount] }
      exact ⟨tr, de, cnt, fin, h⟩

theorem fetchLoop_forall {P : Instruction → Prop} (cyc : Nat)
    (hm : ∀ r c, P (fetchInstruction cyc r c)) :
    ∀ (n : Nat) (s : OutOfOrderProcessor), s.m_cycleCount = cyc →
      (∀ x ∈ s.m_decodeBuffer, P x) → ∀ x ∈ (fetchLoop n s).m_decodeBuffer, P x := by
  intro n
  induction n with
  | zero => intro s _ h; exact h
  | succ n ih =>
    intro s hc h
    unfold fetchLoop
    split
    · exact h
    · exact h
    · exact ih _ hc (forall_mem_append h (hc ▸ hm _ _))

/-! ## The stages, place by place

Each stage changes the predicate of the place it consumes from and keeps the others. -/

theorem Sat.afterRetire {P : StagePredicates} {Bm B' : ReorderBufferEntry → Prop}
    {O' : Instruction → Prop}
    {cfg : ProcessorParameters} {s s' : OutOfOrderProcessor} (h : Sat P s)
    (hs : retireStage cfg s = some s')
    (hout : ∀ x, P.out x → O' x)
    (hidle : ∀ e, P.rob e → e.valid = false → Bm e)
    (hstamp : ∀ e, P.rob e → Bm (stampRetire (s.m_cycleCount : Int) e))
    (hret : ∀ e, Bm e → e.valid = true → e.ready = true →
      O' (leaveRetire (s.m_cycleCount : Int) e.instruction) ∧
      Bm { e with instruction := leaveRetire (s.m_cycleCount : Int) e.instruction,
                  valid := false })
    (hkeep : ∀ e, Bm e → B' e) :
    Sat { P with rob := B', out := O' } s' := by
  unfold OoO.retireStage at hs
  split at hs
  · rename_i hemp
    simp only [Option.some.injEq] at hs
    subst hs
    simp only [isReorderBufferEmpty, List.all_eq_true, Bool.not_eq_true'] at hemp
    exact ⟨h.de, h.rn, h.rr, h.di, h.iq, h.ex, h.wb,
      fun e he => hkeep e (hidle e (h.rob e he) (hemp e he)), fun x hx => hout x (h.out x hx)⟩
  · obtain ⟨out, rmt, rob, head, hf⟩ := retireLoop_frame _ _ _ _ _ hs
    have hl := retireLoop_forall (B := Bm) (O := O') cfg _ hret _ _ _ hs
      (forall_mem_map h.rob hstamp) (fun x hx => hout x (h.out x hx))
    rw [hf] at hl ⊢
    exact ⟨h.de, h.rn, h.rr, h.di, h.iq, h.ex, h.wb, fun e he => hkeep e (hl.1 e he), hl.2⟩

theorem Sat.afterWriteback {P : StagePredicates} {W' : Instruction → Prop}
    {s s' : OutOfOrderProcessor} (h : Sat P s) (hs : writebackStage s = some s')
    (hm : ∀ e x, P.rob e → P.wb x → e.valid = true →
      e.instruction.sequenceNum = (stampWriteback (s.m_cycleCount : Int) x).sequenceNum →
      P.rob { e with ready := true,
                     instruction := leaveWriteback (s.m_cycleCount : Int)
                       (stampWriteback (s.m_cycleCount : Int) x) }) :
    Sat { P with wb := W' } s' := by
  unfold OoO.writebackStage at hs
  simp only at hs
  split at hs
  · simp at hs
  · rename_i rob hrob
    simp only [Option.some.injEq] at hs
    subst hs
    have hl := writebackLoop_forall (B := P.rob)
      (W := fun y => ∃ x, P.wb x ∧ y = stampWriteback (s.m_cycleCount : Int) x)
      (s.m_cycleCount : Int)
      (by
        rintro e y he ⟨x, hx, rfl⟩ hv hq
        exact hm e x he hx hv hq) _ _ _ _ hrob h.rob
      (forall_mem_map h.wb (fun x hx => ⟨x, hx, rfl⟩))
    exact ⟨h.de, h.rn, h.rr, h.di, h.iq, h.ex, by simp, hl, h.out⟩

theorem writebackStage_drains {s s' : OutOfOrderProcessor} (hs : writebackStage s = some s') :
    s'.m_writebackBuffer = [] := by
  unfold OoO.writebackStage at hs
  simp only at hs
  split at hs
  · simp at hs
  · simp only [Option.some.injEq] at hs
    subst hs
    rfl

theorem Sat.afterExecute {P : StagePredicates} {R' : ExecutionEntry → Prop}
    {cfg : ProcessorParameters} {s : OutOfOrderProcessor} (h : Sat P s)
    (hstamp : ∀ e, P.ex e → R' (stampExecute (s.m_cycleCount : Int) e))
    (hdone : ∀ e, R' e → e.remainingCycles = 0 →
      P.wb (leaveExecute (s.m_cycleCount : Int) e.instruction))
    (hiq : ∀ e0 e, R' e0 → e0.remainingCycles = 0 → P.iq e →
      P.iq (wakeIssueQueueEntry e0.instruction.destRename e))
    (hdi : ∀ e0 x, R' e0 → e0.remainingCycles = 0 → P.di x →
      P.di (wakeInstruction e0.instruction.destRename x))
    (hrr : ∀ e0 x, R' e0 → e0.remainingCycles = 0 → P.rr x →
      P.rr (wakeInstruction e0.instruction.destRename x)) :
    Sat { P with ex := R' } (executeStage cfg s) := by
  unfold OoO.executeStage
  split
  · rename_i hemp
    have : s.m_executionList = [] := by simpa using hemp
    exact ⟨h.de, h.rn, h.rr, h.di, h.iq, by simp [this], h.wb, h.rob, h.out⟩
  · have hl := executeLoop_forall (R := R')
      (C := fun c => (∀ e ∈ c.iq, P.iq e) ∧ (∀ x ∈ c.di, P.di x) ∧ (∀ x ∈ c.rr, P.rr x) ∧
        (∀ x ∈ c.wb, P.wb x)) cfg (s.m_cycleCount : Int)
      (by
        rintro e c he hz ⟨c1, c2, c3, c4⟩
        exact ⟨forall_mem_map c1 (fun x hx => hiq e x he hz hx),
          forall_mem_map c2 (fun x hx => hdi e x he hz hx),
          forall_mem_map c3 (fun x hx => hrr e x he hz hx), c4⟩)
      (by
        rintro e c he hz ⟨c1, c2, c3, c4⟩
        exact ⟨c1, c2, c3, forall_mem_append c4 (hdone e he hz)⟩)
      ((s.m_executionList.map (stampExecute (s.m_cycleCount : Int))).length + 1)
      (s.m_executionList.map (stampExecute (s.m_cycleCount : Int)))
      { iq := s.m_issueQueue, di := s.m_dispatchBuffer, rr := s.m_registerReadBuffer,
        wb := s.m_writebackBuffer }
      (forall_mem_map h.ex hstamp) ⟨h.iq, h.di, h.rr, h.wb⟩
    exact ⟨h.de, h.rn, hl.2.2.2.1, hl.2.2.1, hl.2.1, hl.1, hl.2.2.2.2, h.rob, h.out⟩

theorem Sat.afterIssue {P : StagePredicates} {Qm Q' : IssueQueueEntry → Prop}
    {cfg : ProcessorParameters} {s : OutOfOrderProcessor} (h : Sat P s)
    (hcap : s.m_executionList.length = cfg.width * 5 → ∀ e, P.iq e → Q' e)
    (hstamp : ∀ e, P.iq e → Qm (stampIssue (s.m_cycleCount : Int) e))
    (hsel : ∀ e, Qm e → IssueReady e →
      Qm { valid := false, instruction := leaveIssue (s.m_cycleCount : Int) e.instruction } ∧
      P.ex { instruction := leaveIssue (s.m_cycleCount : Int) e.instruction,
             remainingCycles := execLatency e.instruction.opType })
    (hkeep : ∀ e, Qm e → Q' e) :
    Sat { P with iq := Q' } (issueStage cfg s) := by
  unfold OoO.issueStage
  split
  · rename_i hc
    exact ⟨h.de, h.rn, h.rr, h.di, fun e he => hcap hc e (h.iq e he), h.ex, h.wb, h.rob, h.out⟩
  · have hl := issueLoop_forall (Q := Qm) (R := P.ex) (s.m_cycleCount : Int) hsel cfg.width
      (s.m_issueQueue.map (stampIssue (s.m_cycleCount : Int))) s.m_executionList
      (forall_mem_map h.iq hstamp) h.ex
    exact ⟨h.de, h.rn, h.rr, h.di, fun e he => hkeep e (hl.1 e he), hl.2, h.wb, h.rob, h.out⟩

theorem stampDispatch_tags (cyc : Int) (x : Instruction) :
    (stampDispatch cyc x).src1Rename = x.src1Rename ∧
      (stampDispatch cyc x).src2Rename = x.src2Rename := by
  unfold stampDispatch
  split <;> exact ⟨rfl, rfl⟩

theorem stampRegisterRead_tags (cyc : Int) (x : Instruction) :
    (stampRegisterRead cyc x).src1Rename = x.src1Rename ∧
      (stampRegisterRead cyc x).src2Rename = x.src2Rename := by
  unfold stampRegisterRead
  split <;> exact ⟨rfl, rfl⟩

theorem Sat.afterDispatch {P : StagePredicates} {D' : Instruction → Prop}
    {cfg : ProcessorParameters} {s s' : OutOfOrderProcessor} (h : Sat P s)
    (hs : dispatchStage cfg s = some s')
    (hstamp : ∀ x, P.di x → D' (stampDispatch (s.m_cycleCount : Int) x))
    (hmove : ∀ x t1 t2, P.di x → snapTag s.m_reorderBuffer x.src1Rename = some t1 →
      snapTag s.m_reorderBuffer x.src2Rename = some t2 →
      P.iq { valid := true,
             instruction := leaveDispatch (s.m_cycleCount : Int) t1 t2
               (stampDispatch (s.m_cycleCount : Int) x) }) :
    Sat { P with di := D' } s' := by
  unfold OoO.dispatchStage at hs
  simp only at hs
  split at hs
  · simp only [Option.some.injEq] at hs
    subst hs
    exact ⟨h.de, h.rn, h.rr, forall_mem_map h.di hstamp, h.iq, h.ex, h.wb, h.rob, h.out⟩
  · split at hs
    · simp at hs
    · rename_i iq hiq
      simp only [Option.some.injEq] at hs
      subst hs
      have hl := dispatchLoop_forall (Q := P.iq)
        (P := fun y => ∃ x, P.di x ∧ y = stampDispatch (s.m_cycleCount : Int) x)
        (s.m_cycleCount : Int) s.m_reorderBuffer
        (by
          rintro y t1 t2 ⟨x, hx, rfl⟩ h1 h2
          rw [(stampDispatch_tags _ _).1] at h1
          rw [(stampDispatch_tags _ _).2] at h2
          exact hmove x t1 t2 hx h1 h2) _ _ _ hiq
        (forall_mem_map h.di (fun x hx => ⟨x, hx, rfl⟩)) h.iq
      exact ⟨h.de, h.rn, h.rr, by simp, hl, h.ex, h.wb, h.rob, h.out⟩

theorem Sat.afterRegisterRead {P : StagePredicates} {R' : Instruction → Prop}
    {cfg : ProcessorParameters} {s s' : OutOfOrderProcessor} (h : Sat P s)
    (hs : registerReadStage cfg s = some s')
    (hstamp : ∀ x, P.rr x → R' (stampRegisterRead (s.m_cycleCount : Int) x))
    (hmove : ∀ x t1 t2, P.rr x → snapTag s.m_reorderBuffer x.src1Rename = some t1 →
      snapTag s.m_reorderBuffer x.src2Rename = some t2 →
      P.di (leaveRegisterRead (s.m_cycleCount : Int) t1 t2
        (stampRegisterRead (s.m_cycleCount : Int) x))) :
    Sat { P with rr := R' } s' := by
  unfold OoO.registerReadStage at hs
  simp only at hs
  split at hs
  · simp only [Option.some.injEq] at hs
    subst hs
    exact ⟨h.de, h.rn, forall_mem_map h.rr hstamp, h.di, h.iq, h.ex, h.wb, h.rob, h.out⟩
  · split at hs
    · simp at hs
    · rename_i r hr
      simp only [Option.some.injEq] at hs
      subst hs
      have hl := registerReadLoop_forall (Q := P.di)
        (P := fun y => ∃ x, P.rr x ∧ R' y ∧ y = stampRegisterRead (s.m_cycleCount : Int) x)
        cfg (s.m_cycleCount : Int) s.m_reorderBuffer
        (by
          rintro y t1 t2 ⟨x, hx, _, rfl⟩ h1 h2
          rw [(stampRegisterRead_tags _ _).1] at h1
          rw [(stampRegisterRead_tags _ _).2] at h2
          exact hmove x t1 t2 hx h1 h2) _ _ _ hr
        (forall_mem_map h.rr (fun x hx => ⟨x, hx, hstamp x hx, rfl⟩)) h.di
      exact ⟨h.de, h.rn, fun x hx => (hl.1 x hx).choose_spec.2.1, hl.2, h.iq, h.ex, h.wb,
        h.rob, h.out⟩

theorem Sat.afterRename {P : StagePredicates} {R' : Instruction → Prop}
    {cfg : ProcessorParameters} {s s' : OutOfOrderProcessor} (h : Sat P s)
    (hl : SeqLayout cfg s) (hs : renameStage cfg s = some s')
    (hstamp : ∀ x, P.rn x → R' (stampRename (s.m_cycleCount : Int) x))
    (hmove : ∀ x t1 t2, P.rn x →
      P.rr (leaveRename (s.m_cycleCount : Int) t1 t2 (x.sequenceNum % cfg.robSize)
        (stampRename (s.m_cycleCount : Int) x)) ∧
      P.rob { valid := true, ready := false,
              instruction := stampRename (s.m_cycleCount : Int) x,
              destArchReg := (stampRename (s.m_cycleCount : Int) x).destReg }) :
    Sat { P with rn := R' } s' := by
  have hseq : ∀ x, (stampRename (s.m_cycleCount : Int) x).sequenceNum = x.sequenceNum := by
    intro x; unfold stampRename; split <;> rfl
  have hst : (s.m_renameBuffer.map (stampRename (s.m_cycleCount : Int))).map
      (fun x => x.sequenceNum) = s.m_renameBuffer.map (fun x => x.sequenceNum) :=
    map_stamp_seq _ hseq _
  have h1 : SeqLayout cfg { s with
      m_renameBuffer := s.m_renameBuffer.map (stampRename (s.m_cycleCount : Int)) } := by
    refine hl.of_keys rfl rfl rfl rfl rfl (by simp) ?_
    simp only [List.map_append, hst]
  unfold OoO.renameStage at hs
  simp only at hs
  split at hs
  · simp only [Option.some.injEq] at hs
    subst hs
    exact ⟨h.de, forall_mem_map h.rn hstamp, h.rr, h.di, h.iq, h.ex, h.wb, h.rob, h.out⟩
  · rename_i hc
    simp only [Bool.or_eq_true, decide_eq_true_eq, not_or, isReorderBufferFull,
      Nat.not_lt] at hc
    obtain ⟨rob, rmt, rr, rn', tail, hf⟩ := renameLoop_frame cfg (s.m_cycleCount : Int) _
      { s with m_renameBuffer := s.m_renameBuffer.map (stampRename (s.m_cycleCount : Int)) }
      s' rfl hs
    have hloop := renameLoop_forall (Q := P.rr) (B := P.rob)
      (P := fun y => ∃ x, P.rn x ∧ R' y ∧ y = stampRename (s.m_cycleCount : Int) x)
      cfg (s.m_cycleCount : Int)
      (by
        rintro y t1 t2 ⟨x, hx, _, rfl⟩
        rw [hseq]
        exact hmove x t1 t2 hx) _
      { s with m_renameBuffer := s.m_renameBuffer.map (stampRename (s.m_cycleCount : Int)) }
      s' rfl h1
      (by
        show cfg.width ≤ (s.m_reorderBuffer.filter (fun e => !e.valid)).length + _
        omega) hs
      (forall_mem_map h.rn (fun x hx => ⟨x, hx, hstamp x hx, rfl⟩)) h.rr h.rob
    rw [hf] at hloop ⊢
    exact ⟨h.de, fun x hx => (hloop.1 x hx).choose_spec.2.1, hloop.2.1, h.di, h.iq, h.ex, h.wb,
      hloop.2.2, h.out⟩

theorem Sat.afterDecode {P : StagePredicates} {D' : Instruction → Prop}
    {cfg : ProcessorParameters} {s : OutOfOrderProcessor} (h : Sat P s)
    (hstamp : ∀ x, P.de x → D' (stampDecode (s.m_cycleCount : Int) x))
    (hmove : ∀ x, P.de x →
      P.rn (leaveDecode (s.m_cycleCount : Int) (stampDecode (s.m_cycleCount : Int) x))) :
    Sat { P with de := D' } (decodeStage cfg s) := by
  unfold OoO.decodeStage
  simp only
  split
  · exact ⟨forall_mem_map h.de hstamp, h.rn, h.rr, h.di, h.iq, h.ex, h.wb, h.rob, h.out⟩
  · have hl := decodeLoop_forall (Q := P.rn)
      (P := fun y => ∃ x, P.de x ∧ D' y ∧ y = stampDecode (s.m_cycleCount : Int) x)
      cfg (s.m_cycleCount : Int)
      (by
        rintro y ⟨x, hx, _, rfl⟩
        exact hmove x hx)
      (s.m_decodeBuffer.map (stampDecode (s.m_cycleCount : Int))) s.m_renameBuffer
      (forall_mem_map h.de (fun x hx => ⟨x, hx, hstamp x hx, rfl⟩)) h.rn
    exact ⟨fun x hx => (hl.1 x hx).choose_spec.2.1, hl.2, h.rr, h.di, h.iq, h.ex, h.wb, h.rob,
      h.out⟩

theorem Sat.afterFetch {P : StagePredicates} {cfg : ProcessorParameters}
    {s : OutOfOrderProcessor} (h : Sat P s)
    (hnew : ∀ r c, P.de (fetchInstruction s.m_cycleCount r c)) :
    Sat P (fetchStage cfg s) := by
  unfold OoO.fetchStage
  split
  · exact h
  · have hl := fetchLoop_forall (P := P.de) s.m_cycleCount hnew cfg.width s rfl h.de
    obtain ⟨tr, de, cnt, fin, hf⟩ := fetchLoop_frame cfg.width s
    rw [hf] at hl ⊢
    exact ⟨hl, h.rn, h.rr, h.di, h.iq, h.ex, h.wb, h.rob, h.out⟩

theorem Sat.refine_ex {P : StagePredicates} {R' : ExecutionEntry → Prop}
    {s : OutOfOrderProcessor} (h : Sat P s)
    (hex : ∀ e ∈ s.m_executionList, P.ex e → R' e) : Sat { P with ex := R' } s :=
  ⟨h.de, h.rn, h.rr, h.di, h.iq, fun e he => hex e he (h.ex e he), h.wb, h.rob, h.out⟩

theorem Sat.refine_rob {P : StagePredicates} {B' : ReorderBufferEntry → Prop}
    {s : OutOfOrderProcessor} (h : Sat P s)
    (hrob : ∀ e ∈ s.m_reorderBuffer, P.rob e → B' e) : Sat { P with rob := B' } s :=
  ⟨h.de, h.rn, h.rr, h.di, h.iq, h.ex, h.wb, fun e he => hrob e he (h.rob e he), h.out⟩

theorem Sat.transport {P : StagePredicates} {s s' : OutOfOrderProcessor} (h : Sat P s)
    (h1 : s'.m_decodeBuffer = s.m_decodeBuffer) (h2 : s'.m_renameBuffer = s.m_renameBuffer)
    (h3 : s'.m_registerReadBuffer = s.m_registerReadBuffer)
    (h4 : s'.m_dispatchBuffer = s.m_dispatchBuffer) (h5 : s'.m_issueQueue = s.m_issueQueue)
    (h6 : s'.m_executionList = s.m_executionList)
    (h7 : s'.m_writebackBuffer = s.m_writebackBuffer)
    (h8 : s'.m_reorderBuffer = s.m_reorderBuffer) (h9 : s'.m_output = s.m_output) :
    Sat P s' :=
  ⟨h1 ▸ h.de, h2 ▸ h.rn, h3 ▸ h.rr, h4 ▸ h.di, h5 ▸ h.iq, h6 ▸ h.ex, h7 ▸ h.wb, h8 ▸ h.rob,
    h9 ▸ h.out⟩

/-! ## The first eight stages of a tick -/

theorem retireStage_scalars {cfg : ProcessorParameters} {s s' : OutOfOrderProcessor}
    (hs : retireStage cfg s = some s') :
    s'.m_cycleCount = s.m_cycleCount ∧ s'.m_traceFile = s.m_traceFile ∧
      s'.m_instructionCount = s.m_instructionCount := by
  unfold OoO.retireStage at hs
  split at hs
  · simp only [Option.some.injEq] at hs
    subst hs
    exact ⟨rfl, rfl, rfl⟩
  · obtain ⟨out, rmt, rob, head, hf⟩ := retireLoop_frame _ _ _ _ _ hs
    rw [hf]
    exact ⟨rfl, rfl, rfl⟩

theorem writebackStage_scalars {s s' : OutOfOrderProcessor}
    (hs : writebackStage s = some s') :
    s'.m_cycleCount = s.m_cycleCount ∧ s'.m_traceFile = s.m_traceFile ∧
      s'.m_instructionCount = s.m_instructionCount := by
  unfold OoO.writebackStage at hs
  simp only at hs
  split at hs
  · simp at hs
  · simp only [Option.some.injEq] at hs
    subst hs
    exact ⟨rfl, rfl, rfl⟩

theorem executeStage_scalars (cfg : ProcessorParameters) (s : OutOfOrderProcessor) :
    (executeStage cfg s).m_cycleCount = s.m_cycleCount ∧
      (executeStage cfg s).m_traceFile = s.m_traceFile ∧
      (executeStage cfg s).m_instructionCount = s.m_instructionCount ∧
      (executeStage cfg s).m_reorderBuffer = s.m_reorderBuffer := by
  obtain ⟨ex, iq, di, rr, wb, hf⟩ := executeStage_frame cfg s
  rw [hf]
  exact ⟨rfl, rfl, rfl, rfl⟩

theorem issueStage_scalars (cfg : ProcessorParameters) (s : OutOfOrderProcessor) :
    (issueStage cfg s).m_cycleCount = s.m_cycleCount ∧
      (issueStage cfg s).m_traceFile = s.m_traceFile ∧
      (issueStage cfg s).m_instructionCount = s.m_instructionCount ∧
      (issueStage cfg s).m_reorderBuffer = s.m_reorderBuffer := by
  unfold OoO.issueStage
  split
  · exact ⟨rfl, rfl, rfl, rfl⟩
  · exact ⟨rfl, rfl, rfl, rfl⟩

theorem dispatchStage_scalars {cfg : ProcessorParameters} {s s' : OutOfOrderProcessor}
    (hs : dispatchStage cfg s = some s') :
    s'.m_cycleCount = s.m_cycleCount ∧ s'.m_traceFile = s.m_traceFile ∧
      s'.m_instructionCount = s.m_instructionCount := by
  unfold OoO.dispatchStage at hs
  simp only at hs
  split at hs
  · simp only [Option.some.injEq] at hs
    subst hs
    exact ⟨rfl, rfl, rfl⟩
  · split at hs
    · simp at hs
    · simp only [Option.some.injEq] at hs
      subst hs
      exact ⟨rfl, rfl, rfl⟩

theorem registerReadStage_scalars {cfg : ProcessorParameters} {s s' : OutOfOrderProcessor}
    (hs : registerReadStage cfg s = some s') :
    s'.m_cycleCount = s.m_cycleCount ∧ s'.m_traceFile = s.m_traceFile ∧
      s'.m_instructionCount = s.m_instructionCount := by
  unfold OoO.registerReadStage at hs
  simp only at hs
  split at hs
  · simp only [Option.some.injEq] at hs
    subst hs
    exact ⟨rfl, rfl, rfl⟩
  · split at hs
    · simp at hs
    · simp only [Option.some.injEq] at hs
      subst hs
      exact ⟨rfl, rfl, rfl⟩

theorem renameStage_scalars {cfg : ProcessorParameters} {s s' : OutOfOrderProcessor}
    (hs : renameStage cfg s = some s') :
    s'.m_cycleCount = s.m_cycleCount ∧ s'.m_traceFile = s.m_traceFile ∧
      s'.m_instructionCount = s.m_instructionCount := by
  unfold OoO.renameStage at hs
  simp only at hs
  split at hs
  · simp only [Option.some.injEq] at hs
    subst hs
    exact ⟨rfl, rfl, rfl⟩
  · obtain ⟨rob, rmt, rr, rn', tail, hf⟩ := renameLoop_frame cfg (s.m_cycleCount : Int) _
      { s with m_renameBuffer := s.m_renameBuffer.map (stampRename (s.m_cycleCount : Int)) }
      s' rfl hs
    rw [hf]
    exact ⟨rfl, rfl, rfl⟩

theorem decodeStage_scalars (cfg : ProcessorParameters) (s : OutOfOrderProcessor) :
    (decodeStage cfg s).m_cycleCount = s.m_cycleCount ∧
      (decodeStage cfg s).m_traceFile = s.m_traceFile ∧
      (decodeStage cfg s).m_instructionCount = s.m_instructionCount := by
  unfold OoO.decodeStage
  simp only
  split
  · exact ⟨rfl, rfl, rfl⟩
  · exact ⟨rfl, rfl, rfl⟩

/-- The first eight stages of a tick take `Sat P` to `Sat P'` when the rules of the tick
hold, the execution entries left by `executeStage` satisfy the predicate of the execution
list, and the issue queue predicate is kept when `issueStage` returns at once. -/
theorem sat_pipelineStages {cfg : ProcessorParameters} {s s' : OutOfOrderProcessor}
    {P P' : StagePredicates} {Bm : ReorderBufferEntry → Prop} {Rm : ExecutionEntry → Prop}
    {Qm : IssueQueueEntry → Prop}
    (hr : StageRules cfg (s.m_cycleCount : Int) P Bm Rm Qm P')
    (h : Sat P s) (hl : SeqLayout cfg s) (hs : OoO.pipelineStages cfg s = some s')
    (hex : ∀ s1 s2, OoO.retireStage cfg s = some s1 → OoO.writebackStage s1 = some s2 →
      ∀ e ∈ (OoO.executeStage cfg s2).m_executionList, Rm e → P'.ex e)
    (hcap : ∀ s1 s2, OoO.retireStage cfg s = some s1 → OoO.writebackStage s1 = some s2 →
      (OoO.executeStage cfg s2).m_executionList.length = cfg.width * 5 →
      ∀ e, P.iq e → P'.iq e) :
    ∃ s8, s' = OoO.fetchStage cfg s8 ∧ Sat P' s8 ∧ SeqLayout cfg s8 ∧
      s8.m_cycleCount = s.m_cycleCount ∧ s8.m_traceFile = s.m_traceFile ∧
      s8.m_instructionCount = s.m_instructionCount := by
  obtain ⟨s1, s2, s5, s6, s7, h1, h2, h5, h6, h7, rfl⟩ := pipelineStages_eq_some hs
  have c1 := retireStage_scalars h1
  have c2 := writebackStage_scalars h2
  have c3 := executeStage_scalars cfg s2
  have c4 := issueStage_scalars cfg (executeStage cfg s2)
  have c5 := dispatchStage_scalars h5
  have c6 := registerReadStage_scalars h6
  have c7 := renameStage_scalars h7
  have c8 := decodeStage_scalars cfg s7
  have e1 : s1.m_cycleCount = s.m_cycleCount := c1.1
  have e2 : s2.m_cycleCount = s.m_cycleCount := c2.1.trans e1
  have e3 : (executeStage cfg s2).m_cycleCount = s.m_cycleCount := c3.1.trans e2
  have e4 : (issueStage cfg (executeStage cfg s2)).m_cycleCount = s.m_cycleCount :=
    c4.1.trans e3
  have e5 : s5.m_cycleCount = s.m_cycleCount := c5.1.trans e4
  have e6 : s6.m_cycleCount = s.m_cycleCount := c6.1.trans e5
  have e7 : s7.m_cycleCount = s.m_cycleCount := c7.1.trans e6
  have l6 : SeqLayout cfg s6 :=
    ((((hl.retireStage h1).writebackStage h2).executeStage.issueStage.dispatchStage
      h5).registerReadStage h6)
  have l8 : SeqLayout cfg (decodeStage cfg s7) := (l6.renameStage h7).decodeStage
  have g1 : Sat ⟨P.de, P.rn, P.rr, P.di, P.iq, P.ex, P.wb, P'.rob, P'.out⟩ s1 :=
    h.afterRetire h1 hr.out_keep hr.rob_idle
    hr.rob_stamp hr.retire hr.rob_keep
  have g2 : Sat ⟨P.de, P.rn, P.rr, P.di, P.iq, P.ex, P'.wb, P'.rob, P'.out⟩ s2 :=
    g1.afterWriteback h2 (by
    rw [e1]
    exact hr.writeback)
  have g3 : Sat ⟨P.de, P.rn, P.rr, P.di, P.iq, P'.ex, P'.wb, P'.rob, P'.out⟩
      (executeStage cfg s2) :=
    (g2.afterExecute (by rw [e2]; exact hr.ex_stamp)
    (by rw [e2]; exact hr.ex_done)
    (fun e0 e _ _ he => hr.wake_iq _ e he)
    (fun e0 x _ _ hx => hr.wake_di _ x hx)
    (fun e0 x _ _ hx => hr.wake_rr _ x hx)).refine_ex (hex s1 s2 h1 h2)
  have g4 : Sat ⟨P.de, P.rn, P.rr, P.di, P'.iq, P'.ex, P'.wb, P'.rob, P'.out⟩
      (issueStage cfg (executeStage cfg s2)) :=
    g3.afterIssue (hcap s1 s2 h1 h2)
    (by rw [e3]; exact hr.iq_stamp) (by rw [e3]; exact hr.issue) hr.iq_keep
  have g5 : Sat ⟨P.de, P.rn, P.rr, P'.di, P'.iq, P'.ex, P'.wb, P'.rob, P'.out⟩ s5 :=
    g4.afterDispatch h5 (by rw [e4]; exact hr.di_stamp)
    (by
      rw [e4]
      intro x t1 t2 hx _ _
      exact hr.dispatch x t1 t2 hx)
  have g6 : Sat ⟨P.de, P.rn, P'.rr, P'.di, P'.iq, P'.ex, P'.wb, P'.rob, P'.out⟩ s6 :=
    g5.afterRegisterRead h6 (by rw [e5]; exact hr.rr_stamp)
    (by
      rw [e5]
      intro x t1 t2 hx _ _
      exact hr.registerRead x t1 t2 hx)
  have g7 : Sat ⟨P.de, P'.rn, P'.rr, P'.di, P'.iq, P'.ex, P'.wb, P'.rob, P'.out⟩ s7 :=
    g6.afterRename l6 h7 (by rw [e6]; exact hr.rn_stamp)
    (by rw [e6]; exact hr.rename)
  have g8 : Sat P' (decodeStage cfg s7) :=
    g7.afterDecode (by rw [e7]; exact hr.de_stamp)
    (by rw [e7]; exact hr.decode)
  exact ⟨_, rfl, g8, l8, c8.1.trans e7,
    c8.2.1.trans (c7.2.1.trans (c6.2.1.trans (c5.2.1.trans (c4.2.1.trans (c3.2.1.trans
      (c2.2.1.trans c1.2.1)))))),
    c8.2.2.trans (c7.2.2.trans (c6.2.2.trans (c5.2.2.trans (c4.2.2.1.trans (c3.2.2.1.trans
      (c2.2.2.trans c1.2.2))))))⟩

/-! ## Completeness at halt -/

theorem Faithful.congr {records : List TraceRecord} {x y : Instruction}
    (h : Faithful records x) (h1 : traceRecordOf y = traceRecordOf x)
    (h2 : y.sequenceNum = x.sequenceNum) : Faithful records y := by
  unfold Faithful at h ⊢
  rw [h1, h2]
  exact h

theorem faithful_rules (cfg : ProcessorParameters) (c : Int) (records : List TraceRecord) :
    StageRules cfg c (faithfulPredicates records)
      (fun e => e.valid = true → Faithful records e.instruction)
      (fun e => Faithful records e.instruction)
      (fun e => e.valid = true → Faithful records e.instruction)
      (faithfulPredicates records) where
  out_keep := fun _ h => h
  rob_idle := fun e _ h1 h2 => by rw [h1] at h2; cases h2
  rob_stamp := fun e h hv => by
    unfold stampRetire at hv ⊢
    split at hv
    · rw [if_pos (by assumption)]
      exact (h hv).congr rfl rfl
    · rw [if_neg (by assumption)]
      exact h hv
  retire := fun e h hv _ => ⟨(h hv).congr rfl rfl, fun h' => by cases h'⟩
  rob_keep := fun _ h => h
  writeback := fun e x _ hx _ _ _ => by
    refine Faithful.congr hx ?_ ?_ <;>
    · unfold leaveWriteback stampWriteback
      split <;> rfl
  ex_stamp := fun e h => by
    refine Faithful.congr h ?_ ?_ <;>
    · unfold stampExecute
      dsimp only
      split <;> rfl
  ex_done := fun e h _ => h.congr rfl rfl
  wake_iq := fun d e h hv => by
    refine Faithful.congr (h hv) ?_ ?_ <;>
    · unfold wakeIssueQueueEntry
      dsimp only
      split <;> split <;> rfl
  wake_di := fun d x h => by
    refine Faithful.congr h ?_ ?_ <;>
    · unfold wakeInstruction
      dsimp only
      split <;> split <;> rfl
  wake_rr := fun d x h => by
    refine Faithful.congr h ?_ ?_ <;>
    · unfold wakeInstruction
      dsimp only
      split <;> split <;> rfl
  iq_stamp := fun e h hv => by
    unfold stampIssue at hv ⊢
    split at hv
    · rw [if_pos (by assumption)]
      exact (h hv).congr rfl rfl
    · rw [if_neg (by assumption)]
      exact h hv
  issue := fun e h hr => ⟨fun h' => (by cases h'), (h hr.1).congr rfl rfl⟩
  iq_keep := fun _ h => h
  di_stamp := fun x h => by
    refine Faithful.congr h ?_ ?_ <;>
    · unfold stampDispatch
      split <;> rfl
  dispatch := fun x t1 t2 h _ => by
    refine Faithful.congr h ?_ ?_ <;>
    · unfold leaveDispatch stampDispatch
      split <;> rfl
  rr_stamp := fun x h => by
    refine Faithful.congr h ?_ ?_ <;>
    · unfold stampRegisterRead
      split <;> rfl
  registerRead := fun x t1 t2 h => by
    refine Faithful.congr h ?_ ?_ <;>
    · unfold leaveRegisterRead stampRegisterRead
      split <;> rfl
  rn_stamp := fun x h => by
    refine Faithful.congr h ?_ ?_ <;>
    · unfold stampRename
      split <;> rfl
  rename := fun x t1 t2 h => by
    constructor
    · refine Faithful.congr h ?_ ?_ <;>
      · unfold leaveRename stampRename
        split <;> rfl
    · intro _
      refine Faithful.congr h ?_ ?_ <;>
      · unfold stampRename
        split <;> rfl
  de_stamp := fun x h => by
    refine Faithful.congr h ?_ ?_ <;>
    · unfold stampDecode
      split <;> rfl
  decode := fun x h => by
    refine Faithful.congr h ?_ ?_ <;>
    · unfold leaveDecode stampDecode
      split <;> rfl

theorem sat_init (cfg : ProcessorParameters) (trace : List (Option TraceRecord))
    (P : StagePredicates) (hiq : P.iq {}) (hrob : P.rob {}) :
    Sat P (initializeStructures cfg trace) := by
  refine ⟨?_, ?_, ?_, ?_, ?_, ?_, ?_, ?_, ?_⟩ <;> intro x hx <;>
    simp only [initializeStructures, List.not_mem_nil, List.mem_replicate] at hx
  · rw [hx.2]; exact hiq
  · rw [hx.2]; exact hrob

theorem fetchLoop_decode_ne_nil :
    ∀ (n : Nat) (s : OutOfOrderProcessor), s.m_decodeBuffer ≠ [] →
      (fetchLoop n s).m_decodeBuffer ≠ [] := by
  intro n
  induction n with
  | zero => intro s h; exact h
  | succ n ih =>
    intro s h
    unfold fetchLoop
    split
    · exact h
    · exact h
    · exact ih _ (by simp)

/-- On a trace of well-formed records `fetchLoop` reads the records in order: the
instructions it makes are faithful, the unread remainder is the records from the
instruction counter on, and after at least one iteration the decode buffer is not empty or
the trace is at its end. -/
theorem fetchLoop_faithful (records : List TraceRecord) :
    ∀ (n : Nat) (s : OutOfOrderProcessor),
      s.m_traceFile = wellFormedTrace (records.drop s.m_instructionCount) →
      s.m_instructionCount ≤ records.length →
      (∀ x ∈ s.m_decodeBuffer, Faithful records x) →
      (∀ x ∈ (fetchLoop n s).m_decodeBuffer, Faithful records x) ∧
      (fetchLoop n s).m_traceFile =
        wellFormedTrace (records.drop (fetchLoop n s).m_instructionCount) ∧
      (fetchLoop n s).m_instructionCount ≤ records.length ∧
      (0 < n → (fetchLoop n s).m_decodeBuffer ≠ [] ∨ (fetchLoop n s).m_traceFile = []) := by
  intro n
  induction n with
  | zero => intro s ht hc hd; exact ⟨hd, ht, hc, fun h => absurd h (Nat.lt_irrefl 0)⟩
  | succ n ih =>
    intro s ht hc hd
    unfold fetchLoop
    split
    · rename_i hnil
      exact ⟨hd, ht, hc, fun _ => Or.inr hnil⟩
    · rename_i rest hcons
      rw [ht] at hcons
      unfold wellFormedTrace at hcons
      cases hdrop : records.drop s.m_instructionCount with
      | nil => rw [hdrop] at hcons; simp at hcons
      | cons r l => rw [hdrop] at hcons; simp at hcons
    · rename_i r rest hcons
      rw [ht] at hcons
      unfold wellFormedTrace at hcons
      cases hdrop : records.drop s.m_instructionCount with
      | nil => rw [hdrop] at hcons; simp at hcons
      | cons r0 l =>
        rw [hdrop] at hcons
        simp only [List.map_cons, List.cons.injEq, Option.some.injEq] at hcons
        obtain ⟨hr, hl⟩ := hcons
        subst hr
        have hget : records[s.m_instructionCount]? = some r0 := by
          have := List.getElem?_drop records s.m_instructionCount 0
          rw [hdrop] at this
          simpa using this.symm
        have hlt : s.m_instructionCount < records.length := by
          rcases Nat.lt_or_ge s.m_instructionCount records.length with h | h
          · exact h
          · rw [List.drop_eq_nil_of_le h] at hdrop
            cases hdrop
        have hnext : records.drop (s.m_instructionCount + 1) = l := by
          rw [← List.drop_drop 1 s.m_instructionCount records, hdrop]
          rfl
        have hrec := ih { s with
            m_traceFile := rest
            m_instructionCount := s.m_instructionCount + 1
            m_decodeBuffer :=
              s.m_decodeBuffer ++ [fetchInstruction s.m_cycleCount r0 s.m_instructionCount] }
          (by
            show rest = wellFormedTrace (records.drop (s.m_instructionCount + 1))
            rw [hnext, ← hl]
            rfl)
          hlt
          (forall_mem_append hd hget)
        refine ⟨hrec.1, hrec.2.1, hrec.2.2.1, fun _ => Or.inl ?_⟩
        exact fetchLoop_decode_ne_nil n _ (by simp)

theorem fetchStage_faithful (cfg : ProcessorParameters) (records : List TraceRecord)
    (s : OutOfOrderProcessor)
    (ht : s.m_traceFile = wellFormedTrace (records.drop s.m_instructionCount))
    (hc : s.m_instructionCount ≤ records.length)
    (hs : Sat (faithfulPredicates records) s) :
    Sat (faithfulPredicates records) (fetchStage cfg s) ∧
      (fetchStage cfg s).m_traceFile =
        wellFormedTrace (records.drop (fetchStage cfg s).m_instructionCount) ∧
      (fetchStage cfg s).m_instructionCount ≤ records.length ∧
      (0 < cfg.width →
        (fetchStage cfg s).m_decodeBuffer ≠ [] ∨ (fetchStage cfg s).m_traceFile = []) := by
  unfold OoO.fetchStage
  split
  · rename_i hfull
    refine ⟨hs, ht, hc, fun hw => Or.inl ?_⟩
    intro hnil
    rw [hnil] at hfull
    simp only [List.length_nil, ge_iff_le, Nat.le_zero_eq] at hfull
    omega
  · have hl := fetchLoop_faithful records cfg.width s ht hc hs.de
    obtain ⟨tr, de, cnt, fin, hf⟩ := fetchLoop_frame cfg.width s
    refine ⟨?_, hl.2.1, hl.2.2.1, hl.2.2.2⟩
    have hde := hl.1
    rw [hf] at hde ⊢
    exact ⟨hde, hs.rn, hs.rr, hs.di, hs.iq, hs.ex, hs.wb, hs.rob, hs.out⟩

theorem faithful_tick {cfg : ProcessorParameters} {records : List TraceRecord}
    {s s' : OutOfOrderProcessor} {b : Bool}
    (hs : Sat (faithfulPredicates records) s) (hl : SeqLayout cfg s)
    (ht : s.m_traceFile = wellFormedTrace (records.drop s.m_instructionCount))
    (hc : s.m_instructionCount ≤ records.length)
    (h : tick cfg s = some (s', b)) :
    Sat (faithfulPredicates records) s' ∧
      s'.m_traceFile = wellFormedTrace (records.drop s'.m_instructionCount) ∧
      s'.m_instructionCount ≤ records.length ∧
      (0 < cfg.width → s'.m_decodeBuffer ≠ [] ∨ s'.m_traceFile = []) := by
  obtain ⟨s9, h9, rfl, _⟩ := tick_eq_some h
  obtain ⟨s8, rfl, g8, _, _, e2, e3⟩ := sat_pipelineStages
    (faithful_rules cfg (s.m_cycleCount : Int) records) hs hl h9
    (fun _ _ _ _ _ _ h => h) (fun _ _ _ _ _ _ h => h)
  have hf := fetchStage_faithful cfg records s8 (by rw [e2, e3]; exact ht) (by rw [e3]; exact hc)
    g8
  exact ⟨hf.1.transport rfl rfl rfl rfl rfl rfl rfl rfl rfl, hf.2.1, hf.2.2.1, hf.2.2.2⟩

theorem faithful_of_reach {cfg : ProcessorParameters} {records : List TraceRecord}
    {s : OutOfOrderProcessor} {b : Bool} (h : Reach cfg (wellFormedTrace records) s b) :
    Sat (faithfulPredicates records) s ∧
      s.m_traceFile = wellFormedTrace (records.drop s.m_instructionCount) ∧
      s.m_instructionCount ≤ records.length ∧
      (b = false → 0 < cfg.width → s.m_decodeBuffer ≠ [] ∨ s.m_traceFile = []) := by
  induction h with
  | init =>
    refine ⟨sat_init cfg _ _ ?_ ?_, rfl, Nat.zero_le _, fun h => by cases h⟩
    · intro h; cases h
    · intro h; cases h
  | step hr ht ih =>
    have := faithful_tick ih.1 (SeqLayout.of_reach hr) ih.2.1 ih.2.2.1 ht
    exact ⟨this.1, this.2.1, this.2.2.1, fun _ => this.2.2.2⟩

theorem hasInstructions_of_reach {cfg : ProcessorParameters}
    {trace : List (Option TraceRecord)} {s : OutOfOrderProcessor}
    (h : Reach cfg trace s false) : hasInstructions s = false := by
  cases h with
  | step hr ht =>
    obtain ⟨s9, _, _, hb⟩ := tick_eq_some ht
    exact hb.symm

theorem halted_stateAfter {cfg : ProcessorParameters} {trace : List (Option TraceRecord)}
    {fuel : Nat}
    (h : (report (simulate cfg fuel (initializeStructures cfg trace))).isSome = true) :
    simulate cfg fuel (initializeStructures cfg trace) =
      SimResult.halted (stateAfter cfg trace fuel) := by
  unfold stateAfter
  cases hr : simulate cfg fuel (initializeStructures cfg trace) with
  | halted s => rfl
  | running s => rw [hr] at h; simp [report] at h
  | undefinedBehaviour => rw [hr] at h; simp [report] at h

/-- Completeness at halt on a trace that ends at end of file: on a trace of `N` well-formed
records followed by end of file, when the cycle driver stops with a width of at least 1,
the printed instructions carry the sequence numbers `0, 1, ..., N-1` in this order, the
`i`-th of them carries the pc, operation type, destination and sources of the `i`-th trace
record, and the instruction counter is `N`. -/
theorem completeness_at_halt (cfg : ProcessorParameters) (records : List TraceRecord)
    (fuel : Nat) (s : OutOfOrderProcessor) (hw : 0 < cfg.width)
    (h : simulate cfg fuel (initializeStructures cfg (wellFormedTrace records)) =
      SimResult.halted s) :
    (s.m_output.map printInstructionDetails).map (fun t => t.seq) =
        List.range records.length ∧
      s.m_output.map traceRecordOf = records ∧
      s.m_instructionCount = records.length := by
  have hr : Reach cfg (wellFormedTrace records) s false :=
    (@reach_of_simulate cfg (wellFormedTrace records) fuel _ Reach.init).1 s h
  have hl := SeqLayout.of_reach hr
  obtain ⟨hsat, htr, hle, hend⟩ := faithful_of_reach hr
  have hno := hasInstructions_of_reach hr
  simp only [hasInstructions, Bool.or_eq_false_iff, decide_eq_false_iff_not, ne_eq,
    Decidable.not_not, List.length_eq_zero, Bool.not_eq_false'] at hno
  obtain ⟨⟨⟨⟨⟨⟨⟨hde, hrn⟩, _⟩, _⟩, _⟩, _⟩, _⟩, hrob⟩ := hno
  have hcv : countValid s.m_reorderBuffer = 0 := by
    unfold countValid
    rw [List.countP_eq_zero]
    intro e he
    simp only [isReorderBufferEmpty, List.all_eq_true, Bool.not_eq_true'] at hrob
    simp [hrob e he]
  have htot := hl.total
  rw [hcv, hrn, hde] at htot
  simp only [List.length_nil, Nat.add_zero] at htot
  have hnil : s.m_traceFile = [] := by
    rcases hend rfl hw with h1 | h1
    · exact absurd hde h1
    · exact h1
  have hcount : s.m_instructionCount = records.length := by
    rw [hnil] at htr
    unfold wellFormedTrace at htr
    have hd : records.drop s.m_instructionCount = [] := by
      cases hdr : records.drop s.m_instructionCount with
      | nil => rfl
      | cons a l => rw [hdr] at htr; simp at htr
    have := List.drop_eq_nil_iff.1 hd
    omega
  have hlen : s.m_output.length = records.length := by omega
  have hseq := hl.out_seq
  rw [hlen] at hseq
  refine ⟨?_, ?_, hcount⟩
  · rw [List.map_map]
    exact hseq
  · apply List.ext_getElem?
    intro i
    rw [List.getElem?_map]
    cases hx : s.m_output[i]? with
    | none =>
      have h1 : s.m_output.length ≤ i := List.getElem?_eq_none_iff.1 hx
      rw [hlen] at h1
      exact (List.getElem?_eq_none_iff.2 h1).symm
    | some x =>
      have hi : (s.m_output.map (fun x => x.sequenceNum))[i]? = some x.sequenceNum := by
        rw [List.getElem?_map, hx]
        rfl
      rw [hseq] at hi
      have hxi : x.sequenceNum = i := by
        rw [List.getElem?_range] at hi
        · simpa using hi.symm
        · by_contra hcon
          rw [List.getElem?_eq_none_iff.2 (by simpa using hcon)] at hi
          cases hi
      have hf : Faithful records x := hsat.out x (List.mem_iff_getElem?.2 ⟨_, hx⟩)
      unfold Faithful at hf
      rw [hxi] at hf
      rw [hf]
      rfl

theorem completeness_at_halt_witness :
    ((stateAfter cfgS1 traceS2 11).m_output.map printInstructionDetails).map
        (fun t => t.seq) = List.range 3 ∧
      (stateAfter cfgS1 traceS2 11).m_output.map traceRecordOf =
        [⟨0, 0, 1, -1, -1⟩, ⟨0, 0, 2, 1, -1⟩, ⟨0, 0, 3, 2, -1⟩] ∧
      (stateAfter cfgS1 traceS2 11).m_instructionCount = 3 :=
  completeness_at_halt cfgS1 [⟨0, 0, 1, -1, -1⟩, ⟨0, 0, 2, 1, -1⟩, ⟨0, 0, 3, 2, -1⟩] 11
    (stateAfter cfgS1 traceS2 11) (by decide)
    (@halted_stateAfter cfgS1 traceS2 11 (by decide))

/-! ## The execution list never fills up -/

theorem executePass_drain (cfg : ProcessorParameters) (cyc : Int) :
    ∀ (n : Nat) (l : List ExecutionEntry) (c : ExecuteContext), l.length ≤ n →
      c.wb.length + l.length ≤ cfg.width * 5 →
      (executePass cfg cyc l c).2.2 = false ∧
      (executePass cfg cyc l c).1.filter (fun e => decide (e.remainingCycles ≠ 0)) =
        l.filter (fun e => decide (e.remainingCycles ≠ 0)) ∧
      (executePass cfg cyc l c).2.1.wb.length + (executePass cfg cyc l c).1.length =
        c.wb.length + l.length ∧
      c.wb.length ≤ (executePass cfg cyc l c).2.1.wb.length ∧
      (isExecutionNeeded l = true → (executePass cfg cyc l c).1.length < l.length) := by
  intro n
  induction n with
  | zero =>
    intro l c hl _
    have : l = [] := List.length_eq_zero.1 (by omega)
    subst this
    simp [executePass, isExecutionNeeded]
  | succ n ih =>
    intro l c hl hb
    cases l with
    | nil => simp [executePass, isExecutionNeeded]
    | cons x l =>
      simp only [List.length_cons] at hl hb
      by_cases hz : x.remainingCycles = 0
      · have hf : (wakeup x.instruction.destRename c).wb.length ≠ cfg.width * 5 := by
          show c.wb.length ≠ cfg.width * 5
          omega
        cases l with
        | nil =>
          rw [executePass_single_zero _ _ _ _ hz hf]
          simp [hz, wakeup]
        | cons y l =>
          obtain ⟨c', hc', heq⟩ : ∃ c' : ExecuteContext,
              c'.wb = c.wb ++ [leaveExecute cyc x.instruction] ∧
              executePass cfg cyc (x :: y :: l) c =
                (y :: (executePass cfg cyc l c').1, (executePass cfg cyc l c').2.1,
                  (executePass cfg cyc l c').2.2) :=
            ⟨_, rfl, executePass_cons_zero _ _ _ _ _ _ hz hf⟩
          rw [heq]
          simp only [List.length_cons] at hl hb
          have hlen : c'.wb.length = c.wb.length + 1 := by
            rw [hc']
            simp
          obtain ⟨h1, h2, h3, h5, _⟩ := ih l c' (by omega) (by omega)
          refine ⟨h1, ?_, ?_, by dsimp only; omega, fun _ => ?_⟩
          · simp only [List.filter_cons, hz, ne_eq, not_true_eq_false, decide_False,
              Bool.false_eq_true, ↓reduceIte]
            rw [h2]
          · simp only [List.length_cons]
            omega
          · simp only [List.length_cons]
            omega
      · rw [executePass_cons_nonzero _ _ _ _ _ hz]
        obtain ⟨h1, h2, h3, h5, h4⟩ := ih l c (by omega) (by omega)
        refine ⟨h1, ?_, ?_, h5, fun hn => ?_⟩
        · simp only [List.filter_cons, hz, ne_eq, not_false_eq_true, decide_True, ↓reduceIte]
          rw [h2]
        · simp only [List.length_cons]
          omega
        · simp only [List.length_cons]
          have : isExecutionNeeded l = true := by
            simpa [isExecutionNeeded, hz] using hn
          have := h4 this
          omega

theorem executeLoop_drain (cfg : ProcessorParameters) (cyc : Int) :
    ∀ (fuel : Nat) (l : List ExecutionEntry) (c : ExecuteContext), l.length < fuel →
      c.wb.length + l.length ≤ cfg.width * 5 →
      (executeLoop cfg cyc fuel l c).1 = l.filter (fun e => decide (e.remainingCycles ≠ 0)) := by
  intro fuel
  induction fuel with
  | zero => intro l c h; omega
  | succ fuel ih =>
    intro l c hl hb
    unfold executeLoop
    split
    · rename_i hn
      obtain ⟨h1, h2, h3, _, h4⟩ := executePass_drain cfg cyc l.length l c (Nat.le_refl _) hb
      simp only [h1, Bool.false_eq_true, ↓reduceIte]
      rw [ih _ _ (by have := h4 hn; omega) (by omega), h2]
    · rename_i hn
      simp only [Bool.not_eq_true] at hn
      symm
      rw [List.filter_eq_self]
      intro e he
      simp only [isExecutionNeeded, List.any_eq_false, decide_eq_true_eq] at hn
      simpa using hn e he

theorem executeStage_list (cfg : ProcessorParameters) (s : OutOfOrderProcessor)
    (hwb : s.m_writebackBuffer = []) (hlen : s.m_executionList.length ≤ cfg.width * 5) :
    (executeStage cfg s).m_executionList =
      (s.m_executionList.map (stampExecute (s.m_cycleCount : Int))).filter
        (fun e => decide (e.remainingCycles ≠ 0)) := by
  unfold executeStage
  split
  · rename_i he
    have : s.m_executionList = [] := by simpa using he
    simp [this]
  · exact executeLoop_drain cfg _ _ _ _ (by simp) (by simp [hwb, hlen])

theorem countRemaining_stamp (cyc : Int) (k : Int) (l : List ExecutionEntry) :
    countRemaining k (l.map (stampExecute cyc)) = countRemaining (k + 1) l := by
  unfold countRemaining
  rw [List.countP_map]
  congr 1
  funext e
  simp only [Function.comp, stampExecute]
  congr 1
  apply propext
  constructor <;> intro h <;> omega

theorem countRemaining_filter (k : Int) (hk : 1 ≤ k) (l : List ExecutionEntry) :
    countRemaining k (l.filter (fun e => decide (e.remainingCycles ≠ 0))) =
      countRemaining k l := by
  unfold countRemaining
  rw [List.countP_filter]
  congr 1
  funext e
  by_cases h : k ≤ e.remainingCycles
  · have : e.remainingCycles ≠ 0 := by omega
    simp [h, this]
  · simp [h]

theorem countRemaining_one (l : List ExecutionEntry) (h : ∀ e ∈ l, 1 ≤ e.remainingCycles) :
    countRemaining 1 l = l.length := by
  unfold countRemaining
  rw [List.countP_eq_length]
  intro e he
  simpa using h e he

theorem executeStage_bound {cfg : ProcessorParameters} {s : OutOfOrderProcessor}
    (h : ExecBound cfg s) (hwb : s.m_writebackBuffer = []) :
    ExecBoundDrained cfg (executeStage cfg s) ∧
      ∀ e ∈ (executeStage cfg s).m_executionList, e.remainingCycles ≠ 0 := by
  have hlen : s.m_executionList.length ≤ cfg.width * 5 := by
    have := h.2 1 (Nat.le_refl 1)
    rw [Nat.cast_one, countRemaining_one _ h.1] at this
    omega
  unfold ExecBoundDrained
  rw [executeStage_list cfg s hwb hlen]
  refine ⟨⟨?_, ?_⟩, ?_⟩
  · intro e he
    simp only [List.mem_filter, List.mem_map, decide_eq_true_eq] at he
    obtain ⟨⟨e0, he0, rfl⟩, hz⟩ := he
    have := h.1 e0 he0
    simp only [stampExecute] at hz ⊢
    omega
  · intro k hk
    rw [countRemaining_filter _ (by exact_mod_cast hk), countRemaining_stamp]
    have := h.2 (k + 1) (by omega)
    have e : (6 - (k + 1)) = 5 - k := by omega
    rw [e] at this
    exact_mod_cast this
  · intro e he
    simp only [List.mem_filter, decide_eq_true_eq] at he
    exact he.2

theorem execLatency_range (t : Int) : 1 ≤ execLatency t ∧ execLatency t ≤ 5 := by
  unfold execLatency
  split
  · omega
  · split <;> omega

theorem issueLoop_added (cyc : Int) :
    ∀ (n : Nat) (iq : List IssueQueueEntry) (ex : List ExecutionEntry),
      ∃ added, (issueLoop cyc n iq ex).2 = ex ++ added ∧ added.length ≤ n ∧
        ∀ e ∈ added, 1 ≤ e.remainingCycles ∧ e.remainingCycles ≤ 5 := by
  intro n
  induction n with
  | zero => intro iq ex; exact ⟨[], by simp [issueLoop], Nat.le_refl _, by simp⟩
  | succ n ih =>
    intro iq ex
    unfold issueLoop
    split
    · exact ⟨[], by simp, Nat.zero_le _, by simp⟩
    · split
      · exact ⟨[], by simp, Nat.zero_le _, by simp⟩
      · rename_i idx _ _ e _
        obtain ⟨added, h1, h2, h3⟩ := ih
          (iq.set idx { valid := false, instruction := leaveIssue cyc e.instruction })
          (ex ++ [{ instruction := leaveIssue cyc e.instruction,
                    remainingCycles := execLatency (leaveIssue cyc e.instruction).opType }])
        refine ⟨{ instruction := leaveIssue cyc e.instruction,
                  remainingCycles := execLatency (leaveIssue cyc e.instruction).opType } ::
          added, ?_, ?_, ?_⟩
        · dsimp only
          rw [h1]
          simp
        · simp only [List.length_cons]
          omega
        · intro x hx
          rcases List.mem_cons.1 hx with rfl | hx
          · exact execLatency_range _
          · exact h3 x hx

theorem countRemaining_append (k : Int) (l l' : List ExecutionEntry) :
    countRemaining k (l ++ l') = countRemaining k l + countRemaining k l' := by
  unfold countRemaining
  exact List.countP_append _ _ _

theorem issueStage_bound {cfg : ProcessorParameters} {s : OutOfOrderProcessor}
    (h : ExecBoundDrained cfg s) : ExecBound cfg (issueStage cfg s) := by
  unfold issueStage
  split
  · refine ⟨h.1, fun k hk => ?_⟩
    have := h.2 k hk
    have : (5 - k) * cfg.width ≤ (6 - k) * cfg.width :=
      Nat.mul_le_mul_right _ (by omega)
    omega
  · obtain ⟨added, h1, h2, h3⟩ := issueLoop_added (s.m_cycleCount : Int) cfg.width
      (s.m_issueQueue.map (stampIssue (s.m_cycleCount : Int))) s.m_executionList
    refine ⟨?_, fun k hk => ?_⟩
    · intro e he
      have he' : e ∈ s.m_executionList ++ added := by
        rw [← h1]
        exact he
      rcases List.mem_append.1 he' with he | he
      · exact h.1 e he
      · exact (h3 e he).1
    · show countRemaining (k : Int) (issueLoop _ _ _ _).2 ≤ _
      rw [h1, countRemaining_append]
      have hk1 := h.2 k hk
      by_cases h5 : k ≤ 5
      · have : countRemaining (k : Int) added ≤ cfg.width := by
          unfold countRemaining
          exact (List.countP_le_length _).trans h2
        have e : 6 - k = (5 - k) + 1 := by omega
        rw [e, Nat.add_mul, Nat.one_mul]
        omega
      · have : countRemaining (k : Int) added = 0 := by
          unfold countRemaining
          rw [List.countP_eq_zero]
          intro e he
          have := (h3 e he).2
          simp only [decide_eq_true_eq]
          omega
        have e5 : 5 - k = 0 := by omega
        rw [e5, Nat.zero_mul] at hk1
        omega

theorem retireStage_exec {cfg : ProcessorParameters} {s s' : OutOfOrderProcessor}
    (hs : retireStage cfg s = some s') :
    s'.m_executionList = s.m_executionList ∧ s'.m_writebackBuffer = s.m_writebackBuffer := by
  unfold OoO.retireStage at hs
  split at hs
  · simp only [Option.some.injEq] at hs
    subst hs
    exact ⟨rfl, rfl⟩
  · obtain ⟨out, rmt, rob, head, hf⟩ := retireLoop_frame _ _ _ _ _ hs
    rw [hf]
    exact ⟨rfl, rfl⟩

theorem writebackStage_exec {s s' : OutOfOrderProcessor} (hs : writebackStage s = some s') :
    s'.m_executionList = s.m_executionList := by
  unfold OoO.writebackStage at hs
  simp only at hs
  split at hs
  · simp at hs
  · simp only [Option.some.injEq] at hs
    subst hs
    rfl

theorem dispatchStage_exec {cfg : ProcessorParameters} {s s' : OutOfOrderProcessor}
    (hs : dispatchStage cfg s = some s') : s'.m_executionList = s.m_executionList := by
  unfold OoO.dispatchStage at hs
  simp only at hs
  split at hs
  · simp only [Option.some.injEq] at hs
    subst hs
    rfl
  · split at hs
    · simp at hs
    · simp only [Option.some.injEq] at hs
      subst hs
      rfl

theorem registerReadStage_exec {cfg : ProcessorParameters} {s s' : OutOfOrderProcessor}
    (hs : registerReadStage cfg s = some s') : s'.m_executionList = s.m_executionList := by
  unfold OoO.registerReadStage at hs
  simp only at hs
  split at hs
  · simp only [Option.some.injEq] at hs
    subst hs
    rfl
  · split at hs
    · simp at hs
    · simp only [Option.some.injEq] at hs
      subst hs
      rfl

theorem renameStage_exec {cfg : ProcessorParameters} {s s' : OutOfOrderProcessor}
    (hs : renameStage cfg s = some s') : s'.m_executionList = s.m_executionList := by
  unfold OoO.renameStage at hs
  simp only at hs
  split at hs
  · simp only [Option.some.injEq] at hs
    subst hs
    rfl
  · obtain ⟨rob, rmt, rr, rn', tail, hf⟩ := renameLoop_frame cfg (s.m_cycleCount : Int) _
      { s with m_renameBuffer := s.m_renameBuffer.map (stampRename (s.m_cycleCount : Int)) }
      s' rfl hs
    rw [hf]

theorem decodeStage_exec (cfg : ProcessorParameters) (s : OutOfOrderProcessor) :
    (decodeStage cfg s).m_executionList = s.m_executionList := by
  unfold OoO.decodeStage
  simp only
  split <;> rfl

theorem fetchStage_exec (cfg : ProcessorParameters) (s : OutOfOrderProcessor) :
    (fetchStage cfg s).m_executionList = s.m_executionList := by
  unfold OoO.fetchStage
  split
  · rfl
  · obtain ⟨tr, de, cnt, fin, hf⟩ := fetchLoop_frame cfg.width s
    rw [hf]

/-- Between `writebackStage` and `executeStage` of a tick that starts with `ExecBound`: the
execution list is as at the start of the tick and the writeback buffer is empty, so
`executeStage` leaves no completed entry behind and fewer than `5 * width` entries. -/
theorem execBound_drained {cfg : ProcessorParameters} {s s1 s2 : OutOfOrderProcessor}
    (h : ExecBound cfg s) (h1 : retireStage cfg s = some s1)
    (h2 : writebackStage s1 = some s2) :
    ExecBoundDrained cfg (executeStage cfg s2) ∧
      (∀ e ∈ (executeStage cfg s2).m_executionList, e.remainingCycles ≠ 0) ∧
      (0 < cfg.width → (executeStage cfg s2).m_executionList.length ≠ cfg.width * 5) := by
  have hb : ExecBound cfg s2 := by
    unfold ExecBound at h ⊢
    rw [writebackStage_exec h2, (retireStage_exec h1).1]
    exact h
  have hd := executeStage_bound hb (writebackStage_drains h2)
  refine ⟨hd.1, hd.2, fun hw => ?_⟩
  have := hd.1.2 1 (Nat.le_refl 1)
  rw [Nat.cast_one, countRemaining_one _ hd.1.1] at this
  omega

theorem execBound_tick {cfg : ProcessorParameters} {s s' : OutOfOrderProcessor} {b : Bool}
    (h : ExecBound cfg s) (hs : tick cfg s = some (s', b)) : ExecBound cfg s' := by
  obtain ⟨s9, h9, rfl, _⟩ := tick_eq_some hs
  obtain ⟨s1, s2, s5, s6, s7, h1, h2, h5, h6, h7, rfl⟩ := pipelineStages_eq_some h9
  have h4 := issueStage_bound (execBound_drained h h1 h2).1
  unfold ExecBound at h4 ⊢
  show (∀ e ∈ (fetchStage cfg (decodeStage cfg s7)).m_executionList, _) ∧
    ∀ k : Nat, 1 ≤ k →
      countRemaining (k : Int) (fetchStage cfg (decodeStage cfg s7)).m_executionList ≤ _
  rw [fetchStage_exec, decodeStage_exec, renameStage_exec h7, registerReadStage_exec h6,
    dispatchStage_exec h5]
  exact h4

theorem execBound_init (cfg : ProcessorParameters) (trace : List (Option TraceRecord)) :
    ExecBound cfg (initializeStructures cfg trace) :=
  ⟨by simp [initializeStructures], fun k _ => by simp [initializeStructures, countRemaining]⟩

theorem execBound_of_reach {cfg : ProcessorParameters} {trace : List (Option TraceRecord)}
    {s : OutOfOrderProcessor} {b : Bool} (h : Reach cfg trace s b) : ExecBound cfg s := by
  induction h with
  | init => exact execBound_init cfg trace
  | step _ ht ih => exact execBound_tick ih ht

/-! ## Timing -/

/-- The rules of a tick at cycle `T` for the timing predicates. -/
theorem timing_rules (cfg : ProcessorParameters) (T : Int) :
    StageRules cfg T (timingPredicates T)
      (fun e => e.valid = true → e.ready = true → retireStamped T e.instruction)
      (executeStamped T)
      (fun e => e.valid = true → issueStamped T e.instruction)
      (timingPredicates (T + 1)) where
  out_keep := fun _ h => h
  rob_idle := fun e _ h1 h2 => by rw [h1] at h2; cases h2
  rob_stamp := by
    intro e h
    by_cases hc : (e.ready && decide (e.instruction.retireCycle = -1)) = true
    · rw [stampRetire, if_pos hc]
      intro hv hr
      have h' := h hv hr
      simp only [Bool.and_eq_true, decide_eq_true_eq] at hc
      simp only [timingPredicates, inDecode, inRename, inRegisterRead, inDispatch, inIssue, issueStamped, inExecute, executeStamped, inWriteback, inRetire, retireStamped, doneFetch, doneDecode, doneRename, doneRegisterRead, doneDispatch, doneIssue, doneExecute, doneWriteback, doneRetire, notWriteback, notExecute, notIssue, notDispatch, notRegisterRead, notRename, Arrived] at *
      omega
    · rw [stampRetire, if_neg hc]
      intro hv hr
      have h' := h hv hr
      simp only [Bool.and_eq_true, decide_eq_true_eq, not_and] at hc
      have hc' := hc hr
      simp only [timingPredicates, inDecode, inRename, inRegisterRead, inDispatch, inIssue, issueStamped, inExecute, executeStamped, inWriteback, inRetire, retireStamped, doneFetch, doneDecode, doneRename, doneRegisterRead, doneDispatch, doneIssue, doneExecute, doneWriteback, doneRetire, notWriteback, notExecute, notIssue, notDispatch, notRegisterRead, notRename, Arrived] at *
      omega
  retire := by
    intro e h hv hr
    refine ⟨?_, fun h' => by cases h'⟩
    have h' := h hv hr
    simp only [timingPredicates, inDecode, inRename, inRegisterRead, inDispatch, inIssue, issueStamped, inExecute, executeStamped, inWriteback, inRetire, retireStamped, doneFetch, doneDecode, doneRename, doneRegisterRead, doneDispatch, doneIssue, doneExecute, doneWriteback, doneRetire, notWriteback, notExecute, notIssue, notDispatch, notRegisterRead, notRename, Arrived] at *
    unfold leaveRetire
    (try dsimp only)
    omega
  rob_keep := by
    intro e h hv hr
    have h' := h hv hr
    simp only [timingPredicates, inDecode, inRename, inRegisterRead, inDispatch, inIssue, issueStamped, inExecute, executeStamped, inWriteback, inRetire, retireStamped, doneFetch, doneDecode, doneRename, doneRegisterRead, doneDispatch, doneIssue, doneExecute, doneWriteback, doneRetire, notWriteback, notExecute, notIssue, notDispatch, notRegisterRead, notRename, Arrived] at *
    omega
  writeback := by
    intro e x _ h _ _ _ _
    show inRetire (T + 1) (leaveWriteback T (stampWriteback T x))
    change inWriteback T x at h
    simp only [timingPredicates, inDecode, inRename, inRegisterRead, inDispatch, inIssue, issueStamped, inExecute, executeStamped, inWriteback, inRetire, retireStamped, doneFetch, doneDecode, doneRename, doneRegisterRead, doneDispatch, doneIssue, doneExecute, doneWriteback, doneRetire, notWriteback, notExecute, notIssue, notDispatch, notRegisterRead, notRename, Arrived] at *
    unfold leaveWriteback stampWriteback
    split <;> (try dsimp only) <;> omega
  ex_stamp := by
    intro e h
    change inExecute T e at h
    have hlat := execLatency_range e.instruction.opType
    simp only [timingPredicates, inDecode, inRename, inRegisterRead, inDispatch, inIssue, issueStamped, inExecute, executeStamped, inWriteback, inRetire, retireStamped, doneFetch, doneDecode, doneRename, doneRegisterRead, doneDispatch, doneIssue, doneExecute, doneWriteback, doneRetire, notWriteback, notExecute, notIssue, notDispatch, notRegisterRead, notRename, Arrived] at *
    unfold stampExecute
    dsimp only
    split <;> (try dsimp only) <;> omega
  ex_done := by
    intro e h hz
    show inWriteback (T + 1) (leaveExecute T e.instruction)
    simp only [timingPredicates, inDecode, inRename, inRegisterRead, inDispatch, inIssue, issueStamped, inExecute, executeStamped, inWriteback, inRetire, retireStamped, doneFetch, doneDecode, doneRename, doneRegisterRead, doneDispatch, doneIssue, doneExecute, doneWriteback, doneRetire, notWriteback, notExecute, notIssue, notDispatch, notRegisterRead, notRename, Arrived] at *
    unfold leaveExecute
    (try dsimp only)
    omega
  wake_iq := by
    intro d e h hv
    have h' := h hv
    unfold wakeIssueQueueEntry
    dsimp only
    split <;> split <;> exact h'
  wake_di := by
    intro d x h
    unfold wakeInstruction
    dsimp only
    split <;> split <;> exact h
  wake_rr := by
    intro d x h
    unfold wakeInstruction
    dsimp only
    split <;> split <;> exact h
  iq_stamp := by
    intro e h
    by_cases hc : (e.valid && decide (e.instruction.issueCycle = -1)) = true
    · rw [stampIssue, if_pos hc]
      intro hv
      have h' := h hv
      simp only [Bool.and_eq_true, decide_eq_true_eq] at hc
      simp only [timingPredicates, inDecode, inRename, inRegisterRead, inDispatch, inIssue, issueStamped, inExecute, executeStamped, inWriteback, inRetire, retireStamped, doneFetch, doneDecode, doneRename, doneRegisterRead, doneDispatch, doneIssue, doneExecute, doneWriteback, doneRetire, notWriteback, notExecute, notIssue, notDispatch, notRegisterRead, notRename, Arrived] at *
      omega
    · rw [stampIssue, if_neg hc]
      intro hv
      have h' := h hv
      simp only [Bool.and_eq_true, decide_eq_true_eq, not_and] at hc
      have hc' := hc hv
      simp only [timingPredicates, inDecode, inRename, inRegisterRead, inDispatch, inIssue, issueStamped, inExecute, executeStamped, inWriteback, inRetire, retireStamped, doneFetch, doneDecode, doneRename, doneRegisterRead, doneDispatch, doneIssue, doneExecute, doneWriteback, doneRetire, notWriteback, notExecute, notIssue, notDispatch, notRegisterRead, notRename, Arrived] at *
      omega
  issue := by
    intro e h hr
    refine ⟨fun h' => (by cases h'), ?_⟩
    have h' := h hr.1
    show inExecute (T + 1) _
    simp only [timingPredicates, inDecode, inRename, inRegisterRead, inDispatch, inIssue, issueStamped, inExecute, executeStamped, inWriteback, inRetire, retireStamped, doneFetch, doneDecode, doneRename, doneRegisterRead, doneDispatch, doneIssue, doneExecute, doneWriteback, doneRetire, notWriteback, notExecute, notIssue, notDispatch, notRegisterRead, notRename, Arrived] at *
    unfold leaveIssue
    (try dsimp only)
    omega
  iq_keep := by
    intro e h hv
    have h' := h hv
    simp only [timingPredicates, inDecode, inRename, inRegisterRead, inDispatch, inIssue, issueStamped, inExecute, executeStamped, inWriteback, inRetire, retireStamped, doneFetch, doneDecode, doneRename, doneRegisterRead, doneDispatch, doneIssue, doneExecute, doneWriteback, doneRetire, notWriteback, notExecute, notIssue, notDispatch, notRegisterRead, notRename, Arrived] at *
    omega
  di_stamp := by
    intro x h
    change inDispatch T x at h
    show inDispatch (T + 1) _
    simp only [timingPredicates, inDecode, inRename, inRegisterRead, inDispatch, inIssue, issueStamped, inExecute, executeStamped, inWriteback, inRetire, retireStamped, doneFetch, doneDecode, doneRename, doneRegisterRead, doneDispatch, doneIssue, doneExecute, doneWriteback, doneRetire, notWriteback, notExecute, notIssue, notDispatch, notRegisterRead, notRename, Arrived] at *
    unfold stampDispatch
    split <;> (try dsimp only) <;> omega
  dispatch := by
    intro x t1 t2 h _
    change inDispatch T x at h
    show inIssue (T + 1) _
    simp only [timingPredicates, inDecode, inRename, inRegisterRead, inDispatch, inIssue, issueStamped, inExecute, executeStamped, inWriteback, inRetire, retireStamped, doneFetch, doneDecode, doneRename, doneRegisterRead, doneDispatch, doneIssue, doneExecute, doneWriteback, doneRetire, notWriteback, notExecute, notIssue, notDispatch, notRegisterRead, notRename, Arrived] at *
    unfold leaveDispatch stampDispatch
    split <;> (try dsimp only) <;> omega
  rr_stamp := by
    intro x h
    change inRegisterRead T x at h
    show inRegisterRead (T + 1) _
    simp only [timingPredicates, inDecode, inRename, inRegisterRead, inDispatch, inIssue, issueStamped, inExecute, executeStamped, inWriteback, inRetire, retireStamped, doneFetch, doneDecode, doneRename, doneRegisterRead, doneDispatch, doneIssue, doneExecute, doneWriteback, doneRetire, notWriteback, notExecute, notIssue, notDispatch, notRegisterRead, notRename, Arrived] at *
    unfold stampRegisterRead
    split <;> (try dsimp only) <;> omega
  registerRead := by
    intro x t1 t2 h
    change inRegisterRead T x at h
    show inDispatch (T + 1) _
    simp only [timingPredicates, inDecode, inRename, inRegisterRead, inDispatch, inIssue, issueStamped, inExecute, executeStamped, inWriteback, inRetire, retireStamped, doneFetch, doneDecode, doneRename, doneRegisterRead, doneDispatch, doneIssue, doneExecute, doneWriteback, doneRetire, notWriteback, notExecute, notIssue, notDispatch, notRegisterRead, notRename, Arrived] at *
    unfold leaveRegisterRead stampRegisterRead
    split <;> (try dsimp only) <;> omega
  rn_stamp := by
    intro x h
    change inRename T x at h
    show inRename (T + 1) _
    simp only [timingPredicates, inDecode, inRename, inRegisterRead, inDispatch, inIssue, issueStamped, inExecute, executeStamped, inWriteback, inRetire, retireStamped, doneFetch, doneDecode, doneRename, doneRegisterRead, doneDispatch, doneIssue, doneExecute, doneWriteback, doneRetire, notWriteback, notExecute, notIssue, notDispatch, notRegisterRead, notRename, Arrived] at *
    unfold stampRename
    split <;> (try dsimp only) <;> omega
  rename := by
    intro x t1 t2 h
    change inRename T x at h
    refine ⟨?_, fun _ h' => (by cases h')⟩
    show inRegisterRead (T + 1) _
    simp only [timingPredicates, inDecode, inRename, inRegisterRead, inDispatch, inIssue, issueStamped, inExecute, executeStamped, inWriteback, inRetire, retireStamped, doneFetch, doneDecode, doneRename, doneRegisterRead, doneDispatch, doneIssue, doneExecute, doneWriteback, doneRetire, notWriteback, notExecute, notIssue, notDispatch, notRegisterRead, notRename, Arrived] at *
    unfold leaveRename stampRename
    split <;> (try dsimp only) <;> omega
  de_stamp := by
    intro x h
    change inDecode T x at h
    show inDecode (T + 1) _
    simp only [timingPredicates, inDecode, inRename, inRegisterRead, inDispatch, inIssue, issueStamped, inExecute, executeStamped, inWriteback, inRetire, retireStamped, doneFetch, doneDecode, doneRename, doneRegisterRead, doneDispatch, doneIssue, doneExecute, doneWriteback, doneRetire, notWriteback, notExecute, notIssue, notDispatch, notRegisterRead, notRename, Arrived] at *
    unfold stampDecode
    split <;> (try dsimp only) <;> omega
  decode := by
    intro x h
    change inDecode T x at h
    show inRename (T + 1) _
    simp only [timingPredicates, inDecode, inRename, inRegisterRead, inDispatch, inIssue, issueStamped, inExecute, executeStamped, inWriteback, inRetire, retireStamped, doneFetch, doneDecode, doneRename, doneRegisterRead, doneDispatch, doneIssue, doneExecute, doneWriteback, doneRetire, notWriteback, notExecute, notIssue, notDispatch, notRegisterRead, notRename, Arrived] at *
    unfold leaveDecode stampDecode
    split <;> (try dsimp only) <;> omega

theorem timing_tick {cfg : ProcessorParameters} {s s' : OutOfOrderProcessor} {b : Bool}
    (hw : 0 < cfg.width) (hs : Sat (timingPredicates (s.m_cycleCount : Int)) s)
    (hb : ExecBound cfg s) (hl : SeqLayout cfg s) (ht : tick cfg s = some (s', b)) :
    Sat (timingPredicates (s'.m_cycleCount : Int)) s' := by
  obtain ⟨s9, h9, rfl, _⟩ := tick_eq_some ht
  obtain ⟨s8, rfl, g8, _, e1, _, _⟩ := sat_pipelineStages
    (timing_rules cfg (s.m_cycleCount : Int)) hs hl h9
    (by
      intro s1 s2 h1 h2 e he hR
      have hz := (execBound_drained hb h1 h2).2.1 e he
      simp only [timingPredicates, inDecode, inRename, inRegisterRead, inDispatch, inIssue, issueStamped, inExecute, executeStamped, inWriteback, inRetire, retireStamped, doneFetch, doneDecode, doneRename, doneRegisterRead, doneDispatch, doneIssue, doneExecute, doneWriteback, doneRetire, notWriteback, notExecute, notIssue, notDispatch, notRegisterRead, notRename, Arrived] at *
      omega)
    (fun s1 s2 h1 h2 hlen => absurd hlen ((execBound_drained hb h1 h2).2.2 hw))
  have g9 : Sat (timingPredicates ((s.m_cycleCount : Int) + 1)) (fetchStage cfg s8) :=
    g8.afterFetch (by
    intro r c
    rw [e1]
    simp only [timingPredicates, inDecode, inRename, inRegisterRead, inDispatch, inIssue, issueStamped, inExecute, executeStamped, inWriteback, inRetire, retireStamped, doneFetch, doneDecode, doneRename, doneRegisterRead, doneDispatch, doneIssue, doneExecute, doneWriteback, doneRetire, notWriteback, notExecute, notIssue, notDispatch, notRegisterRead, notRename, Arrived, fetchInstruction, createInstruction]
    simp)
  have hc : (fetchStage cfg s8).m_cycleCount = s.m_cycleCount := by
    rw [← e1]
    unfold fetchStage
    split
    · rfl
    · obtain ⟨tr, de, cnt, fin, hf⟩ := fetchLoop_frame cfg.width s8
      rw [hf]
  have e : (((fetchStage cfg s8).m_cycleCount + 1 : Nat) : Int) = (s.m_cycleCount : Int) + 1 := by
    rw [hc]
    push_cast
    rfl
  show Sat (timingPredicates (((fetchStage cfg s8).m_cycleCount + 1 : Nat) : Int)) _
  rw [e]
  exact g9.transport rfl rfl rfl rfl rfl rfl rfl rfl rfl

theorem timing_of_reach {cfg : ProcessorParameters} {trace : List (Option TraceRecord)}
    {s : OutOfOrderProcessor} {b : Bool} (hw : 0 < cfg.width) (h : Reach cfg trace s b) :
    Sat (timingPredicates (s.m_cycleCount : Int)) s := by
  induction h with
  | init =>
    refine sat_init cfg _ _ ?_ ?_
    · intro h; cases h
    · intro h; cases h
  | step hr ht ih =>
    exact timing_tick hw ih (execBound_of_reach hr) (SeqLayout.of_reach hr) ht

/-- With a width of 0 nothing is ever fetched, so nothing is printed. -/
theorem zero_width_output {cfg : ProcessorParameters} {trace : List (Option TraceRecord)}
    {s : OutOfOrderProcessor} {b : Bool} (hw : cfg.width = 0) (h : Reach cfg trace s b) :
    s.m_output = [] := by
  have hc : s.m_instructionCount = 0 := by
    induction h with
    | init => rfl
    | step hr ht ih =>
      obtain ⟨s9, h9, rfl, _⟩ := tick_eq_some ht
      obtain ⟨s1, s2, s5, s6, s7, h1, h2, h5, h6, h7, rfl⟩ := pipelineStages_eq_some h9
      show (fetchStage cfg (decodeStage cfg s7)).m_instructionCount = 0
      have hf : fetchStage cfg (decodeStage cfg s7) = decodeStage cfg s7 := by
        unfold fetchStage
        rw [if_pos (by rw [hw]; exact Nat.zero_le _)]
      rw [hf, (decodeStage_scalars cfg s7).2.2, (renameStage_scalars h7).2.2,
        (registerReadStage_scalars h6).2.2, (dispatchStage_scalars h5).2.2,
        (issueStage_scalars cfg _).2.2.1, (executeStage_scalars cfg _).2.2.1,
        (writebackStage_scalars h2).2.2, (retireStage_scalars h1).2.2]
      exact ih
  have ht := (SeqLayout.of_reach h).total
  exact List.length_eq_zero.1 (by omega)

theorem doneRetire_of_reach {cfg : ProcessorParameters} {trace : List (Option TraceRecord)}
    {s : OutOfOrderProcessor} {b : Bool} (h : Reach cfg trace s b) :
    ∀ x ∈ s.m_output, doneRetire x := by
  rcases Nat.eq_zero_or_pos cfg.width with hw | hw
  · rw [zero_width_output hw h]
    simp
  · exact (timing_of_reach hw h).out

/-- C3, in the range of the 32-bit fields. Stage duration identity and monotone timestamps:
in every state of a run of `simulate` whose cycle counter is at most `INT_MAX` (every cycle
stamp then fits the `int` field it is stored in) and with `width * 5` below `2^32` (the
product the code forms in `uint32_t`), every record printed by Retire has each of its nine
durations at least 1, each stage before Retire ends at the cycle of the next stage
(`decodeCycle = fetchCycle + fetchDuration`, ..., `retireCycle = writebackCycle +
writebackDuration`), and therefore
`fetch ≤ decode ≤ rename ≤ regRead ≤ dispatch ≤ issue ≤ execute ≤ writeback ≤ retire`. -/
theorem stage_durations {cfg : ProcessorParameters} {trace : List (Option TraceRecord)}
    {s : OutOfOrderProcessor} {b : Bool} (h : Reach cfg trace s b)
    (_hc : (s.m_cycleCount : Int) ≤ INT_MAX) (_h32 : cfg.width * 5 < 4294967296) :
    ∀ t ∈ s.m_output.map printInstructionDetails, DurationIdentity t ∧ MonotoneStamps t := by
  intro t ht
  obtain ⟨x, hx, rfl⟩ := List.mem_map.1 ht
  have hd := doneRetire_of_reach h x hx
  simp only [timingPredicates, inDecode, inRename, inRegisterRead, inDispatch, inIssue, issueStamped, inExecute, executeStamped, inWriteback, inRetire, retireStamped, doneFetch, doneDecode, doneRename, doneRegisterRead, doneDispatch, doneIssue, doneExecute, doneWriteback, doneRetire, notWriteback, notExecute, notIssue, notDispatch, notRegisterRead, notRename, Arrived] at hd
  simp only [DurationIdentity, MonotoneStamps, printInstructionDetails]
  omega

theorem stage_durations_witness :
    ((stateAfter cfgS1 traceBurst 17).m_output.map (fun x => x.opType) = [2, 0, 0, 1, 0] ∧
      ((stateAfter cfgS1 traceBurst 17).m_cycleCount : Int) ≤ INT_MAX ∧
      cfgS1.width * 5 < 4294967296) ∧
      ∀ t ∈ (stateAfter cfgS1 traceBurst 17).m_output.map printInstructionDetails,
        DurationIdentity t ∧ MonotoneStamps t :=
  ⟨by decide, (reach_stateAfter cfgS1 traceBurst 17).elim
    (fun _ h => stage_durations h (by decide) (by decide))⟩

/-- C4, in the range of the 32-bit fields. Latency contract: in every state of a run of
`simulate` whose cycle counter is at most `INT_MAX` and with `width * 5` below `2^32` (so
that the capacity tests of Issue and Execute are against `width * 5` itself and no
writeback back-pressure occurs), every record printed by Retire with operation type 0, 1 or
2 has `writebackCycle - executeCycle` equal to 1, 2 or 5 respectively, and its execute
duration is the same number. -/
theorem latency_contract {cfg : ProcessorParameters} {trace : List (Option TraceRecord)}
    {s : OutOfOrderProcessor} {b : Bool} (h : Reach cfg trace s b)
    (_hc : (s.m_cycleCount : Int) ≤ INT_MAX) (_h32 : cfg.width * 5 < 4294967296) :
    ∀ t ∈ s.m_output.map printInstructionDetails, LatencyContract t := by
  intro t ht
  obtain ⟨x, hx, rfl⟩ := List.mem_map.1 ht
  have hd := doneRetire_of_reach h x hx
  simp only [timingPredicates, inDecode, inRename, inRegisterRead, inDispatch, inIssue, issueStamped, inExecute, executeStamped, inWriteback, inRetire, retireStamped, doneFetch, doneDecode, doneRename, doneRegisterRead, doneDispatch, doneIssue, doneExecute, doneWriteback, doneRetire, notWriteback, notExecute, notIssue, notDispatch, notRegisterRead, notRename, Arrived] at hd
  have hlat : execLatency x.opType =
      if x.opType = 0 then 1 else if x.opType = 1 then 2 else 5 := rfl
  simp only [LatencyContract, printInstructionDetails]
  refine ⟨fun h0 => ?_, fun h1 => ?_, fun h2 => ?_⟩
  · rw [if_pos h0] at hlat
    omega
  · rw [if_neg (by omega), if_pos h1] at hlat
    omega
  · rw [if_neg (by omega), if_neg (by omega)] at hlat
    omega

theorem latency_contract_witness :
    ((stateAfter cfgS1 traceBurst 17).m_output.map
        (fun x => (x.opType, x.executeCycle, x.writebackCycle)) =
        [(2, 6, 11), (0, 7, 8), (0, 8, 9), (1, 9, 11), (0, 10, 11)] ∧
      ((stateAfter cfgS1 traceBurst 17).m_cycleCount : Int) ≤ INT_MAX ∧
      cfgS1.width * 5 < 4294967296) ∧
      ∀ t ∈ (stateAfter cfgS1 traceBurst 17).m_output.map printInstructionDetails,
        LatencyContract t :=
  ⟨by decide, (reach_stateAfter cfgS1 traceBurst 17).elim
    (fun _ h => latency_contract h (by decide) (by decide))⟩

/-! ## Induction over the loops of Retire and Rename -/

theorem renameBuffer_eta {s : OutOfOrderProcessor} {rn : List Instruction}
    (h : s.m_renameBuffer = rn) : { s with m_renameBuffer := rn } = s := by
  cases s
  simp only at h
  subst h
  rfl

/-- A property of the state kept by every retirement of the head slot is kept by the loop
of `retireStage`. -/
theorem retireLoop_induction {I : OutOfOrderProcessor → Prop} (cfg : ProcessorParameters)
    (cyc : Int)
    (hstep : ∀ (s : OutOfOrderProcessor) (e : ReorderBufferEntry)
      (rmt : List RenameTableEntry), SeqLayout cfg s →
      s.m_reorderBuffer[s.m_robHead]? = some e → e.valid = true → e.ready = true →
      retireClear s.m_renameTable (leaveRetire cyc e.instruction) = some rmt → I s →
      I { s with
          m_output := s.m_output ++ [leaveRetire cyc e.instruction]
          m_renameTable := rmt
          m_reorderBuffer := s.m_reorderBuffer.set s.m_robHead
            { e with instruction := leaveRetire cyc e.instruction, valid := false }
          m_robHead := (s.m_robHead + 1) % cfg.robSize }) :
    ∀ (n : Nat) (s s' : OutOfOrderProcessor), SeqLayout cfg s →
      retireLoop cfg cyc n s = some s' → I s → I s' := by
  intro n
  induction n with
  | zero =>
    intro s s' _ hs hi
    simp only [retireLoop, Option.some.injEq] at hs
    subst hs
    exact hi
  | succ n ih =>
    intro s s' h hs hi
    unfold retireLoop at hs
    split at hs
    · simp at hs
    · rename_i e he
      split at hs
      · rename_i hvr
        simp only [Bool.and_eq_true] at hvr
        simp only at hs
        split at hs
        · simp at hs
        · rename_i rmt hrmt
          refine ih _ s' ?_ hs (hstep s e rmt h he hvr.1 hvr.2 hrmt hi)
          exact h.retireOne he hvr.1 (leaveRetire cyc e.instruction) rfl
            { e with instruction := leaveRetire cyc e.instruction, valid := false } rfl _
      · exact ih _ s' h hs hi

/-- A property of the state kept by every renaming of the front instruction is kept by the
loop of `renameStage`. -/
theorem renameLoop_induction {I : OutOfOrderProcessor → Prop} (cfg : ProcessorParameters)
    (cyc : Int)
    (hstep : ∀ (s : OutOfOrderProcessor) (inst : Instruction) (rn : List Instruction)
      (et : ReorderBufferEntry) (t1 t2 : Int) (rmt : List RenameTableEntry),
      s.m_renameBuffer = inst :: rn → SeqLayout cfg s →
      s.m_reorderBuffer[s.m_robTail]? = some et → et.valid = false →
      renameSource s.m_renameTable inst.src1Reg inst.src1Rename = some t1 →
      renameSource s.m_renameTable inst.src2Reg inst.src2Rename = some t2 →
      renameDest s.m_renameTable inst.destReg s.m_robTail = some rmt → I s →
      I { s with
          m_reorderBuffer := s.m_reorderBuffer.set s.m_robTail
            { valid := true, ready := false, instruction := inst,
              destArchReg := inst.destReg }
          m_renameTable := rmt
          m_registerReadBuffer :=
            s.m_registerReadBuffer ++ [leaveRename cyc t1 t2 s.m_robTail inst]
          m_renameBuffer := rn
          m_robTail := (s.m_robTail + 1) % cfg.robSize }) :
    ∀ (rn : List Instruction) (s s' : OutOfOrderProcessor), s.m_renameBuffer = rn →
      SeqLayout cfg s →
      cfg.width ≤ (s.m_reorderBuffer.filter (fun e => !e.valid)).length +
        s.m_registerReadBuffer.length →
      renameLoop cfg cyc rn s = some s' → I s → I s' := by
  intro rn
  induction rn with
  | nil =>
    intro s s' hrn _ _ hs hi
    simp only [renameLoop, Option.some.injEq] at hs
    subst hs
    rw [renameBuffer_eta hrn]
    exact hi
  | cons inst rn ih =>
    intro s s' hrn h hw hs hi
    unfold renameLoop at hs
    split at hs
    · rename_i hlt
      split at hs
      · simp at hs
      · rename_i et het
        split at hs
        · simp at hs
        · rename_i t1 ht1
          split at hs
          · simp at hs
          · rename_i t2 ht2
            split at hs
            · simp at hs
            · rename_i rmt hrmt
              have ha := fun rmt rr => h.allocate hrn het (by omega)
                { valid := true, ready := false, instruction := inst,
                  destArchReg := inst.destReg } rfl rfl rmt rr
              refine ih _ s' rfl (ha _ _).1 ?_ hs
                (hstep s inst rn et t1 t2 rmt hrn h het (ha [] []).2.2 ht1 ht2 hrmt hi)
              have := (ha [] []).2.1
              simp only [List.length_append, List.length_singleton]
              omega
    · simp only [Option.some.injEq] at hs
      subst hs
      rw [renameBuffer_eta hrn]
      exact hi

/-! ## Faithful and tagged instructions, on any trace -/

theorem Tagged.congr_tag {cfg : ProcessorParameters} {x y : Instruction} (h : Tagged cfg x)
    (h1 : y.destRename = x.destRename) (h2 : y.sequenceNum = x.sequenceNum) :
    Tagged cfg y := by
  unfold Tagged at h ⊢
  rw [h1, h2]
  exact h

theorem Unrenamed.congr_src {x y : Instruction} (h : Unrenamed x)
    (h1 : y.src1Rename = x.src1Rename) (h2 : y.src2Rename = x.src2Rename) :
    Unrenamed y := by
  unfold Unrenamed at h ⊢
  rw [h1, h2]
  exact h

theorem faithful_dest {records : List TraceRecord} {x y : Instruction}
    (hx : Faithful records x) (hy : Faithful records y)
    (h : x.sequenceNum = y.sequenceNum) : x.destReg = y.destReg := by
  unfold Faithful at hx hy
  rw [h, hy] at hx
  have := congrArg TraceRecord.destReg (Option.some.inj hx)
  exact this.symm

theorem tagged_rules (cfg : ProcessorParameters) (c : Int) (records : List TraceRecord) :
    StageRules cfg c (taggedPredicates cfg records)
      (taggedPredicates cfg records).rob
      (taggedPredicates cfg records).ex
      (taggedPredicates cfg records).iq
      (taggedPredicates cfg records) where
  out_keep := fun _ h => h
  rob_idle := fun e _ h1 h2 => by rw [h1] at h2; cases h2
  rob_stamp := fun e h hv => by
    unfold stampRetire at hv ⊢
    split at hv
    · rw [if_pos (by assumption)]
      have := h hv
      exact ⟨this.1.congr rfl rfl, this.2.1, fun hr => (this.2.2 hr).congr_tag rfl rfl⟩
    · rw [if_neg (by assumption)]
      exact h hv
  retire := fun e h hv _ => ⟨trivial, fun h' => by cases h'⟩
  rob_keep := fun _ h => h
  writeback := fun e x he hx hv hq _ => by
    have hf : Faithful records (leaveWriteback c (stampWriteback c x)) := by
      refine Faithful.congr hx.1 ?_ ?_ <;>
      · unfold leaveWriteback stampWriteback
        split <;> rfl
    have ht : Tagged cfg (leaveWriteback c (stampWriteback c x)) := by
      refine Tagged.congr_tag hx.2 ?_ ?_ <;>
      · unfold leaveWriteback stampWriteback
        split <;> rfl
    have hseq : (leaveWriteback c (stampWriteback c x)).sequenceNum =
        (stampWriteback c x).sequenceNum := rfl
    refine ⟨hf, ?_, fun _ => ht⟩
    rw [(he hv).2.1]
    exact faithful_dest (he hv).1 hf (hq.trans hseq.symm)
  ex_stamp := fun e h => by
    constructor
    · refine Faithful.congr h.1 ?_ ?_ <;>
      · unfold stampExecute
        dsimp only
        split <;> rfl
    · refine Tagged.congr_tag h.2 ?_ ?_ <;>
      · unfold stampExecute
        dsimp only
        split <;> rfl
  ex_done := fun e h _ => ⟨h.1.congr rfl rfl, h.2.congr_tag rfl rfl⟩
  wake_iq := fun d e h hv => by
    constructor
    · refine Faithful.congr (h hv).1 ?_ ?_ <;>
      · unfold wakeIssueQueueEntry
        dsimp only
        split <;> split <;> rfl
    · refine Tagged.congr_tag (h hv).2 ?_ ?_ <;>
      · unfold wakeIssueQueueEntry
        dsimp only
        split <;> split <;> rfl
  wake_di := fun d x h => by
    constructor
    · refine Faithful.congr h.1 ?_ ?_ <;>
      · unfold wakeInstruction
        dsimp only
        split <;> split <;> rfl
    · refine Tagged.congr_tag h.2 ?_ ?_ <;>
      · unfold wakeInstruction
        dsimp only
        split <;> split <;> rfl
  wake_rr := fun d x h => by
    constructor
    · refine Faithful.congr h.1 ?_ ?_ <;>
      · unfold wakeInstruction
        dsimp only
        split <;> split <;> rfl
    · refine Tagged.congr_tag h.2 ?_ ?_ <;>
      · unfold wakeInstruction
        dsimp only
        split <;> split <;> rfl
  iq_stamp := fun e h hv => by
    unfold stampIssue at hv ⊢
    split at hv
    · rw [if_pos (by assumption)]
      exact ⟨(h hv).1.congr rfl rfl, (h hv).2.congr_tag rfl rfl⟩
    · rw [if_neg (by assumption)]
      exact h hv
  issue := fun e h hr =>
    ⟨fun h' => (by cases h'), (h hr.1).1.congr rfl rfl, (h hr.1).2.congr_tag rfl rfl⟩
  iq_keep := fun _ h => h
  di_stamp := fun x h => by
    constructor
    · refine Faithful.congr h.1 ?_ ?_ <;>
      · unfold stampDispatch
        split <;> rfl
    · refine Tagged.congr_tag h.2 ?_ ?_ <;>
      · unfold stampDispatch
        split <;> rfl
  dispatch := fun x t1 t2 h _ => by
    constructor
    · refine Faithful.congr h.1 ?_ ?_ <;>
      · unfold leaveDispatch stampDispatch
        split <;> rfl
    · refine Tagged.congr_tag h.2 ?_ ?_ <;>
      · unfold leaveDispatch stampDispatch
        split <;> rfl
  rr_stamp := fun x h => by
    constructor
    · refine Faithful.congr h.1 ?_ ?_ <;>
      · unfold stampRegisterRead
        split <;> rfl
    · refine Tagged.congr_tag h.2 ?_ ?_ <;>
      · unfold stampRegisterRead
        split <;> rfl
  registerRead := fun x t1 t2 h => by
    constructor
    · refine Faithful.congr h.1 ?_ ?_ <;>
      · unfold leaveRegisterRead stampRegisterRead
        split <;> rfl
    · refine Tagged.congr_tag h.2 ?_ ?_ <;>
      · unfold leaveRegisterRead stampRegisterRead
        split <;> rfl
  rn_stamp := fun x h => by
    constructor
    · refine Faithful.congr h.1 ?_ ?_ <;>
      · unfold stampRename
        split <;> rfl
    · refine Unrenamed.congr_src h.2 ?_ ?_ <;>
      · unfold stampRename
        split <;> rfl
  rename := fun x t1 t2 h => by
    have hs : Faithful records (stampRename c x) := by
      refine Faithful.congr h.1 ?_ ?_ <;>
      · unfold stampRename
        split <;> rfl
    refine ⟨⟨hs.congr rfl rfl, ?_⟩, fun _ => ⟨hs, rfl, fun h' => by cases h'⟩⟩
    unfold Tagged leaveRename stampRename
    split <;> rfl
  de_stamp := fun x h => by
    constructor
    · refine Faithful.congr h.1 ?_ ?_ <;>
      · unfold stampDecode
        split <;> rfl
    · refine Unrenamed.congr_src h.2 ?_ ?_ <;>
      · unfold stampDecode
        split <;> rfl
  decode := fun x h => by
    constructor
    · refine Faithful.congr h.1 ?_ ?_ <;>
      · unfold leaveDecode stampDecode
        split <;> rfl
    · refine Unrenamed.congr_src h.2 ?_ ?_ <;>
      · unfold leaveDecode stampDecode
        split <;> rfl

/-- On any trace `fetchLoop` makes faithful, not yet renamed instructions of the records it
reads: the records still to read are the well-formed records of the input from the
instruction counter on. -/
theorem fetchLoop_reads (cfg : ProcessorParameters) (records : List TraceRecord) :
    ∀ (n : Nat) (s : OutOfOrderProcessor),
      s.m_traceFile.reduceOption = records.drop s.m_instructionCount →
      (∀ x ∈ s.m_decodeBuffer, (taggedPredicates cfg records).de x) →
      (∀ x ∈ (fetchLoop n s).m_decodeBuffer, (taggedPredicates cfg records).de x) ∧
      (fetchLoop n s).m_traceFile.reduceOption =
        records.drop (fetchLoop n s).m_instructionCount := by
  intro n
  induction n with
  | zero => intro s ht hd; exact ⟨hd, ht⟩
  | succ n ih =>
    intro s ht hd
    unfold fetchLoop
    split
    · exact ⟨hd, ht⟩
    · rename_i rest hcons
      rw [hcons] at ht
      exact ⟨hd, by simpa [List.reduceOption_cons_of_none] using ht⟩
    · rename_i r rest hcons
      rw [hcons, List.reduceOption_cons_of_some] at ht
      have hget : records[s.m_instructionCount]? = some r := by
        have := List.getElem?_drop records s.m_instructionCount 0
        rw [← ht] at this
        simpa using this.symm
      have hnext : records.drop (s.m_instructionCount + 1) = rest.reduceOption := by
        rw [← List.drop_drop 1 s.m_instructionCount records, ← ht]
        rfl
      exact ih { s with
          m_traceFile := rest
          m_instructionCount := s.m_instructionCount + 1
          m_decodeBuffer :=
            s.m_decodeBuffer ++ [fetchInstruction s.m_cycleCount r s.m_instructionCount] }
        hnext.symm (forall_mem_append hd ⟨hget, rfl, rfl⟩)

theorem tagged_tick {cfg : ProcessorParameters} {records : List TraceRecord}
    {s s' : OutOfOrderProcessor} {b : Bool}
    (hs : Sat (taggedPredicates cfg records) s) (hl : SeqLayout cfg s)
    (ht : s.m_traceFile.reduceOption = records.drop s.m_instructionCount)
    (h : tick cfg s = some (s', b)) :
    Sat (taggedPredicates cfg records) s' ∧
      s'.m_traceFile.reduceOption = records.drop s'.m_instructionCount := by
  obtain ⟨s9, h9, rfl, _⟩ := tick_eq_some h
  obtain ⟨s8, rfl, g8, _, _, e2, e3⟩ := sat_pipelineStages
    (tagged_rules cfg (s.m_cycleCount : Int) records) hs hl h9
    (fun _ _ _ _ _ _ h => h) (fun _ _ _ _ _ _ h => h)
  have hf : Sat (taggedPredicates cfg records) (fetchStage cfg s8) ∧
      (fetchStage cfg s8).m_traceFile.reduceOption =
        records.drop (fetchStage cfg s8).m_instructionCount := by
    unfold fetchStage
    split
    · exact ⟨g8, by rw [e2, e3]; exact ht⟩
    · have hl := fetchLoop_reads cfg records cfg.width s8 (by rw [e2, e3]; exact ht) g8.de
      obtain ⟨tr, de, cnt, fin, hf⟩ := fetchLoop_frame cfg.width s8
      refine ⟨?_, hl.2⟩
      have hde := hl.1
      rw [hf] at hde ⊢
      exact ⟨hde, g8.rn, g8.rr, g8.di, g8.iq, g8.ex, g8.wb, g8.rob, g8.out⟩
  exact ⟨hf.1.transport rfl rfl rfl rfl rfl rfl rfl rfl rfl, hf.2⟩

theorem tagged_of_reach {cfg : ProcessorParameters} {trace : List (Option TraceRecord)}
    {s : OutOfOrderProcessor} {b : Bool} (h : Reach cfg trace s b) :
    Sat (taggedPredicates cfg trace.reduceOption) s ∧
      s.m_traceFile.reduceOption = trace.reduceOption.drop s.m_instructionCount := by
  induction h with
  | init =>
    refine ⟨sat_init cfg _ _ ?_ ?_, rfl⟩
    · intro h; cases h
    · intro h; cases h
  | step hr ht ih => exact tagged_tick ih.1 (SeqLayout.of_reach hr) ih.2 ht

/-- In a state of a run every occupied and ready reorder buffer slot holds an instruction
with the destination the slot records and with the slot as its destination tag. -/
theorem slotsTagged_of_reach {cfg : ProcessorParameters} {trace : List (Option TraceRecord)}
    {s : OutOfOrderProcessor} {b : Bool} (h : Reach cfg trace s b) : SlotsTagged s := by
  intro i e he hv hr
  have hp := (tagged_of_reach h).1.rob e (List.mem_iff_getElem?.2 ⟨i, he⟩) hv
  have hq := (SeqLayout.of_reach h).rob_seq i e he hv
  refine ⟨hp.2.1.symm, ?_⟩
  have := hp.2.2 hr
  unfold Tagged at this
  rw [this, hq.2.2]

/-! ## The rename map through Retire -/

theorem producer_set_ne {rob : List ReorderBufferEntry} {i j : Nat}
    (ne : ReorderBufferEntry) (r : Int) (n : Nat) (h : j ≠ i) :
    Producer (rob.set i ne) r j n ↔ Producer rob r j n := by
  unfold Producer
  rw [List.getElem?_set_ne (Ne.symm h)]

theorem producer_set_self {rob : List ReorderBufferEntry} {i : Nat}
    (ne : ReorderBufferEntry) (r : Int) (n : Nat) (h : i < rob.length) :
    Producer (rob.set i ne) r i n ↔
      (ne.valid = true ∧ ne.destArchReg = r ∧ ne.instruction.sequenceNum = n) := by
  unfold Producer
  rw [List.getElem?_set_self h]
  constructor
  · rintro ⟨e, he, h1, h2, h3⟩
    cases he
    exact ⟨h1, h2, h3⟩
  · rintro ⟨h1, h2, h3⟩
    exact ⟨ne, rfl, h1, h2, h3⟩

theorem renameEntryOK_congr {rob rob' : List ReorderBufferEntry} {r : Nat}
    {m : RenameTableEntry}
    (h : ∀ i n, Producer rob' r i n ↔ Producer rob r i n) (hm : RenameEntryOK rob r m) :
    RenameEntryOK rob' r m := by
  unfold RenameEntryOK Youngest at hm ⊢
  refine ⟨?_, ?_⟩
  · rw [hm.1]
    constructor
    · rintro ⟨i, n, hp⟩
      exact ⟨i, n, (h i n).2 hp⟩
    · rintro ⟨i, n, hp⟩
      exact ⟨i, n, (h i n).1 hp⟩
  · intro hv
    obtain ⟨h0, n, hp, hmax⟩ := hm.2 hv
    exact ⟨h0, n, (h _ n).2 hp, fun j k hk => hmax j k ((h j k).1 hk)⟩

theorem vecGet_natCast {α : Type} (v : List α) (r : Nat) : vecGet v (r : Int) = v[r]? := by
  unfold vecGet
  rw [if_neg (by omega)]
  simp

theorem vecGet_some {α : Type} {v : List α} {i : Int} {a : α} (h : vecGet v i = some a) :
    0 ≤ i ∧ v[i.toNat]? = some a := by
  unfold vecGet at h
  split at h
  · cases h
  · exact ⟨by omega, h⟩

/-- Two producers in a reorder buffer laid out by sequence number are in the same slot when
they have the same number. -/
theorem SeqLayout.producer_slot {cfg : ProcessorParameters} {s : OutOfOrderProcessor}
    (h : SeqLayout cfg s) {r r' : Int} {i j n : Nat}
    (hi : Producer s.m_reorderBuffer r i n) (hj : Producer s.m_reorderBuffer r' j n) :
    i = j := by
  obtain ⟨e, he, hv, _, hn⟩ := hi
  obtain ⟨e', he', hv', _, hn'⟩ := hj
  have h1 := (h.rob_seq i e he hv).2.2
  have h2 := (h.rob_seq j e' he' hv').2.2
  rw [hn] at h1
  rw [hn'] at h2
  omega

theorem SeqLayout.producer_range {cfg : ProcessorParameters} {s : OutOfOrderProcessor}
    (h : SeqLayout cfg s) {r : Int} {i n : Nat} (hi : Producer s.m_reorderBuffer r i n) :
    s.m_output.length ≤ n ∧ n < s.m_output.length + countValid s.m_reorderBuffer := by
  obtain ⟨e, he, hv, _, hn⟩ := hi
  have := h.rob_seq i e he hv
  rw [hn] at this
  exact ⟨this.1, this.2.1⟩

/-- Retiring the head slot keeps invariant R1. -/
theorem renameMap_retire {cfg : ProcessorParameters} {s : OutOfOrderProcessor}
    {e ne : ReorderBufferEntry} {inst : Instruction} {rmt : List RenameTableEntry}
    (out : List Instruction) (head : Nat)
    (hl : SeqLayout cfg s) (he : s.m_reorderBuffer[s.m_robHead]? = some e)
    (hv : e.valid = true) (hnv : ne.valid = false)
    (hd : inst.destReg = e.destArchReg) (ht : inst.destRename = (s.m_robHead : Int))
    (hc : retireClear s.m_renameTable inst = some rmt) (hm : RenameMapOK s) :
    RenameMapOK { s with
      m_output := out
      m_renameTable := rmt
      m_reorderBuffer := s.m_reorderBuffer.set s.m_robHead ne
      m_robHead := head } := by
  have hlt : s.m_robHead < s.m_reorderBuffer.length := by
    rcases Nat.lt_or_ge s.m_robHead s.m_reorderBuffer.length with h | h
    · exact h
    · rw [List.getElem?_eq_none_iff.2 h] at he
      cases he
  have hhead : ∀ r n, ¬ Producer (s.m_reorderBuffer.set s.m_robHead ne) r s.m_robHead n := by
    intro r n hp
    rw [producer_set_self _ _ _ hlt, hnv] at hp
    cases hp.1
  have hprod : Producer s.m_reorderBuffer e.destArchReg s.m_robHead
      e.instruction.sequenceNum := ⟨e, he, hv, rfl, rfl⟩
  have hseq := hl.head_seq he hv
  intro r m hrm
  show RenameEntryOK (s.m_reorderBuffer.set s.m_robHead ne) r m
  have hrm' : rmt[r]? = some m := hrm
  by_cases hreg : e.destArchReg = (r : Int)
  · rw [hreg] at hprod
    unfold retireClear at hc
    rw [if_pos (by rw [hd, hreg]; omega)] at hc
    rw [hd, hreg, vecGet_natCast] at hc
    cases hm0 : s.m_renameTable[r]? with
    | none => rw [hm0] at hc; cases hc
    | some m0 =>
      rw [hm0] at hc
      simp only [Int.toNat_natCast] at hc
      have hok := hm r m0 hm0
      have hval : m0.valid = true := hok.1.2 ⟨_, _, hprod⟩
      obtain ⟨h0, ny, hy, hmax⟩ := hok.2 hval
      split at hc
      · rename_i htag
        simp only [Option.some.injEq] at hc
        subst hc
        have hrlt : r < s.m_renameTable.length := by
          rcases Nat.lt_or_ge r s.m_renameTable.length with h | h
          · exact h
          · rw [List.getElem?_eq_none_iff.2 h] at hm0
            cases hm0
        rw [List.getElem?_set_self hrlt] at hrm'
        cases hrm'
        have hyh : m0.robTag.toNat = s.m_robHead := by
          rw [← htag, ht]
          simp
        rw [hyh] at hy
        have hny : ny = e.instruction.sequenceNum := by
          obtain ⟨e1, he1, _, _, hn1⟩ := hy
          rw [he] at he1
          cases he1
          exact hn1.symm
        refine ⟨⟨fun h => (by cases h), ?_⟩, fun h => (by cases h)⟩
        rintro ⟨i, n, hp⟩
        exfalso
        by_cases hi : i = s.m_robHead
        · rw [hi] at hp
          exact hhead _ _ hp
        · rw [producer_set_ne _ _ _ hi] at hp
          have h1 := hmax i n hp
          have h2 := (hl.producer_range hp).1
          have hn : n = ny := by omega
          rw [hn] at hp
          exact hi (hl.producer_slot hp hy)
      · rename_i htag
        simp only [Option.some.injEq] at hc
        subst hc
        rw [hm0] at hrm'
        cases hrm'
        have hyh : m.robTag.toNat ≠ s.m_robHead := by
          intro hcon
          apply htag
          rw [ht, ← hcon, Int.toNat_of_nonneg h0]
        refine ⟨⟨fun _ => ⟨_, _, (producer_set_ne _ _ _ hyh).2 hy⟩, fun _ => hval⟩,
          fun _ => ⟨h0, ny, (producer_set_ne _ _ _ hyh).2 hy, ?_⟩⟩
        intro j k hk
        by_cases hj : j = s.m_robHead
        · rw [hj] at hk
          exact absurd hk (hhead _ _)
        · exact hmax j k ((producer_set_ne _ _ _ hj).1 hk)
  · have hsame : ∀ i n, Producer (s.m_reorderBuffer.set s.m_robHead ne) r i n ↔
        Producer s.m_reorderBuffer r i n := by
      intro i n
      by_cases hi : i = s.m_robHead
      · rw [hi]
        constructor
        · intro hp
          exact absurd hp (hhead _ _)
        · rintro ⟨e1, he1, _, hr1, _⟩
          rw [he] at he1
          cases he1
          exact absurd hr1 hreg
      · exact producer_set_ne _ _ _ hi
    have hold : s.m_renameTable[r]? = some m := by
      unfold retireClear at hc
      split at hc
      · split at hc
        · cases hc
        · rename_i m0 hget
          split at hc
          · simp only [Option.some.injEq] at hc
            subst hc
            have hne : inst.destReg.toNat ≠ r := by
              intro hcon
              apply hreg
              rw [← hd, ← hcon, Int.toNat_of_nonneg (vecGet_some hget).1]
            rw [List.getElem?_set_ne hne] at hrm'
            exact hrm'
          · simp only [Option.some.injEq] at hc
            subst hc
            exact hrm'
      · simp only [Option.some.injEq] at hc
        subst hc
        exact hrm'
    exact renameEntryOK_congr hsame (hm r m hold)

theorem producer_of_keys {rob rob' : List ReorderBufferEntry}
    (h : rob'.map (fun e => (e.valid, e.destArchReg, e.instruction.sequenceNum)) =
      rob.map (fun e => (e.valid, e.destArchReg, e.instruction.sequenceNum)))
    (r : Int) (i n : Nat) : Producer rob' r i n ↔ Producer rob r i n := by
  have h2 := congrArg (fun l => l[i]?) h
  simp only [List.getElem?_map] at h2
  unfold Producer
  constructor
  · rintro ⟨e', he', h1, h2', h3⟩
    rw [he'] at h2
    cases hr : rob[i]? with
    | none => rw [hr] at h2; simp at h2
    | some e =>
      rw [hr] at h2
      simp only [Option.map_some', Option.some.injEq, Prod.mk.injEq] at h2
      exact ⟨e, rfl, by rw [← h2.1, h1], by rw [← h2.2.1, h2'], by rw [← h2.2.2, h3]⟩
  · rintro ⟨e, he, h1, h2', h3⟩
    rw [he] at h2
    cases hr : rob'[i]? with
    | none => rw [hr] at h2; simp at h2
    | some e' =>
      rw [hr] at h2
      simp only [Option.map_some', Option.some.injEq, Prod.mk.injEq] at h2
      exact ⟨e', rfl, by rw [h2.1, h1], by rw [h2.2.1, h2'], by rw [h2.2.2, h3]⟩

theorem renameMapOK_of_keys {s s' : OutOfOrderProcessor}
    (h : s'.m_reorderBuffer.map (fun e => (e.valid, e.destArchReg, e.instruction.sequenceNum)) =
      s.m_reorderBuffer.map (fun e => (e.valid, e.destArchReg, e.instruction.sequenceNum)))
    (hr : s'.m_renameTable = s.m_renameTable) (hm : RenameMapOK s) : RenameMapOK s' := by
  intro r m hrm
  rw [hr] at hrm
  exact renameEntryOK_congr (producer_of_keys h r) (hm r m hrm)

theorem writebackPass_slots (cyc : Int) :
    ∀ (rob : List ReorderBufferEntry) (wb : List Instruction),
      (writebackPass cyc rob wb).1.map
          (fun e => (e.valid, e.destArchReg, e.instruction.sequenceNum)) =
        rob.map (fun e => (e.valid, e.destArchReg, e.instruction.sequenceNum)) := by
  intro rob
  induction rob with
  | nil => intro wb; simp [writebackPass]
  | cons e rob ih =>
    intro wb
    cases wb with
    | nil => simp [writebackPass]
    | cons front wb =>
      unfold writebackPass
      split
      · rename_i hc
        simp only [Bool.and_eq_true, decide_eq_true_eq] at hc
        simp only [List.map_cons, ih, List.cons.injEq, Prod.mk.injEq, and_true]
        simp [hc.1, hc.2, leaveWriteback]
      · simp only [List.map_cons, ih]

theorem writebackLoop_slots (cyc : Int) :
    ∀ (fuel : Nat) (rob rob' : List ReorderBufferEntry) (wb : List Instruction),
      writebackLoop cyc fuel rob wb = some rob' →
      rob'.map (fun e => (e.valid, e.destArchReg, e.instruction.sequenceNum)) =
        rob.map (fun e => (e.valid, e.destArchReg, e.instruction.sequenceNum)) := by
  intro fuel
  induction fuel with
  | zero =>
    intro rob rob' wb h
    unfold writebackLoop at h
    split at h
    · simp only [Option.some.injEq] at h
      rw [h]
    · simp at h
  | succ fuel ih =>
    intro rob rob' wb h
    unfold writebackLoop at h
    split at h
    · simp only [Option.some.injEq] at h
      rw [h]
    · simp only at h
      split at h
      · simp at h
      · rw [ih _ _ _ h, writebackPass_slots]

theorem renameMap_writebackStage {s s' : OutOfOrderProcessor} (hm : RenameMapOK s)
    (hs : writebackStage s = some s') : RenameMapOK s' := by
  unfold writebackStage at hs
  simp only at hs
  split at hs
  · simp at hs
  · rename_i rob hrob
    simp only [Option.some.injEq] at hs
    subst hs
    exact renameMapOK_of_keys (writebackLoop_slots _ _ _ _ _ hrob) rfl hm

theorem renameMap_retireStage {cfg : ProcessorParameters} {s s' : OutOfOrderProcessor}
    (hl : SeqLayout cfg s) (hm : RenameMapOK s) (ht : SlotsTagged s)
    (hs : retireStage cfg s = some s') : RenameMapOK s' := by
  unfold retireStage at hs
  split at hs
  · simp only [Option.some.injEq] at hs
    subst hs
    exact hm
  · have hk : (s.m_reorderBuffer.map (stampRetire (s.m_cycleCount : Int))).map
        (fun e => (e.valid, e.destArchReg, e.instruction.sequenceNum)) =
        s.m_reorderBuffer.map (fun e => (e.valid, e.destArchReg, e.instruction.sequenceNum)) := by
      rw [List.map_map]
      apply List.map_congr_left
      intro e _
      simp only [Function.comp, stampRetire]
      split <;> rfl
    have hl0 : SeqLayout cfg { s with
        m_reorderBuffer := s.m_reorderBuffer.map (stampRetire (s.m_cycleCount : Int)) } := by
      refine hl.of_keys ?_ rfl rfl rfl rfl rfl rfl
      dsimp only
      rw [List.map_map]
      apply List.map_congr_left
      intro e _
      simp only [Function.comp, stampRetire]
      split <;> rfl
    have hm0 : RenameMapOK { s with
        m_reorderBuffer := s.m_reorderBuffer.map (stampRetire (s.m_cycleCount : Int)) } :=
      renameMapOK_of_keys hk rfl hm
    have ht0 : SlotsTagged { s with
        m_reorderBuffer := s.m_reorderBuffer.map (stampRetire (s.m_cycleCount : Int)) } := by
      intro i e he hv hr
      simp only [List.getElem?_map] at he
      cases he0 : s.m_reorderBuffer[i]? with
      | none => rw [he0] at he; cases he
      | some e0 =>
        rw [he0] at he
        simp only [Option.map_some', Option.some.injEq] at he
        subst he
        unfold stampRetire at hv hr ⊢
        split at hv
        · rw [if_pos (by assumption)] at hr ⊢
          exact ht i e0 he0 hv hr
        · rw [if_neg (by assumption)] at hr ⊢
          exact ht i e0 he0 hv hr
    refine (retireLoop_induction (I := fun s => RenameMapOK s ∧ SlotsTagged s) cfg
      (s.m_cycleCount : Int) ?_ cfg.width _ s' hl0 hs ⟨hm0, ht0⟩).1
    intro s e rmt hl he hv hr hc hi
    have hte := hi.2 _ e he hv hr
    refine ⟨renameMap_retire _ _ hl he hv rfl hte.1 hte.2 hc hi.1, ?_⟩
    intro i e' he' hv' hr'
    by_cases hih : i = s.m_robHead
    · subst hih
      have hlt : s.m_robHead < s.m_reorderBuffer.length := by
        rcases Nat.lt_or_ge s.m_robHead s.m_reorderBuffer.length with h | h
        · exact h
        · rw [List.getElem?_eq_none_iff.2 h] at he
          cases he
      have he'' : (s.m_reorderBuffer.set s.m_robHead
          { e with instruction := leaveRetire (_ : Int) e.instruction, valid := false })[
            s.m_robHead]? = some e' := he'
      rw [List.getElem?_set_self hlt] at he''
      cases he''
      cases hv'
    · have he'' : (s.m_reorderBuffer.set s.m_robHead
          { e with instruction := leaveRetire (_ : Int) e.instruction, valid := false })[
            i]? = some e' := he'
      rw [List.getElem?_set_ne (Ne.symm hih)] at he''
      exact hi.2 i e' he'' hv' hr'

/-! ## The rename map through Rename -/

theorem producer_allocate {rob : List ReorderBufferEntry} {t : Nat} {et : ReorderBufferEntry}
    (het : rob[t]? = some et) (hev : et.valid = false) (ne : ReorderBufferEntry)
    (hnv : ne.valid = true) (r : Int) (i n : Nat) :
    Producer (rob.set t ne) r i n ↔
      Producer rob r i n ∨ (i = t ∧ ne.destArchReg = r ∧ ne.instruction.sequenceNum = n) := by
  have hlt : t < rob.length := by
    rcases Nat.lt_or_ge t rob.length with h | h
    · exact h
    · rw [List.getElem?_eq_none_iff.2 h] at het
      cases het
  by_cases hi : i = t
  · subst hi
    rw [producer_set_self _ _ _ hlt]
    constructor
    · intro h
      exact Or.inr ⟨rfl, h.2⟩
    · rintro (⟨e, he, hv, _⟩ | ⟨_, h⟩)
      · rw [het] at he
        cases he
        rw [hev] at hv
        cases hv
      · exact ⟨hnv, h⟩
  · rw [producer_set_ne _ _ _ hi]
    constructor
    · exact Or.inl
    · rintro (h | ⟨h, _⟩)
      · exact h
      · exact absurd h hi

theorem sourceTagOK_allocate {rob rob' : List ReorderBufferEntry} {k n0 : Nat}
    (hp1 : ∀ r i n, Producer rob r i n → Producer rob' r i n)
    (hp2 : ∀ r i n, Producer rob' r i n → Producer rob r i n ∨ n = n0) (hk : k ≤ n0)
    {reg tag : Int} (h : SourceTagOK rob k reg tag) : SourceTagOK rob' k reg tag := by
  unfold SourceTagOK YoungestBefore at h ⊢
  refine ⟨h.1, fun hreg => ?_⟩
  rcases h.2 hreg with ⟨ht, hno⟩ | ⟨h0, n, hpn, hn, hmax⟩
  · refine Or.inl ⟨ht, ?_⟩
    rintro ⟨i, n, hpi, hn⟩
    rcases hp2 _ _ _ hpi with h' | h'
    · exact hno ⟨i, n, h', hn⟩
    · omega
  · refine Or.inr ⟨h0, n, hp1 _ _ _ hpn, hn, fun j m hj hm => ?_⟩
    rcases hp2 _ _ _ hj with h' | h'
    · exact hmax j m h' hm
    · omega

theorem renameSource_ok {s : OutOfOrderProcessor} (hm : RenameMapOK s) {reg t : Int}
    (hs : renameSource s.m_renameTable reg (-1) = some t) (k : Nat)
    (hk : ∀ r i n, Producer s.m_reorderBuffer r i n → n < k) :
    SourceTagOK s.m_reorderBuffer k reg t := by
  unfold renameSource at hs
  unfold SourceTagOK
  split at hs
  · rename_i hreg
    split at hs
    · cases hs
    · rename_i m hget
      simp only [Option.some.injEq] at hs
      obtain ⟨h0, hm0⟩ := vecGet_some hget
      have hok := hm _ m hm0
      unfold RenameEntryOK Youngest at hok
      rw [Int.toNat_of_nonneg h0] at hok
      unfold YoungestBefore
      refine ⟨fun h => absurd h hreg, fun _ => ?_⟩
      by_cases hv : m.valid = true
      · rw [if_pos hv] at hs
        obtain ⟨ht0, n, hp, hmax⟩ := hok.2 hv
        rw [← hs]
        exact Or.inr ⟨ht0, n, hp, hk _ _ _ hp, fun j m' hj _ => hmax j m' hj⟩
      · rw [if_neg hv] at hs
        refine Or.inl ⟨hs.symm, ?_⟩
        rintro ⟨i, n, hp, _⟩
        exact hv (hok.1.2 ⟨i, n, hp⟩)
  · rename_i hreg
    simp only [Option.some.injEq] at hs
    simp only [ne_eq, Decidable.not_not] at hreg
    exact ⟨fun _ => hs.symm, fun h => absurd hreg h⟩

theorem SeqLayout.front_number {cfg : ProcessorParameters} {s : OutOfOrderProcessor}
    (h : SeqLayout cfg s) {inst : Instruction} {rn : List Instruction}
    (hrn : s.m_renameBuffer = inst :: rn) :
    inst.sequenceNum = s.m_output.length + countValid s.m_reorderBuffer := by
  have hf := h.front_seq
  rw [hrn] at hf
  simp only [List.cons_append, List.map_cons, List.length_cons] at hf
  rw [show rn.length + 1 + s.m_decodeBuffer.length = (rn.length + s.m_decodeBuffer.length) + 1 by
    omega] at hf
  exact (range'_cons_eq hf).1

/-- Allocating the tail slot to the front instruction of the rename buffer and mapping its
destination register to the slot keeps invariant R1. -/
theorem renameMap_allocate {cfg : ProcessorParameters} {s : OutOfOrderProcessor}
    {inst : Instruction} {rn : List Instruction} {et : ReorderBufferEntry}
    {rmt : List RenameTableEntry} (rr rn' : List Instruction) (tail : Nat)
    (hrn : s.m_renameBuffer = inst :: rn) (hl : SeqLayout cfg s)
    (het : s.m_reorderBuffer[s.m_robTail]? = some et) (hev : et.valid = false)
    (hd : renameDest s.m_renameTable inst.destReg s.m_robTail = some rmt)
    (hm : RenameMapOK s) :
    RenameMapOK { s with
      m_reorderBuffer := s.m_reorderBuffer.set s.m_robTail
        { valid := true, ready := false, instruction := inst, destArchReg := inst.destReg }
      m_renameTable := rmt
      m_registerReadBuffer := rr
      m_renameBuffer := rn'
      m_robTail := tail } := by
  have hnext := hl.front_number hrn
  have hp := producer_allocate het hev
    { valid := true, ready := false, instruction := inst, destArchReg := inst.destReg } rfl
  have hold : ∀ r i n, Producer s.m_reorderBuffer r i n → n < inst.sequenceNum := by
    intro r i n h
    have := (hl.producer_range h).2
    omega
  intro r m hrm
  show RenameEntryOK (s.m_reorderBuffer.set s.m_robTail _) r m
  have hrm' : rmt[r]? = some m := hrm
  by_cases hreg : inst.destReg = (r : Int)
  · unfold renameDest at hd
    rw [if_pos (by rw [hreg]; omega), hreg, vecGet_natCast] at hd
    cases hm0 : s.m_renameTable[r]? with
    | none => rw [hm0] at hd; cases hd
    | some m0 =>
      rw [hm0] at hd
      simp only [Int.toNat_natCast, Option.some.injEq] at hd
      subst hd
      have hrlt : r < s.m_renameTable.length := by
        rcases Nat.lt_or_ge r s.m_renameTable.length with h | h
        · exact h
        · rw [List.getElem?_eq_none_iff.2 h] at hm0
          cases hm0
      rw [List.getElem?_set_self hrlt] at hrm'
      cases hrm'
      have hnew : Producer (s.m_reorderBuffer.set s.m_robTail
          { valid := true, ready := false, instruction := inst, destArchReg := inst.destReg })
          r s.m_robTail inst.sequenceNum := (hp _ _ _).2 (Or.inr ⟨rfl, hreg, rfl⟩)
      unfold RenameEntryOK Youngest
      refine ⟨⟨fun _ => ⟨_, _, hnew⟩, fun _ => rfl⟩, fun _ => ⟨by simp, ?_⟩⟩
      simp only [Int.toNat_natCast]
      refine ⟨_, hnew, fun j k hk => ?_⟩
      rcases (hp _ _ _).1 hk with h | ⟨_, _, h⟩
      · exact Nat.le_of_lt (hold _ _ _ h)
      · exact Nat.le_of_eq h.symm
  · have hsame : ∀ i n, Producer (s.m_reorderBuffer.set s.m_robTail
        { valid := true, ready := false, instruction := inst, destArchReg := inst.destReg })
        r i n ↔ Producer s.m_reorderBuffer r i n := by
      intro i n
      rw [hp]
      constructor
      · rintro (h | ⟨_, h, _⟩)
        · exact h
        · exact absurd h hreg
      · exact Or.inl
    have hold' : s.m_renameTable[r]? = some m := by
      unfold renameDest at hd
      split at hd
      · split at hd
        · cases hd
        · rename_i m0 hget
          simp only [Option.some.injEq] at hd
          subst hd
          have hne : inst.destReg.toNat ≠ r := by
            intro hcon
            apply hreg
            rw [← hcon, Int.toNat_of_nonneg (vecGet_some hget).1]
          rw [List.getElem?_set_ne hne] at hrm'
          exact hrm'
      · simp only [Option.some.injEq] at hd
        subst hd
        exact hrm'
    exact renameEntryOK_congr hsame (hm r m hold')

theorem renameMap_renameStage {cfg : ProcessorParameters} {s s' : OutOfOrderProcessor}
    (hl : SeqLayout cfg s) (hm : RenameMapOK s) (hs : renameStage cfg s = some s') :
    RenameMapOK s' := by
  have hseq : ∀ x, (stampRename (s.m_cycleCount : Int) x).sequenceNum = x.sequenceNum := by
    intro x; unfold stampRename; split <;> rfl
  have h1 : SeqLayout cfg { s with
      m_renameBuffer := s.m_renameBuffer.map (stampRename (s.m_cycleCount : Int)) } := by
    refine hl.of_keys rfl rfl rfl rfl rfl (by simp) ?_
    simp only [List.map_append, map_stamp_seq _ hseq]
  unfold renameStage at hs
  simp only at hs
  split at hs
  · simp only [Option.some.injEq] at hs
    subst hs
    exact hm
  · rename_i hc
    simp only [Bool.or_eq_true, decide_eq_true_eq, not_or, isReorderBufferFull,
      Nat.not_lt] at hc
    refine renameLoop_induction (I := RenameMapOK) cfg (s.m_cycleCount : Int) ?_ _
      { s with m_renameBuffer := s.m_renameBuffer.map (stampRename (s.m_cycleCount : Int)) }
      s' rfl h1 (by
        show cfg.width ≤ (s.m_reorderBuffer.filter (fun e => !e.valid)).length + _
        omega) hs hm
    intro st inst rn et t1 t2 rmt hrn hst het hev _ _ hd hi
    exact renameMap_allocate _ _ _ hrn hst het hev hd hi

/-- The instructions `renameStage` moves to the register read buffer carry, for each source
register, the slot of its youngest earlier producer in the reorder buffer, or no tag when
there is none. -/
theorem renameStage_tags {cfg : ProcessorParameters} {s s' : OutOfOrderProcessor}
    (hl : SeqLayout cfg s) (hm : RenameMapOK s)
    (hu : ∀ x ∈ s.m_renameBuffer, Unrenamed x) (hs : renameStage cfg s = some s') :
    ∃ new, s'.m_registerReadBuffer = s.m_registerReadBuffer ++ new ∧
      ∀ x ∈ new, RenamedOK s'.m_reorderBuffer x := by
  have hseq : ∀ x, (stampRename (s.m_cycleCount : Int) x).sequenceNum = x.sequenceNum := by
    intro x; unfold stampRename; split <;> rfl
  have h1 : SeqLayout cfg { s with
      m_renameBuffer := s.m_renameBuffer.map (stampRename (s.m_cycleCount : Int)) } := by
    refine hl.of_keys rfl rfl rfl rfl rfl (by simp) ?_
    simp only [List.map_append, map_stamp_seq _ hseq]
  have hu1 : ∀ x ∈ s.m_renameBuffer.map (stampRename (s.m_cycleCount : Int)),
      Unrenamed x := by
    refine forall_mem_map hu (fun x hx => ?_)
    refine Unrenamed.congr_src hx ?_ ?_ <;>
    · unfold stampRename
      split <;> rfl
  unfold renameStage at hs
  simp only at hs
  split at hs
  · simp only [Option.some.injEq] at hs
    subst hs
    exact ⟨[], by simp, by simp⟩
  · rename_i hc
    simp only [Bool.or_eq_true, decide_eq_true_eq, not_or, isReorderBufferFull,
      Nat.not_lt] at hc
    have key := renameLoop_induction
      (I := fun st => RenameMapOK st ∧ (∀ x ∈ st.m_renameBuffer, Unrenamed x) ∧
        ∃ new, st.m_registerReadBuffer = s.m_registerReadBuffer ++ new ∧
          ∀ x ∈ new, RenamedOK st.m_reorderBuffer x ∧
            x.sequenceNum < st.m_output.length + countValid st.m_reorderBuffer)
      cfg (s.m_cycleCount : Int) ?_ _
      { s with m_renameBuffer := s.m_renameBuffer.map (stampRename (s.m_cycleCount : Int)) }
      s' rfl h1 (by
        show cfg.width ≤ (s.m_reorderBuffer.filter (fun e => !e.valid)).length + _
        omega) hs ⟨hm, hu1, [], by simp, by simp⟩
    · obtain ⟨_, _, new, h2, h3⟩ := key
      exact ⟨new, h2, fun x hx => (h3 x hx).1⟩
    · intro st inst rn et t1 t2 rmt hrn hst het hev ht1 ht2 hd hi
      obtain ⟨hi1, hi2, new, hi3, hi4⟩ := hi
      have hnext := hst.front_number hrn
      have hp := producer_allocate het hev
        { valid := true, ready := false, instruction := inst,
          destArchReg := inst.destReg } rfl
      have hp1 : ∀ r i n, Producer st.m_reorderBuffer r i n →
          Producer (st.m_reorderBuffer.set st.m_robTail
            { valid := true, ready := false, instruction := inst,
              destArchReg := inst.destReg }) r i n :=
        fun r i n h => (hp r i n).2 (Or.inl h)
      have hp2 : ∀ r i n, Producer (st.m_reorderBuffer.set st.m_robTail
            { valid := true, ready := false, instruction := inst,
              destArchReg := inst.destReg }) r i n →
          Producer st.m_reorderBuffer r i n ∨ n = inst.sequenceNum := by
        intro r i n h
        rcases (hp r i n).1 h with h' | ⟨_, _, h'⟩
        · exact Or.inl h'
        · exact Or.inr h'.symm
      have hold : ∀ r i n, Producer st.m_reorderBuffer r i n → n < inst.sequenceNum := by
        intro r i n h
        have := (hst.producer_range h).2
        omega
      have hcv := countValid_set
        (e := { valid := true, ready := false, instruction := inst,
                destArchReg := inst.destReg }) het
      rw [hev] at hcv
      simp only [Bool.false_eq_true, if_false, if_true, Nat.add_zero] at hcv
      have hinst := hi2 inst (by rw [hrn]; exact List.mem_cons_self _ _)
      rw [hinst.1] at ht1
      rw [hinst.2] at ht2
      refine ⟨renameMap_allocate _ _ _ hrn hst het hev hd hi1,
        fun x hx => hi2 x (by rw [hrn]; exact List.mem_cons_of_mem _ hx),
        new ++ [leaveRename (s.m_cycleCount : Int) t1 t2 st.m_robTail inst], ?_, ?_⟩
      · show st.m_registerReadBuffer ++ _ = _
        rw [hi3, List.append_assoc]
      · intro x hx
        rcases List.mem_append.1 hx with hx | hx
        · have hx4 := hi4 x hx
          refine ⟨⟨sourceTagOK_allocate hp1 hp2 (by omega) hx4.1.1,
            sourceTagOK_allocate hp1 hp2 (by omega) hx4.1.2⟩, ?_⟩
          show x.sequenceNum < st.m_output.length + countValid (st.m_reorderBuffer.set _ _)
          omega
        · simp only [List.mem_singleton] at hx
          subst hx
          refine ⟨⟨sourceTagOK_allocate hp1 hp2 (Nat.le_refl _)
              (renameSource_ok hi1 ht1 _ hold),
            sourceTagOK_allocate hp1 hp2 (Nat.le_refl _)
              (renameSource_ok hi1 ht2 _ hold)⟩, ?_⟩
          show inst.sequenceNum < st.m_output.length + countValid (st.m_reorderBuffer.set _ _)
          omega

theorem beforeRename_eq_some {cfg : ProcessorParameters} {s s6 : OutOfOrderProcessor}
    (h : beforeRename cfg s = some s6) :
    ∃ s1 s2 s5, retireStage cfg s = some s1 ∧ writebackStage s1 = some s2 ∧
      dispatchStage cfg (issueStage cfg (executeStage cfg s2)) = some s5 ∧
      registerReadStage cfg s5 = some s6 := by
  unfold beforeRename at h
  split at h
  · cases h
  · rename_i s1 h1
    split at h
    · cases h
    · rename_i s2 h2
      split at h
      · cases h
      · rename_i s5 h5
        exact ⟨s1, s2, s5, h1, h2, h5, h⟩

/-- On entry to `renameStage` the sequence layout and invariant R1 hold, and the rename
buffer is as at the start of the tick. -/
theorem renameMap_beforeRename {cfg : ProcessorParameters} {s s1 s2 s5 s6 : OutOfOrderProcessor}
    (hl : SeqLayout cfg s) (hm : RenameMapOK s) (ht : SlotsTagged s)
    (h1 : retireStage cfg s = some s1) (h2 : writebackStage s1 = some s2)
    (h5 : dispatchStage cfg (issueStage cfg (executeStage cfg s2)) = some s5)
    (h6 : registerReadStage cfg s5 = some s6) :
    SeqLayout cfg s6 ∧ RenameMapOK s6 ∧ s6.m_renameBuffer = s.m_renameBuffer := by
  have l6 : SeqLayout cfg s6 :=
    ((((hl.retireStage h1).writebackStage h2).executeStage.issueStage.dispatchStage
      h5).registerReadStage h6)
  have m2 : RenameMapOK s2 := renameMap_writebackStage (renameMap_retireStage hl hm ht h1) h2
  have r1 : s1.m_renameBuffer = s.m_renameBuffer := by
    unfold retireStage at h1
    split at h1
    · simp only [Option.some.injEq] at h1
      subst h1
      rfl
    · obtain ⟨out, rmt, rob, head, hf⟩ := retireLoop_frame _ _ _ _ _ h1
      rw [hf]
  have r2 : s2.m_renameBuffer = s1.m_renameBuffer := by
    unfold writebackStage at h2
    simp only at h2
    split at h2
    · simp at h2
    · simp only [Option.some.injEq] at h2
      subst h2
      rfl
  obtain ⟨ex, iq, di, rr, wb, f3⟩ := executeStage_frame cfg s2
  obtain ⟨iq4, ex4, f4⟩ := issueStage_frame cfg (executeStage cfg s2)
  obtain ⟨di5, iq5, f5⟩ := dispatchStage_frame h5
  obtain ⟨rr6, di6, f6⟩ := registerReadStage_frame h6
  refine ⟨l6, ?_, ?_⟩
  · rw [f6, f5, f4, f3]
    exact m2
  · rw [f6, f5, f4, f3]
    exact r2.trans r1

theorem renameMap_tick {cfg : ProcessorParameters} {s s' : OutOfOrderProcessor} {b : Bool}
    (hl : SeqLayout cfg s) (hm : RenameMapOK s) (ht : SlotsTagged s)
    (h : tick cfg s = some (s', b)) : RenameMapOK s' := by
  obtain ⟨s9, h9, rfl, _⟩ := tick_eq_some h
  obtain ⟨s1, s2, s5, s6, s7, h1, h2, h5, h6, h7, rfl⟩ := pipelineStages_eq_some h9
  obtain ⟨l6, m6, _⟩ := renameMap_beforeRename hl hm ht h1 h2 h5 h6
  have m7 := renameMap_renameStage l6 m6 h7
  have e1 : (decodeStage cfg s7).m_reorderBuffer = s7.m_reorderBuffer ∧
      (decodeStage cfg s7).m_renameTable = s7.m_renameTable := by
    unfold decodeStage
    simp only
    split <;> exact ⟨rfl, rfl⟩
  have e2 : (fetchStage cfg (decodeStage cfg s7)).m_reorderBuffer =
        (decodeStage cfg s7).m_reorderBuffer ∧
      (fetchStage cfg (decodeStage cfg s7)).m_renameTable =
        (decodeStage cfg s7).m_renameTable := by
    unfold fetchStage
    split
    · exact ⟨rfl, rfl⟩
    · obtain ⟨tr, de, cnt, fin, hf⟩ := fetchLoop_frame cfg.width (decodeStage cfg s7)
      rw [hf]
      exact ⟨rfl, rfl⟩
  intro r m hrm
  have hrm' : (fetchStage cfg (decodeStage cfg s7)).m_renameTable[r]? = some m := hrm
  rw [e2.2, e1.2] at hrm'
  show RenameEntryOK (fetchStage cfg (decodeStage cfg s7)).m_reorderBuffer r m
  rw [e2.1, e1.1]
  exact m7 r m hrm'

theorem renameMap_of_reach {cfg : ProcessorParameters} {trace : List (Option TraceRecord)}
    {s : OutOfOrderProcessor} {b : Bool} (h : Reach cfg trace s b) : RenameMapOK s := by
  induction h with
  | init =>
    intro r m hrm
    simp only [initializeStructures, List.getElem?_replicate] at hrm
    split at hrm
    · simp only [Option.some.injEq] at hrm
      subst hrm
      unfold RenameEntryOK
      refine ⟨⟨fun h => (by cases h), ?_⟩, fun h => (by cases h)⟩
      rintro ⟨i, n, e, he, hv, _⟩
      simp only [initializeStructures, List.getElem?_replicate] at he
      split at he
      · simp only [Option.some.injEq] at he
        subst he
        cases hv
      · cases he
    · cases hrm
  | step hr ht ih =>
    exact renameMap_tick (SeqLayout.of_reach hr) ih (slotsTagged_of_reach hr) ht

/-- C5. Rename correctness: in every state of a run of `simulate` (any configuration and
trace), the rename table entry of every architectural register is valid exactly when some
occupied reorder buffer slot has this register as its destination, and its tag is then the
slot of the youngest such instruction (invariant R1); and when `renameStage` of the next
tick processes instructions, each one it moves on has, for each source register, the slot
of the youngest earlier producer still in the reorder buffer as its tag, and no tag when
the register is none or has no such producer. -/
theorem rename_correct {cfg : ProcessorParameters} {trace : List (Option TraceRecord)}
    {s : OutOfOrderProcessor} {b : Bool} (h : Reach cfg trace s b) :
    RenameMapOK s ∧
      ∀ s6 s7, beforeRename cfg s = some s6 → renameStage cfg s6 = some s7 →
        ∃ new, s7.m_registerReadBuffer = s6.m_registerReadBuffer ++ new ∧
          ∀ x ∈ new, RenamedOK s7.m_reorderBuffer x := by
  have hm := renameMap_of_reach h
  refine ⟨hm, fun s6 s7 h6 h7 => ?_⟩
  obtain ⟨s1, s2, s5, h1, h2, h5, h6'⟩ := beforeRename_eq_some h6
  obtain ⟨l6, m6, r6⟩ := renameMap_beforeRename (SeqLayout.of_reach h) hm
    (slotsTagged_of_reach h) h1 h2 h5 h6'
  refine renameStage_tags l6 m6 ?_ h7
  rw [r6]
  exact fun x hx => ((tagged_of_reach h).1.rn x hx).2

theorem rename_correct_witness :
    RenameMapOK (stateAfter cfgS1 traceS2 4) ∧
      ∀ s6 s7, beforeRename cfgS1 (stateAfter cfgS1 traceS2 4) = some s6 →
        renameStage cfgS1 s6 = some s7 →
        ∃ new, s7.m_registerReadBuffer = s6.m_registerReadBuffer ++ new ∧
          ∀ x ∈ new, RenamedOK s7.m_reorderBuffer x :=
  (reach_stateAfter cfgS1 traceS2 4).elim (fun _ h => rename_correct h)

/-! ## Termination: what Execute does -/

theorem completeAll_append (cyc : Int) (d1 d2 : List ExecutionEntry) (c : ExecuteContext) :
    completeAll cyc (d1 ++ d2) c = completeAll cyc d2 (completeAll cyc d1 c) := by
  unfold completeAll
  rw [List.foldl_append]

theorem completeAll_wb (cyc : Int) (done : List ExecutionEntry) :
    ∀ c : ExecuteContext, (completeAll cyc done c).wb =
      c.wb ++ done.map (fun y => leaveExecute cyc y.instruction) := by
  induction done with
  | nil => intro c; simp [completeAll]
  | cons y done ih =>
    intro c
    have h := ih (completeOne cyc c y)
    unfold completeAll at h ⊢
    rw [List.foldl_cons, h]
    simp [completeOne, wakeup]

/-- One run of the inner loop of `executeStage`, the writeback buffer never full: the
entries it erases are completed ones, and the context is as after `completeAll` on them. -/
theorem executePass_done (cfg : ProcessorParameters) (cyc : Int) :
    ∀ (n : Nat) (l : List ExecutionEntry) (c : ExecuteContext), l.length ≤ n →
      c.wb.length + l.length ≤ cfg.width * 5 →
      ∃ done, (executePass cfg cyc l c).2.1 = completeAll cyc done c ∧
        ((executePass cfg cyc l c).1 ++ done).Perm l ∧
        ∀ y ∈ done, y.remainingCycles = 0 := by
  intro n
  induction n with
  | zero =>
    intro l c hl _
    have : l = [] := List.length_eq_zero.1 (by omega)
    subst this
    exact ⟨[], rfl, by simp [executePass], by simp⟩
  | succ n ih =>
    intro l c hl hb
    cases l with
    | nil => exact ⟨[], rfl, by simp [executePass], by simp⟩
    | cons x l =>
      simp only [List.length_cons] at hl hb
      by_cases hz : x.remainingCycles = 0
      · have hf : (wakeup x.instruction.destRename c).wb.length ≠ cfg.width * 5 := by
          show c.wb.length ≠ cfg.width * 5
          omega
        cases l with
        | nil =>
          rw [executePass_single_zero _ _ _ _ hz hf]
          exact ⟨[x], rfl, by simp, by simpa using hz⟩
        | cons y l =>
          rw [executePass_cons_zero _ _ _ _ _ _ hz hf]
          simp only [List.length_cons] at hl hb
          have hlen : (completeOne cyc c x).wb.length = c.wb.length + 1 := by
            simp [completeOne, wakeup]
          obtain ⟨done, h1, h2, h3⟩ := ih l (completeOne cyc c x) (by omega) (by omega)
          refine ⟨x :: done, ?_, ?_, ?_⟩
          · exact h1
          · show (y :: (executePass cfg cyc l (completeOne cyc c x)).1 ++ x :: done).Perm
              (x :: y :: l)
            have h4 : (y :: ((executePass cfg cyc l (completeOne cyc c x)).1 ++ done)).Perm
                (y :: l) := List.Perm.cons y h2
            refine List.Perm.trans ?_ (List.Perm.cons x h4)
            show ((y :: (executePass cfg cyc l (completeOne cyc c x)).1) ++ x :: done).Perm
              (x :: ((y :: (executePass cfg cyc l (completeOne cyc c x)).1) ++ done))
            exact List.perm_middle
          · intro z hzm
            rcases List.mem_cons.1 hzm with rfl | hzm
            · exact hz
            · exact h3 z hzm
      · rw [executePass_cons_nonzero _ _ _ _ _ hz]
        obtain ⟨done, h1, h2, h3⟩ := ih l c (by omega) (by omega)
        exact ⟨done, h1, by simpa using List.Perm.cons x h2, h3⟩

/-- The loop of `executeStage`, the writeback buffer never full: the entries left are the
ones not completed, and the context is as after `completeAll` on the completed ones, in
some order. -/
theorem executeLoop_done (cfg : ProcessorParameters) (cyc : Int) :
    ∀ (fuel : Nat) (l : List ExecutionEntry) (c : ExecuteContext), l.length < fuel →
      c.wb.length + l.length ≤ cfg.width * 5 →
      ∃ done, executeLoop cfg cyc fuel l c =
          (l.filter (fun e => decide (e.remainingCycles ≠ 0)), completeAll cyc done c) ∧
        (l.filter (fun e => decide (e.remainingCycles ≠ 0)) ++ done).Perm l ∧
        ∀ y ∈ done, y.remainingCycles = 0 := by
  intro fuel
  induction fuel with
  | zero => intro l c h; omega
  | succ fuel ih =>
    intro l c hl hb
    unfold executeLoop
    split
    · rename_i hn
      obtain ⟨h1, h2, h3, _, h4⟩ := executePass_drain cfg cyc l.length l c (Nat.le_refl _) hb
      obtain ⟨d1, g1, g2, g3⟩ := executePass_done cfg cyc l.length l c (Nat.le_refl _) hb
      simp only [h1, Bool.false_eq_true, ↓reduceIte]
      obtain ⟨d2, k1, k2, k3⟩ := ih (executePass cfg cyc l c).1 (executePass cfg cyc l c).2.1
        (by have := h4 hn; omega) (by omega)
      refine ⟨d1 ++ d2, ?_, ?_, ?_⟩
      · rw [k1, h2, g1, completeAll_append]
      · rw [h2] at k2
        have : ((List.filter (fun e => decide (e.remainingCycles ≠ 0)) l ++ d2) ++ d1).Perm
            ((executePass cfg cyc l c).1 ++ d1) := List.Perm.append_right d1 k2
        refine List.Perm.trans ?_ (this.trans g2)
        rw [List.append_assoc]
        exact List.Perm.append_left _ List.perm_append_comm
      · intro y hy
        rcases List.mem_append.1 hy with hy | hy
        · exact g3 y hy
        · exact k3 y hy
    · rename_i hn
      simp only [Bool.not_eq_true] at hn
      have hall : ∀ e ∈ l, e.remainingCycles ≠ 0 := by
        intro e he
        simp only [isExecutionNeeded, List.any_eq_false, decide_eq_true_eq] at hn
        exact hn e he
      have hf : l.filter (fun e => decide (e.remainingCycles ≠ 0)) = l := by
        rw [List.filter_eq_self]
        intro e he
        simpa using hall e he
      exact ⟨[], by rw [hf]; rfl, by rw [List.append_nil, hf], by simp⟩

theorem woken_refl (x : Instruction) : Woken [] x x :=
  ⟨x.src1Rename, x.src2Rename, rfl, Or.inr ⟨rfl, by simp⟩, Or.inr ⟨rfl, by simp⟩⟩

theorem woken_wakeInstruction (d : Int) (x : Instruction) :
    Woken [d] x (wakeInstruction d x) := by
  unfold wakeInstruction
  dsimp only
  by_cases h1 : x.src1Rename = d <;> by_cases h2 : x.src2Rename = d
  · rw [if_pos h1, if_pos h2]
    exact ⟨-1, -1, rfl, Or.inl rfl, Or.inl rfl⟩
  · rw [if_pos h1, if_neg h2]
    exact ⟨-1, x.src2Rename, rfl, Or.inl rfl, Or.inr ⟨rfl, by simpa using h2⟩⟩
  · rw [if_neg h1, if_pos h2]
    exact ⟨x.src1Rename, -1, rfl, Or.inr ⟨rfl, by simpa using h1⟩, Or.inl rfl⟩
  · rw [if_neg h1, if_neg h2]
    exact ⟨x.src1Rename, x.src2Rename, rfl, Or.inr ⟨rfl, by simpa using h1⟩,
      Or.inr ⟨rfl, by simpa using h2⟩⟩

theorem wakeIssueQueueEntry_eq (d : Int) (e : IssueQueueEntry) :
    wakeIssueQueueEntry d e = { e with instruction := wakeInstruction d e.instruction } := by
  obtain ⟨v, i⟩ := e
  cases i
  simp only [wakeIssueQueueEntry, wakeInstruction]
  split_ifs <;> simp_all

theorem woken_wakeIssueQueueEntry (d : Int) (e : IssueQueueEntry) :
    (wakeIssueQueueEntry d e).valid = e.valid ∧
      Woken [d] e.instruction (wakeIssueQueueEntry d e).instruction := by
  rw [wakeIssueQueueEntry_eq]
  exact ⟨rfl, woken_wakeInstruction d e.instruction⟩

theorem woken_trans {d1 d2 : List Int} {x y z : Instruction} (h1 : Woken d1 x y)
    (h2 : Woken d2 y z) : Woken (d1 ++ d2) x z := by
  obtain ⟨a1, a2, rfl, ha1, ha2⟩ := h1
  obtain ⟨b1, b2, rfl, hb1, hb2⟩ := h2
  refine ⟨b1, b2, rfl, ?_, ?_⟩
  · rcases hb1 with hb | ⟨hb, hb'⟩
    · exact Or.inl hb
    · rcases ha1 with ha | ⟨ha, ha'⟩
      · exact Or.inl (hb.trans ha)
      · refine Or.inr ⟨hb.trans ha, ?_⟩
        simp only [List.mem_append, not_or]
        exact ⟨by rw [hb]; exact ha', hb'⟩
  · rcases hb2 with hb | ⟨hb, hb'⟩
    · exact Or.inl hb
    · rcases ha2 with ha | ⟨ha, ha'⟩
      · exact Or.inl (hb.trans ha)
      · refine Or.inr ⟨hb.trans ha, ?_⟩
        simp only [List.mem_append, not_or]
        exact ⟨by rw [hb]; exact ha', hb'⟩

theorem woken_wakeAll (ds : List Int) : ∀ x : Instruction, Woken ds x (wakeAll ds x) := by
  induction ds with
  | nil => intro x; exact woken_refl x
  | cons d ds ih =>
    intro x
    have h := woken_trans (woken_wakeInstruction d x) (ih (wakeInstruction d x))
    exact h

theorem woken_wakeAllEntry (ds : List Int) :
    ∀ e : IssueQueueEntry, (wakeAllEntry ds e).valid = e.valid ∧
      Woken ds e.instruction (wakeAllEntry ds e).instruction := by
  induction ds with
  | nil => intro e; exact ⟨rfl, woken_refl _⟩
  | cons d ds ih =>
    intro e
    have h1 := woken_wakeIssueQueueEntry d e
    have h2 := ih (wakeIssueQueueEntry d e)
    exact ⟨h2.1.trans h1.1, woken_trans h1.2 h2.2⟩

theorem map_wakeAll_nil (l : List Instruction) : l.map (wakeAll []) = l := by
  have h : wakeAll [] = id := rfl
  rw [h, List.map_id]

theorem map_wakeAllEntry_nil (l : List IssueQueueEntry) : l.map (wakeAllEntry []) = l := by
  have h : wakeAllEntry [] = id := rfl
  rw [h, List.map_id]

theorem completeAll_ctx (cyc : Int) (done : List ExecutionEntry) :
    ∀ c : ExecuteContext,
      (completeAll cyc done c).iq =
        c.iq.map (wakeAllEntry (done.map (fun y => y.instruction.destRename))) ∧
      (completeAll cyc done c).di =
        c.di.map (wakeAll (done.map (fun y => y.instruction.destRename))) ∧
      (completeAll cyc done c).rr =
        c.rr.map (wakeAll (done.map (fun y => y.instruction.destRename))) := by
  induction done with
  | nil =>
    intro c
    simp only [List.map_nil, map_wakeAll_nil, map_wakeAllEntry_nil]
    exact ⟨rfl, rfl, rfl⟩
  | cons y done ih =>
    intro c
    have h := ih (completeOne cyc c y)
    unfold completeAll at h ⊢
    rw [List.foldl_cons, h.1, h.2.1, h.2.2]
    simp only [completeOne, wakeup, List.map_map, List.map_cons]
    refine ⟨?_, ?_, ?_⟩ <;>
    · apply List.map_congr_left
      intro a _
      simp [Function.comp, wakeAll, wakeAllEntry]

theorem executeStage_eta (s : OutOfOrderProcessor) :
    { s with
      m_executionList := s.m_executionList
      m_issueQueue := s.m_issueQueue
      m_dispatchBuffer := s.m_dispatchBuffer
      m_registerReadBuffer := s.m_registerReadBuffer
      m_writebackBuffer := s.m_writebackBuffer } = s := by
  cases s
  rfl

/-- `executeStage` on an execution list within its bound and an empty writeback buffer: the
completed entries `done` leave for the writeback buffer, and the issue queue, the dispatch
buffer and the register read buffer get the wakeups for their destination tags. -/
theorem executeStage_done (cfg : ProcessorParameters) (s : OutOfOrderProcessor)
    (hwb : s.m_writebackBuffer = []) (hlen : s.m_executionList.length ≤ cfg.width * 5) :
    ∃ done : List ExecutionEntry,
      (((s.m_executionList.map (stampExecute (s.m_cycleCount : Int))).filter
          (fun e => decide (e.remainingCycles ≠ 0))) ++ done).Perm
        (s.m_executionList.map (stampExecute (s.m_cycleCount : Int))) ∧
      (∀ y ∈ done, y.remainingCycles = 0) ∧
      executeStage cfg s = { s with
        m_executionList := (s.m_executionList.map (stampExecute (s.m_cycleCount : Int))).filter
          (fun e => decide (e.remainingCycles ≠ 0))
        m_issueQueue :=
          s.m_issueQueue.map (wakeAllEntry (done.map (fun y => y.instruction.destRename)))
        m_dispatchBuffer :=
          s.m_dispatchBuffer.map (wakeAll (done.map (fun y => y.instruction.destRename)))
        m_registerReadBuffer :=
          s.m_registerReadBuffer.map (wakeAll (done.map (fun y => y.instruction.destRename)))
        m_writebackBuffer :=
          done.map (fun y => leaveExecute (s.m_cycleCount : Int) y.instruction) } := by
  by_cases he : s.m_executionList = []
  · refine ⟨[], by simp [he], by simp, ?_⟩
    unfold executeStage
    rw [if_pos (by simp [he])]
    simp only [he, List.map_nil, List.filter_nil, map_wakeAll_nil, map_wakeAllEntry_nil]
    rw [← hwb, ← he]
  · obtain ⟨done, h1, h2, h3⟩ := executeLoop_done cfg (s.m_cycleCount : Int)
      ((s.m_executionList.map (stampExecute (s.m_cycleCount : Int))).length + 1)
      (s.m_executionList.map (stampExecute (s.m_cycleCount : Int)))
      { iq := s.m_issueQueue, di := s.m_dispatchBuffer, rr := s.m_registerReadBuffer,
        wb := s.m_writebackBuffer } (Nat.lt_succ_self _) (by simp [hwb, hlen])
    refine ⟨done, h2, h3, ?_⟩
    unfold executeStage
    rw [if_neg (by simpa using he)]
    simp only [h1]
    have hc := completeAll_ctx (s.m_cycleCount : Int) done
      { iq := s.m_issueQueue, di := s.m_dispatchBuffer, rr := s.m_registerReadBuffer,
        wb := s.m_writebackBuffer }
    have hw := completeAll_wb (s.m_cycleCount : Int) done
      { iq := s.m_issueQueue, di := s.m_dispatchBuffer, rr := s.m_registerReadBuffer,
        wb := s.m_writebackBuffer }
    rw [hc.1, hc.2.1, hc.2.2, hw, hwb, List.nil_append]

/-! ## Slots, tags and places -/

theorem countP_set_add {α : Type} (p : α → Bool) {l : List α} {i : Nat} {a0 : α} (a : α)
    (h : l[i]? = some a0) :
    (l.set i a).countP p + (if p a0 then 1 else 0) =
      l.countP p + (if p a then 1 else 0) := by
  induction l generalizing i with
  | nil => simp at h
  | cons b l ih =>
    cases i with
    | zero =>
      simp only [List.getElem?_cons_zero, Option.some.injEq] at h
      subst h
      simp only [List.set_cons_zero, List.countP_cons]
      omega
    | succ k =>
      simp only [List.getElem?_cons_succ] at h
      have := ih h
      simp only [List.set_cons_succ, List.countP_cons] at this ⊢
      omega

theorem pending_set_ne {rob : List ReorderBufferEntry} {i j : Nat}
    (ne : ReorderBufferEntry) (q : Nat) (h : j ≠ i) :
    Pending (rob.set i ne) j q ↔ Pending rob j q := by
  unfold Pending
  rw [List.getElem?_set_ne (Ne.symm h)]

theorem pending_set_self {rob : List ReorderBufferEntry} {i : Nat}
    (ne : ReorderBufferEntry) (q : Nat) (h : i < rob.length) :
    Pending (rob.set i ne) i q ↔
      (ne.valid = true ∧ ne.ready = false ∧ ne.instruction.sequenceNum = q) := by
  unfold Pending
  rw [List.getElem?_set_self h]
  constructor
  · rintro ⟨e, he, h1, h2, h3⟩
    cases he
    exact ⟨h1, h2, h3⟩
  · rintro ⟨h1, h2, h3⟩
    exact ⟨ne, rfl, h1, h2, h3⟩

theorem named_set_ne {rob : List ReorderBufferEntry} {i j : Nat}
    (ne : ReorderBufferEntry) (q : Nat) (h : j ≠ i) :
    Named (rob.set i ne) j q ↔ Named rob j q := by
  unfold Named
  rw [List.getElem?_set_ne (Ne.symm h)]

theorem named_set_self {rob : List ReorderBufferEntry} {i : Nat}
    (ne : ReorderBufferEntry) (q : Nat) (h : i < rob.length) :
    Named (rob.set i ne) i q ↔
      (ne.instruction.sequenceNum = q ∧ (ne.ready = true ∨ ne.valid = true)) := by
  unfold Named
  rw [List.getElem?_set_self h]
  constructor
  · rintro ⟨e, he, h1, h2⟩
    cases he
    exact ⟨h1, h2⟩
  · rintro ⟨h1, h2⟩
    exact ⟨ne, rfl, h1, h2⟩

theorem pending_named {rob : List ReorderBufferEntry} {i q : Nat} (h : Pending rob i q) :
    Named rob i q := by
  obtain ⟨e, he, hv, _, hq⟩ := h
  exact ⟨e, he, hq, Or.inr hv⟩

theorem waits_mono {rob rob' : List ReorderBufferEntry} {wb wb' : List Nat} {k : Nat}
    {t : Int} (h : Waits rob wb k t)
    (hp : ∀ i q, Pending rob i q → q ∉ wb → Pending rob' i q ∧ q ∉ wb') :
    Waits rob' wb' k t := by
  rcases h with h | ⟨h0, q, hq, hpq, hw⟩
  · exact Or.inl h
  · exact Or.inr ⟨h0, q, hq, hp _ _ hpq hw⟩

theorem names_mono {rob rob' : List ReorderBufferEntry} {k : Nat} {t : Int}
    (h : Names rob k t) (hn : ∀ i q, Named rob i q → Named rob' i q) :
    Names rob' k t := by
  rcases h with h | ⟨h0, q, hq, hnq⟩
  · exact Or.inl h
  · exact Or.inr ⟨h0, q, hq, hn _ _ hnq⟩

theorem waits_names {rob : List ReorderBufferEntry} {wb : List Nat} {k : Nat} {t : Int}
    (h : Waits rob wb k t) : Names rob k t := by
  rcases h with h | ⟨h0, q, hq, hpq, _⟩
  · exact Or.inl h
  · exact Or.inr ⟨h0, q, hq, pending_named hpq⟩

theorem waits_none (rob : List ReorderBufferEntry) (wb : List Nat) (k : Nat) :
    Waits rob wb k (-1) := Or.inl rfl

theorem vecGet_of_nonneg {α : Type} {v : List α} {t : Int} (h : 0 ≤ t) :
    vecGet v t = v[t.toNat]? := by
  unfold vecGet
  rw [if_neg (by omega)]

/-- The ready-snap of a tag that waits on a producer leaves it as it is. -/
theorem snapTag_waits {rob : List ReorderBufferEntry} {wb : List Nat} {k : Nat} {t : Int}
    (h : Waits rob wb k t) : snapTag rob t = some t := by
  unfold snapTag
  rcases h with h | ⟨h0, q, _, ⟨e, he, _, hr, _⟩, _⟩
  · rw [if_neg (by simp [h])]
  · split
    · rw [vecGet_of_nonneg h0, he]
      simp [hr]
    · rfl

/-- The ready-snap of a tag that names an older instruction and is settled gives a tag
that waits on a producer. -/
theorem snapTag_named {rob : List ReorderBufferEntry} {wb : List Nat} {k : Nat} {t : Int}
    (h : Names rob k t) (hs : Settles rob wb t) :
    ∃ t', snapTag rob t = some t' ∧ Waits rob wb k t' := by
  unfold snapTag
  rcases h with h | ⟨h0, q, hq, ⟨e, he, heq, hrv⟩⟩
  · exact ⟨t, by rw [if_neg (by simp [h])], Or.inl h⟩
  · split
    · rename_i hne
      rw [vecGet_of_nonneg h0, he]
      cases hr : e.ready with
      | true => exact ⟨-1, by simp [hr], Or.inl rfl⟩
      | false =>
        refine ⟨t, by simp [hr], Or.inr ⟨h0, q, hq, ?_, ?_⟩⟩
        · rcases hrv with h1 | h1
          · rw [hr] at h1; cases h1
          · exact ⟨e, he, h1, hr, heq⟩
        · rcases hs with h1 | h1
          · exact absurd h1 hne
          · refine h1 q ⟨e, he, ?_, hr, heq⟩
            rcases hrv with h2 | h2
            · rw [hr] at h2; cases h2
            · exact h2
    · rename_i hne
      exact ⟨t, rfl, Or.inl (by simpa using hne)⟩

/-! ### The places of the instructions in flight -/

theorem Located.transfer {s s' : OutOfOrderProcessor} (h : Located s)
    (hp : ∀ i q, Pending s'.m_reorderBuffer i q ↔ Pending s.m_reorderBuffer i q)
    (mid : List Nat) (hb : (backSeqs s').Perm (backSeqs s ++ mid))
    (hf : frontSeqs s = mid ++ frontSeqs s') : Located s' := by
  have hfl : (flightSeqs s').Perm (flightSeqs s) := by
    unfold flightSeqs
    refine (hb.append_right _).trans ?_
    rw [List.append_assoc, ← hf]
  have hsorted := h.sorted
  rw [hf, List.pairwise_append] at hsorted
  refine ⟨fun q hq => ?_, fun i q hq => ?_, hfl.nodup_iff.2 h.nodup, hsorted.2.1,
    fun a ha b hb' => ?_⟩
  · obtain ⟨i, hi⟩ := h.here q (hfl.mem_iff.1 hq)
    exact ⟨i, (hp i q).2 hi⟩
  · exact hfl.mem_iff.2 (h.there i q ((hp i q).1 hq))
  · rcases List.mem_append.1 (hb.mem_iff.1 ha) with h1 | h1
    · exact h.older a h1 b (by rw [hf]; exact List.mem_append_right _ hb')
    · exact hsorted.2.2 a h1 b hb'

theorem located_congr {s s' : OutOfOrderProcessor} (h : Located s)
    (hrob : s'.m_reorderBuffer = s.m_reorderBuffer) (hb : backSeqs s' = backSeqs s)
    (hf : frontSeqs s' = frontSeqs s) : Located s' := by
  refine h.transfer (fun i q => by rw [hrob]) [] ?_ ?_
  · rw [hb, List.append_nil]
  · rw [hf, List.nil_append]

/-! ### What the layout says of a slot -/

theorem SeqLayout.pending_slot {cfg : ProcessorParameters} {s : OutOfOrderProcessor}
    (h : SeqLayout cfg s) {i q : Nat} (hp : Pending s.m_reorderBuffer i q) :
    i = q % cfg.robSize ∧ s.m_output.length ≤ q ∧
      q < s.m_output.length + countValid s.m_reorderBuffer := by
  obtain ⟨e, he, hv, _, hq⟩ := hp
  have := h.rob_seq i e he hv
  rw [hq] at this
  exact ⟨this.2.2.symm, this.1, this.2.1⟩

theorem SeqLayout.tail_lt {cfg : ProcessorParameters} {s : OutOfOrderProcessor}
    (h : SeqLayout cfg s) (hr : 0 < cfg.robSize) : s.m_robTail < s.m_reorderBuffer.length := by
  rw [h.tail_eq, h.rob_len]
  exact Nat.mod_lt _ hr

theorem SeqLayout.head_lt {cfg : ProcessorParameters} {s : OutOfOrderProcessor}
    (h : SeqLayout cfg s) (hr : 0 < cfg.robSize) : s.m_robHead < s.m_reorderBuffer.length := by
  rw [h.head_eq, h.rob_len]
  exact Nat.mod_lt _ hr

/-- With nothing in flight and the head slot idle, no slot of the reorder buffer is
occupied: the occupied slots carry as many distinct numbers as there are, from the count of
printed records on, and the first of these numbers belongs to the head slot. -/
theorem SeqLayout.rob_empty {cfg : ProcessorParameters} {s : OutOfOrderProcessor}
    (h : SeqLayout cfg s) (hi : HeadIdle s) (hp : ∀ i q, ¬ Pending s.m_reorderBuffer i q) :
    countValid s.m_reorderBuffer = 0 := by
  by_contra hne
  have hpw : s.m_reorderBuffer.Pairwise (fun a b => a.valid = true → b.valid = true →
      a.instruction.sequenceNum ≠ b.instruction.sequenceNum) := by
    rw [List.pairwise_iff_getElem]
    intro i j hi' hj hij ha hb heq
    have h1 := (h.rob_seq i _ (List.getElem?_eq_getElem hi') ha).2.2
    have h2 := (h.rob_seq j _ (List.getElem?_eq_getElem hj) hb).2.2
    rw [heq] at h1
    omega
  have hnd : ((s.m_reorderBuffer.filter (fun e => e.valid)).map
      (fun e => e.instruction.sequenceNum)).Nodup := by
    unfold List.Nodup
    rw [List.pairwise_map]
    have := hpw.filter (fun e => e.valid)
    rw [List.pairwise_iff_forall_sublist] at this ⊢
    intro a b hab
    have ha := (hab.subset (List.mem_cons_self _ _))
    have hb := (hab.subset (List.mem_cons_of_mem _ (List.mem_cons_self _ _)))
    exact this hab (List.mem_filter.1 ha).2 (List.mem_filter.1 hb).2
  have hsub : ((s.m_reorderBuffer.filter (fun e => e.valid)).map
      (fun e => e.instruction.sequenceNum)).toFinset ⊆
        Finset.Ico (s.m_output.length + 1)
          (s.m_output.length + countValid s.m_reorderBuffer) := by
    intro q hq
    rw [List.mem_toFinset, List.mem_map] at hq
    obtain ⟨e, he, heq⟩ := hq
    obtain ⟨he1, he2⟩ := List.mem_filter.1 he
    obtain ⟨i, hi'⟩ := List.mem_iff_getElem?.1 he1
    have := h.rob_seq i e hi' he2
    rw [heq] at this
    rw [Finset.mem_Ico]
    refine ⟨?_, this.2.1⟩
    by_contra hlt
    have hq0 : q = s.m_output.length := by omega
    obtain ⟨e0, he0, hidle⟩ := hi
    rw [h.head_eq, ← hq0, this.2.2, hi'] at he0
    cases he0
    rw [he2, Bool.true_and] at hidle
    exact hp i q ⟨e, hi', he2, hidle, heq⟩
  have hcard := Finset.card_le_card hsub
  rw [List.toFinset_card_of_nodup hnd, Nat.card_Ico, List.length_map,
    ← List.countP_eq_length_filter] at hcard
  unfold countValid at hne hcard
  omega

/-! ## Retire -/

theorem pending_map {f : ReorderBufferEntry → ReorderBufferEntry}
    (hf : ∀ e, (f e).valid = e.valid ∧ (f e).ready = e.ready ∧
      (f e).instruction.sequenceNum = e.instruction.sequenceNum)
    (rob : List ReorderBufferEntry) (i q : Nat) :
    Pending (rob.map f) i q ↔ Pending rob i q := by
  unfold Pending
  rw [List.getElem?_map]
  cases h : rob[i]? with
  | none => simp
  | some e =>
    simp only [Option.map_some', Option.some.injEq, exists_eq_left']
    rw [(hf e).1, (hf e).2.1, (hf e).2.2]

theorem named_map {f : ReorderBufferEntry → ReorderBufferEntry}
    (hf : ∀ e, (f e).valid = e.valid ∧ (f e).ready = e.ready ∧
      (f e).instruction.sequenceNum = e.instruction.sequenceNum)
    (rob : List ReorderBufferEntry) (i q : Nat) :
    Named (rob.map f) i q ↔ Named rob i q := by
  unfold Named
  rw [List.getElem?_map]
  cases h : rob[i]? with
  | none => simp
  | some e =>
    simp only [Option.map_some', Option.some.injEq, exists_eq_left']
    rw [(hf e).1, (hf e).2.1, (hf e).2.2]

theorem countReady_map {f : ReorderBufferEntry → ReorderBufferEntry}
    (hf : ∀ e, (f e).valid = e.valid ∧ (f e).ready = e.ready ∧
      (f e).instruction.sequenceNum = e.instruction.sequenceNum)
    (rob : List ReorderBufferEntry) :
    (rob.map f).countP (fun e => e.valid && e.ready) =
      rob.countP (fun e => e.valid && e.ready) := by
  rw [List.countP_map]
  apply List.countP_congr
  intro e _
  simp only [Function.comp, (hf e).1, (hf e).2.1]

theorem stampRetire_keys (cyc : Int) (e : ReorderBufferEntry) :
    (stampRetire cyc e).valid = e.valid ∧ (stampRetire cyc e).ready = e.ready ∧
      (stampRetire cyc e).instruction.sequenceNum = e.instruction.sequenceNum := by
  unfold stampRetire
  split <;> exact ⟨rfl, rfl, rfl⟩

theorem stampRetire_destReg (cyc : Int) (e : ReorderBufferEntry) :
    (stampRetire cyc e).instruction.destReg = e.instruction.destReg := by
  unfold stampRetire
  split <;> rfl

theorem retireClear_total {rmt : List RenameTableEntry} (inst : Instruction)
    (hlen : rmt.length = ARF_SIZE) (h1 : -1 ≤ inst.destReg) (h2 : inst.destReg < ARF_SIZE) :
    ∃ rmt', retireClear rmt inst = some rmt' := by
  unfold retireClear
  split
  · rename_i hne
    have h0 : 0 ≤ inst.destReg := by omega
    rw [vecGet_of_nonneg h0]
    have hlt : inst.destReg.toNat < rmt.length := by
      rw [hlen]
      have : ((inst.destReg.toNat : Nat) : Int) = inst.destReg := Int.toNat_of_nonneg h0
      omega
    rw [List.getElem?_eq_getElem hlt]
    dsimp only
    split
    · exact ⟨_, rfl⟩
    · exact ⟨_, rfl⟩
  · exact ⟨_, rfl⟩

theorem retireClear_length {rmt rmt' : List RenameTableEntry} {inst : Instruction}
    (h : retireClear rmt inst = some rmt') : rmt'.length = rmt.length := by
  unfold retireClear at h
  split at h
  · split at h
    · simp at h
    · split at h
      · simp only [Option.some.injEq] at h
        subst h
        simp
      · simp only [Option.some.injEq] at h
        subst h
        rfl
  · simp only [Option.some.injEq] at h
    subst h
    rfl

/-- What the loop of `retireStage` keeps, relative to the state `s0` it starts in. -/
theorem retireLoop_slots (cfg : ProcessorParameters) (cyc : Int) (s0 : OutOfOrderProcessor) :
    ∀ (n : Nat) (s s' : OutOfOrderProcessor), SeqLayout cfg s →
      retireLoop cfg cyc n s = some s' →
      ((∀ i q, Pending s.m_reorderBuffer i q ↔ Pending s0.m_reorderBuffer i q) ∧
        (∀ i q, Named s0.m_reorderBuffer i q → Named s.m_reorderBuffer i q) ∧
        s.m_renameTable.length = s0.m_renameTable.length ∧
        s.m_reorderBuffer.countP (fun e => e.valid && e.ready) + s.m_output.length =
          s0.m_reorderBuffer.countP (fun e => e.valid && e.ready) + s0.m_output.length ∧
        s0.m_output.length ≤ s.m_output.length) →
      ((∀ i q, Pending s'.m_reorderBuffer i q ↔ Pending s0.m_reorderBuffer i q) ∧
        (∀ i q, Named s0.m_reorderBuffer i q → Named s'.m_reorderBuffer i q) ∧
        s'.m_renameTable.length = s0.m_renameTable.length ∧
        s'.m_reorderBuffer.countP (fun e => e.valid && e.ready) + s'.m_output.length =
          s0.m_reorderBuffer.countP (fun e => e.valid && e.ready) + s0.m_output.length ∧
        s0.m_output.length ≤ s'.m_output.length) := by
  refine retireLoop_induction cfg cyc ?_
  intro s e rmt hl he hv hr hc hi
  obtain ⟨h1, h2, h3, h4, h5⟩ := hi
  have hlt : s.m_robHead < s.m_reorderBuffer.length := by
    by_contra hge
    rw [List.getElem?_eq_none (by omega)] at he
    cases he
  refine ⟨fun i q => ?_, fun i q hn => ?_, ?_, ?_, ?_⟩
  · rw [← h1 i q]
    by_cases hih : i = s.m_robHead
    · subst hih
      show Pending (s.m_reorderBuffer.set _ _) _ _ ↔ _
      rw [pending_set_self _ _ hlt]
      constructor
      · rintro ⟨h, _⟩
        cases h
      · rintro ⟨e', he', _, hr', _⟩
        rw [he] at he'
        cases he'
        rw [hr] at hr'
        cases hr'
    · exact pending_set_ne _ _ hih
  · have hn' := h2 i q hn
    by_cases hih : i = s.m_robHead
    · subst hih
      show Named (s.m_reorderBuffer.set _ _) _ _
      rw [named_set_self _ _ hlt]
      obtain ⟨e', he', hq, _⟩ := hn'
      rw [he] at he'
      cases he'
      exact ⟨hq, Or.inl hr⟩
    · exact (named_set_ne _ _ hih).2 hn'
  · show rmt.length = _
    rw [retireClear_length hc, h3]
  · have := countP_set_add (fun e : ReorderBufferEntry => e.valid && e.ready)
      { e with instruction := leaveRetire cyc e.instruction, valid := false } he
    show (s.m_reorderBuffer.set _ _).countP _ + (s.m_output ++ [_]).length = _
    rw [List.length_append, List.length_singleton]
    simp only [hv, hr, Bool.and_self, if_true, Bool.false_and, Bool.false_eq_true,
      if_false] at this ⊢
    omega
  · show _ ≤ (s.m_output ++ [_]).length
    rw [List.length_append, List.length_singleton]
    omega

theorem retireLoop_total (cfg : ProcessorParameters) (cyc : Int) (hr : 0 < cfg.robSize) :
    ∀ (n : Nat) (s : OutOfOrderProcessor), SeqLayout cfg s →
      s.m_renameTable.length = ARF_SIZE →
      (∀ e ∈ s.m_reorderBuffer, e.valid = true →
        -1 ≤ e.instruction.destReg ∧ e.instruction.destReg < ARF_SIZE) →
      ∃ s', retireLoop cfg cyc n s = some s' := by
  intro n
  induction n with
  | zero => intro s _ _ _; exact ⟨s, rfl⟩
  | succ n ih =>
    intro s hl hrmt hregs
    have hlt := hl.head_lt hr
    unfold retireLoop
    rw [List.getElem?_eq_getElem hlt]
    dsimp only
    have hmem : s.m_reorderBuffer[s.m_robHead] ∈ s.m_reorderBuffer := List.getElem_mem _
    split
    · rename_i hvr
      simp only [Bool.and_eq_true] at hvr
      have hreg := hregs _ hmem hvr.1
      obtain ⟨rmt', hc⟩ := retireClear_total (leaveRetire cyc
        s.m_reorderBuffer[s.m_robHead].instruction) hrmt hreg.1 hreg.2
      rw [hc]
      dsimp only
      refine ih _ ?_ ?_ ?_
      · exact hl.retireOne (List.getElem?_eq_getElem hlt) hvr.1
          (leaveRetire cyc s.m_reorderBuffer[s.m_robHead].instruction) rfl
          { s.m_reorderBuffer[s.m_robHead] with
            instruction := leaveRetire cyc s.m_reorderBuffer[s.m_robHead].instruction,
            valid := false } rfl rmt'
      · show rmt'.length = _
        rw [retireClear_length hc, hrmt]
      · refine forall_mem_set hregs _ ?_
        intro h
        cases h
    · exact ih s hl hrmt hregs

theorem retireLoop_idle (cfg : ProcessorParameters) (cyc : Int) {s : OutOfOrderProcessor}
    (h : HeadIdle s) : ∀ n : Nat, retireLoop cfg cyc n s = some s := by
  intro n
  obtain ⟨e, he, hvr⟩ := h
  induction n with
  | zero => rfl
  | succ n ih =>
    unfold retireLoop
    rw [he]
    dsimp only
    rw [hvr]
    simpa using ih

theorem retireLoop_progress (cfg : ProcessorParameters) (cyc : Int) {n : Nat}
    {s s' : OutOfOrderProcessor} (hn : 0 < n) (hl : SeqLayout cfg s)
    (hs : retireLoop cfg cyc n s = some s') :
    s.m_output.length < s'.m_output.length ∨ (s' = s ∧ HeadIdle s) := by
  cases n with
  | zero => omega
  | succ n =>
    unfold retireLoop at hs
    split at hs
    · simp at hs
    · rename_i e he
      split at hs
      · rename_i hvr
        simp only [Bool.and_eq_true] at hvr
        simp only at hs
        split at hs
        · simp at hs
        · rename_i rmt hrmt
          left
          have hl1 := hl.retireOne he hvr.1 (leaveRetire cyc e.instruction) rfl
            { e with instruction := leaveRetire cyc e.instruction, valid := false } rfl rmt
          have := (retireLoop_slots cfg cyc _ n _ s' hl1 hs
            ⟨fun _ _ => Iff.rfl, fun _ _ h => h, rfl, rfl, Nat.le_refl _⟩).2.2.2.2
          simp only [List.length_append, List.length_singleton] at this
          omega
      · rename_i hvr
        right
        have hidle : HeadIdle s := ⟨e, he, by simpa using hvr⟩
        rw [retireLoop_idle cfg cyc hidle n] at hs
        simp only [Option.some.injEq] at hs
        exact ⟨hs.symm, hidle⟩

/-- `retireStage` is defined on a state of a run with a reorder buffer of at least one
slot; it leaves the slots that are not ready as they are, keeps every named instruction
in its slot, and lowers the count of ready slots by the number of records it prints. -/
theorem retireStage_flight {cfg : ProcessorParameters} {s : OutOfOrderProcessor}
    (hl : SeqLayout cfg s) (hw : 0 < cfg.width) (hr : 0 < cfg.robSize)
    (hrmt : s.m_renameTable.length = ARF_SIZE)
    (hregs : ∀ e ∈ s.m_reorderBuffer, e.valid = true →
      -1 ≤ e.instruction.destReg ∧ e.instruction.destReg < ARF_SIZE) :
    ∃ s1, retireStage cfg s = some s1 ∧
      (∃ out rmt rob head, s1 = { s with
        m_output := out, m_renameTable := rmt, m_reorderBuffer := rob, m_robHead := head }) ∧
      (∀ i q, Pending s1.m_reorderBuffer i q ↔ Pending s.m_reorderBuffer i q) ∧
      (∀ i q, Named s.m_reorderBuffer i q → Named s1.m_reorderBuffer i q) ∧
      s1.m_renameTable.length = ARF_SIZE ∧
      s1.m_reorderBuffer.countP (fun e => e.valid && e.ready) + s1.m_output.length =
        s.m_reorderBuffer.countP (fun e => e.valid && e.ready) + s.m_output.length ∧
      (s.m_output.length < s1.m_output.length ∨ HeadIdle s1) ∧
      s.m_output.length ≤ s1.m_output.length := by
  unfold OoO.retireStage
  split
  · rename_i hemp
    refine ⟨s, rfl, ⟨_, _, _, _, rfl⟩, fun _ _ => Iff.rfl, fun _ _ h => h, hrmt, rfl,
      Or.inr ?_, Nat.le_refl _⟩
    have hlt := hl.head_lt hr
    refine ⟨_, List.getElem?_eq_getElem hlt, ?_⟩
    unfold isReorderBufferEmpty at hemp
    rw [List.all_eq_true] at hemp
    have := hemp _ (List.getElem_mem hlt)
    simp only [Bool.not_eq_eq_eq_not, Bool.not_true] at this
    rw [this, Bool.false_and]
  · have hl1 : SeqLayout cfg { s with
        m_reorderBuffer := s.m_reorderBuffer.map (stampRetire (s.m_cycleCount : Int)) } := by
      refine hl.of_keys ?_ rfl rfl rfl rfl rfl rfl
      dsimp only
      rw [List.map_map]
      apply List.map_congr_left
      intro e _
      simp only [Function.comp, stampRetire]
      split <;> rfl
    obtain ⟨s1, hs1⟩ := retireLoop_total cfg (s.m_cycleCount : Int) hr cfg.width _ hl1 hrmt
      (by
        refine forall_mem_map hregs (fun e he => ?_)
        rw [(stampRetire_keys _ e).1, stampRetire_destReg]
        exact he)
    have hk := stampRetire_keys (s.m_cycleCount : Int)
    have hsl := retireLoop_slots cfg (s.m_cycleCount : Int) _ cfg.width _ s1 hl1 hs1
      ⟨fun _ _ => Iff.rfl, fun _ _ h => h, rfl, rfl, Nat.le_refl _⟩
    obtain ⟨out, rmt, rob, head, hf⟩ := retireLoop_frame _ _ _ _ _ hs1
    refine ⟨s1, hs1, ⟨out, rmt, rob, head, hf⟩, fun i q => ?_, fun i q hn => ?_, ?_, ?_, ?_,
      hsl.2.2.2.2⟩
    · rw [hsl.1 i q]
      exact pending_map hk _ i q
    · exact hsl.2.1 i q ((named_map hk _ i q).2 hn)
    · rw [hsl.2.2.1]
      exact hrmt
    · rw [hsl.2.2.2.1]
      show (s.m_reorderBuffer.map _).countP _ + _ = _
      rw [countReady_map hk]
    · rcases retireLoop_progress cfg _ hw hl1 hs1 with h | ⟨h1, h2⟩
      · exact Or.inl h
      · right
        rw [h1]
        exact h2

/-! ## Writeback -/

theorem forall₂_mem_left {α : Type} {R : α → α → Prop} {l l' : List α}
    (h : List.Forall₂ R l l') {a : α} (ha : a ∈ l) : ∃ b, b ∈ l' ∧ R a b := by
  induction h with
  | nil => cases ha
  | cons hab _ ih =>
    rcases List.mem_cons.1 ha with h1 | h1
    · subst h1
      exact ⟨_, List.mem_cons_self _ _, hab⟩
    · obtain ⟨b, hb, hr⟩ := ih h1
      exact ⟨b, List.mem_cons_of_mem _ hb, hr⟩

theorem forall₂_getElem?_left {α : Type} {R : α → α → Prop} {l l' : List α}
    (h : List.Forall₂ R l l') : ∀ (i : Nat) {a : α}, l[i]? = some a →
      ∃ b, l'[i]? = some b ∧ R a b := by
  induction h with
  | nil => intro i a ha; simp at ha
  | cons hab _ ih =>
    intro i a ha
    cases i with
    | zero =>
      simp only [List.getElem?_cons_zero, Option.some.injEq] at ha
      subst ha
      exact ⟨_, List.getElem?_cons_zero, hab⟩
    | succ i =>
      simp only [List.getElem?_cons_succ] at ha ⊢
      exact ih i ha

theorem forall₂_getElem?_right {α : Type} {R : α → α → Prop} {l l' : List α}
    (h : List.Forall₂ R l l') : ∀ (i : Nat) {b : α}, l'[i]? = some b →
      ∃ a, l[i]? = some a ∧ R a b := by
  induction h with
  | nil => intro i b hb; simp at hb
  | cons hab _ ih =>
    intro i b hb
    cases i with
    | zero =>
      simp only [List.getElem?_cons_zero, Option.some.injEq] at hb
      subst hb
      exact ⟨_, List.getElem?_cons_zero, hab⟩
    | succ i =>
      simp only [List.getElem?_cons_succ] at hb ⊢
      exact ih i hb

theorem forall₂_trans {α : Type} {R : α → α → Prop}
    (ht : ∀ a b c, R a b → R b c → R a c) {l1 l2 : List α} (h : List.Forall₂ R l1 l2) :
    ∀ {l3 : List α}, List.Forall₂ R l2 l3 → List.Forall₂ R l1 l3 := by
  induction h with
  | nil => intro l3 h3; cases h3; exact List.Forall₂.nil
  | cons hab _ ih =>
    intro l3 h3
    cases h3 with
    | cons hbc h3' => exact List.Forall₂.cons (ht _ _ _ hab hbc) (ih h3')

theorem wbRel_refl (W : List Nat) (e : ReorderBufferEntry) : WbRel W e e :=
  ⟨rfl, rfl, Or.inl rfl⟩

theorem wbRel_mono {W W' : List Nat} (h : ∀ q ∈ W, q ∈ W') {e e' : ReorderBufferEntry}
    (hr : WbRel W e e') : WbRel W' e e' := by
  obtain ⟨h1, h2, h3⟩ := hr
  refine ⟨h1, h2, ?_⟩
  rcases h3 with h3 | ⟨h3, h4, h5⟩
  · exact Or.inl h3
  · exact Or.inr ⟨h3, h4, h _ h5⟩

theorem wbRel_trans {W : List Nat} {a b c : ReorderBufferEntry} (h1 : WbRel W a b)
    (h2 : WbRel W b c) : WbRel W a c := by
  obtain ⟨a1, a2, a3⟩ := h1
  obtain ⟨b1, b2, b3⟩ := h2
  refine ⟨b1.trans a1, b2.trans a2, ?_⟩
  rcases b3 with b3 | ⟨b3, b4, b5⟩
  · rcases a3 with a3 | ⟨a3, a4, a5⟩
    · exact Or.inl (b3.trans a3)
    · exact Or.inr ⟨b3.trans a3, a4, a5⟩
  · exact Or.inr ⟨b3, a1 ▸ b4, a2 ▸ b5⟩

/-- One run of the inner loop of `writebackStage`: the instructions it takes from the
front of the buffer, and what it does to the slots. -/
theorem writebackPass_rel (cyc : Int) :
    ∀ (rob : List ReorderBufferEntry) (wb : List Instruction),
      List.Forall₂ (WbRel (wb.map (fun x => x.sequenceNum))) rob (writebackPass cyc rob wb).1 ∧
      ∃ used, wb = used ++ (writebackPass cyc rob wb).2 ∧
        (∀ x ∈ used, ∃ e', e' ∈ (writebackPass cyc rob wb).1 ∧ e'.valid = true ∧
          e'.ready = true ∧ e'.instruction.sequenceNum = x.sequenceNum) ∧
        (writebackPass cyc rob wb).1.countP (fun e => e.valid && e.ready) ≤
          rob.countP (fun e => e.valid && e.ready) + used.length := by
  intro rob
  induction rob with
  | nil =>
    intro wb
    refine ⟨by simp [writebackPass], [], by simp [writebackPass], by simp, by
      simp [writebackPass]⟩
  | cons e rob ih =>
    intro wb
    cases wb with
    | nil =>
      refine ⟨?_, [], by simp [writebackPass], by simp, by simp [writebackPass]⟩
      simp only [writebackPass]
      exact List.forall₂_same.2 (fun x _ => wbRel_refl _ x)
    | cons front wb =>
      unfold writebackPass
      split
      · rename_i hc
        simp only [Bool.and_eq_true, decide_eq_true_eq] at hc
        obtain ⟨h1, used, h2, h3, h4⟩ := ih wb
        refine ⟨?_, front :: used, ?_, ?_, ?_⟩
        · refine List.Forall₂.cons ⟨rfl, hc.2.symm, Or.inr ⟨rfl, hc.1, ?_⟩⟩ ?_
          · simp [hc.2]
          · exact h1.imp (fun a b hab => wbRel_mono (fun q hq => by
              simp only [List.map_cons, List.mem_cons]
              exact Or.inr hq) hab)
        · show front :: wb = front :: used ++ _
          rw [List.cons_append, ← h2]
        · intro x hx
          rcases List.mem_cons.1 hx with hx | hx
          · subst hx
            exact ⟨_, List.mem_cons_self _ _, hc.1, rfl, rfl⟩
          · obtain ⟨e', he', hr⟩ := h3 x hx
            exact ⟨e', List.mem_cons_of_mem _ he', hr⟩
        · simp only [List.countP_cons, List.length_cons, hc.1, Bool.true_and, if_true] at h4 ⊢
          have : (if e.ready = true then 1 else 0) ≤ 1 := by split <;> omega
          omega
      · obtain ⟨h1, used, h2, h3, h4⟩ := ih (front :: wb)
        refine ⟨List.Forall₂.cons (wbRel_refl _ e) h1, used, h2, ?_, ?_⟩
        · intro x hx
          obtain ⟨e', he', hr⟩ := h3 x hx
          exact ⟨e', List.mem_cons_of_mem _ he', hr⟩
        · simp only [List.countP_cons] at h4 ⊢
          omega

/-- A run of the inner loop takes the front instruction when a slot holds it. -/
theorem writebackPass_progress (cyc : Int) :
    ∀ (rob : List ReorderBufferEntry) (front : Instruction) (wb : List Instruction),
      (∃ e, e ∈ rob ∧ e.valid = true ∧ e.instruction.sequenceNum = front.sequenceNum) →
      (writebackPass cyc rob (front :: wb)).2.length ≤ wb.length := by
  intro rob
  induction rob with
  | nil => rintro front wb ⟨e, he, _⟩; cases he
  | cons e rob ih =>
    rintro front wb ⟨e0, he0, hv, hq⟩
    unfold writebackPass
    split
    · obtain ⟨_, used, h2, _, _⟩ := writebackPass_rel cyc rob wb
      have := congrArg List.length h2
      rw [List.length_append] at this
      show (writebackPass cyc rob wb).2.length ≤ _
      omega
    · rename_i hc
      rcases List.mem_cons.1 he0 with h | h
      · subst h
        exact absurd (by simp [hv, hq]) hc
      · exact ih front wb ⟨e0, h, hv, hq⟩

theorem writebackLoop_rel (cyc : Int) :
    ∀ (fuel : Nat) (rob : List ReorderBufferEntry) (wb : List Instruction),
      wb.length ≤ fuel →
      (∀ x ∈ wb, ∃ e, e ∈ rob ∧ e.valid = true ∧
        e.instruction.sequenceNum = x.sequenceNum) →
      ∃ rob', writebackLoop cyc fuel rob wb = some rob' ∧
        List.Forall₂ (WbRel (wb.map (fun x => x.sequenceNum))) rob rob' ∧
        (∀ x ∈ wb, ∃ e', e' ∈ rob' ∧ e'.valid = true ∧ e'.ready = true ∧
          e'.instruction.sequenceNum = x.sequenceNum) ∧
        rob'.countP (fun e => e.valid && e.ready) ≤
          rob.countP (fun e => e.valid && e.ready) + wb.length := by
  intro fuel
  induction fuel with
  | zero =>
    intro rob wb hlen _
    have : wb = [] := List.length_eq_zero.1 (by omega)
    subst this
    exact ⟨rob, rfl, List.forall₂_same.2 (fun x _ => wbRel_refl _ x), by simp, by simp⟩
  | succ fuel ih =>
    intro rob wb hlen hcov
    cases wb with
    | nil =>
      exact ⟨rob, rfl, List.forall₂_same.2 (fun x _ => wbRel_refl _ x), by simp, by simp⟩
    | cons front wb =>
      obtain ⟨h1, used, h2, h3, h4⟩ := writebackPass_rel cyc rob (front :: wb)
      have hprog := writebackPass_progress cyc rob front wb
        (hcov front (List.mem_cons_self _ _))
      have hcov' : ∀ x ∈ (writebackPass cyc rob (front :: wb)).2,
          ∃ e, e ∈ (writebackPass cyc rob (front :: wb)).1 ∧ e.valid = true ∧
            e.instruction.sequenceNum = x.sequenceNum := by
        intro x hx
        obtain ⟨e, he, hv, hq⟩ := hcov x (by rw [h2]; exact List.mem_append_right _ hx)
        obtain ⟨e', he', hr⟩ := forall₂_mem_left h1 he
        exact ⟨e', he', hr.1.trans hv, hr.2.1.trans hq⟩
      obtain ⟨rob', hl, hr1, hr2, hr3⟩ := ih _ _ (by
        simp only [List.length_cons] at hlen
        omega) hcov'
      have hsub : ∀ q ∈ (writebackPass cyc rob (front :: wb)).2.map (fun x => x.sequenceNum),
          q ∈ (front :: wb).map (fun x => x.sequenceNum) := by
        intro q hq
        obtain ⟨x, hx, hxq⟩ := List.mem_map.1 hq
        exact List.mem_map.2 ⟨x, by rw [h2]; exact List.mem_append_right _ hx, hxq⟩
      refine ⟨rob', ?_, ?_, ?_, ?_⟩
      · unfold writebackLoop
        simp only [List.isEmpty_cons, Bool.false_eq_true, if_false, List.length_cons]
        rw [if_neg (by omega)]
        exact hl
      · exact forall₂_trans (fun a b c (hab : WbRel _ a b) (hbc : WbRel _ b c) =>
          wbRel_trans hab hbc) h1
          (hr1.imp (fun a b hab => wbRel_mono hsub hab))
      · intro x hx
        rw [h2] at hx
        rcases List.mem_append.1 hx with hx | hx
        · obtain ⟨e', he', hv, hrd, hq⟩ := h3 x hx
          obtain ⟨e'', he'', hr⟩ := forall₂_mem_left hr1 he'
          refine ⟨e'', he'', hr.1.trans hv, ?_, hr.2.1.trans hq⟩
          rcases hr.2.2 with h | h
          · exact h.trans hrd
          · exact h.1
        · exact hr2 x hx
      · have := congrArg List.length h2
        rw [List.length_append] at this
        omega

theorem stampWriteback_seq (cyc : Int) (x : Instruction) :
    (stampWriteback cyc x).sequenceNum = x.sequenceNum := by
  unfold stampWriteback
  split <;> rfl

/-- `writebackStage` is defined when every instruction of the writeback buffer has its
slot; the slots of these instructions become ready and no other slot changes its state. -/
theorem writebackStage_flight {cfg : ProcessorParameters} {s : OutOfOrderProcessor}
    (hl : SeqLayout cfg s) (hhere : ∀ q ∈ wbSeqs s, ∃ i, Pending s.m_reorderBuffer i q) :
    ∃ s2, writebackStage s = some s2 ∧
      (∃ rob, s2 = { s with m_writebackBuffer := [], m_reorderBuffer := rob }) ∧
      (∀ i q, Pending s2.m_reorderBuffer i q ↔
        (Pending s.m_reorderBuffer i q ∧ q ∉ wbSeqs s)) ∧
      (∀ i q, Named s.m_reorderBuffer i q → Named s2.m_reorderBuffer i q) ∧
      s2.m_reorderBuffer.countP (fun e => e.valid && e.ready) ≤
        s.m_reorderBuffer.countP (fun e => e.valid && e.ready) +
          s.m_writebackBuffer.length := by
  have hseq : (s.m_writebackBuffer.map (stampWriteback (s.m_cycleCount : Int))).map
      (fun x => x.sequenceNum) = wbSeqs s :=
    map_stamp_seq _ (stampWriteback_seq _) _
  have hcov : ∀ x ∈ s.m_writebackBuffer.map (stampWriteback (s.m_cycleCount : Int)),
      ∃ e, e ∈ s.m_reorderBuffer ∧ e.valid = true ∧
        e.instruction.sequenceNum = x.sequenceNum := by
    intro x hx
    have hq : x.sequenceNum ∈ wbSeqs s := by
      rw [← hseq]
      exact List.mem_map.2 ⟨x, hx, rfl⟩
    obtain ⟨i, e, he, hv, _, hq'⟩ := hhere x.sequenceNum hq
    exact ⟨e, List.mem_iff_getElem?.2 ⟨i, he⟩, hv, hq'⟩
  obtain ⟨rob', hloop, hrel, hrdy, hcnt⟩ := writebackLoop_rel (s.m_cycleCount : Int) _
    s.m_reorderBuffer _ (Nat.le_refl _) hcov
  rw [hseq] at hrel
  have hs2 : writebackStage s = some { s with m_writebackBuffer := [], m_reorderBuffer := rob' } := by
    unfold OoO.writebackStage
    simp only
    rw [hloop]
  have hl2 := hl.writebackStage hs2
  refine ⟨_, hs2, ⟨rob', rfl⟩, fun i q => ?_, fun i q hn => ?_, ?_⟩
  · show Pending rob' i q ↔ _
    constructor
    · rintro ⟨e', he', hv', hr', hq'⟩
      obtain ⟨e, he, h1, h2, h3⟩ := forall₂_getElem?_right hrel i he'
      have hre : e.ready = false := by
        rcases h3 with h3 | h3
        · rw [← h3, hr']
        · rw [hr'] at h3
          cases h3.1
      refine ⟨⟨e, he, h1 ▸ hv', hre, h2 ▸ hq'⟩, fun hmem => ?_⟩
      rw [← hseq] at hmem
      obtain ⟨x, hx, hxq⟩ := List.mem_map.1 hmem
      obtain ⟨e'', he'', hv'', hr'', hq''⟩ := hrdy x hx
      obtain ⟨j, hj⟩ := List.mem_iff_getElem?.1 he''
      have hj' := (hl2.rob_seq j e'' hj hv'').2.2
      have hi' := (hl2.rob_seq i e' he' hv').2.2
      rw [hq'', hxq] at hj'
      rw [hq'] at hi'
      have hij : j = i := by omega
      subst hij
      have : some e'' = some e' := hj.symm.trans he'
      cases this
      rw [hr'] at hr''
      cases hr''
    · rintro ⟨⟨e, he, hv, hr, hq⟩, hnot⟩
      obtain ⟨e', he', h1, h2, h3⟩ := forall₂_getElem?_left hrel i he
      refine ⟨e', he', h1.trans hv, ?_, h2.trans hq⟩
      rcases h3 with h3 | h3
      · rw [h3, hr]
      · exact absurd (hq ▸ h3.2.2) hnot
  · show Named rob' i q
    obtain ⟨e, he, hq, hrv⟩ := hn
    obtain ⟨e', he', h1, h2, h3⟩ := forall₂_getElem?_left hrel i he
    refine ⟨e', he', h2.trans hq, ?_⟩
    rcases hrv with h | h
    · left
      rcases h3 with h3 | h3
      · rw [h3, h]
      · exact h3.1
    · exact Or.inr (h1.trans h)
  · show rob'.countP _ ≤ _
    rw [List.length_map] at hcnt
    exact hcnt

/-- With an empty writeback buffer `writebackStage` changes nothing. -/
theorem writebackStage_idle {s : OutOfOrderProcessor} (h : s.m_writebackBuffer = []) :
    writebackStage s = some s := by
  unfold OoO.writebackStage
  simp only [h, List.map_nil, List.length_nil, writebackLoop, List.isEmpty_nil, if_true]
  cases s
  simp only at h
  subst h
  rfl

/-! ## Issue -/

theorem filter_set_invalidate {iq : List IssueQueueEntry} {e0 ne : IssueQueueEntry} :
    ∀ {i : Nat}, iq[i]? = some e0 → e0.valid = true → ne.valid = false →
      ((iq.set i ne).filter (fun e => e.valid) ++ [e0]).Perm (iq.filter (fun e => e.valid)) := by
  induction iq with
  | nil => intro i h; simp at h
  | cons a l ih =>
    intro i h hv hn
    cases i with
    | zero =>
      simp only [List.getElem?_cons_zero, Option.some.injEq] at h
      subst h
      simp only [List.set_cons_zero, List.filter_cons, hn, hv, Bool.false_eq_true, if_false,
        if_true]
      exact List.perm_append_singleton _ _
    | succ k =>
      simp only [List.getElem?_cons_succ] at h
      have := ih h hv hn
      simp only [List.set_cons_succ, List.filter_cons]
      split
      · exact this.cons a
      · exact this

theorem filter_set_validate {iq : List IssueQueueEntry} {e0 ne : IssueQueueEntry} :
    ∀ {i : Nat}, iq[i]? = some e0 → e0.valid = false → ne.valid = true →
      ((iq.set i ne).filter (fun e => e.valid)).Perm
        (iq.filter (fun e => e.valid) ++ [ne]) := by
  induction iq with
  | nil => intro i h; simp at h
  | cons a l ih =>
    intro i h hv hn
    cases i with
    | zero =>
      simp only [List.getElem?_cons_zero, Option.some.injEq] at h
      subst h
      simp only [List.set_cons_zero, List.filter_cons, hn, hv, Bool.false_eq_true, if_false,
        if_true]
      exact (List.perm_append_singleton _ _).symm
    | succ k =>
      simp only [List.getElem?_cons_succ] at h
      have := ih h hv hn
      simp only [List.set_cons_succ, List.filter_cons]
      split
      · exact this.cons a
      · exact this

theorem findOldest_chosen :
    ∀ (l : List IssueQueueEntry) (j : Nat) (oc : Int) (i : Nat),
      findOldest l j oc (some i) ≠ none := by
  intro l
  induction l with
  | nil => intro j oc i h; cases h
  | cons a l ih =>
    intro j oc i
    rw [findOldest_cons]
    split
    · exact ih _ _ _
    · split
      · exact ih _ _ _
      · split
        · exact ih _ _ _
        · split
          · exact ih _ _ _
          · exact ih _ _ _

/-- The scan of `issueStage` finds an entry when one is ready and was fetched before
cycle `oc`. -/
theorem findOldest_finds :
    ∀ (l : List IssueQueueEntry) (j : Nat) (oc : Int) (idx : Option Nat),
      (∃ e, e ∈ l ∧ IssueReady e ∧ e.instruction.fetchCycle < oc) →
      findOldest l j oc idx ≠ none := by
  intro l
  induction l with
  | nil => rintro j oc idx ⟨e, he, _⟩; cases he
  | cons a l ih =>
    rintro j oc idx ⟨e, he, hr, hf⟩
    rw [findOldest_cons]
    by_cases hsel : IssueReady a ∧ a.instruction.fetchCycle < oc
    · obtain ⟨⟨h1, h2, h3⟩, h4⟩ := hsel
      have hready : isInstructionReady a = true := by
        unfold isInstructionReady
        simp [h2, h3]
      simp only [h1, Bool.not_true, Bool.false_eq_true, if_false, h2, h3, ne_eq,
        not_true_eq_false, hready, Bool.true_and, decide_eq_true_eq, h4, if_true]
      exact findOldest_chosen _ _ _ _
    · have hmem : e ∈ l := by
        rcases List.mem_cons.1 he with h | h
        · subst h
          exact absurd ⟨hr, hf⟩ hsel
        · exact h
      have hih := ih (j + 1) oc idx ⟨e, hmem, hr, hf⟩
      split
      · exact hih
      · rename_i hv
        split
        · exact hih
        · rename_i h1
          split
          · exact hih
          · rename_i h2
            split
            · rename_i h3
              exfalso
              apply hsel
              simp only [Bool.not_eq_true', Bool.not_eq_false] at hv
              simp only [ne_eq, Decidable.not_not] at h1 h2
              simp only [Bool.and_eq_true, decide_eq_true_eq] at h3
              exact ⟨⟨hv, h1, h2⟩, h3.2⟩
            · exact hih

/-- The loop of `issueStage`: the entries `sel` it selects leave the issue queue for the
execution list, and it selects at least one when a ready entry was fetched before cycle
`INT_MAX`. -/
theorem issueLoop_sel (cyc : Int) :
    ∀ (n : Nat) (iq : List IssueQueueEntry) (ex : List ExecutionEntry),
      ∃ sel : List IssueQueueEntry,
        (issueLoop cyc n iq ex).2 = ex ++ sel.map (fun e =>
          ({ instruction := leaveIssue cyc e.instruction,
             remainingCycles := execLatency (leaveIssue cyc e.instruction).opType } :
            ExecutionEntry)) ∧
        (((issueLoop cyc n iq ex).1.filter (fun e => e.valid)) ++ sel).Perm
          (iq.filter (fun e => e.valid)) ∧
        (issueLoop cyc n iq ex).1.length = iq.length ∧
        (∀ e ∈ sel, IssueReady e) ∧ sel.length ≤ n ∧
        ((∃ e, e ∈ iq ∧ IssueReady e ∧ e.instruction.fetchCycle < INT_MAX) → 0 < n →
          sel ≠ []) := by
  intro n
  induction n with
  | zero =>
    intro iq ex
    exact ⟨[], by simp [issueLoop], by simp [issueLoop], rfl, by simp, Nat.le_refl _,
      fun _ h => by omega⟩
  | succ n ih =>
    intro iq ex
    rw [issueLoop_succ]
    cases hfo : findOldest iq 0 INT_MAX none with
    | none =>
      refine ⟨[], by simp, by simp, rfl, by simp, Nat.zero_le _, fun h _ => ?_⟩
      exact absurd hfo (findOldest_finds _ _ _ _ h)
    | some idx =>
      rcases findOldest_spec _ _ _ _ _ hfo with h1 | ⟨e, _, h2, h3⟩
      · cases h1
      · rw [Nat.sub_zero] at h2
        simp only [h2]
        obtain ⟨sel, hs1, hs2, hs3, hs4, hs5, _⟩ := ih
          (iq.set idx { valid := false, instruction := leaveIssue cyc e.instruction })
          (ex ++ [{ instruction := leaveIssue cyc e.instruction,
                    remainingCycles := execLatency (leaveIssue cyc e.instruction).opType }])
        refine ⟨e :: sel, ?_, ?_, ?_, ?_, by simp only [List.length_cons]; omega,
          fun _ _ => by simp⟩
        · rw [hs1, List.append_assoc]
          rfl
        · refine List.perm_middle.trans ?_
          refine (hs2.cons e).trans ?_
          refine (List.perm_append_singleton _ _).symm.trans ?_
          exact filter_set_invalidate h2 h3.1 rfl
        · rw [hs3, List.length_set]
        · intro x hx
          rcases List.mem_cons.1 hx with h | h
          · exact h ▸ h3
          · exact hs4 x h

/-! ## Dispatch, register read, decode and fetch: what the loops move -/

theorem findFreeSlot_some :
    ∀ iq : List IssueQueueEntry, 0 < (iq.filter (fun e => !e.valid)).length →
      ∃ i e, findFreeSlot iq = some i ∧ iq[i]? = some e ∧ e.valid = false := by
  intro iq
  induction iq with
  | nil => intro h; simp at h
  | cons a l ih =>
    intro h
    unfold findFreeSlot
    cases hv : a.valid with
    | true =>
      simp only [List.filter_cons, hv, Bool.not_true, Bool.false_eq_true, if_false] at h
      obtain ⟨i, e, h1, h2, h3⟩ := ih h
      refine ⟨i + 1, e, ?_, ?_, h3⟩
      · simp [h1]
      · simpa using h2
    | false => exact ⟨0, a, by simp, by simp, hv⟩

/-- The loop of `dispatchStage` with enough free issue queue entries places every
instruction of the dispatch buffer in an entry of its own. -/
theorem dispatchLoop_all (cyc : Int) (rob : List ReorderBufferEntry) :
    ∀ (di : List Instruction) (iq : List IssueQueueEntry),
      di.length ≤ (iq.filter (fun e => !e.valid)).length →
      (∀ x ∈ di, snapTag rob x.src1Rename = some x.src1Rename ∧
        snapTag rob x.src2Rename = some x.src2Rename) →
      ∃ iq', dispatchLoop cyc rob di iq = some iq' ∧ iq'.length = iq.length ∧
        (iq'.filter (fun e => e.valid)).Perm
          (iq.filter (fun e => e.valid) ++ di.map (fun x =>
            ({ valid := true,
               instruction := leaveDispatch cyc x.src1Rename x.src2Rename x } :
              IssueQueueEntry))) := by
  intro di
  induction di with
  | nil => intro iq _ _; exact ⟨iq, rfl, rfl, by simp⟩
  | cons x di ih =>
    intro iq hfree hsnap
    simp only [List.length_cons] at hfree
    obtain ⟨i, e0, hfs, he0, hv0⟩ := findFreeSlot_some iq (by omega)
    have hx := hsnap x (List.mem_cons_self _ _)
    have hcount := countP_set_add (fun e : IssueQueueEntry => !e.valid)
      ({ valid := true, instruction := leaveDispatch cyc x.src1Rename x.src2Rename x } :
        IssueQueueEntry) he0
    simp only [hv0, Bool.not_false, if_true, Bool.not_true, Bool.false_eq_true,
      if_false] at hcount
    rw [List.countP_eq_length_filter, List.countP_eq_length_filter] at hcount
    obtain ⟨iq', h1, h2, h3⟩ := ih
      (iq.set i { valid := true, instruction := leaveDispatch cyc x.src1Rename x.src2Rename x })
      (by omega) (fun y hy => hsnap y (List.mem_cons_of_mem _ hy))
    refine ⟨iq', ?_, ?_, ?_⟩
    · unfold dispatchLoop
      simp only [hfs, hx.1, hx.2]
      exact h1
    · rw [h2, List.length_set]
    · refine h3.trans ?_
      refine ((filter_set_validate he0 hv0 rfl).append_right _).trans ?_
      rw [List.append_assoc]
      rfl

/-- The loop of `registerReadStage` moves the first `k` instructions of the register read
buffer, with their tags snapped, to the end of the dispatch buffer: as many as the
dispatch buffer has room for. -/
theorem registerReadLoop_moves (cfg : ProcessorParameters) (cyc : Int)
    (rob : List ReorderBufferEntry) :
    ∀ (rr di : List Instruction),
      (∀ x ∈ rr, ∃ t1 t2, snapTag rob x.src1Rename = some t1 ∧
        snapTag rob x.src2Rename = some t2) →
      ∃ k moved, registerReadLoop cfg cyc rob rr di = some (rr.drop k, di ++ moved) ∧
        k ≤ rr.length ∧ moved.length = k ∧
        (k = rr.length ∨ cfg.width ≤ di.length + k) ∧
        (di.length < cfg.width → rr ≠ [] → 0 < k) ∧
        (di.length ≤ cfg.width → di.length + k ≤ cfg.width) ∧
        List.Forall₂ (fun x y => ∃ t1 t2, snapTag rob x.src1Rename = some t1 ∧
          snapTag rob x.src2Rename = some t2 ∧ y = leaveRegisterRead cyc t1 t2 x)
          (rr.take k) moved := by
  intro rr
  induction rr with
  | nil =>
    intro di _
    exact ⟨0, [], by simp [registerReadLoop], Nat.le_refl _, rfl, Or.inl rfl,
      fun _ h => absurd rfl h, fun h => h, by simp⟩
  | cons x rr ih =>
    intro di hsnap
    obtain ⟨t1, t2, h1, h2⟩ := hsnap x (List.mem_cons_self _ _)
    unfold registerReadLoop
    split
    · rename_i hlt
      simp only [h1, h2]
      obtain ⟨k, moved, hk1, hk2, hk3, hk4, _, hk6, hk7⟩ := ih
        (di ++ [leaveRegisterRead cyc t1 t2 x])
        (fun y hy => hsnap y (List.mem_cons_of_mem _ hy))
      simp only [List.length_append, List.length_singleton] at hk4 hk6
      refine ⟨k + 1, leaveRegisterRead cyc t1 t2 x :: moved, ?_, ?_, ?_, ?_, ?_, ?_, ?_⟩
      · rw [hk1, List.append_assoc]
        rfl
      · simp only [List.length_cons]
        omega
      · simp only [List.length_cons]
        omega
      · simp only [List.length_cons]
        omega
      · intro _ _
        omega
      · intro _
        omega
      · simp only [List.take_succ_cons]
        exact List.Forall₂.cons ⟨t1, t2, h1, h2, rfl⟩ hk7
    · rename_i hge
      exact ⟨0, [], by simp, Nat.zero_le _, rfl, Or.inr (by omega), fun h => absurd h hge,
        fun h => h, by simp⟩

/-- The loop of `decodeStage` moves `k` instructions: as many as the rename buffer has
room for. -/
theorem decodeLoop_moves (cfg : ProcessorParameters) (cyc : Int) :
    ∀ (de rn : List Instruction),
      ∃ k, (decodeLoop cfg cyc de rn).1.length + k = de.length ∧
        (decodeLoop cfg cyc de rn).2.length = rn.length + k ∧
        (k = de.length ∨ cfg.width ≤ rn.length + k) ∧
        (rn.length < cfg.width → de ≠ [] → 0 < k) ∧
        (rn.length ≤ cfg.width → rn.length + k ≤ cfg.width) := by
  intro de
  induction de with
  | nil =>
    intro rn
    exact ⟨0, rfl, rfl, Or.inl rfl, fun _ h => absurd rfl h, fun h => h⟩
  | cons x de ih =>
    intro rn
    unfold decodeLoop
    split
    · rename_i hlt
      obtain ⟨k, h1, h2, h3, _, h5⟩ := ih (rn ++ [leaveDecode cyc x])
      simp only [List.length_append, List.length_singleton] at h2 h3 h5
      refine ⟨k + 1, ?_, ?_, ?_, ?_, ?_⟩
      · simp only [List.length_cons]
        omega
      · omega
      · simp only [List.length_cons]
        omega
      · intro _ _
        omega
      · intro _
        omega
    · rename_i hge
      exact ⟨0, rfl, rfl, Or.inr (by omega), fun h => absurd h hge, fun h => h⟩

/-- The loop of `fetchStage` on a trace of records reads `k` of them: `n`, or all that
are left. -/
theorem fetchLoop_moves :
    ∀ (n : Nat) (s : OutOfOrderProcessor), (∀ x ∈ s.m_traceFile, x ≠ none) →
      ∃ k, k ≤ n ∧ (fetchLoop n s).m_decodeBuffer.length = s.m_decodeBuffer.length + k ∧
        (fetchLoop n s).m_traceFile.length + k = s.m_traceFile.length ∧
        (k = n ∨ (fetchLoop n s).m_traceFile.length = 0) := by
  intro n
  induction n with
  | zero => intro s _; exact ⟨0, Nat.le_refl _, rfl, rfl, Or.inl rfl⟩
  | succ n ih =>
    intro s hs
    unfold fetchLoop
    split
    · rename_i h
      exact ⟨0, Nat.zero_le _, rfl, rfl, Or.inr (by simp [h])⟩
    · rename_i rest h
      exact absurd rfl (hs none (by rw [h]; exact List.mem_cons_self _ _))
    · rename_i r rest h
      obtain ⟨k, h1, h2, h3, h4⟩ := ih { s with
        m_traceFile := rest
        m_instructionCount := s.m_instructionCount + 1
        m_decodeBuffer :=
          s.m_decodeBuffer ++ [fetchInstruction s.m_cycleCount r s.m_instructionCount] }
        (fun x hx => hs x (by rw [h]; exact List.mem_cons_of_mem _ hx))
      simp only [List.length_append, List.length_singleton] at h2 h3
      refine ⟨k + 1, by omega, by omega, ?_, ?_⟩
      · rw [h, List.length_cons]
        omega
      · rcases h4 with h4 | h4
        · exact Or.inl (by omega)
        · exact Or.inr h4

/-! ## The stop condition of the driver and the bound of the execution list -/

theorem fetchStage_signals {cfg : ProcessorParameters} {s : OutOfOrderProcessor}
    (hw : 0 < cfg.width) (h : (fetchStage cfg s).m_decodeBuffer = []) :
    (fetchStage cfg s).m_simulationComplete = true := by
  unfold fetchStage at h ⊢
  split
  · rename_i hge
    rw [if_pos hge] at h
    rw [h] at hge
    simp only [List.length_nil, ge_iff_le, Nat.le_zero_eq] at hge
    omega
  · rename_i hlt
    rw [if_neg hlt] at h
    obtain ⟨n, hn⟩ : ∃ n, cfg.width = n + 1 := ⟨cfg.width - 1, by omega⟩
    rw [hn] at h ⊢
    unfold fetchLoop at h ⊢
    split
    · rfl
    · rfl
    · rename_i r rest htr
      simp only [htr] at h
      exact absurd h (fetchLoop_decode_ne_nil _ _ (by simp))

theorem allEmpty_of_hasInstructions {s : OutOfOrderProcessor}
    (h : hasInstructions s = false) : AllEmpty s := by
  simp only [hasInstructions, Bool.or_eq_false_iff, decide_eq_false_iff_not, ne_eq,
    Decidable.not_not, List.length_eq_zero, Bool.not_eq_false'] at h
  obtain ⟨⟨⟨⟨⟨⟨⟨hde, hrn⟩, hrr⟩, hdi⟩, hiq⟩, hex⟩, hwb⟩, hrob⟩ := h
  refine ⟨hde, hrn, hrr, hdi, hwb, hex, fun e he => ?_, fun e he => ?_⟩
  · simp only [isIssueQueueEmpty, List.all_eq_true, Bool.not_eq_true'] at hiq
    exact hiq e he
  · simp only [isReorderBufferEmpty, List.all_eq_true, Bool.not_eq_true'] at hrob
    exact hrob e he

/-- C11. Driver stop condition: with a width of at least 1, when `advanceCycle` returns
`false` and the driver stops, `fetchStage` has signalled end-of-stream
(`m_simulationComplete` is set) and the five buffers, the execution list, the issue queue
and the reorder buffer are all empty; on a trace of well-formed records nothing of the
trace is left unread. -/
theorem driver_stop_condition (cfg : ProcessorParameters) (trace : List (Option TraceRecord))
    (fuel : Nat) (s : OutOfOrderProcessor) (hw : 0 < cfg.width)
    (h : simulate cfg fuel (initializeStructures cfg trace) = SimResult.halted s) :
    s.m_simulationComplete = true ∧ AllEmpty s ∧
      (∀ records, trace = wellFormedTrace records → s.m_traceFile = []) := by
  have hr : Reach cfg trace s false :=
    (@reach_of_simulate cfg trace fuel _ Reach.init).1 s h
  have hno := hasInstructions_of_reach hr
  have hemp := allEmpty_of_hasInstructions hno
  refine ⟨?_, hemp, fun records hrec => ?_⟩
  · cases hr with
    | step hr0 ht =>
      obtain ⟨s9, h9, hs, _⟩ := tick_eq_some ht
      obtain ⟨s1, s2, s5, s6, s7, _, _, _, _, _, h9'⟩ := pipelineStages_eq_some h9
      have hde : s9.m_decodeBuffer = [] := by
        have := hemp.1
        rw [hs] at this
        exact this
      rw [hs]
      show s9.m_simulationComplete = true
      rw [h9'] at hde ⊢
      exact fetchStage_signals hw hde
  · subst hrec
    rcases (faithful_of_reach hr).2.2.2 rfl hw with h1 | h1
    · exact absurd hemp.1 h1
    · exact h1

theorem driver_stop_condition_witness :
    (stateAfter cfgS1 traceS2 11).m_simulationComplete = true ∧
      AllEmpty (stateAfter cfgS1 traceS2 11) ∧
      (∀ records, traceS2 = wellFormedTrace records →
        (stateAfter cfgS1 traceS2 11).m_traceFile = []) :=
  driver_stop_condition cfgS1 traceS2 11 (stateAfter cfgS1 traceS2 11) (by decide)
    (@halted_stateAfter cfgS1 traceS2 11 (by decide))

/-- C18. Execute-list bound: in every state of a run of `simulate` the execution list
holds at most `width * 5` entries. -/
theorem execution_list_bound {cfg : ProcessorParameters} {trace : List (Option TraceRecord)}
    {s : OutOfOrderProcessor} {b : Bool} (h : Reach cfg trace s b) :
    s.m_executionList.length ≤ cfg.width * 5 := by
  have hb := execBound_of_reach h
  have := hb.2 1 (Nat.le_refl 1)
  rw [Nat.cast_one, countRemaining_one _ hb.1] at this
  omega

theorem execution_list_bound_witness :
    (stateAfter cfgS1 traceS2 6).m_executionList.length = 1 ∧
      (stateAfter cfgS1 traceS2 6).m_executionList.length ≤ cfgS1.width * 5 :=
  ⟨by decide, (reach_stateAfter cfgS1 traceS2 6).elim (fun _ h => execution_list_bound h)⟩

/-! ## End of stream and the cleanup of the rename table -/

/-- At the end of the file `fetchStage` reads nothing: the decode buffer, the instruction
counter and the trace are as before. -/
theorem fetchStage_at_end_of_file (cfg : ProcessorParameters) (s : OutOfOrderProcessor)
    (h : s.m_traceFile = []) :
    (fetchStage cfg s).m_decodeBuffer = s.m_decodeBuffer ∧
      (fetchStage cfg s).m_instructionCount = s.m_instructionCount ∧
      (fetchStage cfg s).m_traceFile = [] := by
  unfold fetchStage
  split
  · exact ⟨rfl, rfl, h⟩
  · cases hw : cfg.width with
    | zero => exact ⟨rfl, rfl, h⟩
    | succ n =>
      unfold fetchLoop
      simp [h]

/-- C19, what the code does. On the outcomes `[record, malformed, record]` with
`rob=8 iq=4 width=1`, `fetchStage` sets `m_simulationComplete` in the second tick, on the
malformed record, with one instruction fetched; in the third tick it reads the record
that follows, raising the instruction counter to 2 and putting the record with pc 12 in
the decode buffer; the run ends with both instructions printed. -/
theorem fetch_resumes_after_malformed_record :
    (stateAfter cfgS1 traceResume 2).m_simulationComplete = true ∧
      (stateAfter cfgS1 traceResume 2).m_instructionCount = 1 ∧
      (stateAfter cfgS1 traceResume 2).m_decodeBuffer = [] ∧
      (stateAfter cfgS1 traceResume 3).m_instructionCount = 2 ∧
      (stateAfter cfgS1 traceResume 3).m_decodeBuffer.map (fun x => x.pc) = [12] ∧
      (report (simulate cfgS1 13 (initializeStructures cfgS1 traceResume))).isSome = true ∧
      (stateAfter cfgS1 traceResume 13).m_output.map (fun x => x.sequenceNum) = [0, 1] := by
  decide

/-- C14. RMT cleanup at retire: when the loop of `retireStage` retires the head slot, whose
instruction carries the slot as its destination tag (as in every state of a run), the rename
table entry of a register `r` becomes `(valid = false, robTag = -1)` if `r` is the
destination register of the instruction and the entry names the head slot, and is left as
it is otherwise: when it names another slot, when `r` is another register, and when the
instruction has no destination. -/
theorem rmt_cleanup_at_retire (cfg : ProcessorParameters) (cyc : Int) (n : Nat)
    (st : OutOfOrderProcessor) (e : ReorderBufferEntry) (rmt' : List RenameTableEntry)
    (he : st.m_reorderBuffer[st.m_robHead]? = some e) (hv : e.valid = true)
    (hr : e.ready = true) (htag : e.instruction.destRename = (st.m_robHead : Int))
    (hc : retireClear st.m_renameTable (leaveRetire cyc e.instruction) = some rmt') :
    retireLoop cfg cyc (n + 1) st = retireLoop cfg cyc n { st with
        m_output := st.m_output ++ [leaveRetire cyc e.instruction]
        m_renameTable := rmt'
        m_reorderBuffer := st.m_reorderBuffer.set st.m_robHead
          { e with instruction := leaveRetire cyc e.instruction, valid := false }
        m_robHead := (st.m_robHead + 1) % cfg.robSize } ∧
      rmt'.length = st.m_renameTable.length ∧
      ∀ (r : Nat) (m : RenameTableEntry), st.m_renameTable[r]? = some m →
        rmt'[r]? = some (if (r : Int) = e.instruction.destReg ∧
          m.robTag = (st.m_robHead : Int) then { valid := false, robTag := -1 } else m) := by
  refine ⟨?_, retireClear_length hc, fun r m hm => ?_⟩
  · conv_lhs => unfold retireLoop
    simp only [he, hv, hr, Bool.and_self, if_true, hc]
  · unfold retireClear at hc
    have hd : (leaveRetire cyc e.instruction).destReg = e.instruction.destReg := rfl
    have ht : (leaveRetire cyc e.instruction).destRename = e.instruction.destRename := rfl
    rw [hd, ht] at hc
    split at hc
    · rename_i hne
      split at hc
      · simp at hc
      · rename_i m0 hm0
        obtain ⟨h0, hm0'⟩ := vecGet_some hm0
        have hcast : ((e.instruction.destReg.toNat : Nat) : Int) = e.instruction.destReg :=
          Int.toNat_of_nonneg h0
        split at hc
        · rename_i heq
          simp only [Option.some.injEq] at hc
          subst hc
          by_cases hrd : (r : Int) = e.instruction.destReg
          · have hr' : e.instruction.destReg.toNat = r := by omega
            rw [hr'] at hm0' ⊢
            rw [hm] at hm0'
            cases hm0'
            rw [if_pos ⟨hrd, by rw [← heq, htag]⟩]
            exact List.getElem?_set_self (by
              by_contra hge
              rw [List.getElem?_eq_none (by omega)] at hm
              cases hm)
          · rw [if_neg (fun h => hrd h.1), List.getElem?_set_ne (by omega), hm]
        · rename_i hneq
          simp only [Option.some.injEq] at hc
          subst hc
          rw [hm]
          by_cases hrd : (r : Int) = e.instruction.destReg
          · have hr' : e.instruction.destReg.toNat = r := by omega
            rw [hr', hm] at hm0'
            cases hm0'
            rw [if_neg (fun h => hneq (by rw [h.2, htag]))]
          · rw [if_neg (fun h => hrd h.1)]
    · rename_i heq
      simp only [ne_eq, Decidable.not_not] at heq
      simp only [Option.some.injEq] at hc
      subst hc
      rw [hm, if_neg (fun h => by have := h.1; omega)]

theorem rmt_cleanup_at_retire_witness :
    ∃ rmt', retireClear (stateAfter cfgS1 traceS2 8).m_renameTable
        (leaveRetire 8 ((stateAfter cfgS1 traceS2 8).m_reorderBuffer[0]?.getD ({} : ReorderBufferEntry)).instruction) =
          some rmt' ∧
      (stateAfter cfgS1 traceS2 8).m_renameTable[1]? = some { valid := true, robTag := 0 } ∧
      rmt'[1]? = some { valid := false, robTag := -1 } ∧
      rmt'[2]? = some { valid := true, robTag := 1 } := by
  have hc : retireClear (stateAfter cfgS1 traceS2 8).m_renameTable
      (leaveRetire 8 ((stateAfter cfgS1 traceS2 8).m_reorderBuffer[0]?.getD ({} : ReorderBufferEntry)).instruction) =
      some ((retireClear (stateAfter cfgS1 traceS2 8).m_renameTable
        (leaveRetire 8 ((stateAfter cfgS1 traceS2 8).m_reorderBuffer[0]?.getD
          ({} : ReorderBufferEntry)).instruction)).getD []) := by decide
  have h := rmt_cleanup_at_retire cfgS1 8 0 (stateAfter cfgS1 traceS2 8)
    ((stateAfter cfgS1 traceS2 8).m_reorderBuffer[0]?.getD ({} : ReorderBufferEntry)) _
    (by decide) (by decide) (by decide) (by decide) hc
  exact ⟨_, hc, by decide, (h.2.2 1 ⟨true, 0⟩ (by decide)).trans (by decide),
    (h.2.2 2 ⟨true, 1⟩ (by decide)).trans (by decide)⟩

/-! ## The selection of Issue -/

theorem getElem?_concat_cases {α : Type} {pre : List α} {a e : α} {j : Nat}
    (h : (pre ++ [a])[j]? = some e) : pre[j]? = some e ∨ (j = pre.length ∧ e = a) := by
  by_cases hj : j < pre.length
  · rw [List.getElem?_append_left hj] at h
    exact Or.inl h
  · rw [List.getElem?_append_right (by omega)] at h
    right
    cases hd : j - pre.length with
    | zero =>
      rw [hd] at h
      simp only [List.getElem?_cons_zero, Option.some.injEq] at h
      exact ⟨by omega, h.symm⟩
    | succ m =>
      rw [hd] at h
      simp at h

/-- The scan of `issueStage` from entry `pre.length` on, when `(oc, idx)` is the oldest
ready entry of the entries `pre` before, ends with the oldest ready entry of all. -/
theorem findOldest_scan :
    ∀ (l pre : List IssueQueueEntry) (oc : Int) (idx : Option Nat) (k : Nat),
      (∀ (j : Nat) (e' : IssueQueueEntry), pre[j]? = some e' → IssueReady e' →
        oc ≤ e'.instruction.fetchCycle) →
      (∀ i : Nat, idx = some i → ∃ e, pre[i]? = some e ∧ IssueReady e ∧
        e.instruction.fetchCycle = oc ∧
        ∀ (j : Nat) (e' : IssueQueueEntry), pre[j]? = some e' → IssueReady e' →
          e'.instruction.fetchCycle = oc → i ≤ j) →
      findOldest l pre.length oc idx = some k → OldestReady (pre ++ l) k := by
  intro l
  induction l with
  | nil =>
    intro pre oc idx k h1 h2 hf
    simp only [findOldest] at hf
    obtain ⟨e, he, hr, hfc, hties⟩ := h2 k hf
    rw [List.append_nil]
    refine ⟨e, he, hr, fun j e' he' hr' => ⟨?_, fun heq => ?_⟩⟩
    · rw [hfc]
      exact h1 j e' he' hr'
    · exact hties j e' he' hr' (by rw [heq, hfc])
  | cons a l ih =>
    intro pre oc idx k h1 h2 hf
    have hlen : (pre ++ [a]).length = pre.length + 1 := by simp
    have happ : (pre ++ [a]) ++ l = pre ++ a :: l := by simp
    have hkeep : (IssueReady a → oc ≤ a.instruction.fetchCycle) →
        findOldest l (pre.length + 1) oc idx = some k → OldestReady (pre ++ a :: l) k := by
      intro hna hf'
      rw [← happ]
      refine ih (pre ++ [a]) oc idx k ?_ ?_ (by rw [hlen]; exact hf')
      · intro j e' he' hr'
        rcases getElem?_concat_cases he' with h | ⟨_, h⟩
        · exact h1 j e' h hr'
        · subst h
          exact hna hr'
      · intro i hi
        obtain ⟨e, he, hr, hfc, hties⟩ := h2 i hi
        have hilt : i < pre.length := by
          by_contra hge
          rw [List.getElem?_eq_none (by omega)] at he
          cases he
        refine ⟨e, by rw [List.getElem?_append_left hilt]; exact he, hr, hfc, ?_⟩
        intro j e' he' hr' heq
        rcases getElem?_concat_cases he' with h | ⟨h, _⟩
        · exact hties j e' h hr' heq
        · omega
    rw [findOldest_cons] at hf
    split at hf
    · rename_i hv
      refine hkeep (fun hr => ?_) hf
      rw [hr.1] at hv
      simp at hv
    · split at hf
      · rename_i h1'
        exact hkeep (fun hr => absurd hr.2.1 h1') hf
      · split at hf
        · rename_i h2'
          exact hkeep (fun hr => absurd hr.2.2 h2') hf
        · rename_i hv hs1 hs2
          simp only [Bool.not_eq_true', Bool.not_eq_false] at hv
          simp only [ne_eq, Decidable.not_not] at hs1 hs2
          split at hf
          · rename_i hc
            simp only [Bool.and_eq_true, decide_eq_true_eq] at hc
            rw [← happ]
            refine ih (pre ++ [a]) a.instruction.fetchCycle (some pre.length) k ?_ ?_
              (by rw [hlen]; exact hf)
            · intro j e' he' hr'
              rcases getElem?_concat_cases he' with h | ⟨_, h⟩
              · have := h1 j e' h hr'
                omega
              · subst h
                exact Int.le_refl _
            · intro i hi
              cases hi
              refine ⟨a, by simp, ⟨hv, hs1, hs2⟩, rfl, ?_⟩
              intro j e' he' hr' heq
              rcases getElem?_concat_cases he' with h | ⟨h, _⟩
              · have := h1 j e' h hr'
                omega
              · omega
          · rename_i hc
            refine hkeep (fun _ => ?_) hf
            simp only [Bool.and_eq_true, decide_eq_true_eq, not_and] at hc
            have hready : isInstructionReady a = true := by
              unfold isInstructionReady
              simp [hs1, hs2]
            have := hc hready
            omega

theorem findOldest_oldest {iq : List IssueQueueEntry} {k : Nat}
    (h : findOldest iq 0 INT_MAX none = some k) : OldestReady iq k := by
  have := findOldest_scan iq [] INT_MAX none k (fun j e' he' => by simp at he')
    (fun i hi => by cases hi) h
  simpa using this

/-- C15. Issue selection. In a selection step of `issueStage` on the issue queue `iq`: when
the scan finds entry `k`, that entry is valid with both source tags none, has the smallest
`fetchCycle` of all such entries and the smallest index among those with this
`fetchCycle`, and the step moves it to the execution list; the scan does find an entry
when some entry is valid with both tags none and was fetched before cycle `INT_MAX` (the
start value of the scan); when the scan finds nothing, and so when no entry is valid with
both tags none, the step and all later steps of the cycle issue nothing. The entries one
run of `issueStage` appends to the execution list are at most `width`, each was valid with
both source tags none, and there is at least one when such an entry is in the queue
(`width ≥ 1`, execution list not at its cap `width * 5`, which is below `2^32`). -/
theorem issue_selection (cfg : ProcessorParameters) (s : OutOfOrderProcessor) (cyc : Int)
    (n : Nat) (iq : List IssueQueueEntry) (ex : List ExecutionEntry) :
    (∀ k, findOldest iq 0 INT_MAX none = some k →
      OldestReady iq k ∧
      ∃ e, iq[k]? = some e ∧
        issueLoop cyc (n + 1) iq ex =
          issueLoop cyc n (iq.set k { valid := false, instruction := leaveIssue cyc e.instruction })
            (ex ++ [{ instruction := leaveIssue cyc e.instruction,
                      remainingCycles := execLatency e.instruction.opType }])) ∧
    ((∃ e, e ∈ iq ∧ IssueReady e ∧ e.instruction.fetchCycle < INT_MAX) →
      ∃ k, findOldest iq 0 INT_MAX none = some k) ∧
    (findOldest iq 0 INT_MAX none = none → issueLoop cyc (n + 1) iq ex = (iq, ex)) ∧
    ((∀ e ∈ iq, ¬ IssueReady e) → issueLoop cyc (n + 1) iq ex = (iq, ex)) ∧
    ∃ sel : List IssueQueueEntry, sel.length ≤ cfg.width ∧ (∀ e ∈ sel, IssueReady e) ∧
      (issueStage cfg s).m_executionList = s.m_executionList ++ sel.map (fun e =>
        ({ instruction := leaveIssue (s.m_cycleCount : Int) e.instruction,
           remainingCycles := execLatency e.instruction.opType } : ExecutionEntry)) ∧
      (0 < cfg.width → cfg.width * 5 < 4294967296 →
        s.m_executionList.length ≠ cfg.width * 5 →
        (∃ e, e ∈ s.m_issueQueue ∧ IssueReady e ∧ e.instruction.fetchCycle < INT_MAX) →
        sel ≠ []) := by
  refine ⟨fun k hk => ?_, fun hex => ?_, fun hnone => ?_,
    fun hnr => issueLoop_none_ready cyc _ iq ex hnr, ?_⟩
  · have ho := findOldest_oldest hk
    obtain ⟨e, he, _⟩ := ho
    refine ⟨findOldest_oldest hk, e, he, ?_⟩
    rw [issueLoop_succ]
    simp only [hk, he]
    rfl
  · have := findOldest_finds iq 0 INT_MAX none hex
    cases hf : findOldest iq 0 INT_MAX none with
    | none => exact absurd hf this
    | some k => exact ⟨k, rfl⟩
  · rw [issueLoop_succ]
    simp only [hnone]
  · unfold issueStage
    split
    · rename_i hfull
      exact ⟨[], Nat.zero_le _, by simp, by simp, fun _ _ hne => absurd hfull hne⟩
    · obtain ⟨sel, h1, _, _, h4, h5, h6⟩ := issueLoop_sel (s.m_cycleCount : Int) cfg.width
        (s.m_issueQueue.map (stampIssue (s.m_cycleCount : Int))) s.m_executionList
      refine ⟨sel, h5, h4, h1, fun hw _ _ hready => h6 ?_ hw⟩
      obtain ⟨e, he, hr, hf⟩ := hready
      refine ⟨stampIssue (s.m_cycleCount : Int) e, List.mem_map.2 ⟨e, he, rfl⟩, ?_, ?_⟩
      · unfold stampIssue IssueReady
        split
        · exact hr
        · exact hr
      · unfold stampIssue
        split
        · exact hf
        · exact hf

/-- C15 at work: in a queue whose entry 0 waits on tag 3 and whose entries 1, 2, 3 are
ready with fetch cycles 5, 4, 4, the scan finds entry 2; with a width of 2 the run of
`issueStage` on this queue issues the entries 2 and 3. -/
theorem issue_selection_witness :
    (findOldest
        [{ valid := true, instruction := { sequenceNum := 0, fetchCycle := 3, src1Rename := 3 } },
         { valid := true, instruction := { sequenceNum := 3, fetchCycle := 5 } },
         { valid := true, instruction := { sequenceNum := 1, fetchCycle := 4 } },
         { valid := true, instruction := { sequenceNum := 2, fetchCycle := 4 } }]
        0 INT_MAX none = some 2 ∧
      ((issueStage { robSize := 8, iqSize := 4, width := 2 }
        { initializeStructures { robSize := 8, iqSize := 4, width := 2 } [] with
          m_issueQueue :=
            [{ valid := true,
               instruction := { sequenceNum := 0, fetchCycle := 3, src1Rename := 3 } },
             { valid := true, instruction := { sequenceNum := 3, fetchCycle := 5 } },
             { valid := true, instruction := { sequenceNum := 1, fetchCycle := 4 } },
             { valid := true, instruction := { sequenceNum := 2, fetchCycle := 4 } }],
          m_cycleCount := 9 }).m_executionList.map
        (fun e => e.instruction.sequenceNum)) = [1, 2]) ∧
    OldestReady
      [{ valid := true, instruction := { sequenceNum := 0, fetchCycle := 3, src1Rename := 3 } },
       { valid := true, instruction := { sequenceNum := 3, fetchCycle := 5 } },
       { valid := true, instruction := { sequenceNum := 1, fetchCycle := 4 } },
       { valid := true, instruction := { sequenceNum := 2, fetchCycle := 4 } }] 2 :=
  ⟨by decide,
    ((issue_selection { robSize := 8, iqSize := 4, width := 2 }
      { initializeStructures { robSize := 8, iqSize := 4, width := 2 } [] with
        m_issueQueue :=
          [{ valid := true,
             instruction := { sequenceNum := 0, fetchCycle := 3, src1Rename := 3 } },
           { valid := true, instruction := { sequenceNum := 3, fetchCycle := 5 } },
           { valid := true, instruction := { sequenceNum := 1, fetchCycle := 4 } },
           { valid := true, instruction := { sequenceNum := 2, fetchCycle := 4 } }],
        m_cycleCount := 9 } 9 1
      [{ valid := true, instruction := { sequenceNum := 0, fetchCycle := 3, src1Rename := 3 } },
       { valid := true, instruction := { sequenceNum := 3, fetchCycle := 5 } },
       { valid := true, instruction := { sequenceNum := 1, fetchCycle := 4 } },
       { valid := true, instruction := { sequenceNum := 2, fetchCycle := 4 } }] []).1 2
      (by decide)).1⟩

/-! ## Dispatch -/

theorem stampDispatch_keeps (cyc : Int) (x : Instruction) :
    (stampDispatch cyc x).sequenceNum = x.sequenceNum ∧
      (stampDispatch cyc x).src1Rename = x.src1Rename ∧
      (stampDispatch cyc x).src2Rename = x.src2Rename := by
  unfold stampDispatch
  split <;> exact ⟨rfl, rfl, rfl⟩

/-- The loop of `dispatchStage` when the issue queue has a free entry for every
instruction of the dispatch buffer and every ready-snap is defined: instruction `n` goes
to the free entry `slots[n]`, the entries are distinct, and no other entry changes. -/
theorem dispatchLoop_places (cyc : Int) (rob : List ReorderBufferEntry) :
    ∀ (di : List Instruction) (iq : List IssueQueueEntry),
      di.length ≤ (iq.filter (fun e => !e.valid)).length →
      (∀ x ∈ di, ∃ t1 t2, snapTag rob x.src1Rename = some t1 ∧
        snapTag rob x.src2Rename = some t2) →
      ∃ (iq' : List IssueQueueEntry) (slots : List Nat),
        dispatchLoop cyc rob di iq = some iq' ∧ iq'.length = iq.length ∧
        slots.length = di.length ∧ slots.Nodup ∧
        (∀ i ∈ slots, ∃ e, iq[i]? = some e ∧ e.valid = false) ∧
        (∀ i : Nat, i ∉ slots → iq'[i]? = iq[i]?) ∧
        (∀ (n : Nat) (x : Instruction), di[n]? = some x → ∃ i t1 t2, slots[n]? = some i ∧
          snapTag rob x.src1Rename = some t1 ∧ snapTag rob x.src2Rename = some t2 ∧
          iq'[i]? = some { valid := true, instruction := leaveDispatch cyc t1 t2 x }) ∧
        ((iq'.filter (fun e => e.valid)).map (fun e => e.instruction.sequenceNum)).Perm
          ((iq.filter (fun e => e.valid)).map (fun e => e.instruction.sequenceNum) ++
            di.map (fun x => x.sequenceNum)) ∧
        (∀ e' ∈ iq', e'.valid = true → e' ∈ iq ∨ ∃ x t1 t2, x ∈ di ∧
          snapTag rob x.src1Rename = some t1 ∧ snapTag rob x.src2Rename = some t2 ∧
          e' = { valid := true, instruction := leaveDispatch cyc t1 t2 x }) := by
  intro di
  induction di with
  | nil =>
    intro iq _ _
    exact ⟨iq, [], rfl, rfl, rfl, List.nodup_nil, by simp, fun _ _ => rfl, by simp, by simp,
      fun e' he' _ => Or.inl he'⟩
  | cons x di ih =>
    intro iq hfree hsnap
    simp only [List.length_cons] at hfree
    obtain ⟨i0, e0, hfs, he0, hv0⟩ := findFreeSlot_some iq (by omega)
    obtain ⟨t1, t2, hx1, hx2⟩ := hsnap x (List.mem_cons_self _ _)
    have hi0 : i0 < iq.length := by
      by_contra hge
      rw [List.getElem?_eq_none (by omega)] at he0
      cases he0
    have hcount := countP_set_add (fun e : IssueQueueEntry => !e.valid)
      ({ valid := true, instruction := leaveDispatch cyc t1 t2 x } : IssueQueueEntry) he0
    simp only [hv0, Bool.not_false, if_true, Bool.not_true, Bool.false_eq_true,
      if_false] at hcount
    rw [List.countP_eq_length_filter, List.countP_eq_length_filter] at hcount
    obtain ⟨iq', slots, h1, h2, h3, h4, h5, h6, h7, h8, h9⟩ := ih
      (iq.set i0 { valid := true, instruction := leaveDispatch cyc t1 t2 x })
      (by omega) (fun y hy => hsnap y (List.mem_cons_of_mem _ hy))
    have hnot : i0 ∉ slots := by
      intro hmem
      obtain ⟨e, he, hv⟩ := h5 i0 hmem
      rw [List.getElem?_set_self hi0] at he
      cases he
      cases hv
    refine ⟨iq', i0 :: slots, ?_, ?_, ?_, ?_, ?_, ?_, ?_, ?_, ?_⟩
    · unfold dispatchLoop
      simp only [hfs, hx1, hx2]
      exact h1
    · rw [h2, List.length_set]
    · simp only [List.length_cons, h3]
    · exact List.nodup_cons.2 ⟨hnot, h4⟩
    · intro i hi
      rcases List.mem_cons.1 hi with h | h
      · subst h
        exact ⟨e0, he0, hv0⟩
      · obtain ⟨e, he, hv⟩ := h5 i h
        have hne : i0 ≠ i := fun heq => hnot (heq ▸ h)
        rw [List.getElem?_set_ne hne] at he
        exact ⟨e, he, hv⟩
    · intro i hi
      simp only [List.mem_cons, not_or] at hi
      rw [h6 i hi.2, List.getElem?_set_ne (fun h => hi.1 h.symm)]
    · intro n y hy
      cases n with
      | zero =>
        simp only [List.getElem?_cons_zero, Option.some.injEq] at hy
        subst hy
        refine ⟨i0, t1, t2, by simp, hx1, hx2, ?_⟩
        rw [h6 i0 hnot, List.getElem?_set_self hi0]
      | succ n =>
        simp only [List.getElem?_cons_succ] at hy
        obtain ⟨i, u1, u2, hs, hu1, hu2, hq⟩ := h7 n y hy
        exact ⟨i, u1, u2, by simpa using hs, hu1, hu2, hq⟩
    · refine h8.trans ?_
      have hfv := @filter_set_validate iq e0 ⟨true, leaveDispatch cyc t1 t2 x⟩ i0 he0 hv0 rfl
      have hp := (hfv.map (fun e => e.instruction.sequenceNum)).append_right
        (di.map (fun x => x.sequenceNum))
      refine hp.trans ?_
      simp only [List.map_append, List.map_cons, List.map_nil, List.append_assoc,
        List.singleton_append]
      exact List.Perm.refl _
    · intro e' he' hv'
      rcases h9 e' he' hv' with h | ⟨y, u1, u2, hy, hu1, hu2, hq⟩
      · rcases List.mem_or_eq_of_mem_set h with h' | h'
        · exact Or.inl h'
        · exact Or.inr ⟨x, t1, t2, List.mem_cons_self _ _, hx1, hx2, h'⟩
      · exact Or.inr ⟨y, u1, u2, List.mem_cons_of_mem _ hy, hu1, hu2, hq⟩

/-- Every number from the count of printed records up to the youngest allocated one has
its occupied slot: the occupied slots carry distinct numbers of this range, as many as the
range has. -/
theorem SeqLayout.slot_of_number {cfg : ProcessorParameters} {s : OutOfOrderProcessor}
    (h : SeqLayout cfg s) {q : Nat} (h1 : s.m_output.length ≤ q)
    (h2 : q < s.m_output.length + countValid s.m_reorderBuffer) :
    ∃ e, s.m_reorderBuffer[q % cfg.robSize]? = some e ∧ e.valid = true ∧
      e.instruction.sequenceNum = q := by
  have hpw : s.m_reorderBuffer.Pairwise (fun a b => a.valid = true → b.valid = true →
      a.instruction.sequenceNum ≠ b.instruction.sequenceNum) := by
    rw [List.pairwise_iff_getElem]
    intro i j hi' hj hij ha hb heq
    have h1 := (h.rob_seq i _ (List.getElem?_eq_getElem hi') ha).2.2
    have h2 := (h.rob_seq j _ (List.getElem?_eq_getElem hj) hb).2.2
    rw [heq] at h1
    omega
  have hnd : ((s.m_reorderBuffer.filter (fun e => e.valid)).map
      (fun e => e.instruction.sequenceNum)).Nodup := by
    unfold List.Nodup
    rw [List.pairwise_map]
    have := hpw.filter (fun e => e.valid)
    rw [List.pairwise_iff_forall_sublist] at this ⊢
    intro a b hab
    have ha := (hab.subset (List.mem_cons_self _ _))
    have hb := (hab.subset (List.mem_cons_of_mem _ (List.mem_cons_self _ _)))
    exact this hab (List.mem_filter.1 ha).2 (List.mem_filter.1 hb).2
  have hsub : ((s.m_reorderBuffer.filter (fun e => e.valid)).map
      (fun e => e.instruction.sequenceNum)).toFinset ⊆
        Finset.Ico s.m_output.length
          (s.m_output.length + countValid s.m_reorderBuffer) := by
    intro q' hq
    rw [List.mem_toFinset, List.mem_map] at hq
    obtain ⟨e, he, heq⟩ := hq
    obtain ⟨he1, he2⟩ := List.mem_filter.1 he
    obtain ⟨i, hi'⟩ := List.mem_iff_getElem?.1 he1
    have := h.rob_seq i e hi' he2
    rw [heq] at this
    rw [Finset.mem_Ico]
    exact ⟨this.1, this.2.1⟩
  have heq := Finset.eq_of_subset_of_card_le hsub (by
    rw [List.toFinset_card_of_nodup hnd, Nat.card_Ico, List.length_map,
      ← List.countP_eq_length_filter]
    unfold countValid
    omega)
  have hq : q ∈ ((s.m_reorderBuffer.filter (fun e => e.valid)).map
      (fun e => e.instruction.sequenceNum)).toFinset := by
    rw [heq, Finset.mem_Ico]
    exact ⟨h1, h2⟩
  rw [List.mem_toFinset, List.mem_map] at hq
  obtain ⟨e, he, heq'⟩ := hq
  obtain ⟨he1, he2⟩ := List.mem_filter.1 he
  obtain ⟨i, hi'⟩ := List.mem_iff_getElem?.1 he1
  have := (h.rob_seq i e hi' he2).2.2
  rw [heq'] at this
  rw [this]
  exact ⟨e, hi', he2, heq'⟩

theorem SeqLayout.window {cfg : ProcessorParameters} {s : OutOfOrderProcessor}
    (h : SeqLayout cfg s) (hr : 0 < cfg.robSize) : RobWindow cfg s := by
  have hcv : countValid s.m_reorderBuffer ≤ cfg.robSize := by
    rw [← h.rob_len]
    exact List.countP_le_length _
  have hhead : s.m_robHead < cfg.robSize := by
    rw [h.head_eq]
    exact Nat.mod_lt _ hr
  have htail : s.m_robTail < cfg.robSize := by
    rw [h.tail_eq]
    exact Nat.mod_lt _ hr
  have hmod : ∀ k, (s.m_robHead + k) % cfg.robSize = (s.m_output.length + k) % cfg.robSize := by
    intro k
    rw [h.head_eq, Nat.add_mod, Nat.mod_mod, ← Nat.add_mod]
  refine ⟨hcv, hhead, htail, ?_, fun i e he => ⟨fun hv => ?_, ?_⟩⟩
  · rw [hmod, h.tail_eq]
  · have := h.rob_seq i e he hv
    refine ⟨e.instruction.sequenceNum - s.m_output.length, by omega, ?_⟩
    rw [hmod, ← this.2.2]
    congr 1
    omega
  · rintro ⟨k, hk, hik⟩
    obtain ⟨e', he', hv', _⟩ := h.slot_of_number (q := s.m_output.length + k)
      (Nat.le_add_right _ _) (by omega)
    rw [← hmod, ← hik, he] at he'
    cases he'
    exact hv'

/-! ### What the loop of Rename moves -/

theorem renameLoop_lengths (cfg : ProcessorParameters) (cyc : Int) :
    ∀ (rn : List Instruction) (s s' : OutOfOrderProcessor),
      renameLoop cfg cyc rn s = some s' →
      s'.m_renameBuffer.length + s'.m_registerReadBuffer.length =
        rn.length + s.m_registerReadBuffer.length ∧
      s.m_registerReadBuffer.length ≤ s'.m_registerReadBuffer.length ∧
      (s'.m_renameBuffer = [] ∨ cfg.width ≤ s'.m_registerReadBuffer.length) ∧
      (s.m_registerReadBuffer.length ≤ cfg.width →
        s'.m_registerReadBuffer.length ≤ cfg.width) := by
  intro rn
  induction rn with
  | nil =>
    intro s s' h
    simp only [renameLoop, Option.some.injEq] at h
    subst h
    exact ⟨rfl, Nat.le_refl _, Or.inl rfl, fun h => h⟩
  | cons inst rn ih =>
    intro s s' h
    unfold renameLoop at h
    split at h
    · rename_i hlt
      split at h
      · simp at h
      · split at h
        · simp at h
        · split at h
          · simp at h
          · split at h
            · simp at h
            · have := ih _ _ h
              simp only [List.length_append, List.length_singleton, List.length_cons,
                List.length_nil, Nat.zero_add] at this ⊢
              exact ⟨by omega, by omega, this.2.2.1, fun _ => this.2.2.2 (by omega)⟩
    · rename_i hge
      simp only [Option.some.injEq] at h
      subst h
      exact ⟨rfl, Nat.le_refl _, Or.inr (by
        show cfg.width ≤ s.m_registerReadBuffer.length
        omega), fun h => h⟩

/-- What `renameStage` moves: the instructions that leave the rename buffer enter the
register read buffer, which never grows beyond `width`; the stage stops with the rename
buffer empty or the register read buffer full, unless it did not start. -/
theorem renameStage_lengths {cfg : ProcessorParameters} {s s' : OutOfOrderProcessor}
    (hs : renameStage cfg s = some s') :
    (∃ rob rmt rr rn tail, s' = { s with
        m_reorderBuffer := rob, m_renameTable := rmt, m_registerReadBuffer := rr,
        m_renameBuffer := rn, m_robTail := tail }) ∧
      s'.m_renameBuffer.length + s'.m_registerReadBuffer.length =
        s.m_renameBuffer.length + s.m_registerReadBuffer.length ∧
      s.m_registerReadBuffer.length ≤ s'.m_registerReadBuffer.length ∧
      (s'.m_renameBuffer = [] ∨ cfg.width ≤ s'.m_registerReadBuffer.length ∨
        (isReorderBufferFull cfg s = true ∧
          s'.m_registerReadBuffer.length = s.m_registerReadBuffer.length)) ∧
      (s.m_registerReadBuffer.length ≤ cfg.width →
        s'.m_registerReadBuffer.length ≤ cfg.width) := by
  unfold renameStage at hs
  simp only at hs
  split at hs
  · rename_i hc
    simp only [Option.some.injEq] at hs
    subst hs
    refine ⟨⟨_, _, _, _, _, rfl⟩, by simp, Nat.le_refl _, ?_, fun h => h⟩
    simp only [Bool.or_eq_true, decide_eq_true_eq] at hc
    rcases hc with hc | hc
    · exact Or.inr (Or.inr ⟨hc, rfl⟩)
    · exact Or.inr (Or.inl (by
        show cfg.width ≤ s.m_registerReadBuffer.length
        omega))
  · have hl := renameLoop_lengths cfg _ _ _ _ hs
    obtain ⟨rob, rmt, rr, rn, tail, hf⟩ := renameLoop_frame cfg (s.m_cycleCount : Int) _
      { s with m_renameBuffer := s.m_renameBuffer.map (stampRename (s.m_cycleCount : Int)) }
      s' rfl hs
    simp only [List.length_map] at hl
    refine ⟨⟨rob, rmt, rr, rn, tail, ?_⟩, hl.1, hl.2.1, ?_, hl.2.2.2⟩
    · rw [hf]
    · rcases hl.2.2.1 with h | h
      · exact Or.inl h
      · exact Or.inr (Or.inl h)

/-- C12. ROB occupancy and contiguity: in every state of a run with a reorder buffer of at
least one slot, at most `robSize` slots are valid, head and tail lie in `[0, robSize)`, and
the valid slots are exactly `head, head + 1, ..., tail - 1` modulo `robSize`
(`RobWindow`). The same holds on entry to and on exit from `renameStage` in the next tick,
and there every instruction that Rename moves to the register read buffer raises the
number of valid slots by one: Rename never writes into a slot that is still valid. -/
theorem rob_contiguity {cfg : ProcessorParameters} {trace : List (Option TraceRecord)}
    {s : OutOfOrderProcessor} {b : Bool} (hr : 0 < cfg.robSize) (h : Reach cfg trace s b) :
    RobWindow cfg s ∧
      ∀ s6 s7, beforeRename cfg s = some s6 → renameStage cfg s6 = some s7 →
        RobWindow cfg s6 ∧ RobWindow cfg s7 ∧
        s6.m_registerReadBuffer.length ≤ s7.m_registerReadBuffer.length ∧
        countValid s7.m_reorderBuffer = countValid s6.m_reorderBuffer +
          (s7.m_registerReadBuffer.length - s6.m_registerReadBuffer.length) := by
  have hl := SeqLayout.of_reach h
  refine ⟨hl.window hr, fun s6 s7 h6 h7 => ?_⟩
  obtain ⟨s1, s2, s5, h1, h2, h5, h6'⟩ := beforeRename_eq_some h6
  have hl6 : SeqLayout cfg s6 :=
    ((((hl.retireStage h1).writebackStage h2).executeStage.issueStage).dispatchStage
      h5).registerReadStage h6'
  have hl7 := hl6.renameStage h7
  obtain ⟨⟨rob, rmt, rr, rn, tail, hf⟩, hlen, hmono, _, _⟩ := renameStage_lengths h7
  refine ⟨hl6.window hr, hl7.window hr, hmono, ?_⟩
  have t6 := hl6.total
  have t7 := hl7.total
  have ho : s7.m_output = s6.m_output := by rw [hf]
  have hd : s7.m_decodeBuffer = s6.m_decodeBuffer := by rw [hf]
  have hc : s7.m_instructionCount = s6.m_instructionCount := by rw [hf]
  rw [ho, hd, hc] at t7
  omega

theorem rob_contiguity_witness :
    0 < cfgS1.robSize ∧ countValid (stateAfter cfgS1 traceS2 4).m_reorderBuffer = 2 ∧
      RobWindow cfgS1 (stateAfter cfgS1 traceS2 4) ∧
      ∀ s6 s7, beforeRename cfgS1 (stateAfter cfgS1 traceS2 4) = some s6 →
        renameStage cfgS1 s6 = some s7 →
        RobWindow cfgS1 s6 ∧ RobWindow cfgS1 s7 ∧
        s6.m_registerReadBuffer.length ≤ s7.m_registerReadBuffer.length ∧
        countValid s7.m_reorderBuffer = countValid s6.m_reorderBuffer +
          (s7.m_registerReadBuffer.length - s6.m_registerReadBuffer.length) :=
  ⟨by decide, by decide,
    (reach_stateAfter cfgS1 traceS2 4).elim (fun _ h => rob_contiguity (by decide) h)⟩

/-! ## Retire retires the ready prefix -/

theorem readyRun_succ (rob : List ReorderBufferEntry) (n h : Nat) :
    readyRun rob (n + 1) h =
      match rob[h]? with
      | none => 0
      | some e =>
        if e.valid && e.ready then readyRun rob n ((h + 1) % rob.length) + 1 else 0 := rfl

theorem readyRun_le (rob : List ReorderBufferEntry) :
    ∀ (n h : Nat), readyRun rob n h ≤ n := by
  intro n
  induction n with
  | zero => intro h; exact Nat.le_refl _
  | succ n ih =>
    intro h
    rw [readyRun_succ]
    split
    · exact Nat.zero_le _
    · split
      · exact Nat.succ_le_succ (ih ((h + 1) % rob.length))
      · exact Nat.zero_le _

theorem readyRun_blocked {rob : List ReorderBufferEntry} {h : Nat} {e : ReorderBufferEntry}
    (he : rob[h]? = some e) (hb : (e.valid && e.ready) = false) (n : Nat) :
    readyRun rob n h = 0 := by
  cases n with
  | zero => rfl
  | succ n =>
    rw [readyRun_succ, he]
    simp [hb]

theorem readyRun_min (rob : List ReorderBufferEntry) :
    ∀ (a b h : Nat), readyRun rob (min a b) h = min a (readyRun rob b h) := by
  intro a
  induction a with
  | zero => intro b h; simp [readyRun]
  | succ a ih =>
    intro b h
    cases b with
    | zero => simp [readyRun]
    | succ b =>
      rw [Nat.succ_min_succ, readyRun_succ, readyRun_succ]
      split
      · simp
      · split
        · rw [ih]
          exact (Nat.succ_min_succ _ _).symm
        · simp

theorem ring_ne {R head d : Nat} (hh : head < R) (h1 : 0 < d) (h2 : d < R) :
    (head + d) % R ≠ head := by
  intro h
  by_cases hlt : head + d < R
  · rw [Nat.mod_eq_of_lt hlt] at h
    omega
  · have : (head + d) % R = head + d - R := by
      rw [Nat.mod_eq_sub_mod (by omega), Nat.mod_eq_of_lt (by omega)]
    omega

/-- A slot that the run does not reach may change without changing the run. -/
theorem readyRun_set_behind {rob : List ReorderBufferEntry} {head : Nat}
    (ne : ReorderBufferEntry) (hh : head < rob.length) :
    ∀ (m d : Nat), 0 < d → d + m ≤ rob.length →
      readyRun (rob.set head ne) m ((head + d) % rob.length) =
        readyRun rob m ((head + d) % rob.length) := by
  intro m
  induction m with
  | zero => intro d _ _; rfl
  | succ m ih =>
    intro d hd hdm
    rw [readyRun_succ, readyRun_succ, List.length_set,
      List.getElem?_set_ne (Ne.symm (ring_ne hh hd (by omega)))]
    have hnext : ((head + d) % rob.length + 1) % rob.length =
        (head + (d + 1)) % rob.length := by
      rw [succ_mod_mod]
      rfl
    rw [hnext, ih (d + 1) (by omega) (by omega)]

/-- A run that ends at a slot that is not valid and ready is not longer with one more
slot. -/
theorem readyRun_stop {rob : List ReorderBufferEntry} :
    ∀ (m h : Nat), h < rob.length →
      (∀ e, rob[(h + m) % rob.length]? = some e → (e.valid && e.ready) = false) →
      readyRun rob (m + 1) h = readyRun rob m h := by
  intro m
  induction m with
  | zero =>
    intro h hh hb
    rw [Nat.add_zero, Nat.mod_eq_of_lt hh] at hb
    rw [readyRun_succ]
    split
    · rfl
    · rename_i e he
      rw [hb e he]
      rfl
  | succ m ih =>
    intro h hh hb
    rw [readyRun_succ rob (m + 1) h, readyRun_succ rob m h]
    split
    · rfl
    · split
      · have hpos : 0 < rob.length := by omega
        rw [ih ((h + 1) % rob.length) (Nat.mod_lt _ hpos) (by
          intro e he
          apply hb e
          rw [← he]
          congr 1
          rw [Nat.mod_add_mod]
          congr 1
          omega)]
      · rfl

theorem readyRun_map {f : ReorderBufferEntry → ReorderBufferEntry}
    (hf : ∀ e, (f e).valid = e.valid ∧ (f e).ready = e.ready ∧
      (f e).instruction.sequenceNum = e.instruction.sequenceNum)
    (rob : List ReorderBufferEntry) :
    ∀ (n h : Nat), readyRun (rob.map f) n h = readyRun rob n h := by
  intro n
  induction n with
  | zero => intro h; rfl
  | succ n ih =>
    intro h
    rw [readyRun_succ, readyRun_succ, List.getElem?_map, List.length_map]
    cases rob[h]? with
    | none => rfl
    | some e =>
      simp only [Option.map_some', (hf e).1, (hf e).2.1, ih]

/-- The run from a valid and ready head slot is one more than the run from the next slot
once the head slot is marked not valid. -/
theorem readyRun_retire {rob : List ReorderBufferEntry} {head : Nat} {e : ReorderBufferEntry}
    (n : Nat) (ne : ReorderBufferEntry) (hh : head < rob.length) (he : rob[head]? = some e)
    (hvr : (e.valid && e.ready) = true) (hnv : (ne.valid && ne.ready) = false) :
    readyRun rob (min (n + 1) rob.length) head =
      readyRun (rob.set head ne) (min n rob.length) ((head + 1) % rob.length) + 1 := by
  obtain ⟨R', hR'⟩ : ∃ R', rob.length = R' + 1 := ⟨rob.length - 1, by omega⟩
  have hk : readyRun rob (min (n + 1) rob.length) head =
      readyRun rob (min n R') ((head + 1) % rob.length) + 1 := by
    rw [hR', Nat.succ_min_succ, readyRun_succ, he]
    simp only [hvr, if_true, hR']
  rw [hk]
  congr 1
  have hA := readyRun_set_behind ne hh (min n R') 1 (by omega) (by
    have := Nat.min_le_right n R'
    omega)
  rw [← hA]
  by_cases hn : n ≤ R'
  · rw [Nat.min_eq_left hn, Nat.min_eq_left (by omega)]
  · rw [Nat.min_eq_right (by omega : R' ≤ n), show min n rob.length = R' + 1 by omega]
    have hlen : (rob.set head ne).length = rob.length := List.length_set _ _ _
    have := @readyRun_stop (rob.set head ne) R' ((head + 1) % rob.length)
      (by rw [hlen]; exact Nat.mod_lt _ (by omega)) (by
        intro e' he'
        rw [hlen, Nat.mod_add_mod] at he'
        have hslot : (head + 1 + R') % rob.length = head := by
          rw [show head + 1 + R' = head + rob.length by omega, Nat.add_mod_right,
            Nat.mod_eq_of_lt hh]
        rw [hslot, List.getElem?_set_self hh] at he'
        cases he'
        exact hnv)
    exact this.symm

theorem retiredRun_zero (cfg : ProcessorParameters) (cyc : Int) (st : OutOfOrderProcessor)
    (hlen : st.m_reorderBuffer.length = cfg.robSize) (hh : st.m_robHead < cfg.robSize) :
    RetiredRun cfg cyc st st 0 :=
  ⟨rfl, fun _ _ => rfl, by rw [Nat.add_zero, Nat.mod_eq_of_lt hh], hlen,
    fun j hj => absurd hj (Nat.not_lt_zero _), fun _ _ => rfl⟩

theorem retiredRun_step {cfg : ProcessorParameters} {cyc : Int}
    {st st' : OutOfOrderProcessor} {e : ReorderBufferEntry} (rmt : List RenameTableEntry)
    {k1 : Nat} (hlen : st.m_reorderBuffer.length = cfg.robSize)
    (hh : st.m_robHead < cfg.robSize) (he : st.m_reorderBuffer[st.m_robHead]? = some e)
    (hv : e.valid = true) (hr : e.ready = true) (hk1 : k1 + 1 ≤ cfg.robSize)
    (h : RetiredRun cfg cyc { st with
        m_output := st.m_output ++ [leaveRetire cyc e.instruction]
        m_renameTable := rmt
        m_reorderBuffer := st.m_reorderBuffer.set st.m_robHead
          { e with instruction := leaveRetire cyc e.instruction, valid := false }
        m_robHead := (st.m_robHead + 1) % cfg.robSize } st' k1) :
    RetiredRun cfg cyc st st' (k1 + 1) := by
  obtain ⟨h1, h2, h3, h4, h5, h6⟩ := h
  simp only [List.length_append, List.length_singleton] at h1 h2 h5
  have hslot : ∀ j : Nat, ((st.m_robHead + 1) % cfg.robSize + j) % cfg.robSize =
      (st.m_robHead + (j + 1)) % cfg.robSize := by
    intro j
    rw [Nat.mod_add_mod]
    congr 1
    omega
  have hhl : st.m_robHead < st.m_reorderBuffer.length := by omega
  have hhead : st'.m_reorderBuffer[st.m_robHead]? =
      some { e with instruction := leaveRetire cyc e.instruction, valid := false } := by
    rw [h6 st.m_robHead (fun j hj => by
      rw [hslot]
      exact (ring_ne hh (by omega) (by omega)).symm)]
    exact List.getElem?_set_self hhl
  refine ⟨by omega, fun i hi => ?_, ?_, h4, fun j hj => ?_, fun i hi => ?_⟩
  · rw [h2 i (by omega), List.getElem?_append_left hi]
  · rw [h3, hslot]
  · cases j with
    | zero =>
      rw [Nat.add_zero, Nat.mod_eq_of_lt hh]
      refine ⟨e, he, hv, hr, ?_, hhead⟩
      rw [Nat.add_zero, h2 _ (by omega), List.getElem?_append_right (Nat.le_refl _)]
      simp
    | succ j =>
      obtain ⟨e', he', hv', hr', ho, hrob⟩ := h5 j (by omega)
      rw [hslot] at he' hrob
      rw [List.getElem?_set_ne (Ne.symm (ring_ne hh (by omega) (by omega)))] at he'
      refine ⟨e', he', hv', hr', ?_, hrob⟩
      rw [← ho]
      congr 1
      omega
  · have h0 := hi 0 (by omega)
    rw [Nat.add_zero, Nat.mod_eq_of_lt hh] at h0
    rw [h6 i (fun j hj => by
      rw [hslot]
      exact hi (j + 1) (by omega))]
    exact List.getElem?_set_ne (Ne.symm h0)

/-- The loop of `retireStage`, `n` iterations from a state with a head inside the reorder
buffer: it is defined when the destination registers are registers, and it retires the
run of valid and ready slots at the head, `min n robSize` slots at most. -/
theorem retireLoop_prefix (cfg : ProcessorParameters) (cyc : Int) :
    ∀ (n : Nat) (st : OutOfOrderProcessor),
      st.m_reorderBuffer.length = cfg.robSize → st.m_robHead < cfg.robSize →
      st.m_renameTable.length = ARF_SIZE →
      (∀ e ∈ st.m_reorderBuffer, e.valid = true →
        -1 ≤ e.instruction.destReg ∧ e.instruction.destReg < ARF_SIZE) →
      ∃ st', retireLoop cfg cyc n st = some st' ∧
        RetiredRun cfg cyc st st'
          (readyRun st.m_reorderBuffer (min n cfg.robSize) st.m_robHead) := by
  intro n
  induction n with
  | zero =>
    intro st hlen hh _ _
    refine ⟨st, rfl, ?_⟩
    rw [Nat.zero_min]
    exact retiredRun_zero cfg cyc st hlen hh
  | succ n ih =>
    intro st hlen hh hrmt hregs
    have hhl : st.m_robHead < st.m_reorderBuffer.length := by omega
    have he : st.m_reorderBuffer[st.m_robHead]? = some st.m_reorderBuffer[st.m_robHead] :=
      List.getElem?_eq_getElem hhl
    generalize st.m_reorderBuffer[st.m_robHead] = e at he
    cases hvr : (e.valid && e.ready) with
    | false =>
      obtain ⟨st', hs, hrun⟩ := ih st hlen hh hrmt hregs
      rw [readyRun_blocked he hvr] at hrun ⊢
      refine ⟨st', ?_, hrun⟩
      unfold retireLoop
      simp only [he, hvr, Bool.false_eq_true, if_false]
      exact hs
    | true =>
      have hvr' := hvr
      simp only [Bool.and_eq_true] at hvr'
      have hreg := hregs e (List.mem_iff_getElem?.2 ⟨_, he⟩) hvr'.1
      obtain ⟨rmt', hc⟩ := retireClear_total (leaveRetire cyc e.instruction) hrmt
        hreg.1 hreg.2
      obtain ⟨st', hs, hrun⟩ := ih { st with
          m_output := st.m_output ++ [leaveRetire cyc e.instruction]
          m_renameTable := rmt'
          m_reorderBuffer := st.m_reorderBuffer.set st.m_robHead
            { e with instruction := leaveRetire cyc e.instruction, valid := false }
          m_robHead := (st.m_robHead + 1) % cfg.robSize }
        (by rw [← hlen]; exact List.length_set _ _ _)
        (Nat.mod_lt _ (by omega))
        (by
          show rmt'.length = _
          rw [retireClear_length hc, hrmt])
        (forall_mem_set hregs _ (fun h => by cases h))
      have hk := readyRun_retire n
        { e with instruction := leaveRetire cyc e.instruction, valid := false } hhl he hvr rfl
      rw [hlen] at hk
      have hle := readyRun_le st.m_reorderBuffer (min (n + 1) cfg.robSize) st.m_robHead
      refine ⟨st', ?_, ?_⟩
      · unfold retireLoop
        simp only [he, hvr, if_true, hc]
        exact hs
      · rw [hk]
        refine retiredRun_step rmt' hlen hh he hvr'.1 hvr'.2 ?_ hrun
        rw [hk] at hle
        have := Nat.min_le_right (n + 1) cfg.robSize
        omega

/-- C13. Retire retires exactly the maximal ready prefix, capped at width. In a state
with a non-empty reorder buffer of `robSize` slots, a head inside it and destination
registers that are registers, `retireStage` is defined and retires `k` instructions, where
`k` is the minimum of `width` and the number of consecutive slots from the head on (modulo
`robSize`) that are valid and ready: it prints their `k` records in head order after the
records printed before, marks exactly these `k` slots not valid, advances the head by `k`
modulo `robSize`, and changes no other slot beyond the stamps of its first loop. -/
theorem retire_ready_prefix (cfg : ProcessorParameters) (s : OutOfOrderProcessor)
    (hne : isReorderBufferEmpty s = false)
    (hlen : s.m_reorderBuffer.length = cfg.robSize) (hh : s.m_robHead < cfg.robSize)
    (hrmt : s.m_renameTable.length = ARF_SIZE)
    (hregs : ∀ e ∈ s.m_reorderBuffer, e.valid = true →
      -1 ≤ e.instruction.destReg ∧ e.instruction.destReg < ARF_SIZE) :
    ∃ s', retireStage cfg s = some s' ∧
      RetiredRun cfg (s.m_cycleCount : Int)
        { s with m_reorderBuffer := s.m_reorderBuffer.map (stampRetire (s.m_cycleCount : Int)) }
        s' (min cfg.width (readyRun s.m_reorderBuffer cfg.robSize s.m_robHead)) := by
  obtain ⟨s', hs, hrun⟩ := retireLoop_prefix cfg (s.m_cycleCount : Int) cfg.width
    { s with m_reorderBuffer := s.m_reorderBuffer.map (stampRetire (s.m_cycleCount : Int)) }
    (by rw [← hlen]; exact List.length_map _ _) hh hrmt
    (by
      refine forall_mem_map hregs (fun e he => ?_)
      rw [(stampRetire_keys _ e).1, stampRetire_destReg]
      exact he)
  refine ⟨s', ?_, ?_⟩
  · unfold OoO.retireStage
    rw [hne]
    exact hs
  · have hk : readyRun (s.m_reorderBuffer.map (stampRetire (s.m_cycleCount : Int)))
        (min cfg.width cfg.robSize) s.m_robHead =
        min cfg.width (readyRun s.m_reorderBuffer cfg.robSize s.m_robHead) := by
      rw [readyRun_map (stampRetire_keys _), readyRun_min]
    rw [← hk]
    exact hrun

theorem retire_ready_prefix_witness :
    min cfgS1.width (readyRun (stateAfter cfgS1 traceS2 8).m_reorderBuffer cfgS1.robSize
        (stateAfter cfgS1 traceS2 8).m_robHead) = 1 ∧
      ∃ s', retireStage cfgS1 (stateAfter cfgS1 traceS2 8) = some s' ∧
        RetiredRun cfgS1 ((stateAfter cfgS1 traceS2 8).m_cycleCount : Int)
          { stateAfter cfgS1 traceS2 8 with
            m_reorderBuffer := (stateAfter cfgS1 traceS2 8).m_reorderBuffer.map
              (stampRetire ((stateAfter cfgS1 traceS2 8).m_cycleCount : Int)) }
          s' (min cfgS1.width (readyRun (stateAfter cfgS1 traceS2 8).m_reorderBuffer
            cfgS1.robSize (stateAfter cfgS1 traceS2 8).m_robHead)) :=
  ⟨by decide, retire_ready_prefix cfgS1 (stateAfter cfgS1 traceS2 8) (by decide) (by decide)
    (by decide) (by decide) (by decide)⟩

/-! ## The capacities of the stage buffers -/

theorem retireStage_frame {cfg : ProcessorParameters} {s s' : OutOfOrderProcessor}
    (hs : retireStage cfg s = some s') :
    ∃ out rmt rob head, s' = { s with
      m_output := out, m_renameTable := rmt, m_reorderBuffer := rob, m_robHead := head } := by
  unfold OoO.retireStage at hs
  split at hs
  · simp only [Option.some.injEq] at hs
    exact ⟨_, _, _, _, hs.symm⟩
  · obtain ⟨out, rmt, rob, head, hf⟩ := retireLoop_frame _ _ _ _ _ hs
    exact ⟨out, rmt, rob, head, hf⟩

theorem writebackStage_frame {s s' : OutOfOrderProcessor} (hs : writebackStage s = some s') :
    ∃ rob, s' = { s with m_writebackBuffer := [], m_reorderBuffer := rob } := by
  unfold OoO.writebackStage at hs
  simp only at hs
  split at hs
  · simp at hs
  · simp only [Option.some.injEq] at hs
    exact ⟨_, hs.symm⟩

theorem decodeStage_frame (cfg : ProcessorParameters) (s : OutOfOrderProcessor) :
    ∃ de rn, decodeStage cfg s = { s with m_decodeBuffer := de, m_renameBuffer := rn } := by
  unfold OoO.decodeStage
  simp only
  split
  · exact ⟨_, _, rfl⟩
  · exact ⟨_, _, rfl⟩

theorem fetchStage_frame (cfg : ProcessorParameters) (s : OutOfOrderProcessor) :
    ∃ tr de cnt fin, fetchStage cfg s = { s with
      m_traceFile := tr, m_decodeBuffer := de, m_instructionCount := cnt,
      m_simulationComplete := fin } := by
  unfold OoO.fetchStage
  split
  · exact ⟨_, _, _, _, rfl⟩
  · exact fetchLoop_frame _ _

/-- What `dispatchStage` leaves in the dispatch buffer: nothing, or what was there. -/
theorem dispatchStage_lengths {cfg : ProcessorParameters} {s s' : OutOfOrderProcessor}
    (hs : dispatchStage cfg s = some s') :
    s'.m_dispatchBuffer.length = 0 ∨
      s'.m_dispatchBuffer.length = s.m_dispatchBuffer.length := by
  unfold OoO.dispatchStage at hs
  simp only at hs
  split at hs
  · simp only [Option.some.injEq] at hs
    subst hs
    exact Or.inr (List.length_map _ _)
  · split at hs
    · simp at hs
    · simp only [Option.some.injEq] at hs
      subst hs
      exact Or.inl rfl

theorem registerReadLoop_lengths (cfg : ProcessorParameters) (cyc : Int)
    (rob : List ReorderBufferEntry) :
    ∀ (rr di : List Instruction) (r : List Instruction × List Instruction),
      registerReadLoop cfg cyc rob rr di = some r →
      ∃ k, r.1.length + k = rr.length ∧ r.2.length = di.length + k ∧
        (k = rr.length ∨ cfg.width ≤ di.length + k) ∧
        (di.length ≤ cfg.width → di.length + k ≤ cfg.width) := by
  intro rr
  induction rr with
  | nil =>
    intro di r h
    simp only [registerReadLoop, Option.some.injEq] at h
    subst h
    exact ⟨0, rfl, rfl, Or.inl rfl, fun h => h⟩
  | cons x rr ih =>
    intro di r h
    unfold registerReadLoop at h
    split at h
    · rename_i hlt
      split at h
      · simp at h
      · split at h
        · simp at h
        · obtain ⟨k, h1, h2, h3, h4⟩ := ih _ _ h
          simp only [List.length_append, List.length_singleton] at h2 h3 h4
          refine ⟨k + 1, ?_, by omega, ?_, fun _ => by omega⟩
          · simp only [List.length_cons]
            omega
          · simp only [List.length_cons]
            omega
    · rename_i hge
      simp only [Option.some.injEq] at h
      subst h
      exact ⟨0, rfl, rfl, Or.inr (by omega), fun h => h⟩

theorem registerReadStage_lengths {cfg : ProcessorParameters} {s s' : OutOfOrderProcessor}
    (hs : registerReadStage cfg s = some s') :
    ∃ k, s'.m_registerReadBuffer.length + k = s.m_registerReadBuffer.length ∧
      s'.m_dispatchBuffer.length = s.m_dispatchBuffer.length + k ∧
      (k = 0 ∨ k = s.m_registerReadBuffer.length ∨
        cfg.width ≤ s.m_dispatchBuffer.length + k) ∧
      (s.m_dispatchBuffer.length = cfg.width → k = 0) ∧
      (s.m_dispatchBuffer.length ≤ cfg.width →
        s.m_dispatchBuffer.length + k ≤ cfg.width) := by
  unfold OoO.registerReadStage at hs
  simp only at hs
  split at hs
  · simp only [Option.some.injEq] at hs
    subst hs
    exact ⟨0, by simp, rfl, Or.inl rfl, fun _ => rfl, fun h => h⟩
  · rename_i hne
    split at hs
    · simp at hs
    · rename_i r hr
      simp only [Option.some.injEq] at hs
      subst hs
      obtain ⟨k, h1, h2, h3, h4⟩ := registerReadLoop_lengths cfg _ _ _ _ _ hr
      simp only [List.length_map] at h1 h3
      refine ⟨k, h1, h2, ?_, fun h => absurd h hne, h4⟩
      rcases h3 with h3 | h3
      · exact Or.inr (Or.inl h3)
      · exact Or.inr (Or.inr h3)

theorem decodeStage_lengths (cfg : ProcessorParameters) (s : OutOfOrderProcessor) :
    ∃ k, (decodeStage cfg s).m_decodeBuffer.length + k = s.m_decodeBuffer.length ∧
      (decodeStage cfg s).m_renameBuffer.length = s.m_renameBuffer.length + k ∧
      (k = 0 ∨ k = s.m_decodeBuffer.length ∨ cfg.width ≤ s.m_renameBuffer.length + k) ∧
      (s.m_renameBuffer.length = cfg.width → k = 0) ∧
      (s.m_renameBuffer.length ≤ cfg.width → s.m_renameBuffer.length + k ≤ cfg.width) := by
  unfold OoO.decodeStage
  simp only
  split
  · rename_i h
    exact ⟨0, by simp, rfl, Or.inl rfl, fun _ => rfl, fun h => h⟩
  · rename_i hne
    obtain ⟨k, h1, h2, h3, _, h5⟩ := decodeLoop_moves cfg (s.m_cycleCount : Int)
      (s.m_decodeBuffer.map (stampDecode (s.m_cycleCount : Int))) s.m_renameBuffer
    simp only [List.length_map] at h1 h3
    refine ⟨k, h1, h2, ?_, fun h => absurd h hne, h5⟩
    rcases h3 with h3 | h3
    · exact Or.inr (Or.inl h3)
    · exact Or.inr (Or.inr h3)

theorem fetchStage_lengths (cfg : ProcessorParameters) (s : OutOfOrderProcessor)
    (hs : ∀ x ∈ s.m_traceFile, x ≠ none) :
    ∃ k, k ≤ cfg.width ∧
      (fetchStage cfg s).m_decodeBuffer.length = s.m_decodeBuffer.length + k ∧
      (fetchStage cfg s).m_traceFile.length + k = s.m_traceFile.length ∧
      (cfg.width ≤ s.m_decodeBuffer.length → k = 0) ∧
      (s.m_decodeBuffer.length < cfg.width →
        k = cfg.width ∨ (fetchStage cfg s).m_traceFile.length = 0) := by
  unfold OoO.fetchStage
  split
  · rename_i h
    exact ⟨0, Nat.zero_le _, rfl, rfl, fun _ => rfl, fun h' => by omega⟩
  · rename_i h
    obtain ⟨k, h1, h2, h3, h4⟩ := fetchLoop_moves cfg.width s hs
    exact ⟨k, h1, h2, h3, fun h' => by omega, fun _ => h4⟩

theorem aligned_of_lengths {cfg : ProcessorParameters} {s s' : OutOfOrderProcessor}
    (h : Aligned cfg s) (hde : s'.m_decodeBuffer = s.m_decodeBuffer)
    (hrn : s'.m_renameBuffer = s.m_renameBuffer)
    (hrr : s'.m_registerReadBuffer.length = s.m_registerReadBuffer.length)
    (hdi : s'.m_dispatchBuffer.length = s.m_dispatchBuffer.length)
    (htr : s'.m_traceFile = s.m_traceFile) : Aligned cfg s' := by
  unfold Aligned at h ⊢
  rw [hde, hrn, hrr, hdi, htr]
  exact h

theorem aligned_dispatchStage {cfg : ProcessorParameters} {s s' : OutOfOrderProcessor}
    (h : Aligned cfg s) (hs : dispatchStage cfg s = some s') : Aligned cfg s' := by
  have hl := dispatchStage_lengths hs
  obtain ⟨di, iq, hf⟩ := dispatchStage_frame hs
  have hde : s'.m_decodeBuffer = s.m_decodeBuffer := by rw [hf]
  have hrn : s'.m_renameBuffer = s.m_renameBuffer := by rw [hf]
  have hrr : s'.m_registerReadBuffer = s.m_registerReadBuffer := by rw [hf]
  have htr : s'.m_traceFile = s.m_traceFile := by rw [hf]
  unfold Aligned at h ⊢
  rw [hde, hrn, hrr, htr]
  omega

theorem aligned_registerReadStage {cfg : ProcessorParameters} {s s' : OutOfOrderProcessor}
    (h : Aligned cfg s) (hs : registerReadStage cfg s = some s') : Aligned cfg s' := by
  obtain ⟨k, h1, h2, h3, h4, h5⟩ := registerReadStage_lengths hs
  obtain ⟨rr, di, hf⟩ := registerReadStage_frame hs
  have hde : s'.m_decodeBuffer = s.m_decodeBuffer := by rw [hf]
  have hrn : s'.m_renameBuffer = s.m_renameBuffer := by rw [hf]
  have htr : s'.m_traceFile = s.m_traceFile := by rw [hf]
  unfold Aligned at h ⊢
  rw [hde, hrn, htr]
  omega

theorem aligned_renameStage {cfg : ProcessorParameters} {s s' : OutOfOrderProcessor}
    (h : Aligned cfg s) (hs : renameStage cfg s = some s') : Aligned cfg s' := by
  obtain ⟨⟨rob, rmt, rr, rn, tail, hf⟩, h1, h2, h3, h4⟩ := renameStage_lengths hs
  have hde : s'.m_decodeBuffer = s.m_decodeBuffer := by rw [hf]
  have hdi : s'.m_dispatchBuffer = s.m_dispatchBuffer := by rw [hf]
  have htr : s'.m_traceFile = s.m_traceFile := by rw [hf]
  have h3' : s'.m_renameBuffer.length = 0 ∨ cfg.width ≤ s'.m_registerReadBuffer.length ∨
      s'.m_registerReadBuffer.length = s.m_registerReadBuffer.length := by
    rcases h3 with h3 | h3 | h3
    · exact Or.inl (by rw [h3]; rfl)
    · exact Or.inr (Or.inl h3)
    · exact Or.inr (Or.inr h3.2)
  unfold Aligned at h ⊢
  rw [hde, hdi, htr]
  omega

theorem aligned_decodeStage {cfg : ProcessorParameters} {s : OutOfOrderProcessor}
    (h : Aligned cfg s) : Aligned cfg (decodeStage cfg s) := by
  obtain ⟨k, h1, h2, h3, h4, h5⟩ := decodeStage_lengths cfg s
  obtain ⟨de, rn, hf⟩ := decodeStage_frame cfg s
  have hrr : (decodeStage cfg s).m_registerReadBuffer = s.m_registerReadBuffer := by rw [hf]
  have hdi : (decodeStage cfg s).m_dispatchBuffer = s.m_dispatchBuffer := by rw [hf]
  have htr : (decodeStage cfg s).m_traceFile = s.m_traceFile := by rw [hf]
  unfold Aligned at h ⊢
  rw [hrr, hdi, htr]
  omega

theorem aligned_fetchStage {cfg : ProcessorParameters} {s : OutOfOrderProcessor}
    (h : Aligned cfg s) (hs : ∀ x ∈ s.m_traceFile, x ≠ none) :
    Aligned cfg (fetchStage cfg s) := by
  obtain ⟨k, h1, h2, h3, h4, h5⟩ := fetchStage_lengths cfg s hs
  obtain ⟨tr, de, cnt, fin, hf⟩ := fetchStage_frame cfg s
  have hrn : (fetchStage cfg s).m_renameBuffer = s.m_renameBuffer := by rw [hf]
  have hrr : (fetchStage cfg s).m_registerReadBuffer = s.m_registerReadBuffer := by rw [hf]
  have hdi : (fetchStage cfg s).m_dispatchBuffer = s.m_dispatchBuffer := by rw [hf]
  unfold Aligned at h ⊢
  rw [hrn, hrr, hdi]
  omega

/-- One tick keeps the alignment of the front end on a trace of records, and leaves at
most `width * 5` instructions in the writeback buffer. -/
theorem aligned_tick {cfg : ProcessorParameters} {s s' : OutOfOrderProcessor} {b : Bool}
    (h : Aligned cfg s) (hb : ExecBound cfg s) (htr : ∀ x ∈ s.m_traceFile, x ≠ none)
    (ht : tick cfg s = some (s', b)) :
    Aligned cfg s' ∧ s'.m_writebackBuffer.length ≤ cfg.width * 5 := by
  obtain ⟨s9, h9, hs', _⟩ := tick_eq_some ht
  obtain ⟨s1, s2, s5, s6, s7, h1, h2, h5, h6, h7, h9'⟩ := pipelineStages_eq_some h9
  have hex : s.m_executionList.length ≤ cfg.width * 5 := by
    have := hb.2 1 (Nat.le_refl 1)
    rw [Nat.cast_one, countRemaining_one _ hb.1] at this
    omega
  -- Retire and Writeback
  obtain ⟨out, rmt, rob, head, hf1⟩ := retireStage_frame h1
  have a1 : Aligned cfg s1 :=
    aligned_of_lengths h (by rw [hf1]) (by rw [hf1]) (by rw [hf1]) (by rw [hf1]) (by rw [hf1])
  obtain ⟨rob2, hf2⟩ := writebackStage_frame h2
  have a2 : Aligned cfg s2 :=
    aligned_of_lengths a1 (by rw [hf2]) (by rw [hf2]) (by rw [hf2]) (by rw [hf2]) (by rw [hf2])
  have hex2 : s2.m_executionList = s.m_executionList := by
    rw [hf2]
    show s1.m_executionList = _
    rw [hf1]
  have hwb2 : s2.m_writebackBuffer = [] := by rw [hf2]
  -- Execute
  obtain ⟨done, hperm, _, hf3⟩ := executeStage_done cfg s2 hwb2 (by rw [hex2]; exact hex)
  have a3 : Aligned cfg (executeStage cfg s2) :=
    aligned_of_lengths a2 (by rw [hf3]) (by rw [hf3])
      (by rw [hf3]; exact List.length_map _ _) (by rw [hf3]; exact List.length_map _ _)
      (by rw [hf3])
  have hwb3 : (executeStage cfg s2).m_writebackBuffer.length ≤ cfg.width * 5 := by
    rw [hf3]
    show (done.map _).length ≤ _
    have := hperm.length_eq
    simp only [List.length_append, List.length_map] at this ⊢
    rw [hex2] at this
    omega
  -- Issue
  obtain ⟨iq4, ex4, hf4⟩ := issueStage_frame cfg (executeStage cfg s2)
  have a4 : Aligned cfg (issueStage cfg (executeStage cfg s2)) :=
    aligned_of_lengths a3 (by rw [hf4]) (by rw [hf4]) (by rw [hf4]) (by rw [hf4]) (by rw [hf4])
  have hwb4 : (issueStage cfg (executeStage cfg s2)).m_writebackBuffer =
      (executeStage cfg s2).m_writebackBuffer := by rw [hf4]
  -- Dispatch, register read, Rename, Decode
  have a5 := aligned_dispatchStage a4 h5
  obtain ⟨di5, iq5, hf5⟩ := dispatchStage_frame h5
  have hwb5 : s5.m_writebackBuffer = (executeStage cfg s2).m_writebackBuffer := by
    rw [hf5]
    exact hwb4
  have a6 := aligned_registerReadStage a5 h6
  obtain ⟨rr6, di6, hf6⟩ := registerReadStage_frame h6
  have hwb6 : s6.m_writebackBuffer = s5.m_writebackBuffer := by rw [hf6]
  have a7 := aligned_renameStage a6 h7
  obtain ⟨⟨rob7, rmt7, rr7, rn7, tail7, hf7⟩, _⟩ := renameStage_lengths h7
  have hwb7 : s7.m_writebackBuffer = s6.m_writebackBuffer := by rw [hf7]
  have a8 := @aligned_decodeStage cfg s7 a7
  obtain ⟨de8, rn8, hf8⟩ := decodeStage_frame cfg s7
  have hwb8 : (decodeStage cfg s7).m_writebackBuffer = s7.m_writebackBuffer := by rw [hf8]
  -- Fetch
  have htr8 : (decodeStage cfg s7).m_traceFile = s.m_traceFile := by
    rw [(decodeStage_scalars cfg s7).2.1, (renameStage_scalars h7).2.1,
      (registerReadStage_scalars h6).2.1, (dispatchStage_scalars h5).2.1,
      (issueStage_scalars cfg _).2.1, (executeStage_scalars cfg s2).2.1,
      (writebackStage_scalars h2).2.1, (retireStage_scalars h1).2.1]
  have a9 := aligned_fetchStage a8 (by rw [htr8]; exact htr)
  obtain ⟨tr9, de9, cnt9, fin9, hf9⟩ := fetchStage_frame cfg (decodeStage cfg s7)
  have hwb9 : s9.m_writebackBuffer = (decodeStage cfg s7).m_writebackBuffer := by
    rw [h9', hf9]
  rw [← h9'] at a9
  refine ⟨aligned_of_lengths a9 (by rw [hs']) (by rw [hs']) (by rw [hs']) (by rw [hs'])
    (by rw [hs']), ?_⟩
  rw [hs']
  show s9.m_writebackBuffer.length ≤ _
  rw [hwb9, hwb8, hwb7, hwb6, hwb5]
  exact hwb3

theorem aligned_of_reach {cfg : ProcessorParameters} {records : List TraceRecord}
    {s : OutOfOrderProcessor} {b : Bool} (h : Reach cfg (wellFormedTrace records) s b) :
    Aligned cfg s ∧ s.m_writebackBuffer.length ≤ cfg.width * 5 := by
  induction h with
  | init =>
    refine ⟨?_, Nat.zero_le _⟩
    unfold Aligned initializeStructures
    simp
  | step hr ht ih =>
    refine aligned_tick ih.1 (execBound_of_reach hr) ?_ ht
    intro x hx
    rw [(faithful_of_reach hr).2.1] at hx
    unfold wellFormedTrace at hx
    obtain ⟨r, _, hr'⟩ := List.mem_map.1 hx
    rw [← hr']
    exact Option.some_ne_none r

theorem tagBound_none (cfg : ProcessorParameters) : TagBound cfg (-1) := Or.inl rfl

/-- The ready-snap of a tag that is none or an index of the reorder buffer is defined, and
gives such a tag. -/
theorem snapTag_bound {cfg : ProcessorParameters} {rob : List ReorderBufferEntry} {t : Int}
    (hlen : rob.length = cfg.robSize) (h : TagBound cfg t) :
    ∃ t', snapTag rob t = some t' ∧ TagBound cfg t' := by
  unfold snapTag
  rcases h with h | ⟨h0, h1⟩
  · exact ⟨t, by rw [if_neg (by simp [h])], Or.inl h⟩
  · split
    · have hlt : t.toNat < rob.length := by
        rw [hlen]
        omega
      rw [vecGet_of_nonneg h0, List.getElem?_eq_getElem hlt]
      dsimp only
      split
      · exact ⟨-1, rfl, Or.inl rfl⟩
      · exact ⟨t, rfl, Or.inr ⟨h0, h1⟩⟩
    · exact ⟨t, rfl, Or.inr ⟨h0, h1⟩⟩

theorem housed_retireStage {cfg : ProcessorParameters} {s : OutOfOrderProcessor}
    (hl : SeqLayout cfg s) (hw : 0 < cfg.width) (hr : 0 < cfg.robSize)
    (hregs : ∀ e ∈ s.m_reorderBuffer, e.valid = true →
      -1 ≤ e.instruction.destReg ∧ e.instruction.destReg < ARF_SIZE)
    (h : Housed cfg s) :
    ∃ s1, retireStage cfg s = some s1 ∧ Housed cfg s1 := by
  obtain ⟨s1, hs, ⟨out, rmt, rob, head, hf⟩, hp, _, hrmt, _, _⟩ :=
    retireStage_flight hl hw hr h.rmt_len hregs
  have hb : backSeqs s1 = backSeqs s := by rw [hf]; rfl
  have hfr : frontSeqs s1 = frontSeqs s := by rw [hf]; rfl
  have hrr : s1.m_registerReadBuffer = s.m_registerReadBuffer := by rw [hf]
  have hdi : s1.m_dispatchBuffer = s.m_dispatchBuffer := by rw [hf]
  refine ⟨s1, hs, ?_, hrmt, by rw [hrr]; exact h.rr_cap, by rw [hdi]; exact h.di_cap,
    by rw [hrr]; exact h.rr_tags, by rw [hdi]; exact h.di_tags, by rw [hf]; exact h.iq_len⟩
  refine h.located.transfer hp [] ?_ ?_
  · rw [hb, List.append_nil]
  · rw [hfr, List.nil_append]

theorem flightSeqs_split (s : OutOfOrderProcessor) :
    flightSeqs s = wbSeqs s ++ flightSeqs { s with m_writebackBuffer := [] } := by
  unfold flightSeqs backSeqs frontSeqs wbSeqs
  simp only [List.map_nil, List.nil_append, List.append_assoc]

theorem housed_writebackStage {cfg : ProcessorParameters} {s : OutOfOrderProcessor}
    (hl : SeqLayout cfg s) (h : Housed cfg s) :
    ∃ s2, writebackStage s = some s2 ∧ Housed cfg s2 ∧ s2.m_writebackBuffer = [] := by
  have hloc := h.located
  obtain ⟨s2, hs, ⟨rob, hf⟩, hp, _, _⟩ := writebackStage_flight hl (fun q hq =>
    hloc.here q (by rw [flightSeqs_split]; exact List.mem_append_left _ hq))
  have hfl : flightSeqs s2 = flightSeqs { s with m_writebackBuffer := [] } := by
    rw [hf]; rfl
  have hsplit := flightSeqs_split s
  rw [← hfl] at hsplit
  have hnd := hloc.nodup
  rw [hsplit, List.nodup_append] at hnd
  have hfr : frontSeqs s2 = frontSeqs s := by rw [hf]; rfl
  have hrr : s2.m_registerReadBuffer = s.m_registerReadBuffer := by rw [hf]
  have hdi : s2.m_dispatchBuffer = s.m_dispatchBuffer := by rw [hf]
  have hrmt : s2.m_renameTable = s.m_renameTable := by rw [hf]
  have hback : ∀ a ∈ backSeqs s2, a ∈ backSeqs s := by
    intro a ha
    rw [hf] at ha
    unfold backSeqs at ha ⊢
    simp only [List.map_nil, List.nil_append, List.mem_append] at ha ⊢
    rcases ha with ha | ha
    · exact Or.inl (Or.inr ha)
    · exact Or.inr ha
  refine ⟨s2, hs, ⟨⟨fun q hq => ?_, fun i q hq => ?_, hnd.2.1, by rw [hfr]; exact hloc.sorted,
    fun a ha b hb => hloc.older a (hback a ha) b (by rw [← hfr]; exact hb)⟩,
    by rw [hrmt]; exact h.rmt_len, by rw [hrr]; exact h.rr_cap, by rw [hdi]; exact h.di_cap,
    by rw [hrr]; exact h.rr_tags, by rw [hdi]; exact h.di_tags,
    by rw [hf]; exact h.iq_len⟩, by rw [hf]⟩
  · obtain ⟨i, hi⟩ := hloc.here q (by rw [hsplit]; exact List.mem_append_right _ hq)
    exact ⟨i, (hp i q).2 ⟨hi, fun hwb => hnd.2.2 hwb hq⟩⟩
  · obtain ⟨h1, h2⟩ := (hp i q).1 hq
    have := hloc.there i q h1
    rw [hsplit] at this
    rcases List.mem_append.1 this with h3 | h3
    · exact absurd h3 h2
    · exact h3

/-! ## Every access of a tick is in bounds: Execute and Issue -/

theorem filter_map_keys (f : IssueQueueEntry → IssueQueueEntry)
    (hv : ∀ e, (f e).valid = e.valid)
    (hs : ∀ e, (f e).instruction.sequenceNum = e.instruction.sequenceNum) :
    ∀ l : List IssueQueueEntry,
      ((l.map f).filter (fun e => e.valid)).map (fun e => e.instruction.sequenceNum) =
        (l.filter (fun e => e.valid)).map (fun e => e.instruction.sequenceNum) := by
  intro l
  induction l with
  | nil => rfl
  | cons a l ih =>
    simp only [List.map_cons, List.filter_cons, hv a]
    split
    · simp only [List.map_cons, hs a, ih]
    · exact ih

theorem woken_seq {ds : List Int} {x x' : Instruction} (h : Woken ds x x') :
    x'.sequenceNum = x.sequenceNum := by
  obtain ⟨t1, t2, rfl, _, _⟩ := h
  rfl

theorem woken_bound {cfg : ProcessorParameters} {ds : List Int} {x x' : Instruction}
    (h : Woken ds x x') (hx : TagBound cfg x.src1Rename ∧ TagBound cfg x.src2Rename) :
    TagBound cfg x'.src1Rename ∧ TagBound cfg x'.src2Rename := by
  obtain ⟨t1, t2, rfl, h1, h2⟩ := h
  refine ⟨?_, ?_⟩
  · rcases h1 with h1 | ⟨h1, _⟩
    · exact Or.inl h1
    · show TagBound cfg t1
      rw [h1]
      exact hx.1
  · rcases h2 with h2 | ⟨h2, _⟩
    · exact Or.inl h2
    · show TagBound cfg t2
      rw [h2]
      exact hx.2

theorem stampExecute_seq (cyc : Int) (e : ExecutionEntry) :
    (stampExecute cyc e).instruction.sequenceNum = e.instruction.sequenceNum := by
  unfold stampExecute
  dsimp only
  split <;> rfl

theorem housed_executeStage {cfg : ProcessorParameters} {s : OutOfOrderProcessor}
    (h : Housed cfg s) (hwb : s.m_writebackBuffer = [])
    (hlen : s.m_executionList.length ≤ cfg.width * 5) :
    Housed cfg (executeStage cfg s) := by
  obtain ⟨done, hperm, _, hs⟩ := executeStage_done cfg s hwb hlen
  rw [hs]
  have hwk : ∀ x : Instruction,
      (wakeAll (done.map (fun y => y.instruction.destRename)) x).sequenceNum = x.sequenceNum :=
    fun x => woken_seq (woken_wakeAll _ x)
  refine ⟨?_, h.rmt_len, ?_, ?_, ?_, ?_, ?_⟩
  · refine h.located.transfer (fun i q => Iff.rfl) [] ?_ ?_
    · rw [List.append_nil]
      unfold backSeqs
      simp only [hwb, List.map_nil, List.nil_append, List.map_map]
      refine List.Perm.append ?_ (List.Perm.of_eq ?_)
      · have hp := hperm.map (fun e : ExecutionEntry => e.instruction.sequenceNum)
        simp only [List.map_append, List.map_map] at hp
        refine (List.perm_append_comm.trans hp).trans (List.Perm.of_eq ?_)
        refine List.map_congr_left (fun e _ => ?_)
        exact stampExecute_seq _ e
      · have := filter_map_keys (wakeAllEntry (done.map (fun y => y.instruction.destRename)))
          (fun e => (woken_wakeAllEntry _ e).1)
          (fun e => woken_seq (woken_wakeAllEntry _ e).2) s.m_issueQueue
        simpa only [List.map_map] using this
    · rw [List.nil_append]
      unfold frontSeqs
      simp only [List.map_append, List.map_map]
      congr 1
      · exact (List.map_congr_left (fun x _ => hwk x)).symm
      · exact (List.map_congr_left (fun x _ => hwk x)).symm
  · show (s.m_registerReadBuffer.map _).length ≤ cfg.width
    rw [List.length_map]
    exact h.rr_cap
  · show (s.m_dispatchBuffer.map _).length ≤ cfg.width
    rw [List.length_map]
    exact h.di_cap
  · intro x hx
    obtain ⟨y, hy, rfl⟩ := List.mem_map.1 hx
    exact woken_bound (woken_wakeAll _ y) (h.rr_tags y hy)
  · intro x hx
    obtain ⟨y, hy, rfl⟩ := List.mem_map.1 hx
    exact woken_bound (woken_wakeAll _ y) (h.di_tags y hy)
  · show (s.m_issueQueue.map _).length = cfg.iqSize
    rw [List.length_map]
    exact h.iq_len

theorem housed_of_back {cfg : ProcessorParameters} {s s' : OutOfOrderProcessor}
    (h : Housed cfg s) (hrob : s'.m_reorderBuffer = s.m_reorderBuffer)
    (hrmt : s'.m_renameTable = s.m_renameTable)
    (hrr : s'.m_registerReadBuffer = s.m_registerReadBuffer)
    (hdi : s'.m_dispatchBuffer = s.m_dispatchBuffer)
    (hiq : s'.m_issueQueue.length = s.m_issueQueue.length)
    (hb : (backSeqs s').Perm (backSeqs s)) : Housed cfg s' := by
  refine ⟨?_, by rw [hrmt]; exact h.rmt_len, by rw [hrr]; exact h.rr_cap,
    by rw [hdi]; exact h.di_cap, by rw [hrr]; exact h.rr_tags, by rw [hdi]; exact h.di_tags,
    hiq.trans h.iq_len⟩
  refine h.located.transfer (fun i q => by rw [hrob]) [] ?_ ?_
  · rw [List.append_nil]
    exact hb
  · rw [List.nil_append]
    unfold frontSeqs
    rw [hrr, hdi]

theorem stampIssue_keys (cyc : Int) (e : IssueQueueEntry) :
    (stampIssue cyc e).valid = e.valid ∧
      (stampIssue cyc e).instruction.sequenceNum = e.instruction.sequenceNum := by
  unfold stampIssue
  split <;> exact ⟨rfl, rfl⟩

theorem housed_issueStage {cfg : ProcessorParameters} {s : OutOfOrderProcessor}
    (h : Housed cfg s) : Housed cfg (issueStage cfg s) := by
  unfold issueStage
  split
  · exact h
  · obtain ⟨sel, h2, hperm, hlen, _, _, _⟩ := issueLoop_sel (s.m_cycleCount : Int) cfg.width
      (s.m_issueQueue.map (stampIssue (s.m_cycleCount : Int))) s.m_executionList
    rw [List.length_map] at hlen
    refine housed_of_back h rfl rfl rfl rfl hlen ?_
    unfold backSeqs
    simp only [h2, List.map_append, List.map_map, List.append_assoc]
    refine List.Perm.append_left _ (List.Perm.append_left _ ?_)
    have hp := hperm.map (fun e : IssueQueueEntry => e.instruction.sequenceNum)
    rw [filter_map_keys _ (fun e => (stampIssue_keys _ e).1)
      (fun e => (stampIssue_keys _ e).2)] at hp
    rw [List.map_append] at hp
    refine List.perm_append_comm.trans (List.Perm.trans (List.Perm.of_eq ?_) hp)
    congr 1

/-! ## Every access of a tick is in bounds: Dispatch and register read -/

theorem snapTag_defined {cfg : ProcessorParameters} {rob : List ReorderBufferEntry}
    (hlen : rob.length = cfg.robSize) {x : Instruction}
    (h : TagBound cfg x.src1Rename ∧ TagBound cfg x.src2Rename) :
    ∃ t1 t2, snapTag rob x.src1Rename = some t1 ∧ snapTag rob x.src2Rename = some t2 := by
  obtain ⟨t1, h1, _⟩ := snapTag_bound hlen h.1
  obtain ⟨t2, h2, _⟩ := snapTag_bound hlen h.2
  exact ⟨t1, t2, h1, h2⟩

theorem housed_dispatchStage {cfg : ProcessorParameters} {s : OutOfOrderProcessor}
    (h : Housed cfg s) (hlen : s.m_reorderBuffer.length = cfg.robSize) :
    ∃ s5, dispatchStage cfg s = some s5 ∧ Housed cfg s5 := by
  have hseq : (s.m_dispatchBuffer.map (stampDispatch (s.m_cycleCount : Int))).map
      (fun x => x.sequenceNum) = s.m_dispatchBuffer.map (fun x => x.sequenceNum) :=
    map_stamp_seq _ (fun x => (stampDispatch_keeps _ x).1) _
  have htags : ∀ x ∈ s.m_dispatchBuffer.map (stampDispatch (s.m_cycleCount : Int)),
      TagBound cfg x.src1Rename ∧ TagBound cfg x.src2Rename := by
    intro x hx
    obtain ⟨y, hy, rfl⟩ := List.mem_map.1 hx
    rw [(stampDispatch_keeps _ y).2.1, (stampDispatch_keeps _ y).2.2]
    exact h.di_tags y hy
  unfold dispatchStage
  simp only
  split
  · refine ⟨_, rfl, ?_, h.rmt_len, h.rr_cap, ?_, h.rr_tags, htags, h.iq_len⟩
    · refine located_congr h.located rfl rfl ?_
      unfold frontSeqs
      simp only [List.map_append, hseq]
    · show (s.m_dispatchBuffer.map _).length ≤ cfg.width
      rw [List.length_map]
      exact h.di_cap
  · rename_i hfull
    have hfree : (s.m_dispatchBuffer.map (stampDispatch (s.m_cycleCount : Int))).length ≤
        (s.m_issueQueue.filter (fun e => !e.valid)).length := by
      unfold isIssueQueueFull at hfull
      simp only [decide_eq_true_eq, not_lt] at hfull
      rw [List.length_map]
      exact Nat.le_trans h.di_cap hfull
    obtain ⟨iq, slots, hd, hiq, _, _, _, _, _, hperm, _⟩ :=
      dispatchLoop_places (s.m_cycleCount : Int) s.m_reorderBuffer _ s.m_issueQueue hfree
        (fun x hx => snapTag_defined hlen (htags x hx))
    simp only [hd]
    refine ⟨_, rfl, ?_, h.rmt_len, h.rr_cap, Nat.zero_le _, h.rr_tags, ?_, hiq.trans h.iq_len⟩
    · refine h.located.transfer (fun i q => Iff.rfl)
        (s.m_dispatchBuffer.map (fun x => x.sequenceNum)) ?_ ?_
      · unfold backSeqs
        simp only [List.append_assoc]
        refine List.Perm.append_left _ (List.Perm.append_left _ ?_)
        rw [hseq] at hperm
        exact hperm
      · unfold frontSeqs
        simp only [List.map_append, List.map_nil, List.nil_append]
    · intro x hx
      cases hx

theorem forall₂_map_eq {α β γ : Type} {R : α → β → Prop} {f : α → γ} {g : β → γ}
    (hR : ∀ a b, R a b → f a = g b) :
    ∀ {l1 : List α} {l2 : List β}, List.Forall₂ R l1 l2 → l1.map f = l2.map g := by
  intro l1 l2 h
  induction h with
  | nil => rfl
  | cons hab _ ih =>
    simp only [List.map_cons, hR _ _ hab, ih]

theorem forall₂_mem_right {α β : Type} {R : α → β → Prop} {l : List α} {l' : List β}
    (h : List.Forall₂ R l l') (b : β) (hb : b ∈ l') : ∃ a, a ∈ l ∧ R a b := by
  induction h with
  | nil => cases hb
  | cons hab _ ih =>
    rcases List.mem_cons.1 hb with h1 | h1
    · subst h1
      exact ⟨_, List.mem_cons_self _ _, hab⟩
    · obtain ⟨a, ha, hr⟩ := ih h1
      exact ⟨a, List.mem_cons_of_mem _ ha, hr⟩

theorem stampRegisterRead_seq (cyc : Int) (x : Instruction) :
    (stampRegisterRead cyc x).sequenceNum = x.sequenceNum := by
  unfold stampRegisterRead
  split <;> rfl

theorem housed_registerReadStage {cfg : ProcessorParameters} {s : OutOfOrderProcessor}
    (h : Housed cfg s) (hlen : s.m_reorderBuffer.length = cfg.robSize) :
    ∃ s6, registerReadStage cfg s = some s6 ∧ Housed cfg s6 := by
  have hseq : (s.m_registerReadBuffer.map (stampRegisterRead (s.m_cycleCount : Int))).map
      (fun x => x.sequenceNum) = s.m_registerReadBuffer.map (fun x => x.sequenceNum) :=
    map_stamp_seq _ (stampRegisterRead_seq _) _
  have htags : ∀ x ∈ s.m_registerReadBuffer.map (stampRegisterRead (s.m_cycleCount : Int)),
      TagBound cfg x.src1Rename ∧ TagBound cfg x.src2Rename := by
    intro x hx
    obtain ⟨y, hy, rfl⟩ := List.mem_map.1 hx
    rw [(stampRegisterRead_tags _ y).1, (stampRegisterRead_tags _ y).2]
    exact h.rr_tags y hy
  have hcap : (s.m_registerReadBuffer.map (stampRegisterRead (s.m_cycleCount : Int))).length ≤
      cfg.width := by
    rw [List.length_map]
    exact h.rr_cap
  unfold registerReadStage
  simp only
  split
  · refine ⟨_, rfl, ?_, h.rmt_len, hcap, h.di_cap, htags, h.di_tags, h.iq_len⟩
    refine located_congr h.located rfl rfl ?_
    unfold frontSeqs
    simp only [List.map_append, hseq]
  · obtain ⟨k, moved, hr, hk, hm, _, _, hle, hrel⟩ :=
      registerReadLoop_moves cfg (s.m_cycleCount : Int) s.m_reorderBuffer
        (s.m_registerReadBuffer.map (stampRegisterRead (s.m_cycleCount : Int)))
        s.m_dispatchBuffer (fun x hx => snapTag_defined hlen (htags x hx))
    simp only [hr]
    have hmseq : ((s.m_registerReadBuffer.map
        (stampRegisterRead (s.m_cycleCount : Int))).take k).map (fun x => x.sequenceNum) =
        moved.map (fun x => x.sequenceNum) := by
      refine forall₂_map_eq (fun a b hab => ?_) hrel
      obtain ⟨t1, t2, _, _, rfl⟩ := hab
      rfl
    refine ⟨_, rfl, ?_, h.rmt_len, ?_, ?_, ?_, ?_, h.iq_len⟩
    · refine located_congr h.located rfl rfl ?_
      unfold frontSeqs
      simp only [List.map_append, List.append_assoc]
      rw [← hmseq, ← List.map_append, List.take_append_drop, hseq]
    · show (List.drop k _).length ≤ cfg.width
      rw [List.length_drop]
      omega
    · show (s.m_dispatchBuffer ++ moved).length ≤ cfg.width
      rw [List.length_append, hm]
      exact hle h.di_cap
    · intro x hx
      exact htags x (List.mem_of_mem_drop hx)
    · intro x hx
      rcases List.mem_append.1 hx with hx | hx
      · exact h.di_tags x hx
      · obtain ⟨a, ha, hab⟩ := forall₂_mem_right hrel x hx
        obtain ⟨t1, t2, h1, h2, rfl⟩ := hab
        have hb := htags a (List.mem_of_mem_take ha)
        obtain ⟨u1, g1, b1⟩ := snapTag_bound hlen hb.1
        obtain ⟨u2, g2, b2⟩ := snapTag_bound hlen hb.2
        rw [h1] at g1
        rw [h2] at g2
        cases g1
        cases g2
        exact ⟨b1, b2⟩

/-! ## Every access of a tick is in bounds: Rename -/

theorem renameSource_total {rmt : List RenameTableEntry} (reg old : Int)
    (hlen : rmt.length = ARF_SIZE) (h1 : -1 ≤ reg) (h2 : reg < ARF_SIZE) :
    ∃ t, renameSource rmt reg old = some t := by
  unfold renameSource
  split
  · have h0 : 0 ≤ reg := by omega
    rw [vecGet_of_nonneg h0]
    have hlt : reg.toNat < rmt.length := by
      rw [hlen]
      have : ((reg.toNat : Nat) : Int) = reg := Int.toNat_of_nonneg h0
      omega
    rw [List.getElem?_eq_getElem hlt]
    exact ⟨_, rfl⟩
  · exact ⟨_, rfl⟩

theorem renameDest_total {rmt : List RenameTableEntry} (reg : Int) (tail : Nat)
    (hlen : rmt.length = ARF_SIZE) (h1 : -1 ≤ reg) (h2 : reg < ARF_SIZE) :
    ∃ rmt', renameDest rmt reg tail = some rmt' ∧ rmt'.length = ARF_SIZE := by
  unfold renameDest
  split
  · have h0 : 0 ≤ reg := by omega
    rw [vecGet_of_nonneg h0]
    have hlt : reg.toNat < rmt.length := by
      rw [hlen]
      have : ((reg.toNat : Nat) : Int) = reg := Int.toNat_of_nonneg h0
      omega
    rw [List.getElem?_eq_getElem hlt]
    exact ⟨_, rfl, by rw [List.length_set]; exact hlen⟩
  · exact ⟨_, rfl, hlen⟩

theorem renameDest_length {rmt rmt' : List RenameTableEntry} {reg : Int} {tail : Nat}
    (h : renameDest rmt reg tail = some rmt') : rmt'.length = rmt.length := by
  unfold renameDest at h
  split at h
  · split at h
    · cases h
    · simp only [Option.some.injEq] at h
      subst h
      exact List.length_set _ _ _
  · simp only [Option.some.injEq] at h
    subst h
    rfl

/-- The loop of `renameStage` is defined on a reorder buffer of at least one slot, a rename
table of `ARF_SIZE` entries, and instructions whose register numbers are none or
architectural registers. -/
theorem renameLoop_total (cfg : ProcessorParameters) (cyc : Int) (hr : 0 < cfg.robSize) :
    ∀ (rn : List Instruction) (s : OutOfOrderProcessor), s.m_renameBuffer = rn →
      SeqLayout cfg s →
      cfg.width ≤ (s.m_reorderBuffer.filter (fun e => !e.valid)).length +
        s.m_registerReadBuffer.length →
      s.m_renameTable.length = ARF_SIZE →
      (∀ x ∈ rn, RegsInRange (traceRecordOf x)) →
      ∃ s', renameLoop cfg cyc rn s = some s' := by
  intro rn
  induction rn with
  | nil =>
    intro s _ _ _ _ _
    exact ⟨_, rfl⟩
  | cons inst rn ih =>
    intro s hrn h hw hlen hregs
    unfold renameLoop
    split
    · rename_i hlt
      have htl := h.tail_lt hr
      have het : s.m_reorderBuffer[s.m_robTail]? = some (s.m_reorderBuffer[s.m_robTail]) :=
        List.getElem?_eq_getElem htl
      obtain ⟨⟨d1, d2⟩, ⟨a1, a2⟩, ⟨b1, b2⟩⟩ := hregs inst (List.mem_cons_self _ _)
      obtain ⟨t1, ht1⟩ := renameSource_total inst.src1Reg inst.src1Rename hlen a1 a2
      obtain ⟨t2, ht2⟩ := renameSource_total inst.src2Reg inst.src2Rename hlen b1 b2
      obtain ⟨rmt, hd, hrl⟩ := renameDest_total inst.destReg s.m_robTail hlen d1 d2
      simp only [het, ht1, ht2, hd]
      have ha := fun rmt rr => h.allocate hrn het (by omega)
        { valid := true, ready := false, instruction := inst,
          destArchReg := inst.destReg } rfl rfl rmt rr
      refine ih _ rfl (ha _ _).1 ?_ hrl (fun x hx => hregs x (List.mem_cons_of_mem _ hx))
      have := (ha [] []).2.1
      simp only [List.length_append, List.length_singleton]
      omega
    · exact ⟨_, rfl⟩

/-- Allocating the tail slot to the front instruction of the rename buffer keeps every
instruction in flight in its place. -/
theorem located_allocate {cfg : ProcessorParameters} {s : OutOfOrderProcessor}
    {inst : Instruction} {rn : List Instruction} {et : ReorderBufferEntry}
    (x : Instruction) (hx : x.sequenceNum = inst.sequenceNum)
    (rmt : List RenameTableEntry) (rn' : List Instruction) (tail : Nat)
    (hrn : s.m_renameBuffer = inst :: rn) (hl : SeqLayout cfg s)
    (het : s.m_reorderBuffer[s.m_robTail]? = some et) (hev : et.valid = false)
    (h : Located s) :
    Located { s with
      m_reorderBuffer := s.m_reorderBuffer.set s.m_robTail
        { valid := true, ready := false, instruction := inst, destArchReg := inst.destReg }
      m_renameTable := rmt
      m_registerReadBuffer := s.m_registerReadBuffer ++ [x]
      m_renameBuffer := rn'
      m_robTail := tail } := by
  have hq0 := hl.front_number hrn
  have hlt : s.m_robTail < s.m_reorderBuffer.length := by
    by_contra hc
    rw [List.getElem?_eq_none (by omega)] at het
    cases het
  have hold : ∀ i q, Pending s.m_reorderBuffer i q → q < inst.sequenceNum ∧ i ≠ s.m_robTail := by
    intro i q hp
    refine ⟨by have := (hl.pending_slot hp).2.2; omega, fun hi => ?_⟩
    obtain ⟨e, he, hv, _, _⟩ := hp
    rw [hi, het] at he
    cases he
    rw [hev] at hv
    cases hv
  have hflight : ∀ q ∈ flightSeqs s, q < inst.sequenceNum := by
    intro q hq
    obtain ⟨i, hi⟩ := h.here q hq
    exact (hold i q hi).1
  have hpend : ∀ i q, Pending (s.m_reorderBuffer.set s.m_robTail
        { valid := true, ready := false, instruction := inst, destArchReg := inst.destReg })
        i q ↔ (Pending s.m_reorderBuffer i q ∨ (i = s.m_robTail ∧ q = inst.sequenceNum)) := by
    intro i q
    by_cases hi : i = s.m_robTail
    · subst hi
      rw [pending_set_self _ _ hlt]
      constructor
      · rintro ⟨_, _, h3⟩
        exact Or.inr ⟨rfl, h3.symm⟩
      · rintro (h1 | ⟨_, h3⟩)
        · exact absurd rfl (hold _ _ h1).2
        · exact ⟨rfl, rfl, h3.symm⟩
    · rw [pending_set_ne _ _ hi]
      constructor
      · exact Or.inl
      · rintro (h1 | ⟨h2, _⟩)
        · exact h1
        · exact absurd h2 hi
  have hfr : frontSeqs { s with
      m_reorderBuffer := s.m_reorderBuffer.set s.m_robTail
        { valid := true, ready := false, instruction := inst, destArchReg := inst.destReg }
      m_renameTable := rmt
      m_registerReadBuffer := s.m_registerReadBuffer ++ [x]
      m_renameBuffer := rn'
      m_robTail := tail } = frontSeqs s ++ [inst.sequenceNum] := by
    unfold frontSeqs
    simp only [List.map_append, List.map_cons, List.map_nil, List.append_assoc, hx]
  have hfl : flightSeqs { s with
      m_reorderBuffer := s.m_reorderBuffer.set s.m_robTail
        { valid := true, ready := false, instruction := inst, destArchReg := inst.destReg }
      m_renameTable := rmt
      m_registerReadBuffer := s.m_registerReadBuffer ++ [x]
      m_renameBuffer := rn'
      m_robTail := tail } = flightSeqs s ++ [inst.sequenceNum] := by
    unfold flightSeqs
    rw [hfr, ← List.append_assoc]
    rfl
  refine ⟨fun q hq => ?_, fun i q hq => ?_, ?_, ?_, fun a ha b hb => ?_⟩
  · rw [hfl] at hq
    rcases List.mem_append.1 hq with h1 | h1
    · obtain ⟨i, hi⟩ := h.here q h1
      exact ⟨i, (hpend i q).2 (Or.inl hi)⟩
    · exact ⟨s.m_robTail, (hpend _ _).2 (Or.inr ⟨rfl, List.mem_singleton.1 h1⟩)⟩
  · rw [hfl]
    rcases (hpend i q).1 hq with h1 | ⟨_, h1⟩
    · exact List.mem_append_left _ (h.there i q h1)
    · exact List.mem_append_right _ (List.mem_singleton.2 h1)
  · rw [hfl]
    refine List.Nodup.append h.nodup (List.nodup_singleton _) ?_
    intro a ha hb
    have := hflight a ha
    rw [List.mem_singleton.1 hb] at this
    exact Nat.lt_irrefl _ this
  · rw [hfr, List.pairwise_append]
    refine ⟨h.sorted, List.pairwise_singleton _ _, fun a ha b hb => ?_⟩
    rw [List.mem_singleton.1 hb]
    exact hflight a (List.mem_append_right _ ha)
  · rw [hfr] at hb
    have ha' : a ∈ backSeqs s := ha
    rcases List.mem_append.1 hb with h1 | h1
    · exact h.older a ha' b h1
    · rw [List.mem_singleton.1 h1]
      exact hflight a (List.mem_append_left _ ha')

theorem tagBound_of_sourceTag {cfg : ProcessorParameters} {rob : List ReorderBufferEntry}
    {k : Nat} {reg tag : Int} (hlen : rob.length = cfg.robSize)
    (h : SourceTagOK rob k reg tag) : TagBound cfg tag := by
  by_cases hreg : reg = -1
  · exact Or.inl (h.1 hreg)
  · rcases h.2 hreg with ⟨h1, _⟩ | ⟨h0, n, ⟨e, he, _⟩, _⟩
    · exact Or.inl h1
    · refine Or.inr ⟨h0, ?_⟩
      have hlt : tag.toNat < rob.length := by
        by_contra hc
        rw [List.getElem?_eq_none (by omega)] at he
        cases he
      have : ((tag.toNat : Nat) : Int) = tag := Int.toNat_of_nonneg h0
      omega

theorem stampRename_record (cyc : Int) (x : Instruction) :
    traceRecordOf (stampRename cyc x) = traceRecordOf x := by
  unfold stampRename
  split <;> rfl

/-- Rename is defined and keeps what the bounds of the next accesses rest on. -/
theorem housed_renameStage {cfg : ProcessorParameters} {s : OutOfOrderProcessor}
    (hl : SeqLayout cfg s) (hm : RenameMapOK s) (hr : 0 < cfg.robSize)
    (hu : ∀ x ∈ s.m_renameBuffer, Unrenamed x)
    (hregs : ∀ x ∈ s.m_renameBuffer, RegsInRange (traceRecordOf x))
    (h : Housed cfg s) :
    ∃ s7, renameStage cfg s = some s7 ∧ Housed cfg s7 := by
  have hseq : ∀ x, (stampRename (s.m_cycleCount : Int) x).sequenceNum = x.sequenceNum := by
    intro x; unfold stampRename; split <;> rfl
  have h1 : SeqLayout cfg { s with
      m_renameBuffer := s.m_renameBuffer.map (stampRename (s.m_cycleCount : Int)) } := by
    refine hl.of_keys rfl rfl rfl rfl rfl (by simp) ?_
    simp only [List.map_append, map_stamp_seq _ hseq]
  have htot : ∃ s7, renameStage cfg s = some s7 := by
    unfold renameStage
    simp only
    split
    · exact ⟨_, rfl⟩
    · rename_i hc
      simp only [Bool.or_eq_true, decide_eq_true_eq, not_or, isReorderBufferFull,
        Nat.not_lt] at hc
      refine renameLoop_total cfg _ hr _ _ rfl h1 (by
        show cfg.width ≤ (s.m_reorderBuffer.filter (fun e => !e.valid)).length + _
        omega) h.rmt_len ?_
      intro x hx
      obtain ⟨y, hy, rfl⟩ := List.mem_map.1 hx
      rw [stampRename_record]
      exact hregs y hy
  obtain ⟨s7, hs⟩ := htot
  refine ⟨s7, hs, ?_⟩
  have hcap := (renameStage_lengths hs).2.2.2.2 h.rr_cap
  obtain ⟨new, hnew, htag⟩ := renameStage_tags hl hm hu hs
  have hlen7 := (hl.renameStage hs).rob_len
  have hrr : ∀ x ∈ s7.m_registerReadBuffer,
      TagBound cfg x.src1Rename ∧ TagBound cfg x.src2Rename := by
    intro x hx
    rw [hnew] at hx
    rcases List.mem_append.1 hx with hx | hx
    · exact h.rr_tags x hx
    · exact ⟨tagBound_of_sourceTag hlen7 (htag x hx).1,
        tagBound_of_sourceTag hlen7 (htag x hx).2⟩
  have key : Located s7 ∧ s7.m_renameTable.length = ARF_SIZE ∧
      s7.m_dispatchBuffer = s.m_dispatchBuffer ∧ s7.m_issueQueue = s.m_issueQueue := by
    unfold renameStage at hs
    simp only at hs
    split at hs
    · simp only [Option.some.injEq] at hs
      subst hs
      exact ⟨located_congr h.located rfl rfl rfl, h.rmt_len, rfl, rfl⟩
    · rename_i hc
      simp only [Bool.or_eq_true, decide_eq_true_eq, not_or, isReorderBufferFull,
        Nat.not_lt] at hc
      refine renameLoop_induction
        (I := fun st => Located st ∧ st.m_renameTable.length = ARF_SIZE ∧
          st.m_dispatchBuffer = s.m_dispatchBuffer ∧ st.m_issueQueue = s.m_issueQueue)
        cfg (s.m_cycleCount : Int) ?_ _
        { s with m_renameBuffer := s.m_renameBuffer.map (stampRename (s.m_cycleCount : Int)) }
        s7 rfl h1 (by
          show cfg.width ≤ (s.m_reorderBuffer.filter (fun e => !e.valid)).length + _
          omega) hs ⟨located_congr h.located rfl rfl rfl, h.rmt_len, rfl, rfl⟩
      intro st inst rn et t1 t2 rmt hrn hst het hev _ _ hd hi
      have hx : (leaveRename (s.m_cycleCount : Int) t1 t2 st.m_robTail inst).sequenceNum =
          inst.sequenceNum := rfl
      exact ⟨located_allocate _ hx rmt rn _ hrn hst het hev hi.1,
        (renameDest_length hd).trans hi.2.1, hi.2.2⟩
  exact ⟨key.1, key.2.1, hcap, by rw [key.2.2.1]; exact h.di_cap, hrr,
    by rw [key.2.2.1]; exact h.di_tags, by rw [key.2.2.2]; exact h.iq_len⟩

/-! ## Every access of a tick is in bounds: the whole tick -/

theorem regs_of_faithful {records : List TraceRecord} {x : Instruction}
    (hregs : ∀ r ∈ records, RegsInRange r) (h : Faithful records x) :
    RegsInRange (traceRecordOf x) :=
  hregs _ (List.mem_iff_getElem?.2 ⟨_, h⟩)

theorem housed_init (cfg : ProcessorParameters) (trace : List (Option TraceRecord)) :
    Housed cfg (initializeStructures cfg trace) := by
  have hfl : flightSeqs (initializeStructures cfg trace) = [] := by
    unfold flightSeqs backSeqs frontSeqs initializeStructures
    simp only [List.map_nil, List.nil_append, List.append_nil, List.map_eq_nil_iff,
      List.filter_eq_nil_iff, List.mem_replicate]
    rintro e ⟨_, rfl⟩
    simp
  have hfr : frontSeqs (initializeStructures cfg trace) = [] := rfl
  refine ⟨⟨fun q hq => ?_, fun i q hq => ?_, ?_, ?_, fun a _ b hb => ?_⟩, ?_, Nat.zero_le _,
    Nat.zero_le _, fun x hx => (by cases hx), fun x hx => (by cases hx), ?_⟩
  · rw [hfl] at hq
    cases hq
  · obtain ⟨e, he, hv, _⟩ := hq
    simp only [initializeStructures, List.getElem?_replicate] at he
    split at he
    · simp only [Option.some.injEq] at he
      subst he
      cases hv
    · cases he
  · rw [hfl]
    exact List.nodup_nil
  · rw [hfr]
    exact List.Pairwise.nil
  · rw [hfr] at hb
    cases hb
  · simp [initializeStructures]
  · simp [initializeStructures]

/-- One tick from a state that has the invariants of a run is defined: no stage reads or
writes outside a vector, and the loop of Writeback ends. -/
theorem housed_tick {cfg : ProcessorParameters} {records : List TraceRecord}
    {s : OutOfOrderProcessor} (hr : 0 < cfg.robSize) (hw : 0 < cfg.width)
    (hregs : ∀ r ∈ records, RegsInRange r)
    (hl : SeqLayout cfg s) (hm : RenameMapOK s) (ht : SlotsTagged s) (hb : ExecBound cfg s)
    (hsat : Sat (taggedPredicates cfg records) s) (h : Housed cfg s) :
    ∃ s' b, tick cfg s = some (s', b) ∧ Housed cfg s' := by
  obtain ⟨s1, h1, H1⟩ := housed_retireStage hl hw hr (fun e he hv =>
    (regs_of_faithful hregs (hsat.rob e he hv).1).1) h
  have l1 := hl.retireStage h1
  obtain ⟨s2, h2, H2, hwb⟩ := housed_writebackStage l1 H1
  have l2 := l1.writebackStage h2
  have hex : s2.m_executionList.length ≤ cfg.width * 5 := by
    rw [writebackStage_exec h2, (retireStage_exec h1).1]
    have := hb.2 1 (Nat.le_refl 1)
    rw [Nat.cast_one, countRemaining_one _ hb.1] at this
    omega
  have H4 := housed_issueStage (housed_executeStage H2 hwb hex)
  have l4 : SeqLayout cfg (issueStage cfg (executeStage cfg s2)) := l2.executeStage.issueStage
  obtain ⟨s5, h5, H5⟩ := housed_dispatchStage H4 l4.rob_len
  have l5 := l4.dispatchStage h5
  obtain ⟨s6, h6, H6⟩ := housed_registerReadStage H5 l5.rob_len
  obtain ⟨l6, m6, r6⟩ := renameMap_beforeRename hl hm ht h1 h2 h5 h6
  obtain ⟨s7, h7, H7⟩ := housed_renameStage l6 m6 hr
    (by rw [r6]; exact fun x hx => (hsat.rn x hx).2)
    (by rw [r6]; exact fun x hx => regs_of_faithful hregs (hsat.rn x hx).1) H6
  have H8 : Housed cfg (decodeStage cfg s7) := by
    obtain ⟨de, rn, hf⟩ := decodeStage_frame cfg s7
    rw [hf]
    exact housed_of_back H7 rfl rfl rfl rfl rfl (List.Perm.refl _)
  have H9 : Housed cfg (fetchStage cfg (decodeStage cfg s7)) := by
    obtain ⟨tr, de, cnt, fin, hf⟩ := fetchStage_frame cfg (decodeStage cfg s7)
    rw [hf]
    exact housed_of_back H8 rfl rfl rfl rfl rfl (List.Perm.refl _)
  have hp : pipelineStages cfg s = some (fetchStage cfg (decodeStage cfg s7)) := by
    unfold pipelineStages
    simp only [h1, h2, h5, h6, h7]
  refine ⟨_, _, by unfold tick; simp only [hp]; rfl, ?_⟩
  exact housed_of_back H9 rfl rfl rfl rfl rfl (List.Perm.refl _)

theorem housed_of_reach {cfg : ProcessorParameters} {trace : List (Option TraceRecord)}
    {s : OutOfOrderProcessor} {b : Bool} (hr : 0 < cfg.robSize) (hw : 0 < cfg.width)
    (hregs : ∀ r ∈ trace.reduceOption, RegsInRange r) (h : Reach cfg trace s b) :
    Housed cfg s := by
  induction h with
  | init => exact housed_init cfg trace
  | step hs ht ih =>
    obtain ⟨s2, b2, ht2, H2⟩ := housed_tick hr hw hregs (SeqLayout.of_reach hs)
      (renameMap_of_reach hs) (slotsTagged_of_reach hs) (execBound_of_reach hs)
      (tagged_of_reach hs).1 ih
    rw [ht] at ht2
    cases ht2
    exact H2

theorem tick_defined {cfg : ProcessorParameters} {trace : List (Option TraceRecord)}
    {s : OutOfOrderProcessor} {b : Bool} (hr : 0 < cfg.robSize) (hw : 0 < cfg.width)
    (hregs : ∀ r ∈ trace.reduceOption, RegsInRange r) (h : Reach cfg trace s b) :
    ∃ s' b', tick cfg s = some (s', b') := by
  obtain ⟨s2, b2, ht2, _⟩ := housed_tick hr hw hregs (SeqLayout.of_reach h)
    (renameMap_of_reach h) (slotsTagged_of_reach h) (execBound_of_reach h)
    (tagged_of_reach h).1 (housed_of_reach hr hw hregs h)
  exact ⟨s2, b2, ht2⟩

theorem simulate_defined {cfg : ProcessorParameters} {trace : List (Option TraceRecord)}
    (hr : 0 < cfg.robSize) (hw : 0 < cfg.width)
    (hregs : ∀ r ∈ trace.reduceOption, RegsInRange r) :
    ∀ (fuel : Nat) (s : OutOfOrderProcessor), Reach cfg trace s true →
      simulate cfg fuel s ≠ SimResult.undefinedBehaviour := by
  intro fuel
  induction fuel with
  | zero =>
    intro s _ h
    simp [simulate] at h
  | succ n ih =>
    intro s hs
    obtain ⟨s2, b2, ht⟩ := tick_defined hr hw hregs hs
    unfold simulate
    rw [ht]
    cases b2 with
    | true => exact ih s2 (Reach.step hs ht)
    | false =>
      intro h
      cases h

theorem findFreeSlot_lt :
    ∀ (iq : List IssueQueueEntry) (i : Nat), findFreeSlot iq = some i → i < iq.length := by
  intro iq
  induction iq with
  | nil => intro i h; cases h
  | cons a l ih =>
    intro i h
    unfold findFreeSlot at h
    split at h
    · cases hf : findFreeSlot l with
      | none => rw [hf] at h; cases h
      | some j =>
        rw [hf] at h
        simp only [Option.map_some', Option.some.injEq] at h
        subst h
        exact Nat.succ_lt_succ (ih j hf)
    · simp only [Option.some.injEq] at h
      subst h
      exact Nat.succ_pos _

theorem findOldest_lt {iq : List IssueQueueEntry} {k : Nat}
    (h : findOldest iq 0 INT_MAX none = some k) : k < iq.length := by
  obtain ⟨e, he, _⟩ := findOldest_oldest h
  by_contra hc
  rw [List.getElem?_eq_none (by omega)] at he
  cases he

/-- C16. No runtime errors in the engine. For every configuration with `robSize ≥ 1` and
`width ≥ 1` (whatever the size of the issue queue) and every trace whose records have their
three register fields in `[-1, 66]`, in every state of a run of `simulate`: the next tick is
defined, that is, no stage reads or writes the rename table or the reorder buffer outside
its bounds (the stages are `none` there) and the loop of Writeback ends; the reorder buffer
has `robSize` slots, the issue queue `iqSize` entries and the rename table 67; head and tail
are below `robSize`; every source tag in the register read and dispatch buffers, which the
ready-snap uses as an index, is none or in `[0, robSize)`. So a run bounded to any number of
ticks never ends as `undefinedBehaviour`. The issue queue indices that the scans of Issue
and Dispatch return are below the length of the queue. The execution list and the stage
buffers are read by matching on a non-empty list, as the guards of the source loops have
it. -/
theorem no_runtime_errors {cfg : ProcessorParameters} {trace : List (Option TraceRecord)}
    (hr : 1 ≤ cfg.robSize) (hw : 1 ≤ cfg.width)
    (hregs : ∀ r ∈ trace.reduceOption, RegsInRange r) :
    (∀ (s : OutOfOrderProcessor) (b : Bool), Reach cfg trace s b →
      (∃ s' b', tick cfg s = some (s', b')) ∧
      s.m_reorderBuffer.length = cfg.robSize ∧ s.m_issueQueue.length = cfg.iqSize ∧
      s.m_renameTable.length = ARF_SIZE ∧
      s.m_robHead < cfg.robSize ∧ s.m_robTail < cfg.robSize ∧
      (∀ x ∈ s.m_registerReadBuffer ++ s.m_dispatchBuffer,
        TagBound cfg x.src1Rename ∧ TagBound cfg x.src2Rename)) ∧
    (∀ fuel : Nat,
      simulate cfg fuel (initializeStructures cfg trace) ≠ SimResult.undefinedBehaviour) ∧
    (∀ (iq : List IssueQueueEntry) (k : Nat),
      findOldest iq 0 INT_MAX none = some k → k < iq.length) ∧
    (∀ (iq : List IssueQueueEntry) (i : Nat), findFreeSlot iq = some i → i < iq.length) := by
  refine ⟨fun s b h => ?_, fun fuel => simulate_defined hr hw hregs fuel _ Reach.init,
    fun iq k h => findOldest_lt h, findFreeSlot_lt⟩
  have hl := SeqLayout.of_reach h
  have hh := housed_of_reach hr hw hregs h
  have h1 := hl.head_lt hr
  have h2 := hl.tail_lt hr
  rw [hl.rob_len] at h1 h2
  refine ⟨tick_defined hr hw hregs h, hl.rob_len, hh.iq_len, hh.rmt_len, h1, h2,
    fun x hx => ?_⟩
  rcases List.mem_append.1 hx with hx | hx
  · exact hh.rr_tags x hx
  · exact hh.di_tags x hx

theorem no_runtime_errors_witness :
    (1 ≤ cfgS1.robSize ∧ 1 ≤ cfgS1.width ∧ ∀ r ∈ traceS2.reduceOption, RegsInRange r) ∧
      (stateAfter cfgS1 traceS2 5).m_registerReadBuffer.length = 1 ∧
      ∃ s' b', tick cfgS1 (stateAfter cfgS1 traceS2 5) = some (s', b') :=
  have hregs : ∀ r ∈ traceS2.reduceOption, RegsInRange r := by
    intro r h
    simp only [traceS2, wellFormedTrace, List.reduceOption_map, List.map_cons, List.map_nil,
      List.reduceOption_cons_of_some, List.reduceOption_nil, List.mem_cons,
      List.mem_singleton, List.not_mem_nil, or_false] at h
    rcases h with rfl | rfl | rfl <;> (unfold RegsInRange; decide)
  ⟨⟨by decide, by decide, hregs⟩, by decide,
    (reach_stateAfter cfgS1 traceS2 5).elim
      (fun b h => ((no_runtime_errors (by decide) (by decide) hregs).1 _ b h).1)⟩

/-! ## The meaning of the source tags: Retire, Writeback and Execute -/

/-- The tags keep their meaning when the stage buffers and the issue queue stay as they
are, no waiting slot outside the writeback buffer changes, and no named slot is taken. -/
theorem tagsOK_of_same {s s' : OutOfOrderProcessor} (h : TagsOK s)
    (hP : ∀ i q, Pending s.m_reorderBuffer i q → q ∉ wbSeqs s →
      Pending s'.m_reorderBuffer i q ∧ q ∉ wbSeqs s')
    (hN : ∀ i q, Named s.m_reorderBuffer i q → Named s'.m_reorderBuffer i q)
    (hiq : s'.m_issueQueue = s.m_issueQueue) (hdi : s'.m_dispatchBuffer = s.m_dispatchBuffer)
    (hrr : s'.m_registerReadBuffer = s.m_registerReadBuffer) : TagsOK s' := by
  refine ⟨fun e he hv => ?_, fun x hx => ?_, fun x hx => ?_⟩
  · rw [hiq] at he
    exact ⟨waits_mono (h.iq e he hv).1 hP, waits_mono (h.iq e he hv).2 hP⟩
  · rw [hdi] at hx
    exact ⟨waits_mono (h.di x hx).1 hP, waits_mono (h.di x hx).2 hP⟩
  · rw [hrr] at hx
    exact ⟨names_mono (h.rr x hx).1 hN, names_mono (h.rr x hx).2 hN⟩

theorem tagsOK_retireStage {cfg : ProcessorParameters} {s s1 : OutOfOrderProcessor}
    (hl : SeqLayout cfg s) (hw : 0 < cfg.width) (hr : 0 < cfg.robSize)
    (hrmt : s.m_renameTable.length = ARF_SIZE)
    (hregs : ∀ e ∈ s.m_reorderBuffer, e.valid = true →
      -1 ≤ e.instruction.destReg ∧ e.instruction.destReg < ARF_SIZE)
    (h : TagsOK s) (hs : retireStage cfg s = some s1) : TagsOK s1 := by
  obtain ⟨s1', hs', ⟨out, rmt, rob, head, hf⟩, hp, hn, _⟩ :=
    retireStage_flight hl hw hr hrmt hregs
  rw [hs] at hs'
  cases hs'
  refine tagsOK_of_same h (fun i q hpq hq => ⟨(hp i q).2 hpq, ?_⟩) hn (by rw [hf])
    (by rw [hf]) (by rw [hf])
  have : wbSeqs s1 = wbSeqs s := by rw [hf]; rfl
  rw [this]
  exact hq

theorem tagsOK_writebackStage {cfg : ProcessorParameters} {s s2 : OutOfOrderProcessor}
    (hl : SeqLayout cfg s) (hloc : Located s) (h : TagsOK s)
    (hs : writebackStage s = some s2) : TagsOK s2 := by
  obtain ⟨s2', hs', ⟨rob, hf⟩, hp, hn, _⟩ := writebackStage_flight hl (fun q hq =>
    hloc.here q (by rw [flightSeqs_split]; exact List.mem_append_left _ hq))
  rw [hs] at hs'
  cases hs'
  refine tagsOK_of_same h (fun i q hpq hq => ⟨(hp i q).2 ⟨hpq, hq⟩, ?_⟩) hn (by rw [hf])
    (by rw [hf]) (by rw [hf])
  have : wbSeqs s2 = [] := by rw [hf]; rfl
  rw [this]
  exact List.not_mem_nil _

theorem waits_woken {rob : List ReorderBufferEntry} {wb wb' : List Nat} {ds : List Int}
    {k : Nat} {t t' : Int} (h : Waits rob wb k t) (hw : t' = -1 ∨ (t' = t ∧ t' ∉ ds))
    (hK : ∀ (u : Int) (q : Nat), 0 ≤ u → u ∉ ds → Pending rob u.toNat q → q ∉ wb') :
    Waits rob wb' k t' := by
  rcases hw with hw | ⟨hw, hds⟩
  · exact Or.inl hw
  · rcases h with h | ⟨h0, q, hq, hp, _⟩
    · exact Or.inl (hw.trans h)
    · rw [hw]
      rw [hw] at hds
      exact Or.inr ⟨h0, q, hq, hp, hK t q h0 hds hp⟩

theorem names_woken {rob : List ReorderBufferEntry} {ds : List Int} {k : Nat} {t t' : Int}
    (h : Names rob k t) (hw : t' = -1 ∨ (t' = t ∧ t' ∉ ds)) : Names rob k t' := by
  rcases hw with hw | ⟨hw, _⟩
  · exact Or.inl hw
  · rw [hw]
    exact h

theorem settles_woken {rob : List ReorderBufferEntry} {wb' : List Nat} {ds : List Int}
    {k : Nat} {t t' : Int} (h : Names rob k t) (hw : t' = -1 ∨ (t' = t ∧ t' ∉ ds))
    (hK : ∀ (u : Int) (q : Nat), 0 ≤ u → u ∉ ds → Pending rob u.toNat q → q ∉ wb') :
    Settles rob wb' t' := by
  rcases hw with hw | ⟨hw, hds⟩
  · exact Or.inl hw
  · rcases h with h | ⟨h0, _⟩
    · exact Or.inl (hw.trans h)
    · rw [hw]
      rw [hw] at hds
      exact Or.inr (fun q hp => hK t q h0 hds hp)

theorem stampExecute_destRename (cyc : Int) (e : ExecutionEntry) :
    (stampExecute cyc e).instruction.destRename = e.instruction.destRename := by
  unfold stampExecute
  dsimp only
  split <;> rfl

/-- After Execute the tags that are left name no instruction of the writeback buffer: the
wakeups cleared the tags of the instructions that completed. -/
theorem tagsOK_executeStage {cfg : ProcessorParameters} {s : OutOfOrderProcessor}
    (hl : SeqLayout cfg s) (h : TagsOK s) (hwb : s.m_writebackBuffer = [])
    (hlen : s.m_executionList.length ≤ cfg.width * 5)
    (htag : ∀ y ∈ s.m_executionList, Tagged cfg y.instruction) :
    TagsOK (executeStage cfg s) ∧ TagsSettled (executeStage cfg s) := by
  obtain ⟨done, hperm, _, hs⟩ := executeStage_done cfg s hwb hlen
  rw [hs]
  have hK : ∀ (u : Int) (q : Nat), 0 ≤ u →
      u ∉ done.map (fun y => y.instruction.destRename) →
      Pending s.m_reorderBuffer u.toNat q →
      q ∉ (done.map (fun y => leaveExecute (s.m_cycleCount : Int) y.instruction)).map
        (fun x => x.sequenceNum) := by
    intro u q h0 hu hp hq
    rw [List.map_map] at hq
    obtain ⟨y, hy, hyq⟩ := List.mem_map.1 hq
    have hyq' : y.instruction.sequenceNum = q := hyq
    have hy' : y ∈ s.m_executionList.map (stampExecute (s.m_cycleCount : Int)) :=
      hperm.subset (List.mem_append_right _ hy)
    obtain ⟨y0, hy0, rfl⟩ := List.mem_map.1 hy'
    have ht := htag y0 hy0
    unfold Tagged at ht
    rw [stampExecute_seq] at hyq'
    have hslot := (hl.pending_slot hp).1
    apply hu
    refine List.mem_map.2 ⟨_, hy, ?_⟩
    rw [stampExecute_destRename, ht, hyq', ← hslot]
    exact Int.toNat_of_nonneg h0
  refine ⟨⟨fun e' he' hv => ?_, fun x' hx' => ?_, fun x' hx' => ?_⟩, fun x' hx' => ?_⟩
  · obtain ⟨e, he, rfl⟩ := List.mem_map.1 he'
    obtain ⟨hv', t1, t2, hx, h1, h2⟩ := woken_wakeAllEntry
      (done.map (fun y => y.instruction.destRename)) e
    rw [hv'] at hv
    have hw := h.iq e he hv
    rw [hx]
    exact ⟨waits_woken hw.1 h1 hK, waits_woken hw.2 h2 hK⟩
  · obtain ⟨x, hx, rfl⟩ := List.mem_map.1 hx'
    obtain ⟨t1, t2, hx2, h1, h2⟩ := woken_wakeAll
      (done.map (fun y => y.instruction.destRename)) x
    have hw := h.di x hx
    rw [hx2]
    exact ⟨waits_woken hw.1 h1 hK, waits_woken hw.2 h2 hK⟩
  · obtain ⟨x, hx, rfl⟩ := List.mem_map.1 hx'
    obtain ⟨t1, t2, hx2, h1, h2⟩ := woken_wakeAll
      (done.map (fun y => y.instruction.destRename)) x
    have hw := h.rr x hx
    rw [hx2]
    exact ⟨names_woken hw.1 h1, names_woken hw.2 h2⟩
  · obtain ⟨x, hx, rfl⟩ := List.mem_map.1 hx'
    obtain ⟨t1, t2, hx2, h1, h2⟩ := woken_wakeAll
      (done.map (fun y => y.instruction.destRename)) x
    have hw := h.rr x hx
    rw [hx2]
    exact ⟨settles_woken hw.1 h1 hK, settles_woken hw.2 h2 hK⟩

/-! ## The meaning of the source tags: Issue, Dispatch, register read and Rename -/

theorem stampIssue_tags (cyc : Int) (e : IssueQueueEntry) :
    (stampIssue cyc e).instruction.src1Rename = e.instruction.src1Rename ∧
      (stampIssue cyc e).instruction.src2Rename = e.instruction.src2Rename := by
  unfold stampIssue
  split <;> exact ⟨rfl, rfl⟩

theorem tagsOK_issueStage {cfg : ProcessorParameters} {s : OutOfOrderProcessor}
    (h : TagsOK s) (hset : TagsSettled s) :
    TagsOK (issueStage cfg s) ∧ TagsSettled (issueStage cfg s) := by
  unfold issueStage
  split
  · exact ⟨h, hset⟩
  · obtain ⟨sel, _, hperm, _, _, _, _⟩ := issueLoop_sel (s.m_cycleCount : Int) cfg.width
      (s.m_issueQueue.map (stampIssue (s.m_cycleCount : Int))) s.m_executionList
    refine ⟨⟨fun e' he' hv => ?_, h.di, h.rr⟩, hset⟩
    have h1 : e' ∈ (s.m_issueQueue.map (stampIssue (s.m_cycleCount : Int))).filter
        (fun e => e.valid) :=
      hperm.subset (List.mem_append_left _ (List.mem_filter.2 ⟨he', hv⟩))
    obtain ⟨e, he, rfl⟩ := List.mem_map.1 (List.mem_filter.1 h1).1
    rw [(stampIssue_keys _ e).1] at hv
    rw [(stampIssue_keys _ e).2, (stampIssue_tags _ e).1, (stampIssue_tags _ e).2]
    exact h.iq e he hv

theorem tagsOK_dispatchStage {cfg : ProcessorParameters} {s s5 : OutOfOrderProcessor}
    (h : TagsOK s) (hset : TagsSettled s) (hcap : s.m_dispatchBuffer.length ≤ cfg.width)
    (hs : dispatchStage cfg s = some s5) : TagsOK s5 ∧ TagsSettled s5 := by
  have htags : ∀ x ∈ s.m_dispatchBuffer.map (stampDispatch (s.m_cycleCount : Int)),
      Waits s.m_reorderBuffer (wbSeqs s) x.sequenceNum x.src1Rename ∧
      Waits s.m_reorderBuffer (wbSeqs s) x.sequenceNum x.src2Rename := by
    intro x hx
    obtain ⟨y, hy, rfl⟩ := List.mem_map.1 hx
    rw [(stampDispatch_keeps _ y).1, (stampDispatch_keeps _ y).2.1,
      (stampDispatch_keeps _ y).2.2]
    exact h.di y hy
  unfold dispatchStage at hs
  simp only at hs
  split at hs
  · simp only [Option.some.injEq] at hs
    subst hs
    exact ⟨⟨h.iq, htags, h.rr⟩, hset⟩
  · rename_i hfull
    have hfree : (s.m_dispatchBuffer.map (stampDispatch (s.m_cycleCount : Int))).length ≤
        (s.m_issueQueue.filter (fun e => !e.valid)).length := by
      unfold isIssueQueueFull at hfull
      simp only [decide_eq_true_eq, not_lt] at hfull
      rw [List.length_map]
      exact Nat.le_trans hcap hfull
    obtain ⟨iq, slots, hd, _, _, _, _, _, _, _, hmem⟩ :=
      dispatchLoop_places (s.m_cycleCount : Int) s.m_reorderBuffer _ s.m_issueQueue hfree
        (fun x hx => ⟨_, _, snapTag_waits (htags x hx).1, snapTag_waits (htags x hx).2⟩)
    rw [hd] at hs
    simp only [Option.some.injEq] at hs
    subst hs
    refine ⟨⟨fun e' he' hv => ?_, fun x hx => (by cases hx), h.rr⟩, hset⟩
    rcases hmem e' he' hv with h1 | ⟨x, t1, t2, hx, g1, g2, rfl⟩
    · exact h.iq e' h1 hv
    · have hw := htags x hx
      rw [snapTag_waits hw.1] at g1
      rw [snapTag_waits hw.2] at g2
      cases g1
      cases g2
      exact hw

theorem tagsOK_registerReadStage {cfg : ProcessorParameters} {s s6 : OutOfOrderProcessor}
    (h : TagsOK s) (hset : TagsSettled s) (hs : registerReadStage cfg s = some s6) :
    TagsOK s6 := by
  have htags : ∀ x ∈ s.m_registerReadBuffer.map (stampRegisterRead (s.m_cycleCount : Int)),
      (Names s.m_reorderBuffer x.sequenceNum x.src1Rename ∧
        Names s.m_reorderBuffer x.sequenceNum x.src2Rename) ∧
      (Settles s.m_reorderBuffer (wbSeqs s) x.src1Rename ∧
        Settles s.m_reorderBuffer (wbSeqs s) x.src2Rename) := by
    intro x hx
    obtain ⟨y, hy, rfl⟩ := List.mem_map.1 hx
    rw [stampRegisterRead_seq, (stampRegisterRead_tags _ y).1,
      (stampRegisterRead_tags _ y).2]
    exact ⟨h.rr y hy, hset y hy⟩
  unfold registerReadStage at hs
  simp only at hs
  split at hs
  · simp only [Option.some.injEq] at hs
    subst hs
    exact ⟨h.iq, h.di, fun x hx => (htags x hx).1⟩
  · obtain ⟨k, moved, hr, _, _, _, _, _, hrel⟩ :=
      registerReadLoop_moves cfg (s.m_cycleCount : Int) s.m_reorderBuffer
        (s.m_registerReadBuffer.map (stampRegisterRead (s.m_cycleCount : Int)))
        s.m_dispatchBuffer (fun x hx => by
          obtain ⟨t1, g1, _⟩ := snapTag_named (htags x hx).1.1 (htags x hx).2.1
          obtain ⟨t2, g2, _⟩ := snapTag_named (htags x hx).1.2 (htags x hx).2.2
          exact ⟨t1, t2, g1, g2⟩)
    rw [hr] at hs
    simp only [Option.some.injEq] at hs
    subst hs
    refine ⟨h.iq, fun x hx => ?_, fun x hx => (htags x (List.mem_of_mem_drop hx)).1⟩
    rcases List.mem_append.1 hx with hx | hx
    · exact h.di x hx
    · obtain ⟨a, ha, t1, t2, g1, g2, rfl⟩ := forall₂_mem_right hrel x hx
      have hb := htags a (List.mem_of_mem_take ha)
      obtain ⟨u1, f1, w1⟩ := snapTag_named hb.1.1 hb.2.1
      obtain ⟨u2, f2, w2⟩ := snapTag_named hb.1.2 hb.2.2
      rw [g1] at f1
      rw [g2] at f2
      cases f1
      cases f2
      exact ⟨w1, w2⟩

theorem names_of_sourceTag {rob : List ReorderBufferEntry} {k : Nat} {reg tag : Int}
    (h : SourceTagOK rob k reg tag) : Names rob k tag := by
  by_cases hreg : reg = -1
  · exact Or.inl (h.1 hreg)
  · rcases h.2 hreg with ⟨h1, _⟩ | ⟨h0, n, ⟨e, he, hv, _, hn⟩, hlt, _⟩
    · exact Or.inl h1
    · exact Or.inr ⟨h0, n, hlt, e, he, hn, Or.inr hv⟩

/-- Rename with a full register read buffer or an empty rename buffer leaves the reorder
buffer and the register read buffer as they are. -/
theorem renameStage_idle {cfg : ProcessorParameters} {s s7 : OutOfOrderProcessor}
    (ha : s.m_registerReadBuffer.length = cfg.width ∨ s.m_renameBuffer = [])
    (hs : renameStage cfg s = some s7) :
    s7.m_reorderBuffer = s.m_reorderBuffer ∧
      s7.m_registerReadBuffer = s.m_registerReadBuffer := by
  unfold renameStage at hs
  simp only at hs
  split at hs
  · simp only [Option.some.injEq] at hs
    subst hs
    exact ⟨rfl, rfl⟩
  · rename_i hc
    simp only [Bool.or_eq_true, decide_eq_true_eq, not_or] at hc
    rcases ha with ha | ha
    · exact absurd ha hc.2
    · simp only [ha, List.map_nil, renameLoop, Option.some.injEq] at hs
      subst hs
      exact ⟨rfl, rfl⟩

theorem tagsOK_renameStage {cfg : ProcessorParameters} {s s7 : OutOfOrderProcessor}
    (hl : SeqLayout cfg s) (hm : RenameMapOK s)
    (hu : ∀ x ∈ s.m_renameBuffer, Unrenamed x)
    (ha : s.m_registerReadBuffer = [] ∨ s.m_registerReadBuffer.length = cfg.width ∨
      s.m_renameBuffer = [])
    (h : TagsOK s) (hs : renameStage cfg s = some s7) : TagsOK s7 := by
  have hseq : ∀ x, (stampRename (s.m_cycleCount : Int) x).sequenceNum = x.sequenceNum := by
    intro x; unfold stampRename; split <;> rfl
  have h1 : SeqLayout cfg { s with
      m_renameBuffer := s.m_renameBuffer.map (stampRename (s.m_cycleCount : Int)) } := by
    refine hl.of_keys rfl rfl rfl rfl rfl (by simp) ?_
    simp only [List.map_append, map_stamp_seq _ hseq]
  have key : (∀ i q, Pending s.m_reorderBuffer i q → Pending s7.m_reorderBuffer i q) ∧
      s7.m_issueQueue = s.m_issueQueue ∧ s7.m_dispatchBuffer = s.m_dispatchBuffer ∧
      s7.m_writebackBuffer = s.m_writebackBuffer := by
    have hs' := hs
    unfold renameStage at hs'
    simp only at hs'
    split at hs'
    · simp only [Option.some.injEq] at hs'
      subst hs'
      exact ⟨fun _ _ hp => hp, rfl, rfl, rfl⟩
    · rename_i hc
      simp only [Bool.or_eq_true, decide_eq_true_eq, not_or, isReorderBufferFull,
        Nat.not_lt] at hc
      refine renameLoop_induction
        (I := fun st => (∀ i q, Pending s.m_reorderBuffer i q →
            Pending st.m_reorderBuffer i q) ∧
          st.m_issueQueue = s.m_issueQueue ∧ st.m_dispatchBuffer = s.m_dispatchBuffer ∧
          st.m_writebackBuffer = s.m_writebackBuffer)
        cfg (s.m_cycleCount : Int) ?_ _
        { s with m_renameBuffer := s.m_renameBuffer.map (stampRename (s.m_cycleCount : Int)) }
        s7 rfl h1 (by
          show cfg.width ≤ (s.m_reorderBuffer.filter (fun e => !e.valid)).length + _
          omega) hs' ⟨fun _ _ hp => hp, rfl, rfl, rfl⟩
      intro st inst rn et t1 t2 rmt hrn hst het hev _ _ _ hi
      refine ⟨fun i q hp => ?_, hi.2.1, hi.2.2.1, hi.2.2.2⟩
      have hp' := hi.1 i q hp
      have hne : i ≠ st.m_robTail := by
        intro hi'
        obtain ⟨e, he, hv, _⟩ := hp'
        rw [hi', het] at he
        cases he
        rw [hev] at hv
        cases hv
      exact (pending_set_ne _ q hne).2 hp'
  have hwb : wbSeqs s7 = wbSeqs s := by
    unfold wbSeqs
    rw [key.2.2.2]
  have hP : ∀ i q, Pending s.m_reorderBuffer i q → q ∉ wbSeqs s →
      Pending s7.m_reorderBuffer i q ∧ q ∉ wbSeqs s7 :=
    fun i q hp hq => ⟨key.1 i q hp, by rw [hwb]; exact hq⟩
  refine ⟨fun e he hv => ?_, fun x hx => ?_, fun x hx => ?_⟩
  · rw [key.2.1] at he
    exact ⟨waits_mono (h.iq e he hv).1 hP, waits_mono (h.iq e he hv).2 hP⟩
  · rw [key.2.2.1] at hx
    exact ⟨waits_mono (h.di x hx).1 hP, waits_mono (h.di x hx).2 hP⟩
  · rcases ha with ha | ha
    · obtain ⟨new, hnew, htag⟩ := renameStage_tags hl hm hu hs
      rw [hnew, ha, List.nil_append] at hx
      exact ⟨names_of_sourceTag (htag x hx).1, names_of_sourceTag (htag x hx).2⟩
    · obtain ⟨e1, e2⟩ := renameStage_idle ha hs
      rw [e2] at hx
      rw [e1]
      exact h.rr x hx

/-! ## The potential through the stages of a tick -/

theorem potential_retireStage {cfg : ProcessorParameters} {s s1 : OutOfOrderProcessor}
    (hl : SeqLayout cfg s) (hw : 0 < cfg.width) (hr : 0 < cfg.robSize)
    (hrmt : s.m_renameTable.length = ARF_SIZE)
    (hregs : ∀ e ∈ s.m_reorderBuffer, e.valid = true →
      -1 ≤ e.instruction.destReg ∧ e.instruction.destReg < ARF_SIZE)
    (hs : retireStage cfg s = some s1) :
    potential s1 + s1.m_output.length = potential s + s.m_output.length ∧
      s.m_output.length ≤ s1.m_output.length ∧
      (s.m_output.length < s1.m_output.length ∨ HeadIdle s1) := by
  obtain ⟨s1', hs', ⟨out, rmt, rob, head, hf⟩, _, _, _, hcnt, hprog, hle⟩ :=
    retireStage_flight hl hw hr hrmt hregs
  rw [hs] at hs'
  cases hs'
  refine ⟨?_, hle, hprog⟩
  have e1 : s1.m_traceFile = s.m_traceFile := by rw [hf]
  have e2 : s1.m_decodeBuffer = s.m_decodeBuffer := by rw [hf]
  have e3 : s1.m_renameBuffer = s.m_renameBuffer := by rw [hf]
  have e4 : s1.m_registerReadBuffer = s.m_registerReadBuffer := by rw [hf]
  have e5 : s1.m_dispatchBuffer = s.m_dispatchBuffer := by rw [hf]
  have e6 : s1.m_issueQueue = s.m_issueQueue := by rw [hf]
  have e7 : s1.m_executionList = s.m_executionList := by rw [hf]
  have e8 : s1.m_writebackBuffer = s.m_writebackBuffer := by rw [hf]
  unfold potential
  rw [e1, e2, e3, e4, e5, e6, e7, e8]
  omega

theorem potential_writebackStage {cfg : ProcessorParameters} {s s2 : OutOfOrderProcessor}
    (hl : SeqLayout cfg s) (hloc : Located s) (hs : writebackStage s = some s2) :
    potential s2 + s.m_writebackBuffer.length ≤ potential s := by
  obtain ⟨s2', hs', ⟨rob, hf⟩, _, _, hcnt⟩ := writebackStage_flight hl (fun q hq =>
    hloc.here q (by rw [flightSeqs_split]; exact List.mem_append_left _ hq))
  rw [hs] at hs'
  cases hs'
  have e1 : s2.m_traceFile = s.m_traceFile := by rw [hf]
  have e2 : s2.m_decodeBuffer = s.m_decodeBuffer := by rw [hf]
  have e3 : s2.m_renameBuffer = s.m_renameBuffer := by rw [hf]
  have e4 : s2.m_registerReadBuffer = s.m_registerReadBuffer := by rw [hf]
  have e5 : s2.m_dispatchBuffer = s.m_dispatchBuffer := by rw [hf]
  have e6 : s2.m_issueQueue = s.m_issueQueue := by rw [hf]
  have e7 : s2.m_executionList = s.m_executionList := by rw [hf]
  have e8 : s2.m_writebackBuffer = [] := by rw [hf]
  unfold potential
  rw [e1, e2, e3, e4, e5, e6, e7, e8, List.length_nil]
  omega

theorem sum_stampExecute (cyc : Int) :
    ∀ l : List ExecutionEntry, (∀ e ∈ l, 1 ≤ e.remainingCycles) →
      ((l.map (stampExecute cyc)).map (fun e => (2 + e.remainingCycles).toNat)).sum +
        l.length = (l.map (fun e => (2 + e.remainingCycles).toNat)).sum := by
  intro l
  induction l with
  | nil => intro _; rfl
  | cons a l ih =>
    intro h
    have h1 := h a (List.mem_cons_self _ _)
    have h2 := ih (fun e he => h e (List.mem_cons_of_mem _ he))
    simp only [List.map_cons, List.sum_cons, List.length_cons]
    have : (stampExecute cyc a).remainingCycles = a.remainingCycles - 1 := rfl
    rw [this]
    omega

theorem sum_done :
    ∀ l : List ExecutionEntry, (∀ y ∈ l, y.remainingCycles = 0) →
      (l.map (fun e => (2 + e.remainingCycles).toNat)).sum = 2 * l.length := by
  intro l
  induction l with
  | nil => intro _; rfl
  | cons a l ih =>
    intro h
    have h1 := h a (List.mem_cons_self _ _)
    have h2 := ih (fun e he => h e (List.mem_cons_of_mem _ he))
    simp only [List.map_cons, List.sum_cons, List.length_cons, h1, h2]
    omega

theorem countP_valid_map (g : IssueQueueEntry → IssueQueueEntry)
    (hg : ∀ e, (g e).valid = e.valid) (l : List IssueQueueEntry) :
    (l.map g).countP (fun e => e.valid) = l.countP (fun e => e.valid) := by
  induction l with
  | nil => rfl
  | cons a l ih =>
    simp only [List.map_cons, List.countP_cons, hg a, ih]

theorem potential_executeStage {cfg : ProcessorParameters} {s : OutOfOrderProcessor}
    (hwb : s.m_writebackBuffer = []) (hlen : s.m_executionList.length ≤ cfg.width * 5)
    (hrem : ∀ e ∈ s.m_executionList, 1 ≤ e.remainingCycles) :
    potential (executeStage cfg s) + s.m_executionList.length = potential s := by
  obtain ⟨done, hperm, hz, hs⟩ := executeStage_done cfg s hwb hlen
  rw [hs]
  have h1 := sum_stampExecute (s.m_cycleCount : Int) s.m_executionList hrem
  have h2 := ((hperm.map (fun e : ExecutionEntry => (2 + e.remainingCycles).toNat)).sum_eq)
  rw [List.map_append, List.sum_append, sum_done done hz] at h2
  have h3 := countP_valid_map (wakeAllEntry (done.map (fun y => y.instruction.destRename)))
    (fun e => (woken_wakeAllEntry _ e).1) s.m_issueQueue
  unfold potential
  simp only [List.length_map, hwb, List.length_nil, h3]
  omega

theorem sum_le_seven (g : IssueQueueEntry → Nat) (hg : ∀ e, g e ≤ 7) :
    ∀ l : List IssueQueueEntry, (l.map g).sum ≤ 7 * l.length := by
  intro l
  induction l with
  | nil => exact Nat.le_refl _
  | cons a l ih =>
    simp only [List.map_cons, List.sum_cons, List.length_cons]
    have := hg a
    omega

theorem potential_issueStage (cfg : ProcessorParameters) (s : OutOfOrderProcessor) :
    ∃ n, potential (issueStage cfg s) + n ≤ potential s ∧
      (s.m_executionList.length ≠ cfg.width * 5 → 0 < cfg.width →
        (∃ e, e ∈ s.m_issueQueue ∧ IssueReady e ∧ e.instruction.fetchCycle < INT_MAX) →
        0 < n) := by
  unfold issueStage
  split
  · rename_i hfull
    exact ⟨0, Nat.le_refl _, fun h => absurd hfull h⟩
  · obtain ⟨sel, h2, hperm, _, _, _, hprog⟩ := issueLoop_sel (s.m_cycleCount : Int) cfg.width
      (s.m_issueQueue.map (stampIssue (s.m_cycleCount : Int))) s.m_executionList
    refine ⟨sel.length, ?_, fun _ hw hex => ?_⟩
    · have hc := hperm.length_eq
      rw [List.length_append, ← List.countP_eq_length_filter, ← List.countP_eq_length_filter,
        countP_valid_map _ (fun e => (stampIssue_keys _ e).1)] at hc
      have hsum := sum_le_seven (fun e => (2 + execLatency
        (leaveIssue (s.m_cycleCount : Int) e.instruction).opType).toNat)
        (fun e => by
          have := execLatency_range (leaveIssue (s.m_cycleCount : Int) e.instruction).opType
          show (2 + execLatency (leaveIssue (s.m_cycleCount : Int) e.instruction).opType).toNat ≤ 7
          omega) sel
      unfold potential
      simp only [h2, List.map_append, List.sum_append, List.map_map]
      simp only [Function.comp_def]
      omega
    · have hne : sel ≠ [] := by
        refine hprog ?_ hw
        obtain ⟨e, he, hr, hf⟩ := hex
        refine ⟨stampIssue (s.m_cycleCount : Int) e, List.mem_map.2 ⟨e, he, rfl⟩, ?_, ?_⟩
        · exact ⟨by rw [(stampIssue_keys _ e).1]; exact hr.1,
            by rw [(stampIssue_tags _ e).1]; exact hr.2.1,
            by rw [(stampIssue_tags _ e).2]; exact hr.2.2⟩
        · rw [stampIssue_fetchCycle]
          exact hf
      exact List.length_pos.2 hne

/-! ## The potential through the stages of a tick: the front end -/

theorem potential_dispatchStage {cfg : ProcessorParameters} {s s5 : OutOfOrderProcessor}
    (h : Housed cfg s) (hlen : s.m_reorderBuffer.length = cfg.robSize)
    (hs : dispatchStage cfg s = some s5) :
    ∃ n, potential s5 + n = potential s ∧
      (isIssueQueueFull cfg s = false → n = s.m_dispatchBuffer.length) := by
  have hseq : (s.m_dispatchBuffer.map (stampDispatch (s.m_cycleCount : Int))).map
      (fun x => x.sequenceNum) = s.m_dispatchBuffer.map (fun x => x.sequenceNum) :=
    map_stamp_seq _ (fun x => (stampDispatch_keeps _ x).1) _
  have htags : ∀ x ∈ s.m_dispatchBuffer.map (stampDispatch (s.m_cycleCount : Int)),
      TagBound cfg x.src1Rename ∧ TagBound cfg x.src2Rename := by
    intro x hx
    obtain ⟨y, hy, rfl⟩ := List.mem_map.1 hx
    rw [(stampDispatch_keeps _ y).2.1, (stampDispatch_keeps _ y).2.2]
    exact h.di_tags y hy
  unfold dispatchStage at hs
  simp only at hs
  split at hs
  · rename_i hfull
    simp only [Option.some.injEq] at hs
    subst hs
    refine ⟨0, ?_, fun hf => ?_⟩
    · unfold potential
      simp only [List.length_map]
      omega
    · have : isIssueQueueFull cfg s = true := hfull
      rw [this] at hf
      cases hf
  · rename_i hfull
    have hfree : (s.m_dispatchBuffer.map (stampDispatch (s.m_cycleCount : Int))).length ≤
        (s.m_issueQueue.filter (fun e => !e.valid)).length := by
      unfold isIssueQueueFull at hfull
      simp only [decide_eq_true_eq, not_lt] at hfull
      rw [List.length_map]
      exact Nat.le_trans h.di_cap hfull
    obtain ⟨iq, slots, hd, _, _, _, _, _, _, hperm, _⟩ :=
      dispatchLoop_places (s.m_cycleCount : Int) s.m_reorderBuffer _ s.m_issueQueue hfree
        (fun x hx => snapTag_defined hlen (htags x hx))
    rw [hd] at hs
    simp only [Option.some.injEq] at hs
    subst hs
    refine ⟨s.m_dispatchBuffer.length, ?_, fun _ => rfl⟩
    have hc := hperm.length_eq
    simp only [List.length_append, List.length_map, ← List.countP_eq_length_filter] at hc
    unfold potential
    simp only [List.length_nil]
    omega

theorem potential_registerReadStage {cfg : ProcessorParameters} {s s6 : OutOfOrderProcessor}
    (hs : registerReadStage cfg s = some s6) :
    ∃ k, potential s6 + k = potential s ∧
      (s.m_dispatchBuffer.length < cfg.width → s.m_registerReadBuffer ≠ [] → 0 < k) := by
  unfold registerReadStage at hs
  simp only at hs
  split at hs
  · rename_i hfull
    simp only [Option.some.injEq] at hs
    subst hs
    refine ⟨0, ?_, fun hlt _ => ?_⟩
    · unfold potential
      simp only [List.length_map]
      omega
    · have : s.m_dispatchBuffer.length = cfg.width := hfull
      omega
  · split at hs
    · cases hs
    · rename_i r hr
      simp only [Option.some.injEq] at hs
      subst hs
      obtain ⟨k, h1, h2, h3, _⟩ := registerReadLoop_lengths cfg _ _ _ _ _ hr
      rw [List.length_map] at h1 h3
      refine ⟨k, ?_, fun hlt hne => ?_⟩
      · unfold potential
        simp only
        omega
      · have : 0 < s.m_registerReadBuffer.length := List.length_pos.2 hne
        omega

theorem countReady_renameStage {cfg : ProcessorParameters} {s s7 : OutOfOrderProcessor}
    (hl : SeqLayout cfg s) (hs : renameStage cfg s = some s7) :
    s7.m_reorderBuffer.countP (fun e => e.valid && e.ready) =
      s.m_reorderBuffer.countP (fun e => e.valid && e.ready) := by
  have hseq : ∀ x, (stampRename (s.m_cycleCount : Int) x).sequenceNum = x.sequenceNum := by
    intro x; unfold stampRename; split <;> rfl
  have h1 : SeqLayout cfg { s with
      m_renameBuffer := s.m_renameBuffer.map (stampRename (s.m_cycleCount : Int)) } := by
    refine hl.of_keys rfl rfl rfl rfl rfl (by simp) ?_
    simp only [List.map_append, map_stamp_seq _ hseq]
  unfold renameStage at hs
  simp only at hs
  split at hs
  · simp only [Option.some.injEq] at hs
    subst hs
    rfl
  · rename_i hc
    simp only [Bool.or_eq_true, decide_eq_true_eq, not_or, isReorderBufferFull,
      Nat.not_lt] at hc
    refine renameLoop_induction
      (I := fun st => st.m_reorderBuffer.countP (fun e => e.valid && e.ready) =
        s.m_reorderBuffer.countP (fun e => e.valid && e.ready))
      cfg (s.m_cycleCount : Int) ?_ _
      { s with m_renameBuffer := s.m_renameBuffer.map (stampRename (s.m_cycleCount : Int)) }
      s7 rfl h1 (by
        show cfg.width ≤ (s.m_reorderBuffer.filter (fun e => !e.valid)).length + _
        omega) hs rfl
    intro st inst rn et t1 t2 rmt hrn hst het hev _ _ _ hi
    have := countP_set_add (fun e : ReorderBufferEntry => e.valid && e.ready)
      { valid := true, ready := false, instruction := inst, destArchReg := inst.destReg } het
    simp only [hev, Bool.false_and, Bool.and_false, Bool.false_eq_true, if_false,
      Nat.add_zero] at this
    show (st.m_reorderBuffer.set st.m_robTail _).countP _ = _
    rw [this]
    exact hi

theorem potential_renameStage {cfg : ProcessorParameters} {s s7 : OutOfOrderProcessor}
    (hl : SeqLayout cfg s) (hs : renameStage cfg s = some s7) :
    ∃ k, potential s7 + k = potential s ∧
      (isReorderBufferFull cfg s = false → s.m_registerReadBuffer.length < cfg.width →
        s.m_renameBuffer ≠ [] → 0 < k) := by
  obtain ⟨⟨rob, rmt, rr, rn, tail, hf⟩, hcons, hmono, hstop, _⟩ := renameStage_lengths hs
  have hcnt := countReady_renameStage hl hs
  have e1 : s7.m_traceFile = s.m_traceFile := by rw [hf]
  have e2 : s7.m_decodeBuffer = s.m_decodeBuffer := by rw [hf]
  have e5 : s7.m_dispatchBuffer = s.m_dispatchBuffer := by rw [hf]
  have e6 : s7.m_issueQueue = s.m_issueQueue := by rw [hf]
  have e7 : s7.m_executionList = s.m_executionList := by rw [hf]
  have e8 : s7.m_writebackBuffer = s.m_writebackBuffer := by rw [hf]
  refine ⟨s7.m_registerReadBuffer.length - s.m_registerReadBuffer.length, ?_,
    fun hfull hlt hne => ?_⟩
  · unfold potential
    rw [e1, e2, e5, e6, e7, e8, hcnt]
    omega
  · have hpos : 0 < s.m_renameBuffer.length := List.length_pos.2 hne
    rcases hstop with h | h | ⟨h, _⟩
    · rw [h, List.length_nil] at hcons
      omega
    · omega
    · rw [h] at hfull
      cases hfull

theorem potential_decodeStage (cfg : ProcessorParameters) (s : OutOfOrderProcessor) :
    ∃ k, potential (decodeStage cfg s) + k = potential s ∧
      (s.m_renameBuffer.length < cfg.width → s.m_decodeBuffer ≠ [] → 0 < k) := by
  unfold decodeStage
  simp only
  split
  · rename_i hfull
    refine ⟨0, ?_, fun hlt _ => ?_⟩
    · unfold potential
      simp only [List.length_map]
      omega
    · omega
  · obtain ⟨k, h1, h2, _, h4, _⟩ := decodeLoop_moves cfg (s.m_cycleCount : Int)
      (s.m_decodeBuffer.map (stampDecode (s.m_cycleCount : Int))) s.m_renameBuffer
    rw [List.length_map] at h1
    refine ⟨k, ?_, fun hlt hne => h4 hlt (by simpa using hne)⟩
    unfold potential
    simp only
    omega

theorem potential_fetchStage (cfg : ProcessorParameters) (s : OutOfOrderProcessor)
    (htr : ∀ x ∈ s.m_traceFile, x ≠ none) :
    ∃ k, potential (fetchStage cfg s) + k = potential s ∧
      (s.m_decodeBuffer.length < cfg.width → s.m_traceFile ≠ [] → 0 < cfg.width → 0 < k) := by
  obtain ⟨k, _, h2, h3, _, h5⟩ := fetchStage_lengths cfg s htr
  obtain ⟨tr, de, cnt, fin, hf⟩ := fetchStage_frame cfg s
  have e3 : (fetchStage cfg s).m_renameBuffer = s.m_renameBuffer := by rw [hf]
  have e4 : (fetchStage cfg s).m_registerReadBuffer = s.m_registerReadBuffer := by rw [hf]
  have e5 : (fetchStage cfg s).m_dispatchBuffer = s.m_dispatchBuffer := by rw [hf]
  have e6 : (fetchStage cfg s).m_issueQueue = s.m_issueQueue := by rw [hf]
  have e7 : (fetchStage cfg s).m_executionList = s.m_executionList := by rw [hf]
  have e8 : (fetchStage cfg s).m_writebackBuffer = s.m_writebackBuffer := by rw [hf]
  have e9 : (fetchStage cfg s).m_reorderBuffer = s.m_reorderBuffer := by rw [hf]
  refine ⟨k, ?_, fun hlt hne hw => ?_⟩
  · unfold potential
    rw [e3, e4, e5, e6, e7, e8, e9]
    omega
  · have hpos : 0 < s.m_traceFile.length := List.length_pos.2 hne
    rcases h5 hlt with h | h
    · omega
    · omega

/-! ## The states between the stages of a tick -/

/-- The stages of one tick from a state that has the invariants of a run are defined, and
the states between them keep the bounds of the next accesses. -/
theorem stages_of_tick {cfg : ProcessorParameters} {records : List TraceRecord}
    {s : OutOfOrderProcessor} (hr : 0 < cfg.robSize) (hw : 0 < cfg.width)
    (hregs : ∀ r ∈ records, RegsInRange r)
    (hl : SeqLayout cfg s) (hm : RenameMapOK s) (ht : SlotsTagged s) (hb : ExecBound cfg s)
    (hsat : Sat (taggedPredicates cfg records) s) (h : Housed cfg s) :
    ∃ s1 s2 s5 s6 s7, retireStage cfg s = some s1 ∧ writebackStage s1 = some s2 ∧
      dispatchStage cfg (issueStage cfg (executeStage cfg s2)) = some s5 ∧
      registerReadStage cfg s5 = some s6 ∧ renameStage cfg s6 = some s7 ∧
      tick cfg s = some (advanceCycle (fetchStage cfg (decodeStage cfg s7))) ∧
      Housed cfg s1 ∧ Housed cfg s2 ∧ s2.m_writebackBuffer = [] ∧
      s2.m_executionList = s.m_executionList ∧
      s.m_executionList.length ≤ cfg.width * 5 ∧
      Housed cfg (executeStage cfg s2) ∧ Housed cfg (issueStage cfg (executeStage cfg s2)) ∧
      Housed cfg s5 ∧ Housed cfg s6 ∧ Housed cfg s7 := by
  obtain ⟨s1, h1, H1⟩ := housed_retireStage hl hw hr (fun e he hv =>
    (regs_of_faithful hregs (hsat.rob e he hv).1).1) h
  have l1 := hl.retireStage h1
  obtain ⟨s2, h2, H2, hwb⟩ := housed_writebackStage l1 H1
  have l2 := l1.writebackStage h2
  have hex2 : s2.m_executionList = s.m_executionList := by
    rw [writebackStage_exec h2, (retireStage_exec h1).1]
  have hex : s.m_executionList.length ≤ cfg.width * 5 := by
    have := hb.2 1 (Nat.le_refl 1)
    rw [Nat.cast_one, countRemaining_one _ hb.1] at this
    omega
  have H3 := housed_executeStage H2 hwb (by rw [hex2]; exact hex)
  have H4 := housed_issueStage H3
  have l4 : SeqLayout cfg (issueStage cfg (executeStage cfg s2)) := l2.executeStage.issueStage
  obtain ⟨s5, h5, H5⟩ := housed_dispatchStage H4 l4.rob_len
  have l5 := l4.dispatchStage h5
  obtain ⟨s6, h6, H6⟩ := housed_registerReadStage H5 l5.rob_len
  obtain ⟨l6, m6, r6⟩ := renameMap_beforeRename hl hm ht h1 h2 h5 h6
  obtain ⟨s7, h7, H7⟩ := housed_renameStage l6 m6 hr
    (by rw [r6]; exact fun x hx => (hsat.rn x hx).2)
    (by rw [r6]; exact fun x hx => regs_of_faithful hregs (hsat.rn x hx).1) H6
  have hp : pipelineStages cfg s = some (fetchStage cfg (decodeStage cfg s7)) := by
    unfold pipelineStages
    simp only [h1, h2, h5, h6, h7]
  exact ⟨s1, s2, s5, s6, s7, h1, h2, h5, h6, h7, by unfold tick; simp only [hp],
    H1, H2, hwb, hex2, hex, H3, H4, H5, H6, H7⟩

/-- On a trace of records the front end is aligned on entry to Rename. -/
theorem aligned_beforeRename {cfg : ProcessorParameters} {s s1 s2 s5 s6 : OutOfOrderProcessor}
    (h : Aligned cfg s) (h1 : retireStage cfg s = some s1) (h2 : writebackStage s1 = some s2)
    (h5 : dispatchStage cfg (issueStage cfg (executeStage cfg s2)) = some s5)
    (h6 : registerReadStage cfg s5 = some s6) (hwb : s2.m_writebackBuffer = [])
    (hex : s2.m_executionList.length ≤ cfg.width * 5) : Aligned cfg s6 := by
  obtain ⟨out, rmt, rob, head, hf1⟩ := retireStage_frame h1
  have a1 : Aligned cfg s1 :=
    aligned_of_lengths h (by rw [hf1]) (by rw [hf1]) (by rw [hf1]) (by rw [hf1]) (by rw [hf1])
  obtain ⟨rob2, hf2⟩ := writebackStage_frame h2
  have a2 : Aligned cfg s2 :=
    aligned_of_lengths a1 (by rw [hf2]) (by rw [hf2]) (by rw [hf2]) (by rw [hf2]) (by rw [hf2])
  obtain ⟨done, _, _, hf3⟩ := executeStage_done cfg s2 hwb hex
  have a3 : Aligned cfg (executeStage cfg s2) :=
    aligned_of_lengths a2 (by rw [hf3]) (by rw [hf3])
      (by rw [hf3]; exact List.length_map _ _) (by rw [hf3]; exact List.length_map _ _)
      (by rw [hf3])
  obtain ⟨iq4, ex4, hf4⟩ := issueStage_frame cfg (executeStage cfg s2)
  have a4 : Aligned cfg (issueStage cfg (executeStage cfg s2)) :=
    aligned_of_lengths a3 (by rw [hf4]) (by rw [hf4]) (by rw [hf4]) (by rw [hf4]) (by rw [hf4])
  exact aligned_registerReadStage (aligned_dispatchStage a4 h5) h6

theorem tagsOK_init (cfg : ProcessorParameters) (trace : List (Option TraceRecord)) :
    TagsOK (initializeStructures cfg trace) := by
  refine ⟨fun e he hv => ?_, fun x hx => (by cases hx), fun x hx => (by cases hx)⟩
  simp only [initializeStructures, List.mem_replicate] at he
  rw [he.2] at hv
  cases hv

/-- One tick on a trace of records keeps the meaning of the source tags. -/
theorem tagsOK_tick {cfg : ProcessorParameters} {records : List TraceRecord}
    {s s' : OutOfOrderProcessor} {b : Bool} (hr : 0 < cfg.robSize) (hw : 0 < cfg.width)
    (hregs : ∀ r ∈ records, RegsInRange r)
    (hl : SeqLayout cfg s) (hm : RenameMapOK s) (ht : SlotsTagged s) (hb : ExecBound cfg s)
    (hsat : Sat (taggedPredicates cfg records) s) (h : Housed cfg s) (ha : Aligned cfg s)
    (htags : TagsOK s) (htk : tick cfg s = some (s', b)) : TagsOK s' := by
  obtain ⟨s1, s2, s5, s6, s7, h1, h2, h5, h6, h7, h9, H1, H2, hwb, hex2, hex, H3, H4, H5, H6,
    H7⟩ := stages_of_tick hr hw hregs hl hm ht hb hsat h
  rw [htk] at h9
  have hs' : s' = (advanceCycle (fetchStage cfg (decodeStage cfg s7))).1 := by
    cases h9
    rfl
  have l1 := hl.retireStage h1
  have l2 := l1.writebackStage h2
  have T1 := tagsOK_retireStage hl hw hr h.rmt_len (fun e he hv =>
    (regs_of_faithful hregs (hsat.rob e he hv).1).1) htags h1
  have T2 := tagsOK_writebackStage l1 H1.located T1 h2
  obtain ⟨T3, S3⟩ := tagsOK_executeStage l2 T2 hwb (by rw [hex2]; exact hex)
    (by rw [hex2]; exact fun y hy => (hsat.ex y hy).2)
  obtain ⟨T4, S4⟩ := @tagsOK_issueStage cfg _ T3 S3
  obtain ⟨T5, S5⟩ := tagsOK_dispatchStage T4 S4 H4.di_cap h5
  have T6 := tagsOK_registerReadStage T5 S5 h6
  obtain ⟨l6, m6, r6⟩ := renameMap_beforeRename hl hm ht h1 h2 h5 h6
  have a6 := aligned_beforeRename ha h1 h2 h5 h6 hwb (by rw [hex2]; exact hex)
  have hal : s6.m_registerReadBuffer = [] ∨ s6.m_registerReadBuffer.length = cfg.width ∨
      s6.m_renameBuffer = [] := by
    rcases a6.2.2.1 with h0 | h0 | h0
    · exact Or.inl (List.length_eq_zero.1 h0)
    · exact Or.inr (Or.inl h0)
    · exact Or.inr (Or.inr (List.length_eq_zero.1 h0.2.1))
  have T7 := tagsOK_renameStage l6 m6
    (by rw [r6]; exact fun x hx => (hsat.rn x hx).2) hal T6 h7
  obtain ⟨de, rn, hf8⟩ := decodeStage_frame cfg s7
  obtain ⟨tr, de9, cnt, fin, hf9⟩ := fetchStage_frame cfg (decodeStage cfg s7)
  have e1 : s'.m_reorderBuffer = s7.m_reorderBuffer := by
    rw [hs']
    show (fetchStage cfg (decodeStage cfg s7)).m_reorderBuffer = _
    rw [hf9]
    show (decodeStage cfg s7).m_reorderBuffer = _
    rw [hf8]
  have e2 : s'.m_writebackBuffer = s7.m_writebackBuffer := by
    rw [hs']
    show (fetchStage cfg (decodeStage cfg s7)).m_writebackBuffer = _
    rw [hf9]
    show (decodeStage cfg s7).m_writebackBuffer = _
    rw [hf8]
  have e3 : s'.m_issueQueue = s7.m_issueQueue := by
    rw [hs']
    show (fetchStage cfg (decodeStage cfg s7)).m_issueQueue = _
    rw [hf9]
    show (decodeStage cfg s7).m_issueQueue = _
    rw [hf8]
  have e4 : s'.m_dispatchBuffer = s7.m_dispatchBuffer := by
    rw [hs']
    show (fetchStage cfg (decodeStage cfg s7)).m_dispatchBuffer = _
    rw [hf9]
    show (decodeStage cfg s7).m_dispatchBuffer = _
    rw [hf8]
  have e5 : s'.m_registerReadBuffer = s7.m_registerReadBuffer := by
    rw [hs']
    show (fetchStage cfg (decodeStage cfg s7)).m_registerReadBuffer = _
    rw [hf9]
    show (decodeStage cfg s7).m_registerReadBuffer = _
    rw [hf8]
  have e6 : wbSeqs s' = wbSeqs s7 := by
    unfold wbSeqs
    rw [e2]
  exact tagsOK_of_same T7 (fun i q hp hq => ⟨by rw [e1]; exact hp, by rw [e6]; exact hq⟩)
    (fun i q hn => by rw [e1]; exact hn) e3 e4 e5

theorem tagsOK_of_reach {cfg : ProcessorParameters} {records : List TraceRecord}
    {s : OutOfOrderProcessor} {b : Bool} (hr : 0 < cfg.robSize) (hw : 0 < cfg.width)
    (hregs : ∀ r ∈ records, RegsInRange r)
    (h : Reach cfg (wellFormedTrace records) s b) : TagsOK s := by
  have hregs' : ∀ r ∈ (wellFormedTrace records).reduceOption, RegsInRange r := by
    intro r hr'
    rw [List.reduceOption_mem_iff] at hr'
    unfold wellFormedTrace at hr'
    obtain ⟨r0, h0, h1⟩ := List.mem_map.1 hr'
    cases h1
    exact hregs r h0
  induction h with
  | init => exact tagsOK_init cfg _
  | step hs ht ih =>
    exact tagsOK_tick hr hw hregs' (SeqLayout.of_reach hs) (renameMap_of_reach hs)
      (slotsTagged_of_reach hs) (execBound_of_reach hs) (tagged_of_reach hs).1
      (housed_of_reach hr hw hregs' hs) (aligned_of_reach hs).1 ih ht

/-! ## Some stage makes progress: helpers -/

theorem executeStage_nil (cfg : ProcessorParameters) {s : OutOfOrderProcessor}
    (h : s.m_executionList = []) : executeStage cfg s = s := by
  unfold executeStage
  rw [if_pos (by rw [h]; rfl)]

theorem issueStage_valid_le (cfg : ProcessorParameters) (s : OutOfOrderProcessor) :
    (issueStage cfg s).m_issueQueue.countP (fun e => e.valid) ≤
      s.m_issueQueue.countP (fun e => e.valid) := by
  unfold issueStage
  split
  · exact Nat.le_refl _
  · obtain ⟨sel, _, hperm, _⟩ := issueLoop_sel (s.m_cycleCount : Int) cfg.width
      (s.m_issueQueue.map (stampIssue (s.m_cycleCount : Int))) s.m_executionList
    have hc := hperm.length_eq
    rw [List.length_append, ← List.countP_eq_length_filter, ← List.countP_eq_length_filter,
      countP_valid_map _ (fun e => (stampIssue_keys _ e).1)] at hc
    show List.countP _ (issueLoop _ _ _ _).1 ≤ _
    omega

theorem exists_min_seq :
    ∀ l : List IssueQueueEntry, l ≠ [] →
      ∃ e, e ∈ l ∧ ∀ e' ∈ l, e.instruction.sequenceNum ≤ e'.instruction.sequenceNum := by
  intro l
  induction l with
  | nil => intro h; exact absurd rfl h
  | cons a l ih =>
    intro _
    by_cases hl : l = []
    · subst hl
      refine ⟨a, List.mem_cons_self _ _, fun e' he' => ?_⟩
      rw [List.mem_singleton.1 he']
    · obtain ⟨m, hm, hmin⟩ := ih hl
      by_cases hle : a.instruction.sequenceNum ≤ m.instruction.sequenceNum
      · refine ⟨a, List.mem_cons_self _ _, fun e' he' => ?_⟩
        rcases List.mem_cons.1 he' with h1 | h1
        · rw [h1]
        · exact Nat.le_trans hle (hmin e' h1)
      · refine ⟨m, List.mem_cons_of_mem _ hm, fun e' he' => ?_⟩
        rcases List.mem_cons.1 he' with h1 | h1
        · rw [h1]
          omega
        · exact hmin e' h1

theorem free_add_valid (l : List IssueQueueEntry) :
    (l.filter (fun e => !e.valid)).length + l.countP (fun e => e.valid) = l.length := by
  induction l with
  | nil => rfl
  | cons a l ih =>
    cases hv : a.valid <;> simp [List.filter_cons, List.countP_cons, hv] <;> omega

theorem fetchCycle_lt {T : Int} {x : Instruction} (h : inIssue T x) : x.fetchCycle < T := by
  simp only [inIssue, doneDispatch, doneRegisterRead, doneRename, doneDecode, doneFetch,
    Arrived] at h
  omega

/-- With nothing in the writeback buffer and the execution list, the oldest instruction of
the issue queue waits for no producer. -/
theorem oldest_is_ready {s : OutOfOrderProcessor} (hloc : Located s) (htags : TagsOK s)
    (hwb : s.m_writebackBuffer = []) (hex : s.m_executionList = [])
    {e : IssueQueueEntry} (he : e ∈ s.m_issueQueue) (hv : e.valid = true)
    (hmin : ∀ e' ∈ s.m_issueQueue.filter (fun e => e.valid),
      e.instruction.sequenceNum ≤ e'.instruction.sequenceNum) :
    IssueReady e := by
  have hback : ∀ q ∈ backSeqs s, e.instruction.sequenceNum ≤ q := by
    intro q hq
    unfold backSeqs at hq
    simp only [hwb, hex, List.map_nil, List.nil_append] at hq
    obtain ⟨e', he', rfl⟩ := List.mem_map.1 hq
    exact hmin e' he'
  have hk : e.instruction.sequenceNum ∈ backSeqs s := by
    unfold backSeqs
    exact List.mem_append_right _
      (List.mem_map.2 ⟨e, List.mem_filter.2 ⟨he, hv⟩, rfl⟩)
  have key : ∀ t, Waits s.m_reorderBuffer (wbSeqs s) e.instruction.sequenceNum t → t = -1 := by
    intro t ht
    rcases ht with ht | ⟨_, q, hq, hp, _⟩
    · exact ht
    · exfalso
      have hfl := hloc.there _ q hp
      unfold flightSeqs at hfl
      rcases List.mem_append.1 hfl with h1 | h1
      · have := hback q h1
        omega
      · have := hloc.older _ hk q h1
        omega
  exact ⟨hv, key _ (htags.iq e he hv).1, key _ (htags.iq e he hv).2⟩

theorem flightSeqs_nil {s : OutOfOrderProcessor} (hwb : s.m_writebackBuffer = [])
    (hex : s.m_executionList = []) (hiq : ∀ e ∈ s.m_issueQueue, e.valid = false)
    (hdi : s.m_dispatchBuffer = []) (hrr : s.m_registerReadBuffer = []) :
    flightSeqs s = [] := by
  have : s.m_issueQueue.filter (fun e => e.valid) = [] := by
    rw [List.filter_eq_nil_iff]
    intro e he
    rw [hiq e he]
    simp
  unfold flightSeqs backSeqs frontSeqs
  simp only [hwb, hex, hdi, hrr, this, List.map_nil, List.append_nil]

theorem countReady_le_countValid (rob : List ReorderBufferEntry) :
    rob.countP (fun e => e.valid && e.ready) ≤ countValid rob := by
  unfold countValid
  apply List.countP_mono_left
  intro e _ h
  simp only [Bool.and_eq_true] at h
  exact h.1

/-! ## Every tick lowers the potential -/

/-- One tick never raises the potential, and lowers it while it is not zero: the stage
nearest to Retire that has an instruction to work on moves one on. -/
theorem potential_tick {cfg : ProcessorParameters} {records : List TraceRecord}
    {s s' : OutOfOrderProcessor} {b : Bool}
    (hw : 0 < cfg.width) (hrw : cfg.width ≤ cfg.robSize) (hiw : cfg.width ≤ cfg.iqSize)
    (hregs : ∀ r ∈ records, RegsInRange r)
    (hl : SeqLayout cfg s) (hm : RenameMapOK s) (ht : SlotsTagged s) (hb : ExecBound cfg s)
    (hsat : Sat (taggedPredicates cfg records) s)
    (htim : Sat (timingPredicates (s.m_cycleCount : Int)) s)
    (h : Housed cfg s) (htags : TagsOK s) (htr : ∀ x ∈ s.m_traceFile, x ≠ none)
    (hcyc : (s.m_cycleCount : Int) ≤ INT_MAX) (htk : tick cfg s = some (s', b)) :
    potential s' ≤ potential s ∧ (0 < potential s → potential s' < potential s) := by
  have hr : 0 < cfg.robSize := Nat.lt_of_lt_of_le hw hrw
  have hregs' : ∀ e ∈ s.m_reorderBuffer, e.valid = true →
      -1 ≤ e.instruction.destReg ∧ e.instruction.destReg < ARF_SIZE :=
    fun e he hv => (regs_of_faithful hregs (hsat.rob e he hv).1).1
  obtain ⟨s1, s2, s5, s6, s7, h1, h2, h5, h6, h7, h9, H1, H2, hwb, hex2, hex, H3, H4, H5, H6,
    H7⟩ := stages_of_tick hr hw hregs hl hm ht hb hsat h
  rw [htk] at h9
  have hs' : s' = (advanceCycle (fetchStage cfg (decodeStage cfg s7))).1 := by
    cases h9
    rfl
  have hP' : potential s' = potential (fetchStage cfg (decodeStage cfg s7)) := by
    rw [hs']
    rfl
  have l1 := hl.retireStage h1
  have l2 := l1.writebackStage h2
  have l4 : SeqLayout cfg (issueStage cfg (executeStage cfg s2)) := l2.executeStage.issueStage
  obtain ⟨l6, m6, r6⟩ := renameMap_beforeRename hl hm ht h1 h2 h5 h6
  -- the frames of the stages
  obtain ⟨s1', e1, ⟨out, rmt, rob, head, hf1⟩, hp1, _, _, hcnt1, hprog1, hle1⟩ :=
    retireStage_flight hl hw hr h.rmt_len hregs'
  rw [h1] at e1
  cases e1
  obtain ⟨rob2, hf2⟩ := writebackStage_frame h2
  obtain ⟨iq4, ex4, hf4⟩ := issueStage_frame cfg (executeStage cfg s2)
  obtain ⟨di5, iq5, hf5⟩ := dispatchStage_frame h5
  obtain ⟨rr6, di6, hf6⟩ := registerReadStage_frame h6
  obtain ⟨⟨rob7, rmt7, rr7, rn7, tail7, hf7⟩, hcons7, _, _, _⟩ := renameStage_lengths h7
  obtain ⟨de8, rn8, hf8⟩ := decodeStage_frame cfg s7
  have htr8 : (decodeStage cfg s7).m_traceFile = s.m_traceFile := by
    rw [(decodeStage_scalars cfg s7).2.1, (renameStage_scalars h7).2.1,
      (registerReadStage_scalars h6).2.1, (dispatchStage_scalars h5).2.1,
      (issueStage_scalars cfg _).2.1, (executeStage_scalars cfg s2).2.1,
      (writebackStage_scalars h2).2.1, (retireStage_scalars h1).2.1]
  have hwb1 : s1.m_writebackBuffer = s.m_writebackBuffer := by rw [hf1]
  -- the potential through the stages
  have P1 := (potential_retireStage hl hw hr h.rmt_len hregs' h1).1
  have P2 := potential_writebackStage l1 H1.located h2
  have P3 := @potential_executeStage cfg s2 hwb (by rw [hex2]; exact hex)
    (by rw [hex2]; exact hb.1)
  obtain ⟨n4, P4, G4⟩ := potential_issueStage cfg (executeStage cfg s2)
  obtain ⟨n5, P5, G5⟩ := potential_dispatchStage H4 l4.rob_len h5
  obtain ⟨k6, P6, G6⟩ := potential_registerReadStage h6
  obtain ⟨k7, P7, G7⟩ := potential_renameStage l6 h7
  obtain ⟨k8, P8, G8⟩ := potential_decodeStage cfg s7
  obtain ⟨k9, P9, G9⟩ := potential_fetchStage cfg (decodeStage cfg s7)
    (by rw [htr8]; exact htr)
  refine ⟨by omega, fun hpos => ?_⟩
  by_contra hns
  -- no stage moved anything
  have z1 : s1.m_output.length = s.m_output.length := by omega
  have z2 : s1.m_writebackBuffer.length = 0 := by omega
  have z3 : s2.m_executionList.length = 0 := by omega
  have z4 : n4 = 0 := by omega
  have z5 : n5 = 0 := by omega
  have z6 : k6 = 0 := by omega
  have z7 : k7 = 0 := by omega
  have z8 : k8 = 0 := by omega
  have z9 : k9 = 0 := by omega
  -- Writeback and Execute had nothing to do
  have hWB : s.m_writebackBuffer = [] := by
    rw [← hwb1]
    exact List.length_eq_zero.1 z2
  have hEX2 : s2.m_executionList = [] := List.length_eq_zero.1 z3
  have hEX : s.m_executionList = [] := by rw [← hex2]; exact hEX2
  have e21 : s2 = s1 := by
    have := writebackStage_idle (List.length_eq_zero.1 z2)
    rw [h2] at this
    exact Option.some.inj this
  have hs3 : executeStage cfg s2 = s2 := executeStage_nil cfg hEX2
  have hidle1 : HeadIdle s1 := by
    rcases hprog1 with hlt | hi
    · omega
    · exact hi
  -- the issue queue holds nothing
  have hiq2 : s2.m_issueQueue = s.m_issueQueue := by rw [e21, hf1]
  have hIQ : ∀ e ∈ s.m_issueQueue, e.valid = false := by
    by_contra hex'
    have hne : s.m_issueQueue.filter (fun e => e.valid) ≠ [] := by
      intro hnil
      apply hex'
      intro e he
      rw [List.filter_eq_nil_iff] at hnil
      have := hnil e he
      simpa using this
    obtain ⟨e, he, hmin⟩ := exists_min_seq _ hne
    obtain ⟨he1, he2⟩ := List.mem_filter.1 he
    have hready := oldest_is_ready h.located htags hWB hEX he1 he2 hmin
    have hfc := fetchCycle_lt (htim.iq e he1 he2)
    have hpos4 : 0 < n4 := by
      refine G4 ?_ hw ⟨e, ?_, hready, by omega⟩
      · rw [hs3, hEX2, List.length_nil]
        omega
      · rw [hs3, hiq2]
        exact he1
    omega
  -- the dispatch buffer
  have hdi4 : (issueStage cfg (executeStage cfg s2)).m_dispatchBuffer = s.m_dispatchBuffer := by
    rw [hf4]
    show (executeStage cfg s2).m_dispatchBuffer = _
    rw [hs3, e21, hf1]
  have hrr4 : (issueStage cfg (executeStage cfg s2)).m_registerReadBuffer =
      s.m_registerReadBuffer := by
    rw [hf4]
    show (executeStage cfg s2).m_registerReadBuffer = _
    rw [hs3, e21, hf1]
  have hDI : s.m_dispatchBuffer = [] := by
    have hfull : isIssueQueueFull cfg (issueStage cfg (executeStage cfg s2)) = false := by
      have hv := issueStage_valid_le cfg (executeStage cfg s2)
      rw [show (executeStage cfg s2).m_issueQueue = s.m_issueQueue from by
        rw [hs3, hiq2]] at hv
      have h0 : s.m_issueQueue.countP (fun e => e.valid) = 0 := by
        rw [List.countP_eq_zero]
        intro e he
        rw [hIQ e he]
        simp
      have hfr := free_add_valid (issueStage cfg (executeStage cfg s2)).m_issueQueue
      have hlen := H4.iq_len
      unfold isIssueQueueFull
      rw [decide_eq_false_iff_not]
      omega
    have := G5 hfull
    rw [hdi4] at this
    exact List.length_eq_zero.1 (by omega)
  -- the register read buffer
  have hdi5 : s5.m_dispatchBuffer.length = 0 := by
    rcases dispatchStage_lengths h5 with h0 | h0
    · exact h0
    · rw [h0, hdi4, hDI]
      rfl
  have hrr5 : s5.m_registerReadBuffer = s.m_registerReadBuffer := by
    rw [hf5]
    exact hrr4
  have hRR : s.m_registerReadBuffer = [] := by
    by_contra hne
    have := G6 (by omega) (by rw [hrr5]; exact hne)
    omega
  -- the rename buffer
  have hrr6 : s6.m_registerReadBuffer.length = 0 := by
    obtain ⟨k, hk, _⟩ := registerReadStage_lengths h6
    rw [hrr5, hRR, List.length_nil] at hk
    omega
  have hnp : ∀ i q, ¬ Pending s.m_reorderBuffer i q := by
    intro i q hp
    have := h.located.there i q hp
    rw [flightSeqs_nil hWB hEX hIQ hDI hRR] at this
    cases this
  have hrob6 : s6.m_reorderBuffer = s1.m_reorderBuffer := by
    rw [hf6]
    show s5.m_reorderBuffer = _
    rw [hf5]
    show (issueStage cfg (executeStage cfg s2)).m_reorderBuffer = _
    rw [(issueStage_scalars cfg _).2.2.2, hs3, e21]
  have hhead6 : s6.m_robHead = s1.m_robHead := by
    rw [hf6]
    show s5.m_robHead = _
    rw [hf5]
    show (issueStage cfg (executeStage cfg s2)).m_robHead = _
    rw [hf4]
    show (executeStage cfg s2).m_robHead = _
    rw [hs3, e21]
  have hRN : s.m_renameBuffer = [] := by
    by_contra hne
    have hidle6 : HeadIdle s6 := by
      unfold HeadIdle
      rw [hrob6, hhead6]
      exact hidle1
    have hcv := l6.rob_empty hidle6 (fun i q hp => hnp i q (by
      rw [hrob6] at hp
      exact (hp1 i q).1 hp))
    have hfree := countFree_add_countValid s6.m_reorderBuffer
    have hlen := l6.rob_len
    have hfull : isReorderBufferFull cfg s6 = false := by
      unfold isReorderBufferFull
      rw [decide_eq_false_iff_not]
      omega
    have := G7 hfull (by omega) (by rw [r6]; exact hne)
    omega
  -- the decode buffer
  have hrn7 : s7.m_renameBuffer.length = 0 := by
    rw [r6, hRN, List.length_nil] at hcons7
    omega
  have hde7 : s7.m_decodeBuffer = s.m_decodeBuffer := by
    rw [hf7]
    show s6.m_decodeBuffer = _
    rw [hf6]
    show s5.m_decodeBuffer = _
    rw [hf5]
    show (issueStage cfg (executeStage cfg s2)).m_decodeBuffer = _
    rw [hf4]
    show (executeStage cfg s2).m_decodeBuffer = _
    rw [hs3, e21, hf1]
  have hDE : s.m_decodeBuffer = [] := by
    by_contra hne
    have := G8 (by omega) (by rw [hde7]; exact hne)
    omega
  -- the trace
  have hde8 : (decodeStage cfg s7).m_decodeBuffer.length = 0 := by
    obtain ⟨k, hk, _⟩ := decodeStage_lengths cfg s7
    rw [hde7, hDE, List.length_nil] at hk
    omega
  have hTR : s.m_traceFile = [] := by
    by_contra hne
    have := G9 (by omega) (by rw [htr8]; exact hne) hw
    omega
  -- the reorder buffer
  have hR : s.m_reorderBuffer.countP (fun e => e.valid && e.ready) = 0 := by
    have hcv := l1.rob_empty hidle1 (fun i q hp => hnp i q ((hp1 i q).1 hp))
    have := countReady_le_countValid s1.m_reorderBuffer
    omega
  have h0 : s.m_issueQueue.countP (fun e => e.valid) = 0 := by
    rw [List.countP_eq_zero]
    intro e he
    rw [hIQ e he]
    simp
  have : potential s = 0 := by
    unfold potential
    rw [hTR, hDE, hRN, hRR, hDI, hEX, hWB, h0, hR]
    rfl
  omega

/-! ## Termination on traces of well-formed records -/

theorem tick_cycleCount {cfg : ProcessorParameters} {s s' : OutOfOrderProcessor} {b : Bool}
    (h : tick cfg s = some (s', b)) : s'.m_cycleCount = s.m_cycleCount + 1 := by
  obtain ⟨s9, h9, hs', _⟩ := tick_eq_some h
  obtain ⟨s1, s2, s5, s6, s7, h1, h2, h5, h6, h7, rfl⟩ := pipelineStages_eq_some h9
  obtain ⟨tr, de, cnt, fin, hf9⟩ := fetchStage_frame cfg (decodeStage cfg s7)
  rw [hs']
  show (fetchStage cfg (decodeStage cfg s7)).m_cycleCount + 1 = _
  rw [hf9]
  show (decodeStage cfg s7).m_cycleCount + 1 = _
  rw [(decodeStage_scalars cfg s7).1, (renameStage_scalars h7).1,
    (registerReadStage_scalars h6).1, (dispatchStage_scalars h5).1,
    (issueStage_scalars cfg _).1, (executeStage_scalars cfg s2).1,
    (writebackStage_scalars h2).1, (retireStage_scalars h1).1]

theorem potential_init (cfg : ProcessorParameters) (trace : List (Option TraceRecord)) :
    potential (initializeStructures cfg trace) = 13 * trace.length := by
  have h1 : (List.replicate cfg.iqSize ({} : IssueQueueEntry)).countP (fun e => e.valid) = 0 := by
    rw [List.countP_eq_zero]
    intro e he
    rw [(List.mem_replicate.1 he).2]
    simp
  have h2 : (List.replicate cfg.robSize ({} : ReorderBufferEntry)).countP
      (fun e => e.valid && e.ready) = 0 := by
    rw [List.countP_eq_zero]
    intro e he
    rw [(List.mem_replicate.1 he).2]
    simp
  unfold potential initializeStructures
  simp only [List.length_nil, List.map_nil, List.sum_nil, h1, h2, Nat.mul_zero, Nat.add_zero]

/-- A state of potential zero holds no instruction: the driver stops there. -/
theorem hasInstructions_of_potential {cfg : ProcessorParameters} {s : OutOfOrderProcessor}
    (hloc : Located s) (hb : ExecBound cfg s) (h : potential s = 0) :
    hasInstructions s = false := by
  unfold potential at h
  have hde : s.m_decodeBuffer = [] := List.length_eq_zero.1 (by omega)
  have hrn : s.m_renameBuffer = [] := List.length_eq_zero.1 (by omega)
  have hrr : s.m_registerReadBuffer = [] := List.length_eq_zero.1 (by omega)
  have hdi : s.m_dispatchBuffer = [] := List.length_eq_zero.1 (by omega)
  have hwb : s.m_writebackBuffer = [] := List.length_eq_zero.1 (by omega)
  have hiq0 : s.m_issueQueue.countP (fun e => e.valid) = 0 := by omega
  have hR : s.m_reorderBuffer.countP (fun e => e.valid && e.ready) = 0 := by omega
  have hsum : (s.m_executionList.map (fun e => (2 + e.remainingCycles).toNat)).sum = 0 := by
    omega
  have hex : s.m_executionList = [] := by
    cases hl : s.m_executionList with
    | nil => rfl
    | cons a l =>
      exfalso
      have h1 := hb.1 a (by rw [hl]; exact List.mem_cons_self _ _)
      rw [hl] at hsum
      simp only [List.map_cons, List.sum_cons] at hsum
      omega
  have hiq : ∀ e ∈ s.m_issueQueue, e.valid = false := by
    intro e he
    rw [List.countP_eq_zero] at hiq0
    have := hiq0 e he
    simpa using this
  have hrob : ∀ e ∈ s.m_reorderBuffer, e.valid = false := by
    intro e he
    cases hv : e.valid with
    | false => rfl
    | true =>
      exfalso
      rw [List.countP_eq_zero] at hR
      have hnr := hR e he
      simp only [hv, Bool.true_and, Bool.not_eq_true] at hnr
      obtain ⟨i, hi⟩ := List.mem_iff_getElem?.1 he
      have := hloc.there i e.instruction.sequenceNum ⟨e, hi, hv, hnr, rfl⟩
      rw [flightSeqs_nil hwb hex hiq hdi hrr] at this
      cases this
  have h1 : isIssueQueueEmpty s = true := by
    unfold isIssueQueueEmpty
    rw [List.all_eq_true]
    intro e he
    rw [hiq e he]
    rfl
  have h2 : isReorderBufferEmpty s = true := by
    unfold isReorderBufferEmpty
    rw [List.all_eq_true]
    intro e he
    rw [hrob e he]
    rfl
  unfold hasInstructions
  rw [hde, hrn, hrr, hdi, hwb, hex, h1, h2]
  rfl

/-- From a state of a run on a trace of records, the driver halts within as many ticks as
the potential of the state, plus one. -/
theorem halts_from {cfg : ProcessorParameters} {records : List TraceRecord}
    (hw : 0 < cfg.width) (hrw : cfg.width ≤ cfg.robSize) (hiw : cfg.width ≤ cfg.iqSize)
    (hregs : ∀ r ∈ records, RegsInRange r)
    (hN : ((13 * records.length : Nat) : Int) < INT_MAX) :
    ∀ (n : Nat) (s : OutOfOrderProcessor), Reach cfg (wellFormedTrace records) s true →
      potential s ≤ n → s.m_cycleCount + potential s ≤ 13 * records.length →
      ∃ fuel s', fuel ≤ n + 1 ∧ simulate cfg fuel s = SimResult.halted s' ∧
        Reach cfg (wellFormedTrace records) s' false := by
  have hr : 0 < cfg.robSize := Nat.lt_of_lt_of_le hw hrw
  have hregs' : ∀ r ∈ (wellFormedTrace records).reduceOption, RegsInRange r := by
    intro r hr'
    rw [List.reduceOption_mem_iff] at hr'
    unfold wellFormedTrace at hr'
    obtain ⟨r0, h0, h1⟩ := List.mem_map.1 hr'
    cases h1
    exact hregs r h0
  intro n
  induction n with
  | zero =>
    intro s hs hpot hcyc
    obtain ⟨s', b, htk⟩ := tick_defined hr hw hregs' hs
    have hs' := Reach.step hs htk
    have hmono := (potential_tick hw hrw hiw hregs' (SeqLayout.of_reach hs)
      (renameMap_of_reach hs) (slotsTagged_of_reach hs) (execBound_of_reach hs)
      (tagged_of_reach hs).1 (timing_of_reach hw hs) (housed_of_reach hr hw hregs' hs)
      (tagsOK_of_reach hr hw hregs hs) (by
        intro x hx
        rw [(faithful_of_reach hs).2.1] at hx
        unfold wellFormedTrace at hx
        obtain ⟨r, _, hr'⟩ := List.mem_map.1 hx
        rw [← hr']
        exact Option.some_ne_none r) (by omega) htk).1
    have hz := hasInstructions_of_potential (housed_of_reach hr hw hregs' hs').located
      (execBound_of_reach hs') (by omega)
    obtain ⟨_, _, _, hb⟩ := tick_eq_some htk
    rw [hz] at hb
    subst hb
    exact ⟨1, s', Nat.le_refl _, by rw [simulate_succ, htk], hs'⟩
  | succ n ih =>
    intro s hs hpot hcyc
    obtain ⟨s', b, htk⟩ := tick_defined hr hw hregs' hs
    have hs' := Reach.step hs htk
    have hprog := potential_tick hw hrw hiw hregs' (SeqLayout.of_reach hs)
      (renameMap_of_reach hs) (slotsTagged_of_reach hs) (execBound_of_reach hs)
      (tagged_of_reach hs).1 (timing_of_reach hw hs) (housed_of_reach hr hw hregs' hs)
      (tagsOK_of_reach hr hw hregs hs) (by
        intro x hx
        rw [(faithful_of_reach hs).2.1] at hx
        unfold wellFormedTrace at hx
        obtain ⟨r, _, hr'⟩ := List.mem_map.1 hx
        rw [← hr']
        exact Option.some_ne_none r) (by omega) htk
    have hc := tick_cycleCount htk
    cases b with
    | false => exact ⟨1, s', by omega, by rw [simulate_succ, htk], hs'⟩
    | true =>
      have hpos : 0 < potential s := by
        by_contra h0
        have hz := hasInstructions_of_potential (housed_of_reach hr hw hregs' hs').located
          (execBound_of_reach hs') (by omega)
        obtain ⟨_, _, _, hb⟩ := tick_eq_some htk
        rw [hz] at hb
        cases hb
      have hlt := hprog.2 hpos
      obtain ⟨fuel, s'', hf, hsim, hre⟩ := ih s' hs' (by omega) (by omega)
      exact ⟨fuel + 1, s'', by omega, by rw [simulate_succ, htk]; exact hsim, hre⟩

/-- C10, amended. Termination: for every configuration with `1 ≤ width ≤ robSize` and
`width ≤ iqSize`, with `width * 5` below `2^32` (the product the code forms in `uint32_t`
for its capacity tests), and every finite trace of `N` well-formed records whose register
fields lie in `[-1, 66]`, with `13 * N` below `INT_MAX`, the cycle driver halts after at
most `13 * N + 1` ticks, and at that point DE, RN, RR, DI, WB, the Execute list, the IQ and
the ROB are all empty. -/
theorem driver_terminates {cfg : ProcessorParameters} {records : List TraceRecord}
    (hw : 1 ≤ cfg.width) (hrw : cfg.width ≤ cfg.robSize) (hiw : cfg.width ≤ cfg.iqSize)
    (_h32 : cfg.width * 5 < 4294967296)
    (hregs : ∀ r ∈ records, RegsInRange r)
    (hN : ((13 * records.length : Nat) : Int) < INT_MAX) :
    ∃ fuel s, fuel ≤ 13 * records.length + 1 ∧
      simulate cfg fuel (initializeStructures cfg (wellFormedTrace records)) =
        SimResult.halted s ∧ AllEmpty s := by
  have hp := potential_init cfg (wellFormedTrace records)
  have hlen : (wellFormedTrace records).length = records.length := by
    unfold wellFormedTrace
    exact List.length_map _ _
  rw [hlen] at hp
  obtain ⟨fuel, s, hf, hsim, hre⟩ := halts_from hw hrw hiw hregs hN (13 * records.length)
    (initializeStructures cfg (wellFormedTrace records)) Reach.init (by omega) (by
      rw [hp]
      show 0 + _ ≤ _
      omega)
  exact ⟨fuel, s, hf, hsim, allEmpty_of_hasInstructions (hasInstructions_of_reach hre)⟩

theorem driver_terminates_witness :
    (1 ≤ cfgS1.width ∧ cfgS1.width ≤ cfgS1.robSize ∧ cfgS1.width ≤ cfgS1.iqSize ∧
      cfgS1.width * 5 < 4294967296) ∧
      ∃ fuel s, fuel ≤ 40 ∧
        simulate cfgS1 fuel (initializeStructures cfgS1 traceS2) = SimResult.halted s ∧
        AllEmpty s :=
  ⟨by decide,
    @driver_terminates cfgS1
      [{ pc := 0, opType := 0, destReg := 1, src1Reg := -1, src2Reg := -1 },
       { pc := 0, opType := 0, destReg := 2, src1Reg := 1, src2Reg := -1 },
       { pc := 0, opType := 0, destReg := 3, src1Reg := 2, src2Reg := -1 }]
      (by decide) (by decide) (by decide) (by decide)
      (by
        intro r h
        simp only [List.mem_cons, List.mem_singleton, List.not_mem_nil, or_false] at h
        rcases h with rfl | rfl | rfl <;> (unfold RegsInRange; decide))
      (by decide)⟩

/-! ## The latency of an operation type -/

theorem execLatency_cases (t : Int) :
    (execLatency t = 1 ↔ t = 0) ∧ (execLatency t = 2 ↔ t = 1) ∧
      (execLatency t = 5 ↔ (t ≠ 0 ∧ t ≠ 1)) := by
  unfold execLatency
  by_cases h0 : t = 0
  · subst h0
    simp
  · by_cases h1 : t = 1
    · subst h1
      simp
    · simp [h0, h1]

/-- C27. Latency of out-of-range op types. Fetch makes an instruction of every record it
reads, whatever the integer `opType` of the record, and the instruction carries this
`opType`; in every state of a run an execution entry still carries the `opType` of its
record. The latency `issueStage` computes is 1 exactly for `opType = 0`, 2 exactly for
`opType = 1` and 5 exactly for every other value, negative ones and values above 2
included, so it is one of 1, 2, 5; every entry `issueStage` appends to the execution list
has this latency as `remainingCycles`, which is at least 1. -/
theorem latency_of_op_types :
    (∀ (n : Nat) (s : OutOfOrderProcessor) (r : TraceRecord) (rest : List (Option TraceRecord)),
      s.m_traceFile = some r :: rest →
      fetchLoop (n + 1) s = fetchLoop n { s with
        m_traceFile := rest
        m_instructionCount := s.m_instructionCount + 1
        m_decodeBuffer :=
          s.m_decodeBuffer ++ [fetchInstruction s.m_cycleCount r s.m_instructionCount] } ∧
      (fetchInstruction s.m_cycleCount r s.m_instructionCount).opType = r.opType) ∧
    (∀ t : Int, (execLatency t = 1 ↔ t = 0) ∧ (execLatency t = 2 ↔ t = 1) ∧
      (execLatency t = 5 ↔ (t ≠ 0 ∧ t ≠ 1)) ∧
      (execLatency t = 1 ∨ execLatency t = 2 ∨ execLatency t = 5)) ∧
    (∀ (cfg : ProcessorParameters) (s : OutOfOrderProcessor),
      ∃ sel : List IssueQueueEntry,
        (issueStage cfg s).m_executionList = s.m_executionList ++ sel.map (fun e =>
          ({ instruction := leaveIssue (s.m_cycleCount : Int) e.instruction,
             remainingCycles := execLatency e.instruction.opType } : ExecutionEntry)) ∧
        ∀ e ∈ sel, 1 ≤ execLatency e.instruction.opType) ∧
    (∀ (cfg : ProcessorParameters) (trace : List (Option TraceRecord))
      (s : OutOfOrderProcessor) (b : Bool), Reach cfg trace s b →
      ∀ e ∈ s.m_executionList, 1 ≤ e.remainingCycles ∧
        ∃ r, trace.reduceOption[e.instruction.sequenceNum]? = some r ∧
          e.instruction.opType = r.opType) := by
  refine ⟨fun n s r rest h => ⟨?_, rfl⟩, fun t => ?_, fun cfg s => ?_,
    fun cfg trace s b h e he => ?_⟩
  · rw [fetchLoop]
    simp only [h]
  · obtain ⟨h1, h2, h3⟩ := execLatency_cases t
    refine ⟨h1, h2, h3, ?_⟩
    by_cases h0 : t = 0
    · exact Or.inl (h1.2 h0)
    · by_cases h1' : t = 1
      · exact Or.inr (Or.inl (h2.2 h1'))
      · exact Or.inr (Or.inr (h3.2 ⟨h0, h1'⟩))
  · unfold issueStage
    split
    · exact ⟨[], by simp, by simp⟩
    · obtain ⟨sel, h2, _⟩ := issueLoop_sel (s.m_cycleCount : Int) cfg.width
        (s.m_issueQueue.map (stampIssue (s.m_cycleCount : Int))) s.m_executionList
      exact ⟨sel, h2, fun e _ => (execLatency_range _).1⟩
  · refine ⟨(execBound_of_reach h).1 e he, traceRecordOf e.instruction, ?_, rfl⟩
    exact ((tagged_of_reach h).1.ex e he).1

/-! ## No instruction waits for itself -/

/-- A source tag that is none or the slot of a producer in the reorder buffer is not the
free slot at the tail. -/
theorem sourceTag_ne_tail {rob : List ReorderBufferEntry} {k : Nat} {reg tag : Int}
    {tail : Nat} {et : ReorderBufferEntry} (h : SourceTagOK rob k reg tag)
    (het : rob[tail]? = some et) (hev : et.valid = false) : tag ≠ (tail : Int) := by
  intro heq
  by_cases hreg : reg = -1
  · have := h.1 hreg
    omega
  · rcases h.2 hreg with ⟨h1, _⟩ | ⟨_, n, ⟨e, he, hv, _⟩, _⟩
    · omega
    · rw [heq, Int.toNat_ofNat, het] at he
      cases he
      rw [hev] at hv
      cases hv

theorem renameStage_no_self {cfg : ProcessorParameters} {s s' : OutOfOrderProcessor}
    (hl : SeqLayout cfg s) (hm : RenameMapOK s)
    (hu : ∀ x ∈ s.m_renameBuffer, Unrenamed x) (hs : renameStage cfg s = some s') :
    ∃ new, s'.m_registerReadBuffer = s.m_registerReadBuffer ++ new ∧
      ∀ x ∈ new, x.src1Rename ≠ x.destRename ∧ x.src2Rename ≠ x.destRename := by
  have hseq : ∀ x, (stampRename (s.m_cycleCount : Int) x).sequenceNum = x.sequenceNum := by
    intro x; unfold stampRename; split <;> rfl
  have h1 : SeqLayout cfg { s with
      m_renameBuffer := s.m_renameBuffer.map (stampRename (s.m_cycleCount : Int)) } := by
    refine hl.of_keys rfl rfl rfl rfl rfl (by simp) ?_
    simp only [List.map_append, map_stamp_seq _ hseq]
  have hu1 : ∀ x ∈ s.m_renameBuffer.map (stampRename (s.m_cycleCount : Int)),
      Unrenamed x := by
    refine forall_mem_map hu (fun x hx => ?_)
    refine Unrenamed.congr_src hx ?_ ?_ <;>
    · unfold stampRename
      split <;> rfl
  unfold renameStage at hs
  simp only at hs
  split at hs
  · simp only [Option.some.injEq] at hs
    subst hs
    exact ⟨[], by simp, by simp⟩
  · rename_i hc
    simp only [Bool.or_eq_true, decide_eq_true_eq, not_or, isReorderBufferFull,
      Nat.not_lt] at hc
    have key := renameLoop_induction
      (I := fun st => RenameMapOK st ∧ (∀ x ∈ st.m_renameBuffer, Unrenamed x) ∧
        ∃ new, st.m_registerReadBuffer = s.m_registerReadBuffer ++ new ∧
          ∀ x ∈ new, x.src1Rename ≠ x.destRename ∧ x.src2Rename ≠ x.destRename)
      cfg (s.m_cycleCount : Int) ?_ _
      { s with m_renameBuffer := s.m_renameBuffer.map (stampRename (s.m_cycleCount : Int)) }
      s' rfl h1 (by
        show cfg.width ≤ (s.m_reorderBuffer.filter (fun e => !e.valid)).length + _
        omega) hs ⟨hm, hu1, [], by simp, by simp⟩
    · obtain ⟨_, _, new, h2, h3⟩ := key
      exact ⟨new, h2, h3⟩
    · intro st inst rn et t1 t2 rmt hrn hst het hev ht1 ht2 hd hi
      obtain ⟨hi1, hi2, new, hi3, hi4⟩ := hi
      have hold : ∀ r i n, Producer st.m_reorderBuffer r i n → n < inst.sequenceNum := by
        intro r i n h
        have := (hst.producer_range h).2
        have hnext := hst.front_number hrn
        omega
      have hinst := hi2 inst (by rw [hrn]; exact List.mem_cons_self _ _)
      rw [hinst.1] at ht1
      rw [hinst.2] at ht2
      refine ⟨renameMap_allocate _ _ _ hrn hst het hev hd hi1,
        fun x hx => hi2 x (by rw [hrn]; exact List.mem_cons_of_mem _ hx),
        new ++ [leaveRename (s.m_cycleCount : Int) t1 t2 st.m_robTail inst], ?_, ?_⟩
      · show st.m_registerReadBuffer ++ _ = _
        rw [hi3, List.append_assoc]
      · intro x hx
        rcases List.mem_append.1 hx with hx | hx
        · exact hi4 x hx
        · simp only [List.mem_singleton] at hx
          subst hx
          exact ⟨sourceTag_ne_tail (renameSource_ok hi1 ht1 _ hold) het hev,
            sourceTag_ne_tail (renameSource_ok hi1 ht2 _ hold) het hev⟩

/-- C26. No self-dependency: when `renameStage` of the next tick of a state of a run moves
instructions to the register read buffer, each of them has neither source tag equal to its
own destination tag, also when a source register is the destination register: each source
tag is the slot of the youngest earlier producer of the register still in the reorder
buffer, and none when the register is none or has no such producer. -/
theorem no_self_dependency {cfg : ProcessorParameters} {trace : List (Option TraceRecord)}
    {s : OutOfOrderProcessor} {b : Bool} (h : Reach cfg trace s b) :
    ∀ s6 s7, beforeRename cfg s = some s6 → renameStage cfg s6 = some s7 →
      ∃ new, s7.m_registerReadBuffer = s6.m_registerReadBuffer ++ new ∧
        ∀ x ∈ new, x.src1Rename ≠ x.destRename ∧ x.src2Rename ≠ x.destRename ∧
          RenamedOK s7.m_reorderBuffer x := by
  intro s6 s7 h6 h7
  obtain ⟨s1, s2, s5, h1, h2, h5, h6'⟩ := beforeRename_eq_some h6
  obtain ⟨l6, m6, r6⟩ := renameMap_beforeRename (SeqLayout.of_reach h) (renameMap_of_reach h)
    (slotsTagged_of_reach h) h1 h2 h5 h6'
  have hu : ∀ x ∈ s6.m_renameBuffer, Unrenamed x := by
    rw [r6]
    exact fun x hx => ((tagged_of_reach h).1.rn x hx).2
  obtain ⟨new, hnew, hself⟩ := renameStage_no_self l6 m6 hu h7
  obtain ⟨new', hnew', htag⟩ := renameStage_tags l6 m6 hu h7
  have : new' = new := List.append_cancel_left (hnew'.symm.trans hnew)
  subst this
  exact ⟨new', hnew, fun x hx => ⟨(hself x hx).1, (hself x hx).2, htag x hx⟩⟩

theorem no_self_dependency_witness :
    (stateAfter cfgS1 traceS2 4).m_renameBuffer.length = 1 ∧
      ∀ s6 s7, beforeRename cfgS1 (stateAfter cfgS1 traceS2 4) = some s6 →
        renameStage cfgS1 s6 = some s7 →
        ∃ new, s7.m_registerReadBuffer = s6.m_registerReadBuffer ++ new ∧
          ∀ x ∈ new, x.src1Rename ≠ x.destRename ∧ x.src2Rename ≠ x.destRename ∧
            RenamedOK s7.m_reorderBuffer x :=
  ⟨by decide, (reach_stateAfter cfgS1 traceS2 4).elim (fun _ h => no_self_dependency h)⟩

/-! ## Execute with room in the writeback buffer -/

/-- One run of the inner loop of `executeStage` when the writeback buffer has room for
every completed entry: the early return is not taken, the entries erased are completed
ones, every entry not completed stays, in order, and a completed entry is erased if there
is one. -/
theorem executePass_room (cfg : ProcessorParameters) (cyc : Int) :
    ∀ (n : Nat) (l : List ExecutionEntry) (c : ExecuteContext), l.length ≤ n →
      c.wb.length + l.countP (fun e => decide (e.remainingCycles = 0)) ≤ cfg.width * 5 →
      (executePass cfg cyc l c).2.2 = false ∧
      (executePass cfg cyc l c).1.filter (fun e => decide (e.remainingCycles ≠ 0)) =
        l.filter (fun e => decide (e.remainingCycles ≠ 0)) ∧
      (isExecutionNeeded l = true → (executePass cfg cyc l c).1.length < l.length) ∧
      ∃ done, (executePass cfg cyc l c).2.1 = completeAll cyc done c ∧
        ((executePass cfg cyc l c).1 ++ done).Perm l ∧
        ∀ y ∈ done, y.remainingCycles = 0 := by
  intro n
  induction n with
  | zero =>
    intro l c hl _
    have : l = [] := List.length_eq_zero.1 (by omega)
    subst this
    exact ⟨rfl, rfl, fun h => by simp [isExecutionNeeded] at h, [], rfl,
      by simp [executePass], by simp⟩
  | succ n ih =>
    intro l c hl hb
    cases l with
    | nil =>
      exact ⟨rfl, rfl, fun h => by simp [isExecutionNeeded] at h, [], rfl,
        by simp [executePass], by simp⟩
    | cons x l =>
      simp only [List.length_cons] at hl
      by_cases hz : x.remainingCycles = 0
      · simp only [List.countP_cons, hz, decide_True, if_true] at hb
        have hf : (wakeup x.instruction.destRename c).wb.length ≠ cfg.width * 5 := by
          show c.wb.length ≠ cfg.width * 5
          omega
        cases l with
        | nil =>
          rw [executePass_single_zero _ _ _ _ hz hf]
          refine ⟨rfl, by simp [hz], fun _ => by simp, [x], rfl, by simp, by simpa using hz⟩
        | cons y l =>
          rw [executePass_cons_zero _ _ _ _ _ _ hz hf]
          simp only [List.length_cons] at hl
          simp only [List.countP_cons] at hb
          have hlen : (completeOne cyc c x).wb.length = c.wb.length + 1 := by
            simp [completeOne, wakeup]
          obtain ⟨h1, h2, _, done, g1, g2, g3⟩ := ih l (completeOne cyc c x) (by omega)
            (by omega)
          refine ⟨h1, ?_, fun _ => ?_, x :: done, g1, ?_, ?_⟩
          · show List.filter _ (y :: (executePass cfg cyc l (completeOne cyc c x)).1) = _
            simp only [List.filter_cons, hz, ne_eq, not_true_eq_false, decide_False,
              Bool.false_eq_true, ↓reduceIte]
            rw [h2]
          · show (y :: (executePass cfg cyc l (completeOne cyc c x)).1).length < _
            have hp := g2.length_eq
            simp only [List.length_cons, List.length_append] at hp ⊢
            omega
          · show (y :: (executePass cfg cyc l (completeOne cyc c x)).1 ++ x :: done).Perm
              (x :: y :: l)
            have h4 : (y :: ((executePass cfg cyc l (completeOne cyc c x)).1 ++ done)).Perm
                (y :: l) := List.Perm.cons y g2
            refine List.Perm.trans ?_ (List.Perm.cons x h4)
            show ((y :: (executePass cfg cyc l (completeOne cyc c x)).1) ++ x :: done).Perm
              (x :: ((y :: (executePass cfg cyc l (completeOne cyc c x)).1) ++ done))
            exact List.perm_middle
          · intro z hzm
            rcases List.mem_cons.1 hzm with rfl | hzm
            · exact hz
            · exact g3 z hzm
      · simp only [List.countP_cons, hz, decide_False, Bool.false_eq_true, if_false,
          Nat.add_zero] at hb
        rw [executePass_cons_nonzero _ _ _ _ _ hz]
        obtain ⟨h1, h2, h4, done, g1, g2, g3⟩ := ih l c (by omega) hb
        refine ⟨h1, ?_, fun hn => ?_, done, g1, by simpa using List.Perm.cons x g2, g3⟩
        · simp only [List.filter_cons, hz, ne_eq, not_false_eq_true, decide_True, ↓reduceIte]
          rw [h2]
        · simp only [List.length_cons]
          have : isExecutionNeeded l = true := by
            simpa [isExecutionNeeded, hz] using hn
          have := h4 this
          omega

theorem countP_zero_done {done : List ExecutionEntry}
    (h : ∀ y ∈ done, y.remainingCycles = 0) :
    done.countP (fun e => decide (e.remainingCycles = 0)) = done.length := by
  rw [List.countP_eq_length]
  intro y hy
  simpa using h y hy

/-- The loop of `executeStage` when the writeback buffer has room for every completed
entry: the early return is never taken, the entries left are the ones not completed, in
order, and the context is as after `completeAll` on the completed ones, in some order. -/
theorem executeLoop_room (cfg : ProcessorParameters) (cyc : Int) :
    ∀ (fuel : Nat) (l : List ExecutionEntry) (c : ExecuteContext), l.length < fuel →
      c.wb.length + l.countP (fun e => decide (e.remainingCycles = 0)) ≤ cfg.width * 5 →
      executeLoopEarly cfg cyc fuel l c = false ∧
      ∃ done, executeLoop cfg cyc fuel l c =
          (l.filter (fun e => decide (e.remainingCycles ≠ 0)), completeAll cyc done c) ∧
        (l.filter (fun e => decide (e.remainingCycles ≠ 0)) ++ done).Perm l ∧
        ∀ y ∈ done, y.remainingCycles = 0 := by
  intro fuel
  induction fuel with
  | zero => intro l c h; omega
  | succ fuel ih =>
    intro l c hl hb
    unfold executeLoop executeLoopEarly
    split
    · rename_i hn
      obtain ⟨h1, h2, h4, d1, g1, g2, g3⟩ :=
        executePass_room cfg cyc l.length l c (Nat.le_refl _) hb
      simp only [h1, Bool.false_eq_true, ↓reduceIte]
      have hcnt := g2.countP_eq (fun e => decide (e.remainingCycles = 0))
      rw [List.countP_append, countP_zero_done g3] at hcnt
      have hwb : (executePass cfg cyc l c).2.1.wb.length = c.wb.length + d1.length := by
        rw [g1, completeAll_wb, List.length_append, List.length_map]
      obtain ⟨e2, d2, k1, k2, k3⟩ := ih (executePass cfg cyc l c).1
        (executePass cfg cyc l c).2.1 (by have := h4 hn; omega) (by omega)
      refine ⟨e2, d1 ++ d2, ?_, ?_, ?_⟩
      · rw [k1, h2, g1, completeAll_append]
      · rw [h2] at k2
        have : ((List.filter (fun e => decide (e.remainingCycles ≠ 0)) l ++ d2) ++ d1).Perm
            ((executePass cfg cyc l c).1 ++ d1) := List.Perm.append_right d1 k2
        refine List.Perm.trans ?_ (this.trans g2)
        rw [List.append_assoc]
        exact List.Perm.append_left _ List.perm_append_comm
      · intro y hy
        rcases List.mem_append.1 hy with hy | hy
        · exact g3 y hy
        · exact k3 y hy
    · rename_i hn
      simp only [Bool.not_eq_true] at hn
      have hall : ∀ e ∈ l, e.remainingCycles ≠ 0 := by
        intro e he
        simp only [isExecutionNeeded, List.any_eq_false, decide_eq_true_eq] at hn
        exact hn e he
      have hf : l.filter (fun e => decide (e.remainingCycles ≠ 0)) = l := by
        rw [List.filter_eq_self]
        intro e he
        simpa using hall e he
      exact ⟨rfl, [], by rw [hf]; rfl, by rw [List.append_nil, hf], by simp⟩

/-- `executeStage` when the writeback buffer has room for the entries with one cycle
remaining: it does not take the early return; the entries not completed stay, in order; the
completed ones go to the writeback buffer, in some order; the issue queue and the dispatch
and register read buffers get the wakeups for their destination tags. -/
theorem executeStage_room (cfg : ProcessorParameters) (s : OutOfOrderProcessor)
    (hroom : s.m_writebackBuffer.length +
      s.m_executionList.countP (fun e => decide (e.remainingCycles = 1)) ≤ cfg.width * 5) :
    executeReturnsEarly cfg s = false ∧
    ∃ done : List ExecutionEntry,
      done.Perm ((s.m_executionList.map (stampExecute (s.m_cycleCount : Int))).filter
        (fun e => decide (e.remainingCycles = 0))) ∧
      executeStage cfg s = { s with
        m_executionList := (s.m_executionList.map (stampExecute (s.m_cycleCount : Int))).filter
          (fun e => decide (e.remainingCycles ≠ 0))
        m_issueQueue :=
          s.m_issueQueue.map (wakeAllEntry (done.map (fun y => y.instruction.destRename)))
        m_dispatchBuffer :=
          s.m_dispatchBuffer.map (wakeAll (done.map (fun y => y.instruction.destRename)))
        m_registerReadBuffer :=
          s.m_registerReadBuffer.map (wakeAll (done.map (fun y => y.instruction.destRename)))
        m_writebackBuffer := s.m_writebackBuffer ++
          done.map (fun y => leaveExecute (s.m_cycleCount : Int) y.instruction) } := by
  by_cases he : s.m_executionList = []
  · refine ⟨?_, [], by simp [he], ?_⟩
    · unfold executeReturnsEarly
      rw [if_pos (by simp [he])]
    · unfold executeStage
      rw [if_pos (by simp [he])]
      simp only [he, List.map_nil, List.filter_nil, map_wakeAll_nil, map_wakeAllEntry_nil,
        List.append_nil]
      rw [← he]
  · have hcnt : (s.m_executionList.map (stampExecute (s.m_cycleCount : Int))).countP
        (fun e => decide (e.remainingCycles = 0)) =
        s.m_executionList.countP (fun e => decide (e.remainingCycles = 1)) := by
      rw [List.countP_map]
      apply List.countP_congr
      intro e _
      have : (stampExecute (s.m_cycleCount : Int) e).remainingCycles =
          e.remainingCycles - 1 := rfl
      simp only [Function.comp, this, decide_eq_true_eq]
      omega
    obtain ⟨hearly, done, h1, h2, h3⟩ := executeLoop_room cfg (s.m_cycleCount : Int)
      ((s.m_executionList.map (stampExecute (s.m_cycleCount : Int))).length + 1)
      (s.m_executionList.map (stampExecute (s.m_cycleCount : Int)))
      { iq := s.m_issueQueue, di := s.m_dispatchBuffer, rr := s.m_registerReadBuffer,
        wb := s.m_writebackBuffer } (Nat.lt_succ_self _) (by rw [hcnt]; exact hroom)
    refine ⟨?_, done, ?_, ?_⟩
    · unfold executeReturnsEarly
      rw [if_neg (by simpa using he)]
      exact hearly
    · have hp := h2.filter (fun e => decide (e.remainingCycles = 0))
      rw [List.filter_append] at hp
      have e1 : List.filter (fun e => decide (e.remainingCycles = 0))
          (List.filter (fun e => decide (e.remainingCycles ≠ 0))
            (s.m_executionList.map (stampExecute (s.m_cycleCount : Int)))) = [] := by
        rw [List.filter_eq_nil_iff]
        intro e he'
        have := (List.mem_filter.1 he').2
        simpa using this
      have e2 : List.filter (fun e => decide (e.remainingCycles = 0)) done = done := by
        rw [List.filter_eq_self]
        intro e he'
        simpa using h3 e he'
      rw [e1, e2, List.nil_append] at hp
      exact hp
    · unfold executeStage
      rw [if_neg (by simpa using he)]
      simp only [h1]
      have hc := completeAll_ctx (s.m_cycleCount : Int) done
        { iq := s.m_issueQueue, di := s.m_dispatchBuffer, rr := s.m_registerReadBuffer,
          wb := s.m_writebackBuffer }
      have hw := completeAll_wb (s.m_cycleCount : Int) done
        { iq := s.m_issueQueue, di := s.m_dispatchBuffer, rr := s.m_registerReadBuffer,
          wb := s.m_writebackBuffer }
      rw [hc.1, hc.2.1, hc.2.2, hw]

theorem stamp_filter_pos {cyc : Int} {l : List ExecutionEntry}
    (h : ∀ e ∈ l, 1 ≤ e.remainingCycles) :
    ∀ e ∈ (l.map (stampExecute cyc)).filter (fun e => decide (e.remainingCycles ≠ 0)),
      1 ≤ e.remainingCycles := by
  intro e he
  obtain ⟨hm, hz⟩ := List.mem_filter.1 he
  obtain ⟨x, hx, rfl⟩ := List.mem_map.1 hm
  have h1 := h x hx
  have h2 : (stampExecute cyc x).remainingCycles = x.remainingCycles - 1 := rfl
  simp only [ne_eq, decide_not, Bool.not_eq_true', decide_eq_false_iff_not] at hz
  omega

/-- C22, where `width * 5` is below `2^32` (the capacity tests of the code are against
this product formed in `uint32_t`). Completed work is never lost. In every reachable state
every entry of the execution list has `remainingCycles ≥ 1`, and in the tick that starts
there `executeStage` is entered with an empty writeback buffer and at most `width * 5`
entries in the execution list, so the buffer holds fewer than `width * 5` instructions
whenever a completed entry is moved: the early return is not taken, every entry whose
counter reaches 0 is appended to the writeback buffer in this very call, and no entry with
`remainingCycles ≤ 0` is left in the execution list. -/
theorem completed_work_never_lost {cfg : ProcessorParameters}
    {trace : List (Option TraceRecord)} {s : OutOfOrderProcessor} {b : Bool}
    (h : Reach cfg trace s b) (_h32 : cfg.width * 5 < 4294967296) :
    (∀ e ∈ s.m_executionList, 1 ≤ e.remainingCycles) ∧
    ∀ s2, beforeExecute cfg s = some s2 →
      s2.m_writebackBuffer = [] ∧
      s2.m_executionList.length ≤ cfg.width * 5 ∧
      executeReturnsEarly cfg s2 = false ∧
      (∃ done : List ExecutionEntry,
        done.Perm ((s2.m_executionList.map (stampExecute (s2.m_cycleCount : Int))).filter
          (fun e => decide (e.remainingCycles = 0))) ∧
        (executeStage cfg s2).m_writebackBuffer =
          done.map (fun y => leaveExecute (s2.m_cycleCount : Int) y.instruction) ∧
        (executeStage cfg s2).m_writebackBuffer.length ≤ cfg.width * 5 ∧
        (executeStage cfg s2).m_executionList =
          (s2.m_executionList.map (stampExecute (s2.m_cycleCount : Int))).filter
            (fun e => decide (e.remainingCycles ≠ 0))) ∧
      ∀ e ∈ (executeStage cfg s2).m_executionList, ¬ e.remainingCycles ≤ 0 := by
  have hb := execBound_of_reach h
  refine ⟨hb.1, fun s2 h2 => ?_⟩
  unfold beforeExecute at h2
  cases h1 : retireStage cfg s with
  | none => rw [h1] at h2; simp at h2
  | some s1 =>
    rw [h1] at h2
    simp only at h2
    have hwb := writebackStage_drains h2
    have hex : s2.m_executionList = s.m_executionList := by
      rw [writebackStage_exec h2, (retireStage_exec h1).1]
    have hlen : s2.m_executionList.length ≤ cfg.width * 5 := by
      have := hb.2 1 (Nat.le_refl 1)
      rw [Nat.cast_one, countRemaining_one _ hb.1] at this
      rw [hex]
      omega
    have hroom : s2.m_writebackBuffer.length +
        s2.m_executionList.countP (fun e => decide (e.remainingCycles = 1)) ≤
        cfg.width * 5 := by
      rw [hwb]
      have := List.countP_le_length (fun e : ExecutionEntry => decide (e.remainingCycles = 1))
        (l := s2.m_executionList)
      simp only [List.length_nil, Nat.zero_add]
      omega
    obtain ⟨hearly, done, hp, heq⟩ := executeStage_room cfg s2 hroom
    refine ⟨hwb, hlen, hearly, ⟨done, hp, by rw [heq, hwb]; rfl, ?_, by rw [heq]⟩, ?_⟩
    · rw [heq]
      simp only [hwb, List.nil_append, List.length_map]
      have h1 := hp.length_eq
      have h2 := List.length_filter_le (fun e : ExecutionEntry => decide (e.remainingCycles = 0))
        (s2.m_executionList.map (stampExecute (s2.m_cycleCount : Int)))
      rw [List.length_map] at h2
      omega
    · rw [heq]
      intro e he
      have := @stamp_filter_pos (s2.m_cycleCount : Int) _ (hex ▸ hb.1) e he
      omega

theorem completed_work_never_lost_witness :
    ((beforeExecute cfgS1 (stateAfter cfgS1 traceBurst 10)).isSome = true ∧
      stateBurstBeforeExecute.m_executionList.map (fun e => e.remainingCycles) = [1, 1, 1] ∧
      cfgS1.width * 5 < 4294967296) ∧
    ((∀ e ∈ (stateAfter cfgS1 traceBurst 10).m_executionList, 1 ≤ e.remainingCycles) ∧
    ∀ s2, beforeExecute cfgS1 (stateAfter cfgS1 traceBurst 10) = some s2 →
      s2.m_writebackBuffer = [] ∧
      s2.m_executionList.length ≤ cfgS1.width * 5 ∧
      executeReturnsEarly cfgS1 s2 = false ∧
      (∃ done : List ExecutionEntry,
        done.Perm ((s2.m_executionList.map (stampExecute (s2.m_cycleCount : Int))).filter
          (fun e => decide (e.remainingCycles = 0))) ∧
        (executeStage cfgS1 s2).m_writebackBuffer =
          done.map (fun y => leaveExecute (s2.m_cycleCount : Int) y.instruction) ∧
        (executeStage cfgS1 s2).m_writebackBuffer.length ≤ cfgS1.width * 5 ∧
        (executeStage cfgS1 s2).m_executionList =
          (s2.m_executionList.map (stampExecute (s2.m_cycleCount : Int))).filter
            (fun e => decide (e.remainingCycles ≠ 0))) ∧
      ∀ e ∈ (executeStage cfgS1 s2).m_executionList, ¬ e.remainingCycles ≤ 0) :=
  ⟨by decide,
    (reach_stateAfter cfgS1 traceBurst 10).elim (fun _ h => completed_work_never_lost h (by decide))⟩

/-! ## The slots of the instructions in flight, on any trace and configuration -/

/-- A defined `retireStage` keeps the slots of the instructions in flight. -/
theorem housed_retireStage_of {cfg : ProcessorParameters} {s s1 : OutOfOrderProcessor}
    (hl : SeqLayout cfg s) (h : Housed cfg s) (hs : retireStage cfg s = some s1) :
    Housed cfg s1 := by
  have key : (∃ out rmt rob head, s1 = { s with
        m_output := out, m_renameTable := rmt, m_reorderBuffer := rob, m_robHead := head }) ∧
      (∀ i q, Pending s1.m_reorderBuffer i q ↔ Pending s.m_reorderBuffer i q) ∧
      s1.m_renameTable.length = ARF_SIZE := by
    unfold OoO.retireStage at hs
    split at hs
    · simp only [Option.some.injEq] at hs
      subst hs
      exact ⟨⟨_, _, _, _, rfl⟩, fun _ _ => Iff.rfl, h.rmt_len⟩
    · have hl1 : SeqLayout cfg { s with
          m_reorderBuffer := s.m_reorderBuffer.map (stampRetire (s.m_cycleCount : Int)) } := by
        refine hl.of_keys ?_ rfl rfl rfl rfl rfl rfl
        dsimp only
        rw [List.map_map]
        apply List.map_congr_left
        intro e _
        simp only [Function.comp, stampRetire]
        split <;> rfl
      have hk := stampRetire_keys (s.m_cycleCount : Int)
      have hsl := retireLoop_slots cfg (s.m_cycleCount : Int) _ cfg.width _ s1 hl1 hs
        ⟨fun _ _ => Iff.rfl, fun _ _ h => h, rfl, rfl, Nat.le_refl _⟩
      obtain ⟨out, rmt, rob, head, hf⟩ := retireLoop_frame _ _ _ _ _ hs
      refine ⟨⟨out, rmt, rob, head, hf⟩, fun i q => ?_, ?_⟩
      · rw [hsl.1 i q]
        exact pending_map hk _ i q
      · rw [hsl.2.2.1]
        exact h.rmt_len
  obtain ⟨⟨out, rmt, rob, head, hf⟩, hp, hrmt⟩ := key
  have hb : backSeqs s1 = backSeqs s := by rw [hf]; rfl
  have hfr : frontSeqs s1 = frontSeqs s := by rw [hf]; rfl
  have hrr : s1.m_registerReadBuffer = s.m_registerReadBuffer := by rw [hf]
  have hdi : s1.m_dispatchBuffer = s.m_dispatchBuffer := by rw [hf]
  refine ⟨?_, hrmt, by rw [hrr]; exact h.rr_cap, by rw [hdi]; exact h.di_cap,
    by rw [hrr]; exact h.rr_tags, by rw [hdi]; exact h.di_tags, by rw [hf]; exact h.iq_len⟩
  refine h.located.transfer hp [] ?_ ?_
  · rw [hb, List.append_nil]
  · rw [hfr, List.nil_append]

/-- A defined `renameStage` keeps the slots of the instructions in flight. -/
theorem housed_renameStage_of {cfg : ProcessorParameters} {s s7 : OutOfOrderProcessor}
    (hl : SeqLayout cfg s) (hm : RenameMapOK s)
    (hu : ∀ x ∈ s.m_renameBuffer, Unrenamed x)
    (h : Housed cfg s) (hs : renameStage cfg s = some s7) :
    Housed cfg s7 := by
  have hseq : ∀ x, (stampRename (s.m_cycleCount : Int) x).sequenceNum = x.sequenceNum := by
    intro x; unfold stampRename; split <;> rfl
  have h1 : SeqLayout cfg { s with
      m_renameBuffer := s.m_renameBuffer.map (stampRename (s.m_cycleCount : Int)) } := by
    refine hl.of_keys rfl rfl rfl rfl rfl (by simp) ?_
    simp only [List.map_append, map_stamp_seq _ hseq]
  have hcap := (renameStage_lengths hs).2.2.2.2 h.rr_cap
  obtain ⟨new, hnew, htag⟩ := renameStage_tags hl hm hu hs
  have hlen7 := (hl.renameStage hs).rob_len
  have hrr : ∀ x ∈ s7.m_registerReadBuffer,
      TagBound cfg x.src1Rename ∧ TagBound cfg x.src2Rename := by
    intro x hx
    rw [hnew] at hx
    rcases List.mem_append.1 hx with hx | hx
    · exact h.rr_tags x hx
    · exact ⟨tagBound_of_sourceTag hlen7 (htag x hx).1,
        tagBound_of_sourceTag hlen7 (htag x hx).2⟩
  have key : Located s7 ∧ s7.m_renameTable.length = ARF_SIZE ∧
      s7.m_dispatchBuffer = s.m_dispatchBuffer ∧ s7.m_issueQueue = s.m_issueQueue := by
    unfold renameStage at hs
    simp only at hs
    split at hs
    · simp only [Option.some.injEq] at hs
      subst hs
      exact ⟨located_congr h.located rfl rfl rfl, h.rmt_len, rfl, rfl⟩
    · rename_i hc
      simp only [Bool.or_eq_true, decide_eq_true_eq, not_or, isReorderBufferFull,
        Nat.not_lt] at hc
      refine renameLoop_induction
        (I := fun st => Located st ∧ st.m_renameTable.length = ARF_SIZE ∧
          st.m_dispatchBuffer = s.m_dispatchBuffer ∧ st.m_issueQueue = s.m_issueQueue)
        cfg (s.m_cycleCount : Int) ?_ _
        { s with m_renameBuffer := s.m_renameBuffer.map (stampRename (s.m_cycleCount : Int)) }
        s7 rfl h1 (by
          show cfg.width ≤ (s.m_reorderBuffer.filter (fun e => !e.valid)).length + _
          omega) hs ⟨located_congr h.located rfl rfl rfl, h.rmt_len, rfl, rfl⟩
      intro st inst rn et t1 t2 rmt hrn hst het hev _ _ hd hi
      have hx : (leaveRename (s.m_cycleCount : Int) t1 t2 st.m_robTail inst).sequenceNum =
          inst.sequenceNum := rfl
      exact ⟨located_allocate _ hx rmt rn _ hrn hst het hev hi.1,
        (renameDest_length hd).trans hi.2.1, hi.2.2⟩
  exact ⟨key.1, key.2.1, hcap, by rw [key.2.2.1]; exact h.di_cap, hrr,
    by rw [key.2.2.1]; exact h.di_tags, by rw [key.2.2.2]; exact h.iq_len⟩

/-- A defined tick keeps the slots of the instructions in flight, and so does its
`retireStage`. -/
theorem housed_tick_of {cfg : ProcessorParameters} {records : List TraceRecord}
    {s s' : OutOfOrderProcessor} {b : Bool}
    (hl : SeqLayout cfg s) (hm : RenameMapOK s) (ht : SlotsTagged s) (hb : ExecBound cfg s)
    (hsat : Sat (taggedPredicates cfg records) s) (h : Housed cfg s)
    (htk : tick cfg s = some (s', b)) : Housed cfg s' := by
  obtain ⟨s9, h9, rfl, _⟩ := tick_eq_some htk
  obtain ⟨s1, s2, s5, s6, s7, h1, h2, h5, h6, h7, rfl⟩ := pipelineStages_eq_some h9
  have H1 := housed_retireStage_of hl h h1
  have l1 := hl.retireStage h1
  obtain ⟨s2', h2', H2, hwb⟩ := housed_writebackStage l1 H1
  rw [h2] at h2'
  cases h2'
  have l2 := l1.writebackStage h2
  have hex : s2.m_executionList.length ≤ cfg.width * 5 := by
    rw [writebackStage_exec h2, (retireStage_exec h1).1]
    have := hb.2 1 (Nat.le_refl 1)
    rw [Nat.cast_one, countRemaining_one _ hb.1] at this
    omega
  have H4 := housed_issueStage (housed_executeStage H2 hwb hex)
  have l4 : SeqLayout cfg (issueStage cfg (executeStage cfg s2)) := l2.executeStage.issueStage
  obtain ⟨s5', h5', H5⟩ := housed_dispatchStage H4 l4.rob_len
  rw [h5] at h5'
  cases h5'
  have l5 := l4.dispatchStage h5
  obtain ⟨s6', h6', H6⟩ := housed_registerReadStage H5 l5.rob_len
  rw [h6] at h6'
  cases h6'
  obtain ⟨l6, m6, r6⟩ := renameMap_beforeRename hl hm ht h1 h2 h5 h6
  have H7 := housed_renameStage_of l6 m6
    (by rw [r6]; exact fun x hx => (hsat.rn x hx).2) H6 h7
  have H8 : Housed cfg (decodeStage cfg s7) := by
    obtain ⟨de, rn, hf⟩ := decodeStage_frame cfg s7
    rw [hf]
    exact housed_of_back H7 rfl rfl rfl rfl rfl (List.Perm.refl _)
  have H9 : Housed cfg (fetchStage cfg (decodeStage cfg s7)) := by
    obtain ⟨tr, de, cnt, fin, hf⟩ := fetchStage_frame cfg (decodeStage cfg s7)
    rw [hf]
    exact housed_of_back H8 rfl rfl rfl rfl rfl (List.Perm.refl _)
  exact housed_of_back H9 rfl rfl rfl rfl rfl (List.Perm.refl _)

/-- Every state of a run, on any trace and with any configuration, has the slots of its
instructions in flight. -/
theorem housed_reach {cfg : ProcessorParameters} {trace : List (Option TraceRecord)}
    {s : OutOfOrderProcessor} {b : Bool} (h : Reach cfg trace s b) : Housed cfg s := by
  induction h with
  | init => exact housed_init cfg trace
  | step hs ht ih =>
    exact housed_tick_of (SeqLayout.of_reach hs) (renameMap_of_reach hs)
      (slotsTagged_of_reach hs) (execBound_of_reach hs) (tagged_of_reach hs).1 ih ht

/-- The writeback buffer after a tick is the one `executeStage` of this tick left. -/
theorem tick_writebackBuffer {cfg : ProcessorParameters} {s s' : OutOfOrderProcessor}
    {b : Bool} (ht : tick cfg s = some (s', b)) :
    ∃ s1 s2, retireStage cfg s = some s1 ∧ writebackStage s1 = some s2 ∧
      s'.m_writebackBuffer = (executeStage cfg s2).m_writebackBuffer := by
  obtain ⟨s9, h9, rfl, _⟩ := tick_eq_some ht
  obtain ⟨s1, s2, s5, s6, s7, h1, h2, h5, h6, h7, rfl⟩ := pipelineStages_eq_some h9
  refine ⟨s1, s2, h1, h2, ?_⟩
  obtain ⟨tr, de, cnt, fin, hf9⟩ := fetchStage_frame cfg (decodeStage cfg s7)
  obtain ⟨de8, rn8, hf8⟩ := decodeStage_frame cfg s7
  obtain ⟨⟨rob, rmt, rr, rn, tail, hf7⟩, _⟩ := renameStage_lengths h7
  obtain ⟨rr6, di6, hf6⟩ := registerReadStage_frame h6
  obtain ⟨di5, iq5, hf5⟩ := dispatchStage_frame h5
  obtain ⟨iq4, ex4, hf4⟩ := issueStage_frame cfg (executeStage cfg s2)
  show (advanceCycle (fetchStage cfg (decodeStage cfg s7))).1.m_writebackBuffer = _
  have e9 : (advanceCycle (fetchStage cfg (decodeStage cfg s7))).1.m_writebackBuffer =
      (fetchStage cfg (decodeStage cfg s7)).m_writebackBuffer := rfl
  rw [e9, hf9]
  show (decodeStage cfg s7).m_writebackBuffer = _
  rw [hf8]
  show s7.m_writebackBuffer = _
  rw [hf7]
  show s6.m_writebackBuffer = _
  rw [hf6]
  show s5.m_writebackBuffer = _
  rw [hf5]
  show (issueStage cfg (executeStage cfg s2)).m_writebackBuffer = _
  rw [hf4]

theorem housed_wb {cfg : ProcessorParameters} {s : OutOfOrderProcessor} (h : Housed cfg s) :
    (∀ q ∈ wbSeqs s, ∃ i, Pending s.m_reorderBuffer i q) ∧ (wbSeqs s).Nodup := by
  have hnd := h.located.nodup
  rw [flightSeqs_split] at hnd
  exact ⟨fun q hq => h.located.here q (by
    rw [flightSeqs_split]; exact List.mem_append_left _ hq), (List.nodup_append.1 hnd).1⟩

theorem execAge_stamp (cyc : Int) (e : ExecutionEntry) :
    execAge (stampExecute cyc e) = execAge e + 1 := by
  have h1 : (stampExecute cyc e).instruction.opType = e.instruction.opType := by
    unfold stampExecute
    dsimp only
    split <;> rfl
  have h2 : (stampExecute cyc e).remainingCycles = e.remainingCycles - 1 := rfl
  unfold execAge
  rw [h1, h2]
  omega

theorem countAge_stamp (cyc : Int) (d : Int) (l : List ExecutionEntry) :
    countAge d (l.map (stampExecute cyc)) = countAge (d - 1) l := by
  unfold countAge
  rw [List.countP_map]
  apply List.countP_congr
  intro e _
  simp only [Function.comp, execAge_stamp, decide_eq_true_eq]
  omega

theorem countAge_filter_le (d : Int) (p : ExecutionEntry → Bool) (l : List ExecutionEntry) :
    countAge d (l.filter p) ≤ countAge d l :=
  (List.filter_sublist l).countP_le _

theorem countAge_append (d : Int) (l l' : List ExecutionEntry) :
    countAge d (l ++ l') = countAge d l + countAge d l' := by
  unfold countAge
  exact List.countP_append _ _ _

theorem executeStage_age {cfg : ProcessorParameters} {s : OutOfOrderProcessor}
    (h : AgeBound cfg s) (hwb : s.m_writebackBuffer = [])
    (hlen : s.m_executionList.length ≤ cfg.width * 5) :
    AgeBoundDrained cfg (executeStage cfg s) := by
  unfold AgeBoundDrained
  rw [executeStage_list cfg s hwb hlen]
  refine ⟨fun e he => ?_, fun d => ?_⟩
  · obtain ⟨e0, he0, rfl⟩ := List.mem_map.1 (List.mem_filter.1 he).1
    rw [execAge_stamp]
    have := h.1 e0 he0
    omega
  · refine (countAge_filter_le _ _ _).trans ?_
    rw [countAge_stamp]
    exact h.2 _

theorem issueStage_age {cfg : ProcessorParameters} {s : OutOfOrderProcessor}
    (h : AgeBoundDrained cfg s) : AgeBound cfg (issueStage cfg s) := by
  unfold issueStage
  split
  · exact ⟨fun e he => by have := h.1 e he; omega, h.2⟩
  · obtain ⟨sel, h1, _, _, _, h2, _⟩ := issueLoop_sel (s.m_cycleCount : Int) cfg.width
      (s.m_issueQueue.map (stampIssue (s.m_cycleCount : Int))) s.m_executionList
    have hnew : ∀ e ∈ sel.map (fun e =>
        ({ instruction := leaveIssue (s.m_cycleCount : Int) e.instruction,
           remainingCycles :=
            execLatency (leaveIssue (s.m_cycleCount : Int) e.instruction).opType } :
          ExecutionEntry)), execAge e = 0 := by
      intro e he
      obtain ⟨x, _, rfl⟩ := List.mem_map.1 he
      unfold execAge
      simp only [sub_self]
    refine ⟨?_, fun d => ?_⟩
    · intro e he
      have he' : e ∈ (issueLoop (s.m_cycleCount : Int) cfg.width
          (s.m_issueQueue.map (stampIssue (s.m_cycleCount : Int))) s.m_executionList).2 := he
      rw [h1] at he'
      rcases List.mem_append.1 he' with he' | he'
      · have := h.1 e he'
        omega
      · rw [hnew e he']
    · show countAge d (issueLoop _ _ _ _).2 ≤ _
      rw [h1, countAge_append]
      by_cases hd : d = 0
      · have : countAge d s.m_executionList = 0 := by
          unfold countAge
          rw [List.countP_eq_zero]
          intro e he
          have := h.1 e he
          simp only [decide_eq_true_eq]
          omega
        have h3 : countAge d (sel.map (fun e =>
            ({ instruction := leaveIssue (s.m_cycleCount : Int) e.instruction,
               remainingCycles :=
                execLatency (leaveIssue (s.m_cycleCount : Int) e.instruction).opType } :
              ExecutionEntry))) ≤ cfg.width := by
          unfold countAge
          refine (List.countP_le_length _).trans ?_
          rw [List.length_map]
          exact h2
        omega
      · have : countAge d (sel.map (fun e =>
            ({ instruction := leaveIssue (s.m_cycleCount : Int) e.instruction,
               remainingCycles :=
                execLatency (leaveIssue (s.m_cycleCount : Int) e.instruction).opType } :
              ExecutionEntry))) = 0 := by
          unfold countAge
          rw [List.countP_eq_zero]
          intro e he
          simp only [decide_eq_true_eq]
          rw [hnew e he]
          exact fun h0 => hd h0.symm
        have := h.2 d
        omega

theorem ageBound_tick {cfg : ProcessorParameters} {s s' : OutOfOrderProcessor} {b : Bool}
    (h : AgeBound cfg s) (hb : ExecBound cfg s) (hs : tick cfg s = some (s', b)) :
    AgeBound cfg s' := by
  obtain ⟨s9, h9, rfl, _⟩ := tick_eq_some hs
  obtain ⟨s1, s2, s5, s6, s7, h1, h2, h5, h6, h7, rfl⟩ := pipelineStages_eq_some h9
  have hex : s2.m_executionList = s.m_executionList := by
    rw [writebackStage_exec h2, (retireStage_exec h1).1]
  have hlen : s2.m_executionList.length ≤ cfg.width * 5 := by
    have := hb.2 1 (Nat.le_refl 1)
    rw [Nat.cast_one, countRemaining_one _ hb.1] at this
    rw [hex]
    omega
  have h0 : AgeBound cfg s2 := by
    unfold AgeBound
    rw [hex]
    exact h
  have h4 := issueStage_age (executeStage_age h0 (writebackStage_drains h2) hlen)
  unfold AgeBound at h4 ⊢
  show (∀ e ∈ (fetchStage cfg (decodeStage cfg s7)).m_executionList, _) ∧
    ∀ d : Int, countAge d (fetchStage cfg (decodeStage cfg s7)).m_executionList ≤ _
  rw [fetchStage_exec, decodeStage_exec, renameStage_exec h7, registerReadStage_exec h6,
    dispatchStage_exec h5]
  exact h4

theorem ageBound_of_reach {cfg : ProcessorParameters} {trace : List (Option TraceRecord)}
    {s : OutOfOrderProcessor} {b : Bool} (h : Reach cfg trace s b) : AgeBound cfg s := by
  induction h with
  | init => exact ⟨fun e he => by simp [initializeStructures] at he, fun d => Nat.zero_le _⟩
  | step hr ht ih => exact ageBound_tick ih (execBound_of_reach hr) ht

theorem countP_le_three {α : Type} (p q0 q1 q2 : α → Bool) :
    ∀ l : List α, (∀ e ∈ l, p e = true → q0 e = true ∨ q1 e = true ∨ q2 e = true) →
      l.countP p ≤ l.countP q0 + l.countP q1 + l.countP q2 := by
  intro l
  induction l with
  | nil => intro _; simp
  | cons a l ih =>
    intro h
    have ih' := ih (fun e he => h e (List.mem_cons_of_mem _ he))
    have ha := h a (List.mem_cons_self _ _)
    simp only [List.countP_cons]
    by_cases hp : p a = true
    · rcases ha hp with h0 | h0 | h0 <;> simp only [hp, h0, if_true] <;>
        split <;> split <;> omega
    · simp only [hp, Bool.false_eq_true, if_false]
      split <;> split <;> split <;> omega

/-- With `AgeBound`, at most `3 * width` entries of the execution list have one cycle
remaining: they were issued one, two or five ticks ago. -/
theorem completing_le {cfg : ProcessorParameters} {s : OutOfOrderProcessor}
    (h : AgeBound cfg s) :
    s.m_executionList.countP (fun e => decide (e.remainingCycles = 1)) ≤ 3 * cfg.width := by
  have h3 := countP_le_three (fun e : ExecutionEntry => decide (e.remainingCycles = 1))
    (fun e => decide (execAge e = 0)) (fun e => decide (execAge e = 1))
    (fun e => decide (execAge e = 4)) s.m_executionList (by
      intro e _ he
      simp only [decide_eq_true_eq] at he ⊢
      unfold execAge
      rw [he]
      unfold execLatency
      split
      · left; rfl
      · split
        · right; left; rfl
        · right; right; rfl)
  have a0 := h.2 0
  have a1 := h.2 1
  have a4 := h.2 4
  unfold countAge at a0 a1 a4
  omega

/-! ## How many instructions a stage moves in a tick -/

theorem retireLoop_out_le (cfg : ProcessorParameters) (cyc : Int) :
    ∀ (n : Nat) (s s' : OutOfOrderProcessor), retireLoop cfg cyc n s = some s' →
      s.m_output.length ≤ s'.m_output.length ∧ s'.m_output.length ≤ s.m_output.length + n := by
  intro n
  induction n with
  | zero =>
    intro s s' h
    simp only [retireLoop, Option.some.injEq] at h
    subst h
    exact ⟨Nat.le_refl _, Nat.le_refl _⟩
  | succ n ih =>
    intro s s' h
    unfold retireLoop at h
    split at h
    · cases h
    · split at h
      · simp only at h
        split at h
        · cases h
        · have := ih _ _ h
          simp only [List.length_append, List.length_singleton] at this
          omega
      · have := ih _ _ h
        omega

theorem retireStage_out_le {cfg : ProcessorParameters} {s s1 : OutOfOrderProcessor}
    (h : retireStage cfg s = some s1) :
    s.m_output.length ≤ s1.m_output.length ∧
      s1.m_output.length ≤ s.m_output.length + cfg.width := by
  unfold OoO.retireStage at h
  split at h
  · simp only [Option.some.injEq] at h
    subst h
    exact ⟨Nat.le_refl _, Nat.le_add_right _ _⟩
  · have := retireLoop_out_le cfg _ _ _ _ h
    exact this

theorem fetchLoop_count :
    ∀ (n : Nat) (s : OutOfOrderProcessor),
      ∃ k, k ≤ n ∧ (fetchLoop n s).m_decodeBuffer.length = s.m_decodeBuffer.length + k ∧
        (fetchLoop n s).m_instructionCount = s.m_instructionCount + k ∧
        (fetchLoop n s).m_traceFile.length ≤ s.m_traceFile.length := by
  intro n
  induction n with
  | zero => intro s; exact ⟨0, Nat.le_refl _, rfl, rfl, Nat.le_refl _⟩
  | succ n ih =>
    intro s
    unfold fetchLoop
    split
    · exact ⟨0, Nat.zero_le _, rfl, rfl, Nat.le_refl _⟩
    · rename_i rest h
      refine ⟨0, Nat.zero_le _, rfl, rfl, ?_⟩
      show rest.length ≤ _
      rw [h]
      exact Nat.le_succ _
    · rename_i r rest h
      obtain ⟨k, h1, h2, h3, h4⟩ := ih { s with
        m_traceFile := rest
        m_instructionCount := s.m_instructionCount + 1
        m_decodeBuffer :=
          s.m_decodeBuffer ++ [fetchInstruction s.m_cycleCount r s.m_instructionCount] }
      refine ⟨k + 1, by omega, ?_, ?_, ?_⟩
      · rw [h2]
        simp only [List.length_append, List.length_singleton]
        omega
      · rw [h3]
        show s.m_instructionCount + 1 + k = _
        omega
      · refine h4.trans ?_
        show rest.length ≤ _
        rw [h]
        exact Nat.le_succ _

theorem fetchStage_count (cfg : ProcessorParameters) (s : OutOfOrderProcessor) :
    ∃ k, k ≤ cfg.width ∧
      (fetchStage cfg s).m_decodeBuffer.length = s.m_decodeBuffer.length + k ∧
      (fetchStage cfg s).m_instructionCount = s.m_instructionCount + k := by
  unfold fetchStage
  split
  · exact ⟨0, Nat.zero_le _, rfl, rfl⟩
  · obtain ⟨k, h1, h2, h3, _⟩ := fetchLoop_count cfg.width s
    exact ⟨k, h1, h2, h3⟩

theorem decodeLoop_le (cfg : ProcessorParameters) (cyc : Int) :
    ∀ (de rn : List Instruction),
      (decodeLoop cfg cyc de rn).2.length ≤ max rn.length cfg.width := by
  intro de
  induction de with
  | nil => intro rn; simp [decodeLoop]
  | cons x de ih =>
    intro rn
    unfold decodeLoop
    split
    · have := ih (rn ++ [leaveDecode cyc x])
      simp only [List.length_append, List.length_singleton] at this
      omega
    · exact Nat.le_max_left _ _

theorem decodeStage_count (cfg : ProcessorParameters) (s : OutOfOrderProcessor) :
    ∃ k, k ≤ cfg.width ∧
      (decodeStage cfg s).m_decodeBuffer.length + k = s.m_decodeBuffer.length ∧
      (decodeStage cfg s).m_renameBuffer.length = s.m_renameBuffer.length + k := by
  obtain ⟨k, h1, h2, _⟩ := decodeStage_lengths cfg s
  refine ⟨k, ?_, h1, h2⟩
  have hle : (decodeStage cfg s).m_renameBuffer.length ≤ max s.m_renameBuffer.length cfg.width := by
    unfold OoO.decodeStage
    simp only
    split
    · exact Nat.le_max_left _ _
    · exact decodeLoop_le cfg _ _ _
  omega

theorem countP_set_le (p : IssueQueueEntry → Bool) (e' : IssueQueueEntry) :
    ∀ (l : List IssueQueueEntry) (i : Nat), (l.set i e').countP p ≤ l.countP p + 1 := by
  intro l
  induction l with
  | nil => intro i; simp
  | cons a l ih =>
    intro i
    cases i with
    | zero =>
      simp only [List.set_cons_zero, List.countP_cons]
      split <;> split <;> omega
    | succ i =>
      simp only [List.set_cons_succ, List.countP_cons]
      have := ih i
      omega

theorem dispatchLoop_valid_le (cyc : Int) (rob : List ReorderBufferEntry) :
    ∀ (di : List Instruction) (iq iq' : List IssueQueueEntry),
      dispatchLoop cyc rob di iq = some iq' →
      iq'.countP (fun e => e.valid) ≤ iq.countP (fun e => e.valid) + di.length := by
  intro di
  induction di with
  | nil =>
    intro iq iq' h
    simp only [dispatchLoop, Option.some.injEq] at h
    subst h
    exact Nat.le_add_right _ _
  | cons x di ih =>
    intro iq iq' h
    unfold dispatchLoop at h
    split at h
    · have := ih _ _ h
      simp only [List.length_cons]
      omega
    · split at h
      · cases h
      · split at h
        · cases h
        · have h1 := ih _ _ h
          revert h1
          generalize hset : iq.set _ _ = iq2
          intro h1
          have h2 : iq2.countP (fun e => e.valid) ≤ iq.countP (fun e => e.valid) + 1 := by
            rw [← hset]
            exact countP_set_le _ _ _ _
          simp only [List.length_cons]
          omega

theorem dispatchStage_count {cfg : ProcessorParameters} {s s5 : OutOfOrderProcessor}
    (hcap : s.m_dispatchBuffer.length ≤ cfg.width) (h : dispatchStage cfg s = some s5) :
    ∃ k, k ≤ cfg.width ∧ s5.m_dispatchBuffer.length + k = s.m_dispatchBuffer.length ∧
      s5.m_issueQueue.countP (fun e => e.valid) ≤
        s.m_issueQueue.countP (fun e => e.valid) + k := by
  unfold OoO.dispatchStage at h
  simp only at h
  split at h
  · simp only [Option.some.injEq] at h
    subst h
    exact ⟨0, Nat.zero_le _, by simp, Nat.le_refl _⟩
  · split at h
    · cases h
    · rename_i iq hd
      simp only [Option.some.injEq] at h
      subst h
      have := dispatchLoop_valid_le _ _ _ _ _ hd
      rw [List.length_map] at this
      exact ⟨s.m_dispatchBuffer.length, hcap, by simp, this⟩

theorem issueStage_count (cfg : ProcessorParameters) (s : OutOfOrderProcessor) :
    ∃ k, k ≤ cfg.width ∧
      (issueStage cfg s).m_executionList.length = s.m_executionList.length + k ∧
      (issueStage cfg s).m_issueQueue.countP (fun e => e.valid) + k =
        s.m_issueQueue.countP (fun e => e.valid) := by
  unfold issueStage
  split
  · exact ⟨0, Nat.zero_le _, rfl, rfl⟩
  · obtain ⟨sel, h1, h2, _, _, h4, _⟩ := issueLoop_sel (s.m_cycleCount : Int) cfg.width
      (s.m_issueQueue.map (stampIssue (s.m_cycleCount : Int))) s.m_executionList
    refine ⟨sel.length, h4, ?_, ?_⟩
    · show (issueLoop _ _ _ _).2.length = _
      rw [h1, List.length_append, List.length_map]
    · show (issueLoop _ _ _ _).1.countP _ + _ = _
      have hp := h2.length_eq
      rw [List.length_append, ← List.countP_eq_length_filter,
        ← List.countP_eq_length_filter, List.countP_map] at hp
      rw [hp]
      apply List.countP_congr
      intro e _
      simp only [Function.comp, stampIssue]
      split <;> rfl

theorem registerReadStage_count {cfg : ProcessorParameters} {s s6 : OutOfOrderProcessor}
    (hcap : s.m_dispatchBuffer.length ≤ cfg.width) (h : registerReadStage cfg s = some s6) :
    ∃ k, k ≤ cfg.width ∧
      s6.m_registerReadBuffer.length + k = s.m_registerReadBuffer.length ∧
      s6.m_dispatchBuffer.length = s.m_dispatchBuffer.length + k := by
  obtain ⟨k, h1, h2, _, _, h5⟩ := registerReadStage_lengths h
  exact ⟨k, by have := h5 hcap; omega, h1, h2⟩

theorem renameStage_count {cfg : ProcessorParameters} {s s7 : OutOfOrderProcessor}
    (hcap : s.m_registerReadBuffer.length ≤ cfg.width) (h : renameStage cfg s = some s7) :
    ∃ k, k ≤ cfg.width ∧
      s7.m_renameBuffer.length + k = s.m_renameBuffer.length ∧
      s7.m_registerReadBuffer.length = s.m_registerReadBuffer.length + k := by
  obtain ⟨_, h1, h2, _, h4⟩ := renameStage_lengths h
  have := h4 hcap
  exact ⟨s7.m_registerReadBuffer.length - s.m_registerReadBuffer.length, by omega, by omega,
    by omega⟩

/-- `executeStage` of a tick: with `AgeBound` and an empty writeback buffer it moves the
entries with one cycle remaining, at most `3 * width`, to the writeback buffer. -/
theorem executeStage_count {cfg : ProcessorParameters} {s : OutOfOrderProcessor}
    (h : AgeBound cfg s) (hwb : s.m_writebackBuffer = []) :
    ∃ k, k ≤ 3 * cfg.width ∧
      k = s.m_executionList.countP (fun e => decide (e.remainingCycles = 1)) ∧
      (executeStage cfg s).m_writebackBuffer.length = k ∧
      (executeStage cfg s).m_executionList.length + k = s.m_executionList.length := by
  have hc := completing_le h
  obtain ⟨_, done, hp, heq⟩ := executeStage_room cfg s (by rw [hwb]; simp only [List.length_nil]; omega)
  have hcnt : (s.m_executionList.map (stampExecute (s.m_cycleCount : Int))).countP
      (fun e => decide (e.remainingCycles = 0)) =
      s.m_executionList.countP (fun e => decide (e.remainingCycles = 1)) := by
    rw [List.countP_map]
    apply List.countP_congr
    intro e _
    have : (stampExecute (s.m_cycleCount : Int) e).remainingCycles =
        e.remainingCycles - 1 := rfl
    simp only [Function.comp, this, decide_eq_true_eq]
    omega
  have hd : done.length = s.m_executionList.countP (fun e => decide (e.remainingCycles = 1)) := by
    rw [hp.length_eq, ← List.countP_eq_length_filter, hcnt]
  refine ⟨_, hc, rfl, ?_, ?_⟩
  · rw [heq, hwb]
    simp only [List.nil_append, List.length_map]
    exact hd
  · rw [heq]
    show (List.filter _ _).length + _ = _
    have h1 := List.length_eq_countP_add_countP (fun e : ExecutionEntry => decide (e.remainingCycles = 0))
      (s.m_executionList.map (stampExecute (s.m_cycleCount : Int)))
    rw [List.length_map, hcnt] at h1
    rw [← List.countP_eq_length_filter]
    have h2 : List.countP (fun e : ExecutionEntry => decide (e.remainingCycles ≠ 0))
        (s.m_executionList.map (stampExecute (s.m_cycleCount : Int))) =
        List.countP (fun a => decide ¬(decide (a.remainingCycles = 0)) = true)
        (s.m_executionList.map (stampExecute (s.m_cycleCount : Int))) := by
      apply List.countP_congr
      intro e _
      simp
    rw [h2]
    omega

/-- In every state of a run the writeback buffer holds at most `3 * width` instructions. -/
theorem wb_le_of_reach {cfg : ProcessorParameters} {trace : List (Option TraceRecord)}
    {s : OutOfOrderProcessor} {b : Bool} (h : Reach cfg trace s b) :
    s.m_writebackBuffer.length ≤ 3 * cfg.width := by
  cases h with
  | init => exact Nat.zero_le _
  | step hr ht =>
    obtain ⟨s1, s2, h1, h2, e⟩ := tick_writebackBuffer ht
    have ha : AgeBound cfg s2 := by
      have := ageBound_of_reach hr
      unfold AgeBound at this ⊢
      rw [writebackStage_exec h2, (retireStage_exec h1).1]
      exact this
    obtain ⟨k, hk, _, hk2, _⟩ := executeStage_count ha (writebackStage_drains h2)
    rw [e, hk2]
    exact hk

/-- C24, as stated, fails: in the run on `traceBurst` with `rob=8 iq=4 width=1`, Execute of
tick 11 finds the writeback buffer empty and moves three instructions into it (the first,
the fourth and the fifth, issued five, two and one tick earlier), and Writeback of tick 12
raises the number of ready reorder buffer slots from 2 to 5. -/
theorem execute_moves_three_with_width_one :
    cfgS1.width = 1 ∧
    (beforeExecute cfgS1 (stateAfter cfgS1 traceBurst 10)).isSome = true ∧
    stateBurstBeforeExecute.m_writebackBuffer.length = 0 ∧
    (executeStage cfgS1 stateBurstBeforeExecute).m_writebackBuffer.length = 3 ∧
    (retireStage cfgS1 (stateAfter cfgS1 traceBurst 11)).isSome = true ∧
    stateBurstBeforeWriteback.m_writebackBuffer.length = 3 ∧
    countReadySlots stateBurstBeforeWriteback.m_reorderBuffer = 2 ∧
    (writebackStage stateBurstBeforeWriteback).map
      (fun s => countReadySlots s.m_reorderBuffer) = some 5 := by
  decide

/-- C24, amended. In every tick of every execution, each of Fetch, Decode, Rename,
Register-Read, Dispatch, Issue and Retire admits or emits at most `width` instructions;
Execute moves at most `3 * width` instructions into the writeback buffer (the entries with
one cycle remaining, issued one, two or five ticks earlier), and Writeback, which empties
this buffer, marks at most `3 * width` reorder buffer slots ready. The states `s1`, `s2`,
`s5`, `s6`, `s7` are those between the stages of the tick that starts in `s`. -/
theorem stage_throughput_bounds {cfg : ProcessorParameters}
    {trace : List (Option TraceRecord)} {s : OutOfOrderProcessor} {b : Bool}
    (h : Reach cfg trace s b) :
    ∀ s1 s2 s5 s6 s7, retireStage cfg s = some s1 → writebackStage s1 = some s2 →
      dispatchStage cfg (issueStage cfg (executeStage cfg s2)) = some s5 →
      registerReadStage cfg s5 = some s6 → renameStage cfg s6 = some s7 →
      (s.m_output.length ≤ s1.m_output.length ∧
        s1.m_output.length ≤ s.m_output.length + cfg.width) ∧
      (s1.m_writebackBuffer.length ≤ 3 * cfg.width ∧ s2.m_writebackBuffer = [] ∧
        countReadySlots s2.m_reorderBuffer ≤
          countReadySlots s1.m_reorderBuffer + s1.m_writebackBuffer.length) ∧
      (∃ k, k ≤ 3 * cfg.width ∧
        k = s2.m_executionList.countP (fun e => decide (e.remainingCycles = 1)) ∧
        (executeStage cfg s2).m_writebackBuffer.length = k ∧
        (executeStage cfg s2).m_executionList.length + k = s2.m_executionList.length) ∧
      (∃ k, k ≤ cfg.width ∧
        (issueStage cfg (executeStage cfg s2)).m_executionList.length =
          (executeStage cfg s2).m_executionList.length + k ∧
        (issueStage cfg (executeStage cfg s2)).m_issueQueue.countP (fun e => e.valid) + k =
          (executeStage cfg s2).m_issueQueue.countP (fun e => e.valid)) ∧
      (∃ k, k ≤ cfg.width ∧
        s5.m_dispatchBuffer.length + k =
          (issueStage cfg (executeStage cfg s2)).m_dispatchBuffer.length ∧
        s5.m_issueQueue.countP (fun e => e.valid) ≤
          (issueStage cfg (executeStage cfg s2)).m_issueQueue.countP (fun e => e.valid) + k) ∧
      (∃ k, k ≤ cfg.width ∧
        s6.m_registerReadBuffer.length + k = s5.m_registerReadBuffer.length ∧
        s6.m_dispatchBuffer.length = s5.m_dispatchBuffer.length + k) ∧
      (∃ k, k ≤ cfg.width ∧
        s7.m_renameBuffer.length + k = s6.m_renameBuffer.length ∧
        s7.m_registerReadBuffer.length = s6.m_registerReadBuffer.length + k) ∧
      (∃ k, k ≤ cfg.width ∧
        (decodeStage cfg s7).m_decodeBuffer.length + k = s7.m_decodeBuffer.length ∧
        (decodeStage cfg s7).m_renameBuffer.length = s7.m_renameBuffer.length + k) ∧
      (∃ k, k ≤ cfg.width ∧
        (fetchStage cfg (decodeStage cfg s7)).m_decodeBuffer.length =
          (decodeStage cfg s7).m_decodeBuffer.length + k ∧
        (fetchStage cfg (decodeStage cfg s7)).m_instructionCount =
          (decodeStage cfg s7).m_instructionCount + k) := by
  intro s1 s2 s5 s6 s7 h1 h2 h5 h6 h7
  have hl := SeqLayout.of_reach h
  have hb := execBound_of_reach h
  have H1 := housed_retireStage_of hl (housed_reach h) h1
  have l1 := hl.retireStage h1
  obtain ⟨s2', h2', H2, hwb⟩ := housed_writebackStage l1 H1
  rw [h2] at h2'
  cases h2'
  have l2 := l1.writebackStage h2
  have hex : s2.m_executionList = s.m_executionList := by
    rw [writebackStage_exec h2, (retireStage_exec h1).1]
  have hlen : s2.m_executionList.length ≤ cfg.width * 5 := by
    have := hb.2 1 (Nat.le_refl 1)
    rw [Nat.cast_one, countRemaining_one _ hb.1] at this
    rw [hex]
    omega
  have H4 := housed_issueStage (housed_executeStage H2 hwb hlen)
  have l4 : SeqLayout cfg (issueStage cfg (executeStage cfg s2)) := l2.executeStage.issueStage
  obtain ⟨s5', h5', H5⟩ := housed_dispatchStage H4 l4.rob_len
  rw [h5] at h5'
  cases h5'
  have l5 := l4.dispatchStage h5
  obtain ⟨s6', h6', H6⟩ := housed_registerReadStage H5 l5.rob_len
  rw [h6] at h6'
  cases h6'
  have ha : AgeBound cfg s2 := by
    have := ageBound_of_reach h
    unfold AgeBound at this ⊢
    rw [hex]
    exact this
  have hwb1 : s1.m_writebackBuffer.length ≤ 3 * cfg.width := by
    rw [(retireStage_exec h1).2]
    exact wb_le_of_reach h
  obtain ⟨s2', h2', _, _, _, hcnt⟩ := writebackStage_flight l1 (housed_wb H1).1
  rw [h2] at h2'
  cases h2'
  exact ⟨retireStage_out_le h1, ⟨hwb1, hwb, hcnt⟩, executeStage_count ha hwb,
    issueStage_count cfg _, dispatchStage_count H4.di_cap h5,
    registerReadStage_count H5.di_cap h6, renameStage_count H6.rr_cap h7,
    decodeStage_count cfg s7, fetchStage_count cfg _⟩

theorem stage_throughput_bounds_witness :
    ((pipelineStages cfgS1 (stateAfter cfgS1 traceBurst 10)).isSome = true ∧
      stateBurstBeforeExecute.m_executionList.map (fun e => e.remainingCycles) = [1, 1, 1]) ∧
    ∀ s1 s2 s5 s6 s7, retireStage cfgS1 (stateAfter cfgS1 traceBurst 10) = some s1 → writebackStage s1 = some s2 →
      dispatchStage cfgS1 (issueStage cfgS1 (executeStage cfgS1 s2)) = some s5 →
      registerReadStage cfgS1 s5 = some s6 → renameStage cfgS1 s6 = some s7 →
      ((stateAfter cfgS1 traceBurst 10).m_output.length ≤ s1.m_output.length ∧
        s1.m_output.length ≤ (stateAfter cfgS1 traceBurst 10).m_output.length + cfgS1.width) ∧
      (s1.m_writebackBuffer.length ≤ 3 * cfgS1.width ∧ s2.m_writebackBuffer = [] ∧
        countReadySlots s2.m_reorderBuffer ≤
          countReadySlots s1.m_reorderBuffer + s1.m_writebackBuffer.length) ∧
      (∃ k, k ≤ 3 * cfgS1.width ∧
        k = s2.m_executionList.countP (fun e => decide (e.remainingCycles = 1)) ∧
        (executeStage cfgS1 s2).m_writebackBuffer.length = k ∧
        (executeStage cfgS1 s2).m_executionList.length + k = s2.m_executionList.length) ∧
      (∃ k, k ≤ cfgS1.width ∧
        (issueStage cfgS1 (executeStage cfgS1 s2)).m_executionList.length =
          (executeStage cfgS1 s2).m_executionList.length + k ∧
        (issueStage cfgS1 (executeStage cfgS1 s2)).m_issueQueue.countP (fun e => e.valid) + k =
          (executeStage cfgS1 s2).m_issueQueue.countP (fun e => e.valid)) ∧
      (∃ k, k ≤ cfgS1.width ∧
        s5.m_dispatchBuffer.length + k =
          (issueStage cfgS1 (executeStage cfgS1 s2)).m_dispatchBuffer.length ∧
        s5.m_issueQueue.countP (fun e => e.valid) ≤
          (issueStage cfgS1 (executeStage cfgS1 s2)).m_issueQueue.countP (fun e => e.valid) + k) ∧
      (∃ k, k ≤ cfgS1.width ∧
        s6.m_registerReadBuffer.length + k = s5.m_registerReadBuffer.length ∧
        s6.m_dispatchBuffer.length = s5.m_dispatchBuffer.length + k) ∧
      (∃ k, k ≤ cfgS1.width ∧
        s7.m_renameBuffer.length + k = s6.m_renameBuffer.length ∧
        s7.m_registerReadBuffer.length = s6.m_registerReadBuffer.length + k) ∧
      (∃ k, k ≤ cfgS1.width ∧
        (decodeStage cfgS1 s7).m_decodeBuffer.length + k = s7.m_decodeBuffer.length ∧
        (decodeStage cfgS1 s7).m_renameBuffer.length = s7.m_renameBuffer.length + k) ∧
      (∃ k, k ≤ cfgS1.width ∧
        (fetchStage cfgS1 (decodeStage cfgS1 s7)).m_decodeBuffer.length =
          (decodeStage cfgS1 s7).m_decodeBuffer.length + k ∧
        (fetchStage cfgS1 (decodeStage cfgS1 s7)).m_instructionCount =
          (decodeStage cfgS1 s7).m_instructionCount + k) :=
  ⟨by decide, (reach_stateAfter cfgS1 traceBurst 10).elim
    (fun _ h => stage_throughput_bounds h)⟩

/-! ## No permanent stall under adequate capacity -/

/-- On a trace of records with registers in range and adequate capacity, the cycle count
and the potential of a state of a run add up to at most `13 * N`, plus one in the state the
driver stops in; every tick of the run is defined and lowers the potential while it is not
zero. -/
theorem budget_of_reach {cfg : ProcessorParameters} {records : List TraceRecord}
    (hw : 0 < cfg.width) (hrw : cfg.width ≤ cfg.robSize) (hiw : cfg.width ≤ cfg.iqSize)
    (hregs : ∀ r ∈ records, RegsInRange r)
    (hN : ((13 * records.length : Nat) : Int) < INT_MAX)
    {s : OutOfOrderProcessor} {b : Bool} (h : Reach cfg (wellFormedTrace records) s b) :
    s.m_cycleCount + potential s ≤ 13 * records.length + 1 ∧
      (b = true → s.m_cycleCount + potential s ≤ 13 * records.length) := by
  have hr : 0 < cfg.robSize := Nat.lt_of_lt_of_le hw hrw
  have hregs' : ∀ r ∈ (wellFormedTrace records).reduceOption, RegsInRange r := by
    intro r hr'
    rw [List.reduceOption_mem_iff] at hr'
    unfold wellFormedTrace at hr'
    obtain ⟨r0, h0, h1⟩ := List.mem_map.1 hr'
    cases h1
    exact hregs r h0
  induction h with
  | init =>
    have hp := potential_init cfg (wellFormedTrace records)
    have hlen : (wellFormedTrace records).length = records.length := by
      unfold wellFormedTrace
      exact List.length_map _ _
    rw [hlen] at hp
    rw [hp]
    have h0 : (initializeStructures cfg (wellFormedTrace records)).m_cycleCount = 0 := rfl
    rw [h0]
    exact ⟨by omega, fun _ => by omega⟩
  | step hs htk ih =>
    rename_i s s' b
    have hbud := ih.2 rfl
    have hs' := Reach.step hs htk
    have hprog := potential_tick hw hrw hiw hregs' (SeqLayout.of_reach hs)
      (renameMap_of_reach hs) (slotsTagged_of_reach hs) (execBound_of_reach hs)
      (tagged_of_reach hs).1 (timing_of_reach hw hs) (housed_of_reach hr hw hregs' hs)
      (tagsOK_of_reach hr hw hregs hs) (by
        intro x hx
        rw [(faithful_of_reach hs).2.1] at hx
        unfold wellFormedTrace at hx
        obtain ⟨r, _, hr'⟩ := List.mem_map.1 hx
        rw [← hr']
        exact Option.some_ne_none r) (by omega) htk
    have hc := tick_cycleCount htk
    by_cases hpos : 0 < potential s
    · have := hprog.2 hpos
      exact ⟨by omega, fun _ => by omega⟩
    · refine ⟨by omega, fun hb => ?_⟩
      exfalso
      have hz := hasInstructions_of_potential (housed_of_reach hr hw hregs' hs').located
        (execBound_of_reach hs') (by omega)
      obtain ⟨_, _, _, hb'⟩ := tick_eq_some htk
      rw [hz] at hb'
      rw [hb] at hb'
      cases hb'

/-- C25, in the range of the 32-bit fields. Termination under adequate capacity. For every
configuration with `width ≥ 1`, `robSize ≥ width` and `iqSize ≥ width`, with `width * 5`
below `2^32` (the product the code forms in `uint32_t` for its capacity tests), and every
finite trace of well-formed records (register fields in `[-1, 66]`) with `13 * N` below
`INT_MAX` (every cycle stamp then fits its `int` field and is below the `INT_MAX` start
value of the Issue scan), the driver halts after finitely many ticks. No stall is
permanent: in every state of the run no source tag is stale (`TagsOK`: a tag an instruction
waits on names the occupied, not ready slot of an older instruction that has not reached
Writeback, so its wakeup is still to come), and every tick the driver runs is defined and
lowers the potential of the state while an instruction or an unread record is left. -/
theorem no_permanent_stall {cfg : ProcessorParameters} {records : List TraceRecord}
    (hw : 1 ≤ cfg.width) (hrw : cfg.width ≤ cfg.robSize) (hiw : cfg.width ≤ cfg.iqSize)
    (_h32 : cfg.width * 5 < 4294967296)
    (hregs : ∀ r ∈ records, RegsInRange r)
    (hN : ((13 * records.length : Nat) : Int) < INT_MAX) :
    (∃ fuel s, simulate cfg fuel (initializeStructures cfg (wellFormedTrace records)) =
      SimResult.halted s) ∧
    ∀ s b, Reach cfg (wellFormedTrace records) s b →
      TagsOK s ∧
      (b = true → ∃ s' b', tick cfg s = some (s', b') ∧ potential s' ≤ potential s ∧
        (0 < potential s → potential s' < potential s)) := by
  have hr : 0 < cfg.robSize := Nat.lt_of_lt_of_le hw hrw
  have hregs' : ∀ r ∈ (wellFormedTrace records).reduceOption, RegsInRange r := by
    intro r hr'
    rw [List.reduceOption_mem_iff] at hr'
    unfold wellFormedTrace at hr'
    obtain ⟨r0, h0, h1⟩ := List.mem_map.1 hr'
    cases h1
    exact hregs r h0
  refine ⟨?_, fun s b hs => ⟨tagsOK_of_reach hr hw hregs hs, fun hb => ?_⟩⟩
  · have hp := potential_init cfg (wellFormedTrace records)
    have hlen : (wellFormedTrace records).length = records.length := by
      unfold wellFormedTrace
      exact List.length_map _ _
    rw [hlen] at hp
    obtain ⟨fuel, s, _, hsim, _⟩ := halts_from hw hrw hiw hregs hN (13 * records.length)
      (initializeStructures cfg (wellFormedTrace records)) Reach.init (by omega) (by
        rw [hp]
        show 0 + _ ≤ _
        omega)
    exact ⟨fuel, s, hsim⟩
  · subst hb
    obtain ⟨s', b', htk⟩ := tick_defined hr hw hregs' hs
    have hbud := (budget_of_reach hw hrw hiw hregs hN hs).2 rfl
    have hprog := potential_tick hw hrw hiw hregs' (SeqLayout.of_reach hs)
      (renameMap_of_reach hs) (slotsTagged_of_reach hs) (execBound_of_reach hs)
      (tagged_of_reach hs).1 (timing_of_reach hw hs) (housed_of_reach hr hw hregs' hs)
      (tagsOK_of_reach hr hw hregs hs) (by
        intro x hx
        rw [(faithful_of_reach hs).2.1] at hx
        unfold wellFormedTrace at hx
        obtain ⟨r, _, hr'⟩ := List.mem_map.1 hx
        rw [← hr']
        exact Option.some_ne_none r) (by omega) htk
    exact ⟨s', b', htk, hprog.1, hprog.2⟩

theorem no_permanent_stall_witness :
    (1 ≤ cfgS1.width ∧ cfgS1.width ≤ cfgS1.robSize ∧ cfgS1.width ≤ cfgS1.iqSize ∧
      cfgS1.width * 5 < 4294967296) ∧
    ((∃ fuel s, simulate cfgS1 fuel (initializeStructures cfgS1 traceS2) =
      SimResult.halted s) ∧
    ∀ s b, Reach cfgS1 traceS2 s b →
      TagsOK s ∧
      (b = true → ∃ s' b', tick cfgS1 s = some (s', b') ∧ potential s' ≤ potential s ∧
        (0 < potential s → potential s' < potential s))) :=
  ⟨by decide,
    @no_permanent_stall cfgS1
      [{ pc := 0, opType := 0, destReg := 1, src1Reg := -1, src2Reg := -1 },
       { pc := 0, opType := 0, destReg := 2, src1Reg := 1, src2Reg := -1 },
       { pc := 0, opType := 0, destReg := 3, src1Reg := 2, src2Reg := -1 }]
      (by decide) (by decide) (by decide) (by decide)
      (by
        intro r h
        simp only [List.mem_cons, List.mem_singleton, List.not_mem_nil, or_false] at h
        rcases h with rfl | rfl | rfl <;> (unfold RegsInRange; decide))
      (by decide)⟩

/-- C2 on the code: on the outcomes `[record, malformed, record]` with `rob=8 iq=4 width=1`
the stream ends after its first record (`N = 1`), but the driver stops after 13 ticks with
two records printed, numbered 0 and 1 (the second is the record that follows the malformed
one, destination register 2), and the instruction counter at 2. -/
theorem emits_record_past_end_of_stream :
    (report (simulate cfgS1 13 (initializeStructures cfgS1 traceResume))).map
      (fun r => (r.1.map (fun t => (t.seq, t.dst)), r.2.1)) = some ([(0, 1), (1, 2)], 2) := by
  decide

end OoO
